import Mathlib

/-!
Verification development for the vvp bytecode interpreter (`vvp/vthread.cc`).

The thread bit space `thr->bits4` is embedded as a `List vvp_bit4_t` (index 0
first, so a vector is least significant bit first), arrays of
`unsigned long` as `List Nat` whose entries are reduced modulo `2^64`, and an
opcode handler as a function from the bit space and the instruction to
`Option` of the new bit space: `none` stands for a failed `assert` (or an
exhausted iteration bound), and every handler embedded here returns `true`.
-/

namespace Vvp

/-! ## The four-valued vector type (declared in `vvp_net.h`) -/

/-- Modelled from the spec: the four-valued bit `vvp_bit4_t` of `vvp_net.h`,
a value in {0, 1, X, Z}. -/
inductive vvp_bit4_t where
  | BIT4_0
  | BIT4_1
  | BIT4_X
  | BIT4_Z
  deriving DecidableEq, Repr

open vvp_bit4_t

/-- Modelled from the spec: the integer code of a `vvp_bit4_t`, which is what
the handlers see when they store a bit in an integer variable. Bit 0 is the
value bit and bit 1 the XZ mask bit: "(value=1, mask=1) denotes Z; (value=0,
mask=1) denotes X", so bit 1 of the code is set exactly for X and Z. -/
def vvp_bit4_t.code : vvp_bit4_t → Nat
  | BIT4_0 => 0
  | BIT4_1 => 1
  | BIT4_X => 2
  | BIT4_Z => 3

/-- Modelled from the spec: `bit4_is_xz` of `vvp_net.h`. -/
def bit4_is_xz (b : vvp_bit4_t) : Bool :=
  match b with
  | BIT4_X => true
  | BIT4_Z => true
  | _ => false

/-- The size of an `unsigned long` in bits (`CPU_WORD_BITS`, LP64). -/
def CPU_WORD_BITS : Nat := 64

/-- The modulus of `unsigned long` arithmetic. -/
def WORD : Nat := 2 ^ 64

/-- The C operator `~` on an `unsigned long`. -/
def wordNot (x : Nat) : Nat := WORD - 1 - x % WORD

/-- The unsigned value of a vector, bit 0 first; an X or Z bit counts as 0. -/
def vec4Val : List vvp_bit4_t → Nat
  | [] => 0
  | b :: rest => (if b = BIT4_1 then 1 else 0) + 2 * vec4Val rest

/-- The vector of `wid` bits that holds the low `wid` bits of `n`. -/
def vec4OfNat (wid n : Nat) : List vvp_bit4_t :=
  (List.range wid).map (fun i => if n.testBit i then BIT4_1 else BIT4_0)

/-- No bit of the vector is X or Z. -/
def vec4Known (v : List vvp_bit4_t) : Bool :=
  v.all (fun b => !bit4_is_xz b)

/-- The part select `vvp_vector4_t(that, adr, wid)`. -/
def vec4Part (v : List vvp_bit4_t) (adr wid : Nat) : List vvp_bit4_t :=
  (v.drop adr).take wid

/-- The value of a little-endian array of machine words. -/
def wordsVal : List Nat → Nat
  | [] => 0
  | x :: rest => x + WORD * wordsVal rest

/-- The number of machine words that hold `wid` bits. -/
def wordCount (wid : Nat) : Nat := (wid + CPU_WORD_BITS - 1) / CPU_WORD_BITS

/-- Modelled from the spec: `vvp_vector4_t::subarray`, the "materialize to
word array" helper. It returns null (`none`) when a bit of `[adr, adr+wid)` is
X or Z (or lies outside the vector), else the bits packed into
`wordCount wid` machine words, bit `adr` in bit 0 of word 0. -/
def subarray (v : List vvp_bit4_t) (adr wid : Nat) : Option (List Nat) :=
  if adr + wid ≤ v.length ∧ vec4Known (vec4Part v adr wid) = true then
    some ((List.range (wordCount wid)).map
      (fun k => vec4Val (vec4Part v adr wid) / 2 ^ (CPU_WORD_BITS * k) % WORD))
  else none

/-- Modelled from the spec: `vvp_vector4_t::set_vec`, which overwrites the
bits `[adr, adr + that.size())` and asserts that they lie inside the vector. -/
def set_vec (v : List vvp_bit4_t) (adr : Nat) (that : List vvp_bit4_t) :
    Option (List vvp_bit4_t) :=
  if adr + that.length ≤ v.length then
    some (v.take adr ++ that ++ v.drop (adr + that.length))
  else none

/-- Modelled from the spec: `vvp_vector4_t::setarray`, the conversion from a
packed word array: bit `adr + i` becomes bit `i mod 64` of word `i / 64`, for
`i < wid`. -/
def setarray (v : List vvp_bit4_t) (adr wid : Nat) (val : List Nat) :
    Option (List vvp_bit4_t) :=
  set_vec v adr ((List.range wid).map (fun i =>
    if (val.getD (i / CPU_WORD_BITS) 0).testBit (i % CPU_WORD_BITS) then BIT4_1 else BIT4_0))

/-! ## Thread bits and instructions -/

/-- Modelled from the spec: the operand fields of an instruction
(`struct vvp_code_s` of `codes.h`) that the arithmetic and compare handlers
read: `bit_idx[0]`, `bit_idx[1]` and `number`. -/
structure vvp_code_s where
  bit_idx0 : Nat
  bit_idx1 : Nat
  number : Nat
  deriving Repr

/-- The table `thr_index_to_bit4`. -/
def thr_index_to_bit4 (idx : Nat) : vvp_bit4_t :=
  match idx with
  | 0 => BIT4_0
  | 1 => BIT4_1
  | 2 => BIT4_X
  | _ => BIT4_Z

/-- Function `thr_check_addr`: grow the bit space so that `addr` is valid
(`vvp_vector4_t::resize` of `vvp_net.h`, taken to pad with X). -/
def thr_check_addr (bits4 : List vvp_bit4_t) (addr : Nat) : List vvp_bit4_t :=
  if bits4.length ≤ addr then bits4 ++ List.replicate (addr + 1 - bits4.length) BIT4_X
  else bits4

/-- Function `thr_get_bit`: `none` is the failed `assert(addr < thr->bits4.size())`. -/
def thr_get_bit (bits4 : List vvp_bit4_t) (addr : Nat) : Option vvp_bit4_t :=
  bits4[addr]?

/-- Function `thr_put_bit`. -/
def thr_put_bit (bits4 : List vvp_bit4_t) (addr : Nat) (val : vvp_bit4_t) :
    List vvp_bit4_t :=
  (thr_check_addr bits4 addr).set addr val

/-- The bits 0..3 of a thread hold the constants 0, 1, X, Z, as `vthread_new`
leaves them. -/
def thr_consts_ok (bits4 : List vvp_bit4_t) : Prop :=
  bits4.take 4 = [BIT4_0, BIT4_1, BIT4_X, BIT4_Z]

instance (bits4 : List vvp_bit4_t) : Decidable (thr_consts_ok bits4) := by
  unfold thr_consts_ok; infer_instance

/-- A counted loop `for (idx = lo; idx < lo + n; idx += 1) s = body(idx, s)`. -/
def forLoop {σ : Type} (body : Nat → σ → σ) : Nat → Nat → σ → σ
  | 0, _, s => s
  | n + 1, lo, s => forLoop body n (lo + 1) (body lo s)

/-- Function `vector_to_array`: the operand as an array of words, null (`none`) when it
holds an X or Z bit. The addresses 0 and 1 are the constants 0 and 1. -/
def vector_to_array (bits4 : List vvp_bit4_t) (addr wid : Nat) : Option (List Nat) :=
  if addr = 0 then
    some (List.replicate (wordCount wid) 0)
  else if addr = 1 then
    let awid := wordCount wid
    let val := List.replicate awid (WORD - 1)
    let wid1 := wid - (awid - 1) * CPU_WORD_BITS
    if wid1 < CPU_WORD_BITS then
      some (val.set (awid - 1)
        (val.getD (awid - 1) 0 &&& ((WORD - 1) >>> (CPU_WORD_BITS - wid1))))
    else some val
  else if addr < 4 then none
  else subarray bits4 addr wid

/-- Function `vthread_bits_to_vector`: the operand at address `bit` as a vector. -/
def vthread_bits_to_vector (bits4 : List vvp_bit4_t) (bit wid : Nat) : List vvp_bit4_t :=
  if bit ≥ 4 then vec4Part bits4 bit wid
  else List.replicate wid (thr_index_to_bit4 bit)

/-- Function `add_with_carry`: the sum and the new carry. -/
def add_with_carry (a b carry : Nat) : Nat × Nat :=
  let tmp := (b + carry) % WORD
  let sum := (a + tmp) % WORD
  let c0 := 0
  let c1 := if tmp < b then 1 else c0
  let c2 := if sum < tmp then 1 else c1
  let c3 := if sum < a then 1 else c2
  (sum, c3)

/-- The loop of `of_ADD` and `of_SUB`, on the state (`lva`, `carry`);
`f` is applied to the word of `lvb` (the identity, or `~`). -/
def addArrays (f : Nat → Nat) (lvb : List Nat) (idx : Nat) (st : List Nat × Nat) :
    List Nat × Nat :=
  let r := add_with_carry (st.1.getD idx 0) (f (lvb.getD idx 0)) st.2
  (st.1.set idx r.1, r.2)

/-- Handler `of_ADD` (`%add`). The loop runs while `idx*CPU_WORD_BITS < cp->number`,
that is `wordCount cp->number` times. -/
def of_ADD (bits4 : List vvp_bit4_t) (cp : vvp_code_s) : Option (List vvp_bit4_t) :=
  if cp.bit_idx0 < 4 then none
  else
    match vector_to_array bits4 cp.bit_idx0 cp.number,
          vector_to_array bits4 cp.bit_idx1 cp.number with
    | some lva, some lvb =>
      let st := forLoop (addArrays id lvb) (wordCount cp.number) 0 (lva, 0)
      setarray bits4 cp.bit_idx0 cp.number st.1
    | _, _ => set_vec bits4 cp.bit_idx0 (List.replicate cp.number BIT4_X)

/-- Handler `of_SUB` (`%sub`). -/
def of_SUB (bits4 : List vvp_bit4_t) (cp : vvp_code_s) : Option (List vvp_bit4_t) :=
  if cp.bit_idx0 < 4 then none
  else
    match vector_to_array bits4 cp.bit_idx0 cp.number,
          vector_to_array bits4 cp.bit_idx1 cp.number with
    | some lva, some lvb =>
      let st := forLoop (addArrays wordNot lvb) (wordCount cp.number) 0 (lva, 1)
      setarray bits4 cp.bit_idx0 cp.number st.1
    | _, _ => set_vec bits4 cp.bit_idx0 (List.replicate cp.number BIT4_X)

/-! ## Multiplication and division helpers -/

/-- Function `multiply_with_carry`: the low word of `a * b` and, as the new carry, the
high word. -/
def multiply_with_carry (a b : Nat) : Nat × Nat :=
  let half := CPU_WORD_BITS / 2
  let mask := (1 <<< half) % WORD - 1
  let a0 := a &&& mask
  let a1 := (a >>> half) &&& mask
  let b0 := b &&& mask
  let b1 := (b >>> half) &&& mask
  let tmp := (a0 * b0) % WORD
  let r00 := tmp &&& mask
  let c00 := (tmp >>> half) &&& mask
  let tmp := (a0 * b1) % WORD
  let r01 := tmp &&& mask
  let c01 := (tmp >>> half) &&& mask
  let tmp := (a1 * b0) % WORD
  let r10 := tmp &&& mask
  let c10 := (tmp >>> half) &&& mask
  let tmp := (a1 * b1) % WORD
  let r11 := tmp &&& mask
  let c11 := (tmp >>> half) &&& mask
  let r1 := (c00 + r01 + r10) % WORD
  let r2 := (r1 >>> half) &&& mask
  let r1 := r1 &&& mask
  let r2 := (r2 + (c01 + c10 + r11)) % WORD
  let r3 := (r2 >>> half) &&& mask
  let r2 := r2 &&& mask
  let r3 := (r3 + c11) % WORD
  let r3 := r3 &&& mask
  let carry := ((r3 <<< half) % WORD + r2) % WORD
  (((r1 <<< half) % WORD + r00) % WORD, carry)

/-- The carry loop shared by `multiply_array_imm` and `of_MUL`, on the state
(`res`, `sum`, `carry`):
`res[add_idx] = add_with_carry(res[add_idx], sum, carry); sum = 0;`. -/
def addSumStep (add_idx : Nat) (st : List Nat × Nat × Nat) : List Nat × Nat × Nat :=
  let r := add_with_carry (st.1.getD add_idx 0) st.2.1 st.2.2
  (st.1.set add_idx r.1, 0, r.2)

/-- One product `tmp = multiply_with_carry(x, y, sum)` added into `res` at
word `base`, the carries running up to word `words - 1`. -/
def addProduct (words base x y : Nat) (res : List Nat) : List Nat :=
  let p := multiply_with_carry x y
  let r := add_with_carry (res.getD base 0) p.1 0
  (forLoop addSumStep (words - (base + 1)) (base + 1) (res.set base r.1, p.2, r.2)).1

/-- Function `multiply_array_imm`: the `words` words that it leaves in `res`. -/
def multiply_array_imm (val : List Nat) (words imm : Nat) : List Nat :=
  forLoop (fun mul_idx res => addProduct words mul_idx (val.getD mul_idx 0) imm res)
    words 0 (List.replicate words 0)

/-- The loop of `divide2words` on (`a`, `high`, `result`); the first argument
bounds the number of iterations. -/
def divide2words_loop (b : Nat) : Nat → Nat → Nat → Nat → Option Nat
  | 0, _, _, _ => none
  | fuel + 1, a, high, result =>
    if high > 0 then
      let tmp_result := (WORD - 1) / b
      let remain := (WORD - 1) % b
      let remain := (remain + 1) % WORD
      let tmp_result := if remain ≥ b then (tmp_result + 1) % WORD else tmp_result
      let remain := if remain ≥ b then remain - b else remain
      let result := (result + tmp_result * high) % WORD
      let p := multiply_with_carry high remain
      let remain := p.1
      let high := p.2
      let a := (a + remain) % WORD
      let high := if a < remain then (high + 1) % WORD else high
      divide2words_loop b fuel a high result
    else some ((result + a / b) % WORD)

/-- Function `divide2words`: the two-word number {high, a} divided by `b`. A zero
divisor is a machine trap (`none`). The iteration bound is not reached: the
number {high, a} decreases in every iteration. -/
def divide2words (a b high : Nat) : Option Nat :=
  if b = 0 then none else divide2words_loop b (WORD * WORD + 1) a high 0

/-- The loop `while (btop > 0 && bp[btop] == 0) btop -= 1` of `divide_bits`. -/
def divide_bits_btop (bp : List Nat) : Nat → Nat
  | 0 => 0
  | n + 1 => if bp.getD (n + 1) 0 = 0 then divide_bits_btop bp n else n + 1

/-- The loop `ap[idx] = add_with_carry(ap[idx], f(x[idx-cur_ptr]), carry)` of
`divide_bits`, for `idx` from `cur_ptr` up to `words - 1`, on (`ap`, `carry`). -/
def addShifted (f : Nat → Nat) (x : List Nat) (cur_ptr : Nat) (idx : Nat)
    (st : List Nat × Nat) : List Nat × Nat :=
  let r := add_with_carry (st.1.getD idx 0) (f (x.getD (idx - cur_ptr) 0)) st.2
  (st.1.set idx r.1, r.2)

/-- The correction loop `do \x7b cur_res -= 1; ... \x7d while (carry == 0)` of
`divide_bits`, on (`ap`, `cur_res`). -/
def divide_bits_restore (bp : List Nat) (words cur_ptr : Nat) :
    Nat → List Nat × Nat → Option (List Nat × Nat)
  | 0, _ => none
  | fuel + 1, (ap, cur_res) =>
    let cur_res := (cur_res + (WORD - 1)) % WORD
    let st := forLoop (addShifted id bp cur_ptr) (words - cur_ptr) cur_ptr (ap, 0)
    if st.2 = 0 then divide_bits_restore bp words cur_ptr fuel (st.1, cur_res)
    else some (st.1, cur_res)

/-- The estimate of one quotient word in `divide_bits`: `none` when the
iteration is skipped by `continue`. -/
def divide_bits_estimate (ap bp : List Nat) (words btop cur_ptr : Nat) :
    Option (Option Nat) :=
  if ap.getD (cur_ptr + btop) 0 ≥ bp.getD btop 0 then
    let high := if cur_ptr + btop + 1 < words then ap.getD (cur_ptr + btop + 1) 0 else 0
    (divide2words (ap.getD (cur_ptr + btop) 0) (bp.getD btop 0) high).map some
  else if cur_ptr + btop + 1 ≥ words then some none
  else if ap.getD (cur_ptr + btop + 1) 0 = 0 then some none
  else
    (divide2words (ap.getD (cur_ptr + btop) 0) (bp.getD btop 0)
      (ap.getD (cur_ptr + btop + 1) 0)).map some

/-- The main loop of `divide_bits`, `for (cur = words-btop; cur > 0; cur -= 1)`,
on (`ap`, `result`). -/
def divide_bits_loop (bp : List Nat) (words btop : Nat) :
    Nat → List Nat × List Nat → Option (List Nat × List Nat)
  | 0, st => some st
  | cur_ptr + 1, (ap, result) =>
    match divide_bits_estimate ap bp words btop cur_ptr with
    | none => none
    | some none => divide_bits_loop bp words btop cur_ptr (ap, result)
    | some (some cur_res) =>
      let diff := multiply_array_imm bp (words - cur_ptr) cur_res
      let st := forLoop (addShifted wordNot diff cur_ptr) (words - cur_ptr) cur_ptr (ap, 1)
      if st.2 &&& 1 = 0 then
        match divide_bits_restore bp words cur_ptr (WORD ^ words + 1) (st.1, cur_res) with
        | none => none
        | some (ap1, cur_res1) =>
          divide_bits_loop bp words btop cur_ptr (ap1, result.set cur_ptr cur_res1)
      else divide_bits_loop bp words btop cur_ptr (st.1, result.set cur_ptr cur_res)

/-- The outcome of `divide_bits`: a null pointer for a zero divisor, or the
remainder left in `ap` and the quotient `result`. -/
inductive divide_bits_result where
  | null
  | value (ap result : List Nat)
  deriving DecidableEq, Repr

/-- Function `divide_bits`. -/
def divide_bits (ap bp : List Nat) (wid : Nat) : Option divide_bits_result :=
  let words := wordCount wid
  let btop := divide_bits_btop bp (words - 1)
  if btop = 0 ∧ bp.getD 0 0 = 0 then some divide_bits_result.null
  else
    (divide_bits_loop bp words btop (words - btop) (ap, List.replicate words 0)).map
      (fun st => divide_bits_result.value st.1 st.2)

/-- The all-X result `thr->bits4.set_vec(adra, vvp_vector4_t(wid, BIT4_X))`. -/
def set_x_out (bits4 : List vvp_bit4_t) (adra wid : Nat) : Option (List vvp_bit4_t) :=
  set_vec bits4 adra (List.replicate wid BIT4_X)

/-- Handler `of_DIV` (`%div`). -/
def of_DIV (bits4 : List vvp_bit4_t) (cp : vvp_code_s) : Option (List vvp_bit4_t) :=
  let adra := cp.bit_idx0
  let adrb := cp.bit_idx1
  let wid := cp.number
  if adra < 4 then none
  else
    match vector_to_array bits4 adra wid with
    | none => set_x_out bits4 adra wid
    | some ap =>
      match vector_to_array bits4 adrb wid with
      | none => set_x_out bits4 adra wid
      | some bp =>
        if wid ≤ CPU_WORD_BITS then
          if bp.getD 0 0 = 0 then set_x_out bits4 adra wid
          else setarray bits4 adra wid (ap.set 0 (ap.getD 0 0 / bp.getD 0 0))
        else
          match divide_bits ap bp wid with
          | none => none
          | some divide_bits_result.null => set_x_out bits4 adra wid
          | some (divide_bits_result.value _ result) => setarray bits4 adra wid result

/-- Handler `of_MUL` (`%mul`). -/
def of_MUL (bits4 : List vvp_bit4_t) (cp : vvp_code_s) : Option (List vvp_bit4_t) :=
  let adra := cp.bit_idx0
  let adrb := cp.bit_idx1
  let wid := cp.number
  if adra < 4 then none
  else
    match vector_to_array bits4 adra wid with
    | none => set_x_out bits4 adra wid
    | some ap =>
      match vector_to_array bits4 adrb wid with
      | none => set_x_out bits4 adra wid
      | some bp =>
        if wid ≤ CPU_WORD_BITS then
          setarray bits4 adra wid (ap.set 0 ((ap.getD 0 0 * bp.getD 0 0) % WORD))
        else
          let words := wordCount wid
          let res := forLoop (fun mul_a res =>
              forLoop (fun mul_b res =>
                  addProduct words (mul_a + mul_b) (ap.getD mul_a 0) (bp.getD mul_b 0) res)
                (words - mul_a) 0 res)
            words 0 (List.replicate words 0)
          setarray bits4 adra wid res

/-! ## Signed division -/

/-- The cast `(long) x` of an `unsigned long`. -/
def toSigned (x : Nat) : Int :=
  if x % WORD < WORD / 2 then ((x % WORD : Nat) : Int) else ((x % WORD : Nat) : Int) - (WORD : Int)

/-- The cast `(unsigned long) i` of a `long`. -/
def ofSigned (i : Int) : Nat := (i % (WORD : Int)).toNat

/-- Function `negate_words`. -/
def negate_words (val : List Nat) (words : Nat) : List Nat :=
  (forLoop (fun idx (st : List Nat × Nat) =>
      let r := add_with_carry 0 (wordNot (st.1.getD idx 0)) st.2
      (st.1.set idx r.1, r.2)) words 0 (val, 1)).1

/-- The sign extension of the top word in `of_DIV_S`:
`if (x & (sign_mask>>1)) x |= sign_mask`. -/
def sign_extend_top (sign_mask : Nat) (v : List Nat) (words : Nat) : List Nat :=
  if (v.getD (words - 1) 0) &&& (sign_mask >>> 1) ≠ 0 then
    v.set (words - 1) (v.getD (words - 1) 0 ||| sign_mask)
  else v

/-- Handler `of_DIV_S` (`%div/s`). The native quotient `LONG_MIN / -1` is a machine
trap (`none`). -/
def of_DIV_S (bits4 : List vvp_bit4_t) (cp : vvp_code_s) : Option (List vvp_bit4_t) :=
  let adra := cp.bit_idx0
  let adrb := cp.bit_idx1
  let wid := cp.number
  let words := wordCount wid
  if adra < 4 then none
  else
    match vector_to_array bits4 adra wid with
    | none => set_x_out bits4 adra wid
    | some ap =>
      match vector_to_array bits4 adrb wid with
      | none => set_x_out bits4 adra wid
      | some bp =>
        let sign_bits := words * CPU_WORD_BITS - wid
        let sign_mask :=
          if sign_bits ≠ 0 then ((WORD - 1) <<< (CPU_WORD_BITS - sign_bits)) % WORD else 0
        let ap := if sign_bits ≠ 0 then sign_extend_top sign_mask ap words else ap
        let bp := if sign_bits ≠ 0 then sign_extend_top sign_mask bp words else bp
        if wid ≤ CPU_WORD_BITS then
          if bp.getD 0 0 = 0 then set_x_out bits4 adra wid
          else
            let tmpa := toSigned (ap.getD 0 0)
            let tmpb := toSigned (bp.getD 0 0)
            if tmpa = -(WORD / 2 : Nat) ∧ tmpb = -1 then none
            else
              let res := Int.tdiv tmpa tmpb
              setarray bits4 adra wid (ap.set 0 (ofSigned res &&& wordNot sign_mask))
        else
          let a_neg : Bool := toSigned (ap.getD (words - 1) 0) < 0
          let ap := if a_neg then negate_words ap words else ap
          let b_neg : Bool := toSigned (bp.getD (words - 1) 0) < 0
          let negate_flag := xor a_neg b_neg
          let bp := if b_neg then negate_words bp words else bp
          match divide_bits ap bp wid with
          | none => none
          | some divide_bits_result.null => set_x_out bits4 adra wid
          | some (divide_bits_result.value _ result) =>
            let result := if negate_flag then negate_words result words else result
            let result := result.set (words - 1)
              (result.getD (words - 1) 0 &&& wordNot sign_mask)
            setarray bits4 adra wid result

/-! ## Modulus -/

/-- The loop `for (idx = 0; idx < cp->number; idx += 1) thr_put_bit(thr,
cp->bit_idx[0]+idx, BIT4_X)` at the label `x_out` of the modulus handlers. -/
def put_x_out (bits4 : List vvp_bit4_t) (cp : vvp_code_s) : List vvp_bit4_t :=
  forLoop (fun idx b => thr_put_bit b (cp.bit_idx0 + idx) BIT4_X) cp.number 0 bits4

/-- The two's complement step on one bit used by `do_verylong_mod`:
`b = (1-b) + carry; carry = (b & ~1)? 1 : 0; b &= 1;`, as (bit, carry). -/
def negate_bit (b carry : Nat) : Nat × Nat :=
  let b1 := (1 - b) + carry
  (b1 &&& 1, if b1 &&& (2 ^ 32 - 2) ≠ 0 then 1 else 0)

/-- The operand loop of `do_verylong_mod`, on (`z`, `a`, `lb_carry`,
`rb_carry`): the outer `none` is a failed `assert`, the inner `none` the jump
to `x_out`. The arguments are the number of iterations left, `idx`, `idx1`
and `idx2`. -/
def do_verylong_mod_read (bits4 : List vvp_bit4_t) (left_is_neg right_is_neg : Bool) :
    Nat → Nat → Nat → Nat → List Nat × List Nat × Nat × Nat →
    Option (Option (List Nat × List Nat))
  | 0, _, _, _, st => some (some (st.1, st.2.1))
  | n + 1, idx, idx1, idx2, (z, a, lb_carry, rb_carry) =>
    match thr_get_bit bits4 idx1, thr_get_bit bits4 idx2 with
    | some lv, some rv =>
      if (lv.code ||| rv.code) &&& 2 ≠ 0 then some none
      else
        let l := if left_is_neg then negate_bit lv.code lb_carry else (lv.code, lb_carry)
        let r := if right_is_neg then negate_bit rv.code rb_carry else (rv.code, rb_carry)
        do_verylong_mod_read bits4 left_is_neg right_is_neg n (idx + 1) (idx1 + 1)
          (if idx2 ≥ 4 then idx2 + 1 else idx2)
          (z.set idx l.1, a.set idx (1 - r.1), l.2, r.2)
    | _, _ => none

/-- The search `for(i=len-1;i>=0;i--) if (p(x[i])) \x7b m=i; break; \x7d` with
`m` initially -1; the argument counts `i + 1`. -/
def find_top (p : Nat → Bool) (x : List Nat) : Nat → Int
  | 0 => -1
  | i + 1 => if p (x.getD i 0) then (i : Int) else find_top p x i

/-- The trial subtraction of `do_verylong_mod`, on (`t`, `carry`):
`temp = z[i+current] + a[i] + carry; t[i] = (temp&1); carry = (temp>>1);`. -/
def mod_sub_step (z a : List Nat) (current : Nat) (i : Nat) (st : List Nat × Nat) :
    List Nat × Nat :=
  let temp := (z.getD (i + current) 0 + a.getD i 0 + st.2) % 256
  (st.1.set i (temp &&& 1), temp >>> 1)

/-- The loop `while (current > -1)` of `do_verylong_mod`, on (`z`, `t`); the
argument counts `current + 1`. -/
def do_verylong_mod_loop (a : List Nat) (copylen : Nat) :
    Nat → List Nat × List Nat → List Nat × List Nat
  | 0, st => st
  | current + 1, (z, t) =>
    let r := forLoop (mod_sub_step z a current) copylen 0 (t, 1)
    let z := if r.2 ≠ 0 then
        forLoop (fun i z => z.set (i + current) (r.1.getD i 0)) copylen 0 z
      else z
    do_verylong_mod_loop a copylen current (z, r.1)

/-- The loop at the label `tally` of `do_verylong_mod`, on (the bits,
`carry`). -/
def do_verylong_mod_tally (z : List Nat) (out_is_neg : Bool) (bit_idx0 : Nat) (idx : Nat)
    (st : List vvp_bit4_t × Nat) : List vvp_bit4_t × Nat :=
  let ob := if out_is_neg then negate_bit (z.getD idx 0) st.2 else (z.getD idx 0, st.2)
  (thr_put_bit st.1 (bit_idx0 + idx) (if ob.1 ≠ 0 then BIT4_1 else BIT4_0), ob.2)

/-- Function `do_verylong_mod`. -/
def do_verylong_mod (bits4 : List vvp_bit4_t) (cp : vvp_code_s)
    (left_is_neg right_is_neg : Bool) : Option (List vvp_bit4_t) :=
  let out_is_neg := left_is_neg
  let len := cp.number
  let z0 := List.replicate (len + 1) 0
  let lb_carry := if left_is_neg then 1 else 0
  let rb_carry := if right_is_neg then 1 else 0
  match do_verylong_mod_read bits4 left_is_neg right_is_neg cp.number 0
      cp.bit_idx0 cp.bit_idx1 (z0, z0, lb_carry, rb_carry) with
  | none => none
  | some none => some (put_x_out bits4 cp)
  | some (some (z, a)) =>
    let z := z.set len 0
    let a := a.set len 1
    let mxa := find_top (fun x => x = 0) a len
    let mxz := find_top (fun x => x ≠ 0) z len
    if mxa > mxz ∨ mxa = -1 then
      if mxa = -1 then some (put_x_out bits4 cp)
      else some (forLoop (do_verylong_mod_tally z out_is_neg cp.bit_idx0) cp.number 0
        (bits4, if out_is_neg then 1 else 0)).1
    else
      let copylen := mxa + 2
      let current := mxz - mxa
      let zt := do_verylong_mod_loop a copylen.toNat (current + 1).toNat (z, z0)
      some (forLoop (do_verylong_mod_tally zt.1 out_is_neg cp.bit_idx0) cp.number 0
        (bits4, if out_is_neg then 1 else 0)).1

/-- The operand loop of `of_MOD` and `of_MOD_S`, on (`lv`, `rv`) as 64-bit
patterns: the outer `none` is a failed `assert`, the inner `none` the jump to
`x_out`. The arguments are the number of iterations left, `idx`, `idx1` and
`idx2`. -/
def of_MOD_read (bits4 : List vvp_bit4_t) :
    Nat → Nat → Nat → Nat → Nat × Nat → Option (Option (Nat × Nat))
  | 0, _, _, _, st => some (some st)
  | n + 1, idx, idx1, idx2, (lv, rv) =>
    match thr_get_bit bits4 idx1, thr_get_bit bits4 idx2 with
    | some lb, some rb =>
      if (lb.code ||| rb.code) &&& 2 ≠ 0 then some none
      else
        of_MOD_read bits4 n (idx + 1) (idx1 + 1) (if idx2 ≥ 4 then idx2 + 1 else idx2)
          (lv ||| (lb.code <<< idx) % WORD, rv ||| (rb.code <<< idx) % WORD)
    | _, _ => none

/-- The result loop of `of_MOD`, on (the bits, `lv`):
`thr_put_bit(thr, cp->bit_idx[0]+idx, (lv&1)?BIT4_1:BIT4_0); lv >>= 1;`. -/
def of_MOD_write (bit_idx0 : Nat) (idx : Nat) (st : List vvp_bit4_t × Nat) :
    List vvp_bit4_t × Nat :=
  (thr_put_bit st.1 (bit_idx0 + idx) (if st.2 &&& 1 ≠ 0 then BIT4_1 else BIT4_0),
   st.2 >>> 1)

/-- Handler `of_MOD` (`%mod`). -/
def of_MOD (bits4 : List vvp_bit4_t) (cp : vvp_code_s) : Option (List vvp_bit4_t) :=
  if cp.bit_idx0 < 4 then none
  else if cp.number ≤ 64 then
    match of_MOD_read bits4 cp.number 0 cp.bit_idx0 cp.bit_idx1 (0, 0) with
    | none => none
    | some none => some (put_x_out bits4 cp)
    | some (some (lv, rv)) =>
      if rv = 0 then some (put_x_out bits4 cp)
      else some (forLoop (of_MOD_write cp.bit_idx0) cp.number 0 (bits4, lv % rv)).1
  else do_verylong_mod bits4 cp false false

/-- The result loop of `of_MOD_S`, where `lv` is a `long long` and `>>=` the
arithmetic shift. -/
def of_MOD_S_write (bit_idx0 : Nat) (idx : Nat) (st : List vvp_bit4_t × Nat) :
    List vvp_bit4_t × Nat :=
  (thr_put_bit st.1 (bit_idx0 + idx) (if st.2 &&& 1 ≠ 0 then BIT4_1 else BIT4_0),
   st.2 >>> 1 ||| (st.2 &&& (WORD / 2)))

/-- The sign extension `if (v & (1LL << (number-1))) v |= -1LL << number` of
`of_MOD_S`. -/
def mod_sign_extend (v number : Nat) : Nat :=
  if v &&& ((1 <<< (number - 1)) % WORD) ≠ 0 then v ||| ((WORD - 1) <<< number) % WORD
  else v

/-- Handler `of_MOD_S` (`%mod/s`). The native remainder `LLONG_MIN % -1` is a
machine trap (`none`). -/
def of_MOD_S (bits4 : List vvp_bit4_t) (cp : vvp_code_s) : Option (List vvp_bit4_t) :=
  if cp.bit_idx0 < 4 then none
  else if cp.number ≤ 64 then
    match of_MOD_read bits4 cp.number 0 cp.bit_idx0 cp.bit_idx1 (0, 0) with
    | none => none
    | some none => some (put_x_out bits4 cp)
    | some (some (lv, rv)) =>
      if rv = 0 then some (put_x_out bits4 cp)
      else
        let lv := if cp.number < 64 then mod_sign_extend lv cp.number else lv
        let rv := if cp.number < 64 then mod_sign_extend rv cp.number else rv
        if toSigned lv = -(WORD / 2 : Nat) ∧ toSigned rv = -1 then none
        else
          let lv := ofSigned (Int.tmod (toSigned lv) (toSigned rv))
          some (forLoop (of_MOD_S_write cp.bit_idx0) cp.number 0 (bits4, lv)).1
  else
    match thr_get_bit bits4 (cp.bit_idx0 + cp.number - 1),
          thr_get_bit bits4 (cp.bit_idx1 + cp.number - 1) with
    | some lsign, some rsign =>
      do_verylong_mod bits4 cp (decide (lsign.code = 1)) (decide (rsign.code = 1))
    | _, _ => none

/-! ## Unsigned compare -/

/-- The loop of `of_CMPU_the_hard_way`, on (`eq`, `eeq`); the arguments are
the number of iterations left, `idx1` and `idx2`. -/
def of_CMPU_the_hard_way_loop (bits4 : List vvp_bit4_t) :
    Nat → Nat → Nat → vvp_bit4_t × vvp_bit4_t → Option (vvp_bit4_t × vvp_bit4_t)
  | 0, _, _, st => some st
  | n + 1, idx1, idx2, (eq, eeq) =>
    match thr_get_bit bits4 idx1, thr_get_bit bits4 idx2 with
    | some lv, some rv =>
      let eeq := if lv ≠ rv then BIT4_0 else eeq
      let eq := if eq = BIT4_1 ∧ (bit4_is_xz lv ∨ bit4_is_xz rv) then BIT4_X else eq
      let eq := if lv = BIT4_0 ∧ rv = BIT4_1 then BIT4_0 else eq
      let eq := if lv = BIT4_1 ∧ rv = BIT4_0 then BIT4_0 else eq
      if eq = BIT4_0 then some (eq, eeq)
      else
        of_CMPU_the_hard_way_loop bits4 n (if idx1 ≥ 4 then idx1 + 1 else idx1)
          (if idx2 ≥ 4 then idx2 + 1 else idx2) (eq, eeq)
    | _, _ => none

/-- Handler `of_CMPU_the_hard_way`. -/
def of_CMPU_the_hard_way (bits4 : List vvp_bit4_t) (cp : vvp_code_s) :
    Option (List vvp_bit4_t) :=
  match of_CMPU_the_hard_way_loop bits4 cp.number cp.bit_idx0 cp.bit_idx1
      (BIT4_1, BIT4_1) with
  | none => none
  | some (eq, eeq) =>
    some (thr_put_bit (thr_put_bit (thr_put_bit bits4 4 eq) 5 BIT4_X) 6 eeq)

/-- The word loop of `of_CMPU`, on (`eq`, `lt`). -/
def of_CMPU_step (larray rarray : List Nat) (wdx : Nat) (st : vvp_bit4_t × vvp_bit4_t) :
    vvp_bit4_t × vvp_bit4_t :=
  if larray.getD wdx 0 = rarray.getD wdx 0 then st
  else (BIT4_0, if larray.getD wdx 0 < rarray.getD wdx 0 then BIT4_1 else BIT4_0)

/-- Handler `of_CMPU` (`%cmp/u`). -/
def of_CMPU (bits4 : List vvp_bit4_t) (cp : vvp_code_s) : Option (List vvp_bit4_t) :=
  let idx1 := cp.bit_idx0
  let idx2 := cp.bit_idx1
  let wid := cp.number
  match vector_to_array bits4 idx1 wid with
  | none => of_CMPU_the_hard_way bits4 cp
  | some larray =>
    match vector_to_array bits4 idx2 wid with
    | none => of_CMPU_the_hard_way bits4 cp
    | some rarray =>
      let st := forLoop (of_CMPU_step larray rarray) (wordCount wid) 0 (BIT4_1, BIT4_0)
      some (thr_put_bit (thr_put_bit (thr_put_bit bits4 4 st.1) 5 st.2) 6 st.1)

/-! ## Auxiliary definitions for the proofs -/

/-- Every entry of a word array is a machine word. -/
def wordsOk (l : List Nat) : Prop := ∀ x ∈ l, x < WORD

/-- The `n` low machine words of `v`. -/
def wordsOfNat (n v : Nat) : List Nat :=
  (List.range n).map (fun k => v / 2 ^ (CPU_WORD_BITS * k) % WORD)

/-- The operand lies inside the bit space, or is one of the constants. -/
def operand_ok (bits4 : List vvp_bit4_t) (addr wid : Nat) : Prop :=
  addr < 4 ∨ addr + wid ≤ bits4.length

instance (bits4 : List vvp_bit4_t) (addr wid : Nat) : Decidable (operand_ok bits4 addr wid) := by
  unfold operand_ok; infer_instance

/-- The array loops `x[i] = add_with_carry(x[i], f(y[i]), carry)` as a recursion
on the arrays: the new words and the carry out. -/
def addLists (f : Nat → Nat) : List Nat → List Nat → Nat → List Nat × Nat
  | [], _, c => ([], c)
  | x :: xs, ys, c =>
    ((add_with_carry x (f (ys.headD 0)) c).1 ::
      (addLists f xs ys.tail (add_with_carry x (f (ys.headD 0)) c).2).1,
     (addLists f xs ys.tail (add_with_carry x (f (ys.headD 0)) c).2).2)

/-- The bit space after a handler has stored the value `r` in the destination. -/
def stored (bits4 : List vvp_bit4_t) (d w r : Nat) : List vvp_bit4_t :=
  bits4.take d ++ vec4OfNat w r ++ bits4.drop (d + w)

/-- The handler result `r` is a bit space whose bits `[d, d+w)` are all X. -/
def all_x_result (r : Option (List vvp_bit4_t)) (d w : Nat) : Prop :=
  ∃ bits', r = some bits' ∧ vec4Part bits' d w = List.replicate w BIT4_X

/-- The handler result `r` is a bit space whose bits `[d, d+w)` hold the
number `n`. -/
def value_result (r : Option (List vvp_bit4_t)) (d w n : Nat) : Prop :=
  ∃ bits', r = some bits' ∧ vec4Part bits' d w = vec4OfNat w n


/-- The bits that a loop `thr_put_bit(thr, d+idx, g(idx, s)); s = h(idx, s)`
writes in `n` iterations from `idx = lo`. -/
def putSeq {σ : Type} (g : Nat → σ → vvp_bit4_t) (h : Nat → σ → σ) : Nat → Nat → σ →
    List vvp_bit4_t
  | 0, _, _ => []
  | n + 1, lo, s => g lo s :: putSeq g h n (lo + 1) (h lo s)

/-- The address that the operand loops read in iteration `k`: a constant
address (below 4) is not advanced. -/
def advance (idx k : Nat) : Nat := if idx ≥ 4 then idx + k else idx

/-- The value of an array of binary digits, least significant first. -/
def bitsVal : List Nat → Nat
  | [] => 0
  | b :: rest => b + 2 * bitsVal rest

/-- Every entry of the array is 0 or 1. -/
def bitsOk (l : List Nat) : Prop := ∀ x ∈ l, x ≤ 1

/-- The bits that the operand loop of `do_verylong_mod` stores for one operand,
from the carry `c` of the two's complement. -/
def readBits (neg : Bool) : List vvp_bit4_t → Nat → List Nat
  | [], _ => []
  | b :: bs, c =>
    (if neg then negate_bit b.code c else (b.code, c)).1 ::
      readBits neg bs (if neg then negate_bit b.code c else (b.code, c)).2

/-- Some position holds two known bits that differ (0 against 1). -/
def definite_mismatch : List vvp_bit4_t → List vvp_bit4_t → Bool
  | x :: xs, y :: ys =>
    (decide (x = BIT4_0 ∧ y = BIT4_1) || decide (x = BIT4_1 ∧ y = BIT4_0))
      || definite_mismatch xs ys
  | _, _ => false

/-! ## Concrete bit spaces -/

/-- A fresh thread bit space as `vthread_new` leaves it: 32 bits, the first
four the constants, the others X. -/
def thr_new : List vvp_bit4_t :=
  [BIT4_0, BIT4_1, BIT4_X, BIT4_Z] ++ List.replicate 28 BIT4_X

/-- A fresh bit space in which the `wid` bits at `adr` hold the number `n`. -/
def thr_with (bits4 : List vvp_bit4_t) (adr wid n : Nat) : List vvp_bit4_t :=
  (thr_check_addr bits4 (adr + wid)).take adr ++ vec4OfNat wid n
    ++ (thr_check_addr bits4 (adr + wid)).drop (adr + wid)

/-- The bit space of the 4-bit addition scenario: `a = 0b1101` at 8 and
`b = 0b0011` at 16. -/
def thr_add4 : List vvp_bit4_t := thr_with (thr_with thr_new 8 4 13) 16 4 3

/-- The bit space of the 128-bit division `(2^128 - 2^64) / (2^65 - 1)`: the
dividend at 8, the divisor at 136. -/
def thr_div128 : List vvp_bit4_t :=
  thr_with (thr_with thr_new 8 128 (2 ^ 128 - 2 ^ 64)) 136 128 (2 ^ 65 - 1)

/-- The bit space of the 65-bit signed modulus `5 % -1`: the dividend 5 at
8, the divisor taken from the constant address 1 (all ones). -/
def thr_mod65 : List vvp_bit4_t := thr_with thr_new 8 65 5

/-- The bit space of the 66-bit modulus `(2^65 + 12345) % (2^64 + 2^63)`: the
dividend at 8, the divisor at 80. -/
def thr_mod66 : List vvp_bit4_t :=
  thr_with (thr_with thr_new 8 66 (2 ^ 65 + 12345)) 80 66 (2 ^ 64 + 2 ^ 63)

/-- The bit space of a 4-bit compare: `a = 0b10X1` at 8, `b = 0b1001` at 16. -/
def thr_cmp4 : List vvp_bit4_t :=
  (thr_with (thr_with thr_new 8 4 9) 16 4 9).set 9 BIT4_X

/-! ## Signed and wildcard compares -/

/-- One iteration of the bit loop of `of_CMPS`, on (`eq`, `eeq`, `lt`). The
tests `lv > rv` and `lv < rv` compare the integer codes of the two bits. -/
def of_CMPS_step (lv rv : vvp_bit4_t) (st : vvp_bit4_t × vvp_bit4_t × vvp_bit4_t) :
    vvp_bit4_t × vvp_bit4_t × vvp_bit4_t :=
  let eq := st.1
  let eeq := st.2.1
  let lt := st.2.2
  let lt := if lv.code > rv.code then BIT4_0 else if lv.code < rv.code then BIT4_1 else lt
  let eeq := if lv.code > rv.code then BIT4_0 else if lv.code < rv.code then BIT4_0 else eeq
  let eq :=
    if eq ≠ BIT4_X then
      let eq := if lv = BIT4_0 ∧ rv ≠ BIT4_0 then BIT4_0 else eq
      let eq := if lv = BIT4_1 ∧ rv ≠ BIT4_1 then BIT4_0 else eq
      if bit4_is_xz lv ∨ bit4_is_xz rv then BIT4_X else eq
    else eq
  (eq, eeq, lt)

/-- The bit loop of `of_CMPS`, on (`eq`, `eeq`, `lt`); the first argument is
the number of iterations left. -/
def of_CMPS_loop (bits4 : List vvp_bit4_t) :
    Nat → Nat → Nat → vvp_bit4_t × vvp_bit4_t × vvp_bit4_t →
      Option (vvp_bit4_t × vvp_bit4_t × vvp_bit4_t)
  | 0, _, _, st => some st
  | n + 1, idx1, idx2, st =>
    match thr_get_bit bits4 idx1, thr_get_bit bits4 idx2 with
    | some lv, some rv =>
      of_CMPS_loop bits4 n (if idx1 ≥ 4 then idx1 + 1 else idx1)
        (if idx2 ≥ 4 then idx2 + 1 else idx2) (of_CMPS_step lv rv st)
    | _, _ => none

/-- The correction of `lt` by the sign bits at the end of `of_CMPS`. -/
def of_CMPS_sign (eq lt sig1 sig2 : vvp_bit4_t) : vvp_bit4_t :=
  let lt :=
    if eq = BIT4_X then BIT4_X
    else if sig1 = BIT4_1 ∧ sig2 = BIT4_0 then BIT4_1
    else if sig1 = BIT4_0 ∧ sig2 = BIT4_1 then BIT4_0
    else lt
  if lt ≠ BIT4_X then
    let lt := if sig1 = BIT4_1 ∧ sig2 = BIT4_0 then BIT4_1 else lt
    if sig1 = BIT4_0 ∧ sig2 = BIT4_1 then BIT4_0 else lt
  else lt

/-- Handler `of_CMPS` (`%cmp/s`). -/
def of_CMPS (bits4 : List vvp_bit4_t) (cp : vvp_code_s) : Option (List vvp_bit4_t) :=
  let idx1 := cp.bit_idx0
  let idx2 := cp.bit_idx1
  let end1 := if idx1 < 4 then idx1 else idx1 + cp.number - 1
  let end2 := if idx2 < 4 then idx2 else idx2 + cp.number - 1
  let bits4 := if end1 > end2 then thr_check_addr bits4 end1 else thr_check_addr bits4 end2
  match thr_get_bit bits4 end1, thr_get_bit bits4 end2 with
  | some sig1, some sig2 =>
    match of_CMPS_loop bits4 cp.number idx1 idx2 (BIT4_1, BIT4_1, BIT4_0) with
    | none => none
    | some (eq, eeq, lt) =>
      some (thr_put_bit (thr_put_bit (thr_put_bit bits4 4 eq) 5
        (of_CMPS_sign eq lt sig1 sig2)) 6 eeq)
  | _, _ => none

/-- The bit loop of `of_CMPX`: the value of `eq` when the loop ends or
breaks; the first argument is the number of iterations left. -/
def of_CMPX_loop (bits4 : List vvp_bit4_t) : Nat → Nat → Nat → Option vvp_bit4_t
  | 0, _, _ => some BIT4_1
  | n + 1, idx1, idx2 =>
    match thr_get_bit bits4 idx1, thr_get_bit bits4 idx2 with
    | some lv, some rv =>
      if lv ≠ rv ∧ bit4_is_xz lv = false ∧ bit4_is_xz rv = false then some BIT4_0
      else of_CMPX_loop bits4 n (if idx1 ≥ 4 then idx1 + 1 else idx1)
        (if idx2 ≥ 4 then idx2 + 1 else idx2)
    | _, _ => none

/-- Handler `of_CMPX` (`%cmp/x`). -/
def of_CMPX (bits4 : List vvp_bit4_t) (cp : vvp_code_s) : Option (List vvp_bit4_t) :=
  match of_CMPX_loop bits4 cp.number cp.bit_idx0 cp.bit_idx1 with
  | none => none
  | some eq => some (thr_put_bit bits4 4 eq)

/-! ## Shifts by word register 0 -/

/-- The conversion of the 64-bit register value `thr->words[0].w_int` to the
`int` variable `shift`: the low 32 bits, read as a signed number. -/
def int_of_int64 (x : Int) : Int := (x + 2 ^ 31) % 2 ^ 32 - 2 ^ 31

/-- Modelled from the spec: `vvp_vector4_t::mov(dst, src, cnt)`, which copies
`cnt` bits from `src` to `dst` inside the vector and handles overlap. -/
def mov (v : List vvp_bit4_t) (dst src cnt : Nat) : Option (List vvp_bit4_t) :=
  if src + cnt ≤ v.length then set_vec v dst (vec4Part v src cnt) else none

/-- A loop `for (idx = lo; idx < lo + n; idx += 1)
thr_put_bit(thr, base + idx, thr_get_bit(thr, base + idx + off))`. -/
def shift_copy (base off : Nat) : Nat → Nat → List vvp_bit4_t → Option (List vvp_bit4_t)
  | 0, _, bits4 => some bits4
  | n + 1, idx, bits4 =>
    match thr_get_bit bits4 (base + idx + off) with
    | none => none
    | some b => shift_copy base off n (idx + 1) (thr_put_bit bits4 (base + idx) b)

/-- A loop `for (idx = lo; idx < lo + n; idx += 1) thr_put_bit(thr, base + idx, val)`. -/
def shift_fill (base : Nat) (val : vvp_bit4_t) (n lo : Nat) (bits4 : List vvp_bit4_t) :
    List vvp_bit4_t :=
  forLoop (fun idx b => thr_put_bit b (base + idx) val) n lo bits4

/-- Handler `of_SHIFTL_I0` (`%shiftl/i0`); `words0` is `thr->words[0].w_int`. -/
def of_SHIFTL_I0 (bits4 : List vvp_bit4_t) (words0 : Int) (cp : vvp_code_s) :
    Option (List vvp_bit4_t) :=
  let base := cp.bit_idx0
  let wid := cp.number
  let shift := int_of_int64 words0
  if base < 4 then none
  else
    let bits4 := thr_check_addr bits4 (base + wid - 1)
    match thr_get_bit bits4 4 with
    | none => none
    | some flag =>
      if flag = BIT4_1 then set_vec bits4 base (List.replicate wid BIT4_X)
      else if shift ≥ (wid : Int) then set_vec bits4 base (List.replicate wid BIT4_0)
      else if shift > 0 then
        match set_vec bits4 (base + shift.toNat) (vec4Part bits4 base (wid - shift.toNat)) with
        | none => none
        | some b => set_vec b base (List.replicate shift.toNat BIT4_0)
      else if shift ≤ -(wid : Int) then set_vec bits4 base (List.replicate wid BIT4_X)
      else if shift < 0 then
        match shift_copy base (-shift).toNat (wid - (-shift).toNat) 0 bits4 with
        | none => none
        | some b => some (shift_fill base BIT4_X (-shift).toNat (wid - (-shift).toNat) b)
      else some bits4

/-- Handler `of_SHIFTR_I0` (`%shiftr/i0`); `words0` is `thr->words[0].w_int`. -/
def of_SHIFTR_I0 (bits4 : List vvp_bit4_t) (words0 : Int) (cp : vvp_code_s) :
    Option (List vvp_bit4_t) :=
  let base := cp.bit_idx0
  let wid := cp.number
  let shift := int_of_int64 words0
  if base < 4 then none
  else
    let bits4 := thr_check_addr bits4 (base + wid - 1)
    match thr_get_bit bits4 4 with
    | none => none
    | some flag =>
      if flag = BIT4_1 then set_vec bits4 base (List.replicate wid BIT4_X)
      else if shift > (wid : Int) then set_vec bits4 base (List.replicate wid BIT4_0)
      else if shift > 0 then
        match mov bits4 base (base + shift.toNat) (wid - shift.toNat) with
        | none => none
        | some b => set_vec b (base + wid - shift.toNat) (List.replicate shift.toNat BIT4_0)
      else if shift < -(wid : Int) then set_vec bits4 base (List.replicate wid BIT4_X)
      else if shift < 0 then
        match set_vec bits4 (base + (-shift).toNat)
            (vec4Part bits4 base (wid - (-shift).toNat)) with
        | none => none
        | some b => set_vec b base (List.replicate (-shift).toNat BIT4_X)
      else some bits4

/-- Handler `of_SHIFTR_S_I0` (`%shiftr/s/i0`); `words0` is `thr->words[0].w_int`. -/
def of_SHIFTR_S_I0 (bits4 : List vvp_bit4_t) (words0 : Int) (cp : vvp_code_s) :
    Option (List vvp_bit4_t) :=
  let base := cp.bit_idx0
  let wid := cp.number
  let shift := int_of_int64 words0
  match thr_get_bit bits4 (base + wid - 1), thr_get_bit bits4 4 with
  | some sign, some flag =>
    if flag = BIT4_1 then set_vec bits4 base (List.replicate wid BIT4_X)
    else if shift ≥ (wid : Int) then some (shift_fill base sign wid 0 bits4)
    else if shift > 0 then
      match shift_copy base shift.toNat (wid - shift.toNat) 0 bits4 with
      | none => none
      | some b => some (shift_fill base sign shift.toNat (wid - shift.toNat) b)
    else if shift < -(wid : Int) then set_vec bits4 base (List.replicate wid BIT4_X)
    else if shift < 0 then
      match set_vec bits4 (base + (-shift).toNat)
          (vec4Part bits4 base (wid - (-shift).toNat)) with
      | none => none
      | some b => set_vec b base (List.replicate (-shift).toNat BIT4_X)
    else some bits4
  | _, _ => none

/-- The value of `w` bits read as a two's-complement signed number. -/
def signedVal (w v : Nat) : Int :=
  if v < 2 ^ (w - 1) then (v : Int) else (v : Int) - 2 ^ w

/-- Some bit of one of the two vectors is X or Z. -/
def has_xz (la lb : List vvp_bit4_t) : Bool := !(vec4Known la && vec4Known lb)

/-- The bit loop of `of_CMPS` as a recursion on the two operand vectors. -/
def of_CMPS_fold : List vvp_bit4_t → List vvp_bit4_t →
    vvp_bit4_t × vvp_bit4_t × vvp_bit4_t → vvp_bit4_t × vvp_bit4_t × vvp_bit4_t
  | x :: xs, y :: ys, st => of_CMPS_fold xs ys (of_CMPS_step x y st)
  | _, _, st => st

/-- The bit space of a 4-bit compare: `a = 0b10X0` at 8, `b = 0b1001` at 16. -/
def thr_cmp4b : List vvp_bit4_t :=
  (thr_with (thr_with thr_new 8 4 8) 16 4 9).set 9 BIT4_X

/-! ## Threads, scopes and the fork/join/disable handlers

A thread (`vthread_t`, a pointer to `struct vthread_s`) is a number: the
`n`-th `new struct vthread_s` has the address `n`. The heap is a function
from addresses to thread records; a set of threads (`std::set<vthread_t>`)
is a list of addresses in increasing order, and `begin()` is its head. A
handler returns the new state and its `bool` result, or `none` for a failed
`assert` (or an exhausted iteration bound). -/

/-- The fields of `struct vthread_s` that the thread handlers use. `pc_null`
says that `pc` is `codespace_null()`; a context is a number, 0 for the null
context; `deleted` and `del_scheduled` record that `vthread_delete` resp.
`schedule_del_thr` has been called on the thread. -/
structure vthread_s where
  pc_null : Bool
  i_am_joining : Bool
  i_have_ended : Bool
  waiting_for_event : Bool
  is_scheduled : Bool
  delay_delete : Bool
  children : List Nat
  automatic_children : List Nat
  parent : Option Nat
  parent_scope : Nat
  wait_next : Option Nat
  wt_context : Nat
  rd_context : Nat
  deleted : Bool
  del_scheduled : Bool

/-- The state of the thread world: the thread records, the number of
threads created so far, the set `scope->threads` of every scope, and the
stacked-context link of every context. -/
structure vvp_world where
  threads : Nat → vthread_s
  nthreads : Nat
  scope_threads : Nat → List Nat
  stacked_context : Nat → Nat

/-- Modelled from the spec: the fields of `struct __vpiScope` that `of_FORK`
reads: the scope itself (a number), `is_automatic`, and whether
`get_type_code()` is `vpiFunction`. -/
structure vpiScope where
  id : Nat
  is_automatic : Bool
  is_function : Bool

/-- The operation `std::set::insert` on an increasing list. -/
def set_insert (x : Nat) : List Nat → List Nat
  | [] => [x]
  | y :: ys => if x < y then x :: y :: ys else if x = y then y :: ys else y :: set_insert x ys

/-- The operation `std::set::erase`. -/
def set_erase (x : Nat) (s : List Nat) : List Nat := s.filter (fun y => y ≠ x)

/-- A record that no `new` has produced yet. -/
def no_thread : vthread_s :=
  { pc_null := true, i_am_joining := false, i_have_ended := false,
    waiting_for_event := false, is_scheduled := false, delay_delete := false,
    children := [], automatic_children := [], parent := none, parent_scope := 0,
    wait_next := none, wt_context := 0, rd_context := 0, deleted := false,
    del_scheduled := false }

/-- The world before any thread exists. -/
def world_empty : vvp_world :=
  { threads := fun _ => no_thread, nthreads := 0, scope_threads := fun _ => [],
    stacked_context := fun _ => 0 }

/-- An assignment to the fields of the thread `t`. -/
def modify_thread (st : vvp_world) (t : Nat) (f : vthread_s → vthread_s) : vvp_world :=
  { st with threads := fun i => if i = t then f (st.threads t) else st.threads i }

/-- The statement `scope->threads.erase(thr)`. -/
def scope_erase (st : vvp_world) (scope thr : Nat) : vvp_world :=
  { st with scope_threads := fun s =>
      if s = scope then set_erase thr (st.scope_threads s) else st.scope_threads s }

/-- Modelled from the spec: `vvp_set_stacked_context`, the link "inside the
context itself" that nests the contexts of a thread. -/
def vvp_set_stacked_context (st : vvp_world) (context stacked : Nat) : vvp_world :=
  { st with stacked_context := fun c => if c = context then stacked else st.stacked_context c }

/-- Function `vthread_new`: the new thread gets the address `st.nthreads`. -/
def vthread_new (st : vvp_world) (scope : Nat) : vvp_world :=
  { threads := fun i => if i = st.nthreads then
        { pc_null := false, i_am_joining := false, i_have_ended := false,
          waiting_for_event := false, is_scheduled := false, delay_delete := false,
          children := [], automatic_children := [], parent := none, parent_scope := scope,
          wait_next := none, wt_context := 0, rd_context := 0, deleted := false,
          del_scheduled := false }
      else st.threads i,
    nthreads := st.nthreads + 1,
    scope_threads := fun s =>
      if s = scope then set_insert st.nthreads (st.scope_threads s) else st.scope_threads s,
    stacked_context := st.stacked_context }

/-- Modelled from the spec: `schedule_vthread` puts the thread on the ready
list, and "`is_scheduled` reflects membership in the ready list". -/
def schedule_vthread (st : vvp_world) (thr : Nat) : vvp_world :=
  modify_thread st thr (fun r => { r with is_scheduled := true })

/-- The start of `vthread_run` on one thread: `assert(thr->is_scheduled)`,
then `wait_next` and `is_scheduled` are cleared and the handlers of the
thread are dispatched. -/
def vthread_run_begin (st : vvp_world) (thr : Nat) : Option vvp_world :=
  if (st.threads thr).is_scheduled = true then
    some (modify_thread st thr (fun r => { r with wait_next := none, is_scheduled := false }))
  else none

/-- The first loop of `vthread_reap`: every child of `thr` is handed to the
parent `newp` of `thr`, after `assert(curp->parent == thr)`. -/
def vthread_reap_children (thr : Nat) (newp : Option Nat) :
    List Nat → vvp_world → Option vvp_world
  | [], st => some st
  | curp :: rest, st =>
    if (st.threads curp).parent = some thr then
      vthread_reap_children thr newp rest
        (modify_thread st curp (fun r => { r with parent := newp }))
    else none

/-- The statements of `vthread_reap` after its first loop and before the
test for deletion: the thread leaves the children of its parent and its
scope, and its parent and program counter are cleared. -/
def vthread_reap_core (st : vvp_world) (thr : Nat) : vvp_world :=
  let st2 :=
    match (st.threads thr).parent with
    | some p => modify_thread st p (fun r => { r with children := set_erase thr r.children })
    | none => st
  let st3 := modify_thread st2 thr (fun r => { r with parent := none })
  let st4 := scope_erase st3 (st3.threads thr).parent_scope thr
  modify_thread st4 thr (fun r => { r with pc_null := true })

/-- Function `vthread_reap`. The thread record is deleted (directly, or
through `schedule_del_thr` when `delay_delete` is set) only if the thread is
neither scheduled nor waiting for an event. -/
def vthread_reap (st : vvp_world) (thr : Nat) : Option vvp_world :=
  match vthread_reap_children thr (st.threads thr).parent (st.threads thr).children st with
  | none => none
  | some st1 =>
    let st5 := vthread_reap_core st1 thr
    if (st5.threads thr).is_scheduled = false ∧ (st5.threads thr).waiting_for_event = false then
      if (st5.threads thr).children ≠ [] then none
      else if (st5.threads thr).wait_next ≠ none then none
      else if (st5.threads thr).delay_delete = true then
        some (modify_thread st5 thr (fun r => { r with del_scheduled := true }))
      else some (modify_thread st5 thr (fun r => { r with deleted := true }))
    else some st5

/-- Function `test_joinable`. -/
def test_joinable (st : vvp_world) (thr child : Nat) : Bool :=
  if (st.threads thr).automatic_children ≠ [] ∧ child ∉ (st.threads thr).automatic_children
  then false else true

/-- The statements of `do_join` before the call of `vthread_reap`: a child in
an automatic scope leaves `automatic_children`, and its context moves from
the write context stack of `thr` to the read context stack. -/
def do_join_contexts (st : vvp_world) (thr child : Nat) : vvp_world :=
  if child ∈ (st.threads thr).automatic_children then
    let st' := modify_thread st thr
      (fun r => { r with automatic_children := set_erase child r.automatic_children })
    if (st'.threads thr).wt_context ≠ (st'.threads thr).rd_context then
      let child_context := (st'.threads thr).wt_context
      let st' := modify_thread st' thr
        (fun r => { r with wt_context := st'.stacked_context child_context })
      let st' := vvp_set_stacked_context st' child_context (st'.threads thr).rd_context
      modify_thread st' thr (fun r => { r with rd_context := child_context })
    else st'
  else st

/-- Function `do_join`. -/
def do_join (st : vvp_world) (thr child : Nat) : Option vvp_world :=
  if (st.threads child).parent ≠ some thr then none
  else vthread_reap (do_join_contexts st thr child) child

/-- The loop of `of_JOIN`: the first child that has ended and is joinable. -/
def of_JOIN_find (st : vvp_world) (thr : Nat) : List Nat → Option Nat
  | [] => none
  | curp :: rest =>
    if (st.threads curp).i_have_ended = false then of_JOIN_find st thr rest
    else if test_joinable st thr curp = false then of_JOIN_find st thr rest
    else some curp

/-- Handler `of_JOIN` (`%join`). -/
def of_JOIN (st : vvp_world) (thr : Nat) : Option (vvp_world × Bool) :=
  if (st.threads thr).i_am_joining = true then none
  else if (st.threads thr).children = [] then none
  else
    match of_JOIN_find st thr (st.threads thr).children with
    | some curp =>
      match do_join st thr curp with
      | none => none
      | some st' => some (st', true)
    | none => some (modify_thread st thr (fun r => { r with i_am_joining := true }), false)

/-- The loop of `of_JOIN_DETACH`; the first argument bounds the number of
iterations. -/
def of_JOIN_DETACH_loop : Nat → vvp_world → Nat → Option vvp_world
  | 0, st, thr => if (st.threads thr).children = [] then some st else none
  | fuel + 1, st, thr =>
    match (st.threads thr).children with
    | [] => some st
    | child :: _ =>
      if (st.threads child).parent ≠ some thr then none
      else if (st.threads child).wt_context ≠ 0 then none
      else if (st.threads child).i_have_ended = true then
        match vthread_reap st child with
        | none => none
        | some st' => of_JOIN_DETACH_loop fuel st' thr
      else
        of_JOIN_DETACH_loop fuel
          (modify_thread
            (modify_thread st thr (fun r => { r with children := set_erase child r.children }))
            child (fun r => { r with parent := none })) thr

/-- Handler `of_JOIN_DETACH` (`%join/detach n`); `count` is `cp->number`. -/
def of_JOIN_DETACH (fuel : Nat) (st : vvp_world) (thr count : Nat) :
    Option (vvp_world × Bool) :=
  if (st.threads thr).automatic_children ≠ [] then none
  else if count ≠ (st.threads thr).children.length then none
  else
    match of_JOIN_DETACH_loop fuel st thr with
    | none => none
    | some st' => some (st', true)

/-- Handler `of_END` (`%end`). -/
def of_END (st : vvp_world) (thr : Nat) : Option (vvp_world × Bool) :=
  if (st.threads thr).waiting_for_event = true then none
  else
    let st := modify_thread st thr (fun r => { r with i_have_ended := true, pc_null := true })
    match (st.threads thr).parent with
    | some tmp =>
      if (st.threads tmp).i_am_joining = true then
        if test_joinable st tmp thr = false then some (st, false)
        else
          let st := modify_thread st tmp (fun r => { r with i_am_joining := false })
          let st := schedule_vthread st tmp
          match do_join st tmp thr with
          | none => none
          | some st' => some (st', false)
      else some (st, false)
    | none =>
      if (st.threads thr).children ≠ [] then none
      else
        match vthread_reap st thr with
        | none => none
        | some st' => some (st', false)

/-- Function `do_disable`. The first argument bounds the number of calls and
loop iterations; `entered` says that the statements before the loop have
run, and `flag` is the variable of that name. -/
def do_disable : Nat → vvp_world → Nat → Nat → Bool → Bool → Option (vvp_world × Bool)
  | 0, _, _, _, _, _ => none
  | fuel + 1, st, thr, mtch, false, _ =>
    let st1 := scope_erase st (st.threads thr).parent_scope thr
    let st2 := modify_thread st1 thr (fun r => { r with pc_null := true, i_have_ended := true })
    do_disable fuel st2 thr mtch true false
  | fuel + 1, st, thr, mtch, true, flag =>
    match (st.threads thr).children with
    | tmp :: _ =>
      if (st.threads tmp).parent ≠ some thr then none
      else
        let st1 := modify_thread st thr (fun r => { r with i_am_joining := false })
        match do_disable fuel st1 tmp mtch false false with
        | none => none
        | some (st2, r) =>
          match vthread_reap st2 tmp with
          | none => none
          | some st3 => do_disable fuel st3 thr mtch true (flag || r)
    | [] =>
      match (st.threads thr).parent with
      | some parent =>
        if (st.threads parent).i_am_joining = true then
          let st1 := modify_thread st parent (fun r => { r with i_am_joining := false })
          let st2 := if (st1.threads parent).i_have_ended = false
            then schedule_vthread st1 parent else st1
          match vthread_reap st2 thr with
          | none => none
          | some st3 => some (st3, flag || decide (thr = mtch))
        else some (st, flag || decide (thr = mtch))
      | none =>
        match vthread_reap st thr with
        | none => none
        | some st1 => some (st1, flag || decide (thr = mtch))

/-- The loop of `of_DISABLE`; the first argument bounds the number of
iterations, the second the calls of `do_disable`. -/
def of_DISABLE_loop : Nat → Nat → vvp_world → Nat → Nat → Bool → Option (vvp_world × Bool)
  | 0, _, st, _, scope, disabled_myself_flag =>
    if st.scope_threads scope = [] then some (st, !disabled_myself_flag) else none
  | n + 1, fuel, st, thr, scope, disabled_myself_flag =>
    match st.scope_threads scope with
    | [] => some (st, !disabled_myself_flag)
    | cur :: _ =>
      let flag := disabled_myself_flag || decide (cur = thr)
      match do_disable fuel st cur thr false false with
      | none => none
      | some (st', r) => of_DISABLE_loop n fuel st' thr scope (flag || r)

/-- Handler `of_DISABLE` (`%disable`); `scope` is `cp->handle`. -/
def of_DISABLE (n fuel : Nat) (st : vvp_world) (thr scope : Nat) : Option (vvp_world × Bool) :=
  of_DISABLE_loop n fuel st thr scope false

/-- Handler `of_FORK` (`%fork`), up to the call `vthread_run(child)` resp.
`schedule_vthread(child, 0, true)`: in both cases the child is left with
`is_scheduled` set, and what `vthread_run` does with it is the step
`vthread_run_begin` followed by the handlers of the child. -/
def of_FORK (st : vvp_world) (thr : Nat) (scope : vpiScope) : vvp_world × Bool :=
  let child := st.nthreads
  let st := vthread_new st scope.id
  let st :=
    if scope.is_automatic = true then
      let st := modify_thread st child (fun r =>
        { r with wt_context := (st.threads thr).wt_context,
                 rd_context := (st.threads thr).wt_context })
      modify_thread st thr
        (fun r => { r with automatic_children := set_insert child r.automatic_children })
    else st
  let st := modify_thread st child (fun r => { r with parent := some thr })
  let st := modify_thread st thr (fun r => { r with children := set_insert child r.children })
  if scope.is_function = true then
    (modify_thread st child (fun r => { r with is_scheduled := true }), true)
  else (schedule_vthread st child, true)

/-- Handler `of_ZOMBIE`. -/
def of_ZOMBIE (st : vvp_world) (thr : Nat) : vvp_world × Bool :=
  let st := modify_thread st thr (fun r => { r with pc_null := true })
  if (st.threads thr).parent = none ∧ (st.threads thr).children = [] then
    if (st.threads thr).delay_delete = true then
      (modify_thread st thr (fun r => { r with del_scheduled := true }), false)
    else (modify_thread st thr (fun r => { r with deleted := true }), false)
  else (st, false)

/-! ## Reachable thread states -/

/-- The relation `step_rel` on one thread record. -/
structure rec_rel (r r' : vthread_s) : Prop where
  children_sub : ∀ c, c ∈ r'.children → c ∈ r.children
  parent_sub : ∀ p, r'.parent = some p → r.parent = some p
  joining_sub : r'.i_am_joining = true → r.i_am_joining = true ∧ r'.children = r.children
  ended_mono : r.i_have_ended = true → r'.i_have_ended = true
  pc_mono : r.pc_null = true → r'.pc_null = true
  newly_ended : r'.i_have_ended = true →
    r.i_have_ended = true ∨
    (r'.i_am_joining = false ∧
      (r'.children = [] ∨ (r'.is_scheduled = false ∧ r'.waiting_for_event = false)))
  scheduled : r'.is_scheduled = true →
    r.is_scheduled = true ∨ r'.i_have_ended = false ∨ r'.children = []
  waiting_eq : r'.waiting_for_event = r.waiting_for_event
  parent_scope_eq : r'.parent_scope = r.parent_scope

/-- What `vthread_reap` does to a thread `thr` without children: `st'` is
the state after it. -/
structure reap_effect (st : vvp_world) (thr : Nat) (st' : vvp_world) : Prop where
  nthreads_eq : st'.nthreads = st.nthreads
  children_eq : ∀ i, (st'.threads i).children =
    if (st.threads thr).parent = some i then set_erase thr (st.threads i).children
    else (st.threads i).children
  parent_eq : ∀ i, (st'.threads i).parent = if i = thr then none else (st.threads i).parent
  pc_null_eq : ∀ i, (st'.threads i).pc_null = if i = thr then true else (st.threads i).pc_null
  joining_eq : ∀ i, (st'.threads i).i_am_joining = (st.threads i).i_am_joining
  ended_eq : ∀ i, (st'.threads i).i_have_ended = (st.threads i).i_have_ended
  scheduled_eq : ∀ i, (st'.threads i).is_scheduled = (st.threads i).is_scheduled
  waiting_eq : ∀ i, (st'.threads i).waiting_for_event = (st.threads i).waiting_for_event
  parent_scope_eq : ∀ i, (st'.threads i).parent_scope = (st.threads i).parent_scope
  wait_next_eq : ∀ i, (st'.threads i).wait_next = (st.threads i).wait_next
  scope_eq : ∀ s, st'.scope_threads s =
    if s = (st.threads thr).parent_scope then set_erase thr (st.scope_threads s)
    else st.scope_threads s

/-- The assignment `f` changes at most the marks `deleted` and `del_scheduled`. -/
def only_marks (f : vthread_s → vthread_s) : Prop :=
  ∀ r, ∃ d1 d2, f r = { r with deleted := d1, del_scheduled := d2 }

/-- The invariants of the thread tree: (1) `c` is in `t.children` iff
`c.parent == t`; (2) a thread that has ended and still has children is
neither scheduled nor waiting, so that `vthread_reap` deletes it and checks
`assert(thr->children.empty())`; (3) a thread in a `%join` has not ended and
(4) has children; (5) no thread is linked to an address that no `new` has
produced; (6) a child was created after its parent. -/
structure thread_inv (st : vvp_world) : Prop where
  children_parent : ∀ t c, c ∈ (st.threads t).children ↔ (st.threads c).parent = some t
  ended_children : ∀ t, (st.threads t).i_have_ended = true → (st.threads t).children ≠ [] →
    (st.threads t).is_scheduled = false ∧ (st.threads t).waiting_for_event = false
  joining_alive : ∀ t, (st.threads t).i_am_joining = true → (st.threads t).i_have_ended = false
  joining_children : ∀ t, (st.threads t).i_am_joining = true → (st.threads t).children ≠ []
  fresh : ∀ t, st.nthreads ≤ t → (st.threads t).parent = none ∧ (st.threads t).children = []
  order : ∀ t c, c ∈ (st.threads t).children → t < c

/-- What a step that only takes threads apart (it reaps, detaches, ends or
disables threads) may change in the fields that the invariants read. -/
structure step_rel (st st' : vvp_world) : Prop where
  nthreads_eq : st'.nthreads = st.nthreads
  children_sub : ∀ t c, c ∈ (st'.threads t).children → c ∈ (st.threads t).children
  parent_sub : ∀ t p, (st'.threads t).parent = some p → (st.threads t).parent = some p
  joining_sub : ∀ t, (st'.threads t).i_am_joining = true →
    (st.threads t).i_am_joining = true ∧ (st'.threads t).children = (st.threads t).children
  ended_mono : ∀ t, (st.threads t).i_have_ended = true → (st'.threads t).i_have_ended = true
  pc_mono : ∀ t, (st.threads t).pc_null = true → (st'.threads t).pc_null = true
  newly_ended : ∀ t, (st'.threads t).i_have_ended = true →
    (st.threads t).i_have_ended = true ∨
    ((st'.threads t).i_am_joining = false ∧
      ((st'.threads t).children = [] ∨
        ((st'.threads t).is_scheduled = false ∧ (st'.threads t).waiting_for_event = false)))
  scheduled : ∀ t, (st'.threads t).is_scheduled = true →
    (st.threads t).is_scheduled = true ∨ (st'.threads t).i_have_ended = false ∨
    (st'.threads t).children = []
  waiting_eq : ∀ t, (st'.threads t).waiting_for_event = (st.threads t).waiting_for_event
  scope_sub : ∀ s t, t ∈ st'.scope_threads s → t ∈ st.scope_threads s
  parent_scope_eq : ∀ t, (st'.threads t).parent_scope = (st.threads t).parent_scope

/-- The threads on which `vthread_run` dispatches a handler other than
`of_ZOMBIE`: `vthread_run` has cleared `is_scheduled`, the program counter
is not `codespace_null()` (which `%end`, `%disable` and `vthread_reap` set),
and the thread is not suspended in a `%join` or a `%wait`, which return
`false` right after they set `i_am_joining` resp. `waiting_for_event`. -/
def dispatchable (st : vvp_world) (thr : Nat) : Prop :=
  thr < st.nthreads ∧ (st.threads thr).deleted = false ∧
  (st.threads thr).del_scheduled = false ∧ (st.threads thr).pc_null = false ∧
  (st.threads thr).i_have_ended = false ∧ (st.threads thr).is_scheduled = false ∧
  (st.threads thr).waiting_for_event = false ∧ (st.threads thr).i_am_joining = false

instance (st : vvp_world) (thr : Nat) : Decidable (dispatchable st thr) := by
  unfold dispatchable; infer_instance

/-- The states that the handlers `of_FORK`, `of_JOIN`, `of_JOIN_DETACH`,
`of_END` and `of_DISABLE` reach from freshly created threads: threads are
created by `vthread_new`, a scheduled thread is taken up by `vthread_run`,
and a handler runs on a dispatchable thread and does not fail an `assert`. -/
inductive Reachable : vvp_world → Prop
  | empty : Reachable world_empty
  | new (st : vvp_world) (scope : Nat) : Reachable st → Reachable (vthread_new st scope)
  | run (st : vvp_world) (thr : Nat) (st' : vvp_world) :
      Reachable st → vthread_run_begin st thr = some st' → Reachable st'
  | fork (st : vvp_world) (thr : Nat) (scope : vpiScope) :
      Reachable st → dispatchable st thr → Reachable (of_FORK st thr scope).1
  | join (st : vvp_world) (thr : Nat) (r : vvp_world × Bool) :
      Reachable st → dispatchable st thr → of_JOIN st thr = some r → Reachable r.1
  | join_detach (fuel : Nat) (st : vvp_world) (thr count : Nat) (r : vvp_world × Bool) :
      Reachable st → dispatchable st thr → of_JOIN_DETACH fuel st thr count = some r →
      Reachable r.1
  | ended (st : vvp_world) (thr : Nat) (r : vvp_world × Bool) :
      Reachable st → dispatchable st thr → of_END st thr = some r → Reachable r.1
  | disable (n fuel : Nat) (st : vvp_world) (thr scope : Nat) (r : vvp_world × Bool) :
      Reachable st → dispatchable st thr → of_DISABLE n fuel st thr scope = some r →
      Reachable r.1

/-- The children of `thr` pass the assertions of `of_JOIN_DETACH`: each has
`thr` as its parent and a null write context, and one that has ended has no
children of its own (and no `wait_next` when it is deleted). -/
def detachable (st : vvp_world) (thr : Nat) : Prop :=
  ∀ c, c ∈ (st.threads thr).children →
    (st.threads c).parent = some thr ∧ c ≠ thr ∧ (st.threads c).wt_context = 0 ∧
    ((st.threads c).i_have_ended = true → (st.threads c).children = [] ∧
      ((st.threads c).is_scheduled = false → (st.threads c).waiting_for_event = false →
        (st.threads c).wait_next = none))

instance (st : vvp_world) (thr : Nat) : Decidable (detachable st thr) := by
  unfold detachable; infer_instance

/-! ## Concrete thread states -/

/-- One thread, number 0, in scope 0. -/
def tree0 : vvp_world := vthread_new world_empty 0

/-- Thread 0 has forked thread 1 (scope 0, not automatic). -/
def tree1 : vvp_world := (of_FORK tree0 0 ⟨0, false, false⟩).1

/-- Thread 1 has been taken up by `vthread_run`. -/
def tree2 : vvp_world := (vthread_run_begin tree1 1).getD tree1

/-- Thread 1 has executed `%end`; its parent 0 is not in a `%join`. -/
def tree3 : vvp_world := ((of_END tree2 1).getD (tree2, true)).1

/-- Thread 0 has executed `%join` and reaped thread 1. -/
def tree4 : vvp_world := ((of_JOIN tree3 0).getD (tree3, false)).1

/-- Two threads 0 and 1 in scope 0; thread 0 has forked thread 2 into the
automatic scope 1. -/
def auto1 : vvp_world :=
  (of_FORK (vthread_new (vthread_new world_empty 0) 0) 0 ⟨1, true, false⟩).1

/-- Thread 0 has executed `%join` and waits for its child 2. -/
def auto2 : vvp_world := ((of_JOIN auto1 0).getD (auto1, true)).1

/-- Thread 1 has executed `%disable` on scope 1. -/
def auto3 : vvp_world := ((of_DISABLE 2 4 auto2 1 1).getD (auto2, true)).1

/-- Thread 0 has forked the threads 1 and 2 (scope 0, not automatic), and
thread 1 has run and executed `%end`. -/
def pair3 : vvp_world :=
  ((of_END ((vthread_run_begin (of_FORK tree1 0 ⟨0, false, false⟩).1 1).getD tree1) 1).getD
    (tree1, true)).1

/-! ## The threads that `%disable` disables -/

/-- The thread `b` is a child of the thread `a`. -/
def child_rel (st : vvp_world) (a b : Nat) : Prop := b ∈ (st.threads a).children

/-- The thread `b` is `a` or a descendant of `a` through the children sets. -/
def descendant (st : vvp_world) (a b : Nat) : Prop := Relation.ReflTransGen (child_rel st) a b

/-- The thread `t` is one of the threads that `%disable scope` disables: a
member of the thread set of the scope or a descendant of one. -/
def disabled_by (st : vvp_world) (scope t : Nat) : Prop :=
  ∃ r, r ∈ st.scope_threads scope ∧ descendant st r t

/-- The threads in the thread set of `scope` exist and have `scope` as their
`parent_scope`, as `vthread_new` leaves them. -/
def scope_ready (st : vvp_world) (scope : Nat) : Prop :=
  ∀ t, t ∈ st.scope_threads scope → t < st.nthreads ∧ (st.threads t).parent_scope = scope

instance (st : vvp_world) (scope : Nat) : Decidable (scope_ready st scope) := by
  unfold scope_ready; infer_instance

/-- A thread that is neither scheduled nor waiting for an event is not linked
into a list of waiting threads: `vthread_run` clears `wait_next` when it
takes up a thread. -/
def wait_clear (st : vvp_world) : Prop :=
  ∀ t, t < st.nthreads → (st.threads t).is_scheduled = false →
    (st.threads t).waiting_for_event = false → (st.threads t).wait_next = none

instance (st : vvp_world) : Decidable (wait_clear st) := by
  unfold wait_clear; infer_instance

/-- The part of the invariants that holds inside `do_disable` as well. -/
structure tree_inv (st : vvp_world) : Prop where
  children_parent : ∀ t c, c ∈ (st.threads t).children ↔ (st.threads c).parent = some t
  joining_children : ∀ t, (st.threads t).i_am_joining = true → (st.threads t).children ≠ []
  fresh : ∀ t, st.nthreads ≤ t → (st.threads t).parent = none ∧ (st.threads t).children = []
  order : ∀ t c, c ∈ (st.threads t).children → t < c
  wait_clear : ∀ t, t < st.nthreads → (st.threads t).is_scheduled = false →
    (st.threads t).waiting_for_event = false → (st.threads t).wait_next = none

/-! ## The effect of `do_disable` -/

/-- What every step of `do_disable` keeps: the children sets and the thread
sets of the scopes only lose members, no thread leaves the schedule, and
`waiting_for_event` and `wait_next` do not change. -/
structure dis_rel (st st' : vvp_world) : Prop where
  children_sublist : ∀ t, List.Sublist (st'.threads t).children (st.threads t).children
  scope_sublist : ∀ s, List.Sublist (st'.scope_threads s) (st.scope_threads s)
  wait_next_eq : ∀ t, (st'.threads t).wait_next = (st.threads t).wait_next
  waiting_eq : ∀ t, (st'.threads t).waiting_for_event = (st.threads t).waiting_for_event
  scheduled_mono : ∀ t, (st.threads t).is_scheduled = true → (st'.threads t).is_scheduled = true

/-- The effect of disabling the set `V` of threads: the threads of `V` have
ended with a null program counter and have left the thread set of their
scope, and the links between the other threads and their membership in the
scopes are kept. -/
structure dis_post (V : Nat → Prop) (st st' : vvp_world) : Prop where
  ended : ∀ t, V t → (st'.threads t).i_have_ended = true ∧ (st'.threads t).pc_null = true
  keep_children : ∀ t c, ¬ V t → ¬ V c → c ∈ (st.threads t).children →
    c ∈ (st'.threads t).children
  keep_scope : ∀ s t, ¬ V t → t ∈ st.scope_threads s → t ∈ st'.scope_threads s
  gone_scope : ∀ t, V t → t ∉ st'.scope_threads (st.threads t).parent_scope

/-- The part of `step_rel` that the statements of `do_disable` before its
loop keep as well. -/
structure tree_rel (st st' : vvp_world) : Prop where
  nthreads_eq : st'.nthreads = st.nthreads
  children_sub : ∀ t c, c ∈ (st'.threads t).children → c ∈ (st.threads t).children
  parent_sub : ∀ t p, (st'.threads t).parent = some p → (st.threads t).parent = some p
  joining_sub : ∀ t, (st'.threads t).i_am_joining = true →
    (st.threads t).i_am_joining = true ∧ (st'.threads t).children = (st.threads t).children
  ended_mono : ∀ t, (st.threads t).i_have_ended = true → (st'.threads t).i_have_ended = true
  pc_mono : ∀ t, (st.threads t).pc_null = true → (st'.threads t).pc_null = true
  scope_sub : ∀ s t, t ∈ st'.scope_threads s → t ∈ st.scope_threads s
  parent_scope_eq : ∀ t, (st'.threads t).parent_scope = (st.threads t).parent_scope

/-- A step of `do_disable` that disables the threads of `V`. -/
structure dis_step (V : Nat → Prop) (st st' : vvp_world) : Prop where
  step : tree_rel st st'
  rel : dis_rel st st'
  post : dis_post V st st'

/-- The call `do_disable(thr, match)` (`entered = false`), or the rest of it
from the head of its loop (`entered = true`), returns, has disabled `thr` and
its descendants, and returns whether `match` is one of them (or `flag` was
set). -/
def disable_spec (st : vvp_world) (thr mtch : Nat) (entered flag : Bool) : Prop :=
  ∃ fuel st' r, do_disable fuel st thr mtch entered flag = some (st', r) ∧
    tree_inv st' ∧ dis_step (descendant st thr) st st' ∧
    (r = true ↔ (entered = true ∧ flag = true) ∨ descendant st thr mtch) ∧
    (st'.threads thr).children = []

/-! ## The return values of the opcode handlers -/

/-- The opcode handlers of `vthread.cc`, the functions
`bool of_X(vthread_t thr, vvp_code_t cp)`, in the order of the file. -/
inductive vvp_handler where
  | of_CHUNK_LINK | of_ABS_WR | of_ALLOC | of_AND_wide | of_AND_narrow | of_AND | of_ANDI
  | of_ADD | of_ADD_WR | of_ADDI | of_ASSIGN_AR | of_ASSIGN_ARD | of_ASSIGN_ARE | of_ASSIGN_AV
  | of_ASSIGN_AVD | of_ASSIGN_AVE | of_ASSIGN_V0 | of_ASSIGN_V0D | of_ASSIGN_V0E | of_ASSIGN_V0X1
  | of_ASSIGN_V0X1D | of_ASSIGN_V0X1E | of_ASSIGN_WR | of_ASSIGN_WRD | of_ASSIGN_WRE
  | of_ASSIGN_X0 | of_BLEND | of_BLEND_WR | of_BREAKPOINT | of_CASSIGN_LINK | of_CASSIGN_V
  | of_CASSIGN_WR | of_CASSIGN_X0 | of_CAST2 | of_CMPS | of_CMPSTR | of_CMPIS
  | of_CMPIU_the_hard_way | of_CMPIU | of_CMPU_the_hard_way | of_CMPU | of_CMPX | of_CMPWR
  | of_CMPWS | of_CMPWU | of_CMPZ | of_CONCAT_STR | of_CONCATI_STR | of_CVT_RS | of_CVT_RU
  | of_CVT_RV | of_CVT_RV_S | of_CVT_SR | of_CVT_UR | of_CVT_VR | of_DEASSIGN | of_DEASSIGN_WR
  | of_DELAY | of_DELAYX | of_DELETE_OBJ | of_DISABLE | of_DIV | of_DIV_S | of_DIV_WR
  | of_DUP_REAL | of_END | of_EVCTL | of_EVCTLC | of_EVCTLI | of_EVCTLS | of_FORCE_LINK
  | of_FORCE_V | of_FORCE_WR | of_FORCE_X0 | of_FORK | of_FREE | of_INV_wide | of_INV_narrow
  | of_INV | of_IX_ADD | of_IX_SUB | of_IX_MUL | of_IX_LOAD | of_IX_GET | of_IX_GET_S
  | of_IX_GETV | of_IX_GETV_S | of_JMP | of_JMP0 | of_JMP0XZ | of_JMP1 | of_JOIN | of_JOIN_DETACH
  | of_LOAD_AR | of_LOAD_AV | of_LOAD_DAR | of_LOAD_DAR_R | of_LOAD_DAR_STR | of_LOAD_AVP0
  | of_LOAD_AVP0_S | of_LOAD_AVX_P | of_LOAD_OBJ | of_LOAD_REAL | of_LOAD_STR | of_LOAD_STRA
  | of_LOAD_VEC | of_LOAD_VP0 | of_LOAD_VP0_S | of_LOAD_X1P | of_MAX_WR | of_MIN_WR | of_MOD
  | of_MOD_S | of_MOD_WR | of_MOV1XZ_ | of_MOV_ | of_MOV | of_PAD | of_MOV_WU | of_MOVI | of_MUL
  | of_MUL_WR | of_MULI | of_NAND_wide | of_NAND_narrow | of_NAND | of_NEW_COBJ | of_NEW_DARRAY
  | of_NOOP | of_NORR | of_NULL | of_ANDR | of_NANDR | of_ORR | of_XORR | of_XNORR | of_OR_wide
  | of_OR_narrow | of_OR | of_NOR_wide | of_NOR_narrow | of_NOR | of_POP_OBJ | of_POP_REAL
  | of_POP_STR | of_POW | of_POW_S | of_POW_WR | of_PROP_OBJ | of_PROP_R | of_PROP_STR
  | of_PROP_V | of_PUSHI_REAL | of_PUSHI_STR | of_PUSHV_STR | of_PUTC_STR_V | of_RELEASE_NET
  | of_RELEASE_REG | of_RELEASE_WR | of_SCOPY | of_SET_AV | of_SET_DAR | of_SET_VEC | of_SET_X0
  | of_SHIFTL_I0 | of_SHIFTR_I0 | of_SHIFTR_S_I0 | of_STORE_DAR_R | of_STORE_DAR_STR
  | of_STORE_OBJ | of_STORE_PROP_OBJ | of_STORE_PROP_R | of_STORE_PROP_STR | of_STORE_PROP_V
  | of_STORE_REAL | of_STORE_REALA | of_STORE_STR | of_STORE_STRA | of_SUB | of_SUB_WR | of_SUBI
  | of_SUBSTR | of_SUBSTR_V | of_FILE_LINE | of_TEST_NUL | of_VPI_CALL | of_WAIT | of_XNOR
  | of_XOR | of_ZOMBIE | of_EXEC_UFUNC

/-- What the return value of a handler depends on: the thread world and the
executing thread `thr`; of the instruction `cp` the scope `handle` of
`%disable`, the scope `scope` of `%fork` and the count `number` of
`%join/detach`; the values `stopped` and `finished` that `schedule_stopped()`
and `schedule_finished()` return when the handler calls them; and the
budgets `n` and `fuel` for the loops of `%disable` and `%join/detach`. -/
structure handler_env where
  st : vvp_world
  thr : Nat
  handle : Nat
  scope : vpiScope
  number : Nat
  stopped : Bool
  finished : Bool
  n : Nat
  fuel : Nat

/-- The value that the handler returns, `none` when an assertion of one of
the thread handlers fails. The handlers of the last line have `return true`
as their only return statement, or end in a call of such a handler
(`of_AND`, `of_INV`, `of_MOV`, `of_NAND`, `of_NOR`, `of_OR` call their wide
or narrow variant, `of_CMPU` and `of_CMPIU` may call `the_hard_way`,
`of_RELEASE_NET` and `of_RELEASE_REG` call `do_release_vec`). -/
def handler_return (op : vvp_handler) (e : handler_env) : Option Bool :=
  match op with
  | .of_DELAY => some false
  | .of_DELAYX => some false
  | .of_WAIT => some false
  | .of_DISABLE => (of_DISABLE e.n e.fuel e.st e.thr e.handle).map Prod.snd
  | .of_END => (of_END e.st e.thr).map Prod.snd
  | .of_FORK => some (of_FORK e.st e.thr e.scope).2
  | .of_JMP => if e.stopped = true then some false else some true
  | .of_JMP0 => if e.stopped = true then some false else some true
  | .of_JMP0XZ => if e.stopped = true then some false else some true
  | .of_JMP1 => if e.stopped = true then some false else some true
  | .of_JOIN => (of_JOIN e.st e.thr).map Prod.snd
  | .of_JOIN_DETACH => (of_JOIN_DETACH e.fuel e.st e.thr e.number).map Prod.snd
  | .of_VPI_CALL =>
    if e.stopped = true then some false
    else some (if e.finished = true then false else true)
  | .of_ZOMBIE => some (of_ZOMBIE e.st e.thr).2
  | _ => some true

/-- The cases in which a handler returns `false`, after the specification:
`delay`, `delayx`, `wait` and `end` always; `join` when no child has ended
and is joinable; `disable` when the executing thread is one of the threads
disabled; the jumps when the stop flag is set; `vpi_call` when the call
stopped or finished the simulation; no other handler. -/
def spec_suspends (op : vvp_handler) (e : handler_env) : Prop :=
  match op with
  | .of_DELAY => True
  | .of_DELAYX => True
  | .of_WAIT => True
  | .of_END => True
  | .of_JOIN => ¬ ∃ c, c ∈ (e.st.threads e.thr).children ∧
      (e.st.threads c).i_have_ended = true ∧ test_joinable e.st e.thr c = true
  | .of_DISABLE => disabled_by e.st e.handle e.thr
  | .of_JMP => e.stopped = true
  | .of_JMP0 => e.stopped = true
  | .of_JMP0XZ => e.stopped = true
  | .of_JMP1 => e.stopped = true
  | .of_VPI_CALL => e.stopped = true ∨ e.finished = true
  | _ => False

/-- Thread 2, which thread 1 has disabled while it was scheduled, has been
taken up by `vthread_run`: its program counter is `codespace_null()`, the
instruction `%zombie`. -/
def zombie_env : handler_env :=
  { st := (vthread_run_begin auto3 2).getD auto3
    thr := 2
    handle := 0
    scope := ⟨0, false, false⟩
    number := 0
    stopped := false
    finished := false
    n := 0
    fuel := 0 }

/-- Thread 1, forked by thread 0 into scope 0, executes `%disable` on
scope 0. -/
def disable_env : handler_env :=
  { st := tree2
    thr := 1
    handle := 0
    scope := ⟨0, false, false⟩
    number := 0
    stopped := false
    finished := false
    n := 2
    fuel := 4 }

/-! ## The handler `of_ASSIGN_AV` -/

/-- The conversion of a `long` value to `unsigned`: its low 32 bits. -/
def unsigned_of_long (x : Int) : Nat := (x % 2 ^ 32).toNat

/-- The arguments of a call `schedule_assign_array_word(array, adr, off,
value, delay)` of `of_ASSIGN_AV`, where `value` is the vector of the `wid`
bits of the thread from `bit` on. -/
structure assign_array_word where
  adr : Int
  off : Int
  bit : Nat
  wid : Nat
deriving DecidableEq

/-- The statements of `of_ASSIGN_AV` between the read of the registers and
`assert(wid > 0)`: `none` when the handler returns early, else the values of
`wid`, `off` and `bit`. The sums of `long` values are exact. -/
def of_ASSIGN_AV_trim (wid : Nat) (off adr vwidth : Int) (bit : Nat) :
    Option (Nat × Int × Nat) :=
  if adr < 0 then none
  else if off ≥ vwidth then none
  else if off + (wid : Int) > vwidth then
    some (unsigned_of_long ((wid : Int) + (vwidth - off - (wid : Int))), off, bit)
  else if off < 0 then
    if unsigned_of_long (-off) > wid then none
    else some (unsigned_of_long ((wid : Int) + off), 0, unsigned_of_long ((bit : Int) - off))
  else some (wid, off, bit)

/-- Handler `of_ASSIGN_AV` (`%assign/av`): `words0`, `words1` and `words3` are
`thr->words[0].w_int`, `thr->words[1].w_int` and `thr->words[3].w_int`,
`vwidth` is `get_array_word_size(cp->array)` and `bit_idx1` is
`cp->bit_idx[1]`. The result is `none` when `assert(wid > 0)` fails,
`some none` when the handler returns without a call of
`schedule_assign_array_word`, and else the arguments of that call. -/
def of_ASSIGN_AV (words0 words1 words3 : Int) (vwidth bit_idx1 : Nat) :
    Option (Option assign_array_word) :=
  match of_ASSIGN_AV_trim (unsigned_of_long words0) words1 words3 vwidth bit_idx1 with
  | none => some none
  | some (wid, off, bit) =>
    if wid > 0 then some (some ⟨words3, off, bit, wid⟩) else none

/-- The write that the claim expects of `%assign/av`: nothing when the part
`[off, off+wid)` lies wholly outside `[0, vwidth)`, else the bits of the part
inside `[0, vwidth)` at their offset in the word. -/
def spec_assign_av (wid : Nat) (off adr : Int) (vwidth bit : Nat) : Option assign_array_word :=
  if off + (wid : Int) ≤ 0 ∨ off ≥ (vwidth : Int) then none
  else
    let lo := max off 0
    let hi := min (off + (wid : Int)) (vwidth : Int)
    some ⟨adr, lo, ((bit : Int) + (lo - off)).toNat, (hi - lo).toNat⟩

/-! ## Continuous assignment links -/

/-- Modelled from the spec: a `vvp_net_ptr_t`, a net and one of its four
input ports. -/
structure vvp_net_ptr_t where
  net : Nat
  port : Nat
deriving DecidableEq

/-- The calls `sig->deassign()` and `sig->deassign_pv(base, width)` on the
functor of a net. -/
inductive deassign_call where
  | deassign (net : Nat)
  | deassign_pv (net base width : Nat)
deriving DecidableEq

/-- The nets, as far as `%cassign/link` and `%deassign` read and write them:
whether the functor and the filter of a net have the type of a signal (the
`dynamic_cast`s succeed), the field `cassign_link` of its functor, the
pointers linked to its output, the `value_size()` of its filter, and the
deassign calls made so far. -/
structure net_world where
  is_signal : Nat → Bool
  cassign_link : Nat → Option Nat
  out : Nat → List vvp_net_ptr_t
  value_size : Nat → Nat
  calls : List deassign_call

/-- Modelled from the spec: `src->link(ptr)` adds the pointer to the list of
the inputs that the output of `src` drives. -/
def vvp_net_link (st : net_world) (src : Nat) (ptr : vvp_net_ptr_t) : net_world :=
  { st with out := fun n => if n = src then ptr :: st.out n else st.out n }

/-- Modelled from the spec: `src->unlink(ptr)` takes the pointer out of the
list of the inputs that the output of `src` drives. -/
def vvp_net_unlink (st : net_world) (src : Nat) (ptr : vvp_net_ptr_t) : net_world :=
  { st with out := fun n => if n = src then (st.out n).filter (fun p => p ≠ ptr) else st.out n }

/-- The assignment `sig->cassign_link = v` on the functor of `dst`. -/
def set_cassign_link (st : net_world) (dst : Nat) (v : Option Nat) : net_world :=
  { st with cassign_link := fun n => if n = dst then v else st.cassign_link n }

/-- Handler `of_CASSIGN_LINK` (`%cassign/link`); `dst` is `cp->net` and `src`
is `cp->net2`. The result is `none` when `assert(sig)` fails. -/
def of_CASSIGN_LINK (st : net_world) (dst src : Nat) : Option net_world :=
  if st.is_signal dst = false then none
  else if st.cassign_link dst = some src then some st
  else
    let st1 :=
      match st.cassign_link dst with
      | some old => vvp_net_unlink st old ⟨dst, 1⟩
      | none => st
    let st2 := set_cassign_link st1 dst (some src)
    some (vvp_net_link st2 src ⟨dst, 1⟩)

/-- How a handler ends: it returns, the process exits (`exit(1)`), or an
assertion fails. -/
inductive run_result (σ : Type) where
  | returned (st : σ)
  | exited (st : σ)
  | aborted

/-- Handler `of_DEASSIGN` (`%deassign`); `net` is `cp->net`, `base` and
`width` are `cp->bit_idx[0]` and `cp->bit_idx[1]`, unsigned numbers of 32
bits. -/
def of_DEASSIGN (st : net_world) (net base width : Nat) : run_result net_world :=
  if st.is_signal net = false then run_result.aborted
  else if base ≥ st.value_size net then run_result.returned st
  else
    let width := if (base + width) % 2 ^ 32 > st.value_size net
      then st.value_size net - base else width
    let full_sig := decide (base = 0) && decide (width = st.value_size net)
    match st.cassign_link net with
    | some src =>
      if full_sig = false then run_result.exited st
      else
        let st1 := set_cassign_link (vvp_net_unlink st src ⟨net, 1⟩) net none
        run_result.returned { st1 with calls := st1.calls ++ [deassign_call.deassign net] }
    | none =>
      if full_sig = true then
        run_result.returned { st with calls := st.calls ++ [deassign_call.deassign net] }
      else
        run_result.returned
          { st with calls := st.calls ++ [deassign_call.deassign_pv net base width] }

/-- The links of `%cassign/link` are consistent: the pointer to port 1 of
`dst` is in the list of `src` iff `src` is the `cassign_link` of `dst`, and it
is there once. -/
def cassign_inv (st : net_world) : Prop :=
  ∀ dst src, ((⟨dst, 1⟩ : vvp_net_ptr_t) ∈ st.out src ↔ st.cassign_link dst = some src) ∧
    (st.out src).count ⟨dst, 1⟩ ≤ 1

/-- The nets before any link: every net is a signal of width 8. -/
def nets_empty : net_world :=
  { is_signal := fun _ => true, cassign_link := fun _ => none, out := fun _ => [],
    value_size := fun _ => 8, calls := [] }

/-- Net 5 is linked to port 1 of net 2. -/
def nets_linked : net_world := (of_CASSIGN_LINK nets_empty 2 5).getD nets_empty

/-! ## Contexts of automatic scopes -/

/-- The thread world together with the contexts of the automatic scopes. A
context is a number, 0 is the null context. Modelled from the spec: the link
`next_context` "inside the context itself" that chains the live and the free
contexts of a scope (`vvp_get_next_context`, `vvp_set_next_context`), and
`vvp_allocate_context`, which returns a context that did not exist before,
the number `ncontexts + 1`. The fields `free_contexts` and `live_contexts`
are those of `struct __vpiScope`, by scope. The items stored in a context
are not part of the model. -/
structure ctx_world where
  w : vvp_world
  next_context : Nat → Nat
  free_contexts : Nat → Nat
  live_contexts : Nat → Nat
  ncontexts : Nat

/-- Modelled from the spec: `vvp_set_next_context(context, next)`. -/
def vvp_set_next_context (st : ctx_world) (context next : Nat) : ctx_world :=
  { st with next_context := fun c => if c = context then next else st.next_context c }

/-- The assignment `scope->free_contexts = v`. -/
def set_free_contexts (st : ctx_world) (scope v : Nat) : ctx_world :=
  { st with free_contexts := fun s => if s = scope then v else st.free_contexts s }

/-- The assignment `scope->live_contexts = v`. -/
def set_live_contexts (st : ctx_world) (scope v : Nat) : ctx_world :=
  { st with live_contexts := fun s => if s = scope then v else st.live_contexts s }

/-- Function `vthread_alloc_context`: the state and the context returned,
`none` when `assert(scope->is_automatic)` fails. -/
def vthread_alloc_context (st : ctx_world) (scope : vpiScope) : Option (ctx_world × Nat) :=
  if scope.is_automatic = false then none
  else
    let context := st.free_contexts scope.id
    let r : ctx_world × Nat :=
      if context ≠ 0 then (set_free_contexts st scope.id (st.next_context context), context)
      else ({ st with ncontexts := st.ncontexts + 1 }, st.ncontexts + 1)
    let st1 := vvp_set_next_context r.1 r.2 (r.1.live_contexts scope.id)
    some (set_live_contexts st1 scope.id r.2, r.2)

/-- The loop of `vthread_free_context` that looks for the context `tmp` in
front of `context` in the live list; the first argument bounds the number of
iterations. -/
def vthread_free_context_find (st : ctx_world) (context : Nat) : Nat → Nat → Option Nat
  | 0, tmp => if context ≠ st.next_context tmp then none else some tmp
  | fuel + 1, tmp =>
    if context ≠ st.next_context tmp then
      if tmp = 0 then none else vthread_free_context_find st context fuel (st.next_context tmp)
    else some tmp

/-- Function `vthread_free_context`; `none` when an assertion fails. -/
def vthread_free_context (fuel : Nat) (st : ctx_world) (context : Nat) (scope : vpiScope) :
    Option ctx_world :=
  if scope.is_automatic = false then none
  else if context = 0 then none
  else
    let st1 : Option ctx_world :=
      if context = st.live_contexts scope.id then
        some (set_live_contexts st scope.id (st.next_context context))
      else
        match vthread_free_context_find st context fuel (st.live_contexts scope.id) with
        | none => none
        | some tmp => some (vvp_set_next_context st tmp (st.next_context context))
    match st1 with
    | none => none
    | some st1 =>
      let st2 := vvp_set_next_context st1 context (st1.free_contexts scope.id)
      some (set_free_contexts st2 scope.id context)

/-- Handler `of_ALLOC` (`%alloc`); `scope` is `cp->scope`. -/
def of_ALLOC (st : ctx_world) (thr : Nat) (scope : vpiScope) : Option (ctx_world × Bool) :=
  match vthread_alloc_context st scope with
  | none => none
  | some (st1, child_context) =>
    let w := vvp_set_stacked_context st1.w child_context (st1.w.threads thr).wt_context
    let w := modify_thread w thr (fun r => { r with wt_context := child_context })
    some ({ st1 with w := w }, true)

/-- Handler `of_FREE` (`%free`); `scope` is `cp->scope`, and `fuel` bounds
the loop of `vthread_free_context`. -/
def of_FREE (fuel : Nat) (st : ctx_world) (thr : Nat) (scope : vpiScope) :
    Option (ctx_world × Bool) :=
  let child_context := (st.w.threads thr).rd_context
  let w := modify_thread st.w thr
    (fun r => { r with rd_context := st.w.stacked_context child_context })
  match vthread_free_context fuel { st with w := w } child_context scope with
  | none => none
  | some st' => some (st', true)

/-- The context that `vthread_alloc_context` returns for the scope: the head
of the free list, or a new context when the list is empty. -/
def alloc_choice (st : ctx_world) (scope : vpiScope) : Nat :=
  if st.free_contexts scope.id ≠ 0 then st.free_contexts scope.id else st.ncontexts + 1

/-- The thread handlers act on the thread world and leave the lists of the
scopes alone. -/
def with_threads (st : ctx_world) (w : vvp_world) : ctx_world := { st with w := w }

/-- Two threads 0 and 1 in scope 0, no context yet; scope 1 is automatic. -/
def ctx_start : ctx_world :=
  { w := vthread_new (vthread_new world_empty 0) 0, next_context := fun _ => 0,
    free_contexts := fun _ => 0, live_contexts := fun _ => 0, ncontexts := 0 }

/-! ## The function evaluator of `net_func_eval.cc` -/

/-- Modelled from the spec: the bit values `verinum::V`. -/
inductive verinum_V where
  | V0 | V1 | Vx | Vz
deriving DecidableEq

/-- Modelled from the spec: a `verinum`, its bits from the least significant
one on, and its sign flag. -/
structure verinum where
  bits : List verinum_V
  has_sign : Bool
deriving DecidableEq

/-- The object that an evaluation returns: a `NetEConst` with its `verinum`,
or a `NetECReal` (the `verireal` is a rational number here). A null pointer
is `none` of `Option eval_value`. -/
inductive eval_value where
  | NetEConst (value : verinum)
  | NetECReal (value : Rat)
deriving DecidableEq

/-- Modelled from the spec: `expr_width()` of a result object. -/
def eval_value.expr_width : eval_value → Nat
  | .NetEConst v => v.bits.length
  | .NetECReal _ => 1

/-- Modelled from the spec: `make_const_x(wid)`, the unsigned constant of
`wid` bits X. -/
def make_const_x (wid : Nat) : eval_value := .NetEConst ⟨List.replicate wid .Vx, false⟩

/-- Modelled from the spec: `make_const_0(wid)`. -/
def make_const_0 (wid : Nat) : eval_value := .NetEConst ⟨List.replicate wid .V0, false⟩

/-- Modelled from the spec: the number of the bits of a `verinum` read as an
unsigned binary number, with X and Z read as 0. -/
def verinum_nat : List verinum_V → Nat
  | [] => 0
  | b :: bs => (if b = .V1 then 1 else 0) + 2 * verinum_nat bs

/-- Modelled from the spec: `verinum::as_long()`, which is 0 when a bit is X
or Z, and else the value of the bits, in two's complement when the number is
signed. -/
def verinum.as_long (v : verinum) : Int :=
  if v.bits.any (fun b => b = .Vx ∨ b = .Vz) then 0
  else if v.has_sign = true ∧ v.bits.getLast? = some .V1 then
    (verinum_nat v.bits : Int) - 2 ^ v.bits.length
  else (verinum_nat v.bits : Int)

/-- Modelled from the spec: the bit that extends a `verinum`: its top bit
when it is signed, else 0. -/
def verinum.pad_bit (v : verinum) : verinum_V :=
  if v.has_sign = true then v.bits.getLast?.getD .V0 else .V0

/-- Modelled from the spec: `pad_to_width(value, wid)` on a `verinum`: the
number is extended to `wid` bits, and not changed when it is as wide
already. -/
def verinum.pad_to_width (v : verinum) (wid : Nat) : verinum :=
  ⟨v.bits ++ List.replicate (wid - v.bits.length) v.pad_bit, v.has_sign⟩

/-- Modelled from the spec: `cast_to_width(value, wid)` and the constructor
`verinum(value, wid)`: the number cut or extended to exactly `wid` bits. -/
def verinum.cast_to_width (v : verinum) (wid : Nat) : verinum :=
  ⟨(v.bits ++ List.replicate (wid - v.bits.length) v.pad_bit).take wid, v.has_sign⟩

/-- Modelled from the spec: `verinum::operator[]` at a `long` index: a read
outside the number gives X. -/
def verinum.get (v : verinum) (idx : Int) : verinum_V :=
  if 0 ≤ idx then v.bits.getD idx.toNat .Vx else .Vx

/-- Modelled from the spec: `verinum::set(unsigned idx, V val)`, which
asserts `idx < len()`; the argument is the `long` that the caller passes,
which the call converts to `unsigned`, and the result is `none` outside the
number. -/
def verinum.set (v : verinum) (idx : Int) (val : verinum_V) : Option verinum :=
  if (idx % 2 ^ 32).toNat < v.bits.length then
    some ⟨v.bits.set (idx % 2 ^ 32).toNat val, v.has_sign⟩
  else none

/-- Modelled from the spec: the fields of a `NetNet` that the evaluator
reads: `name()`, `vector_width()`, `get_signed()`, whether `port_type()` is
not `NOT_A_PORT`, and the map `sb_to_idx` from a declared index to the
canonical one. -/
structure NetNet where
  name : String
  vector_width : Nat
  get_signed : Bool
  is_port : Bool
  sb_to_idx : Int → Int

/-- The values of `ivl_variable_type_t` that the evaluator tells apart. -/
inductive ivl_variable_type_t where
  | IVL_VT_REAL | IVL_VT_BOOL | IVL_VT_LOGIC | IVL_VT_other
deriving DecidableEq

/-- The field `type_` of a `NetCase`. -/
inductive NetCase_TYPE where
  | EQ | EQX | EQZ
deriving DecidableEq

/-- Modelled from the spec: the results of `const_logical`. -/
inductive const_bool where
  | C_NON | C_0 | C_1 | C_X
deriving DecidableEq

/-- Modelled from the spec: `const_logical(expr)` on a result object: `C_1`
when a bit is 1, else `C_X` when a bit is X or Z, else `C_0`. -/
def const_logical : eval_value → const_bool
  | .NetEConst v =>
    if v.bits.any (fun b => b = .V1) then .C_1
    else if v.bits.any (fun b => b = .Vx ∨ b = .Vz) then .C_X
    else .C_0
  | .NetECReal r => if r = 0 then .C_0 else .C_1

/-- Function `fix_assign_value`; `rhs` may be null. -/
def fix_assign_value (lhs : NetNet) (rhs : Option eval_value) : Option eval_value :=
  match rhs with
  | some (.NetEConst value) =>
    let lhs_width := lhs.vector_width
    let rhs_width := value.bits.length
    let value :=
      if rhs_width < lhs_width then value.pad_to_width lhs_width
      else if rhs_width > lhs_width then value.cast_to_width lhs_width
      else value
    some (.NetEConst { value with has_sign := lhs.get_signed })
  | rhs => rhs

/-- The map `context_map` of one function evaluation, a `std::map` from the
names to the values (or null): a list of pairs with different keys. -/
abbrev context_map_t := List (String × Option eval_value)

/-- The statement `context_map[key] = value`: the entry is assigned, and
created when the key is new. -/
def map_assign (m : context_map_t) (key : String) (value : Option eval_value) : context_map_t :=
  if m.any (fun p => p.1 = key) then m.map (fun p => if p.1 = key then (key, value) else p)
  else m ++ [(key, value)]

/-- The call `context_map.find(key)`: `none` is `end()`, else the value
`ptr->second` of the entry. -/
def map_find (m : context_map_t) (key : String) : Option (Option eval_value) :=
  (m.find? (fun p => p.1 = key)).map Prod.snd

/-- The statement `ptr->second = value` for the entry `ptr` of `key`. -/
def map_put (m : context_map_t) (key : String) (value : Option eval_value) : context_map_t :=
  m.map (fun p => if p.1 = key then (key, value) else p)

/-- The statement `context_map.erase(ptr)` for the entry `ptr` of `key`. -/
def map_erase (m : context_map_t) (key : String) : context_map_t :=
  m.filter (fun p => p.1 ≠ key)

/-- The keys of the map. -/
def map_keys (m : context_map_t) : List String := m.map Prod.fst

/-- What an evaluation reads and writes: the `context_map` of the function
that is evaluated, and the file-level variable `disable`, a scope or null. -/
structure eval_state where
  context_map : context_map_t
  disable : Option Nat
deriving DecidableEq

/-- The state with another `context_map`. -/
def eval_state.set_map (st : eval_state) (m : context_map_t) : eval_state :=
  { st with context_map := m }

/-- The value to which `NetESignal::evaluate_function` binds a name that has
no value yet; null for a type that it cannot initialize. -/
def NetESignal_initial (expr_type : ivl_variable_type_t) (expr_width : Nat) :
    Option eval_value :=
  match expr_type with
  | .IVL_VT_REAL => some (.NetECReal 0)
  | .IVL_VT_BOOL => some (make_const_0 expr_width)
  | .IVL_VT_LOGIC => some (make_const_x expr_width)
  | .IVL_VT_other => none

/-- Method `NetESignal::evaluate_function`; `word` says that `word_` is not
null. -/
def NetESignal_evaluate_function (name : String) (word : Bool)
    (expr_type : ivl_variable_type_t) (expr_width : Nat) (st : eval_state) :
    Option eval_value × eval_state :=
  if word = true then (none, st)
  else
    match map_find st.context_map name with
    | none => (none, st)
    | some (some v) => (some v, st)
    | some none =>
      match NetESignal_initial expr_type expr_width with
      | none => (none, st)
      | some v => (some v, st.set_map (map_put st.context_map name (some v)))

/-- The loop of `NetCase::evaluate_function_vect_` over the bits of one
guard: the value of `match` after it. -/
def NetCase_match (type_ : NetCase_TYPE) : List verinum_V → List verinum_V → Bool
  | bit_a :: ra, bit_b :: rb =>
    if bit_a = .Vx ∧ type_ = .EQX then NetCase_match type_ ra rb
    else if bit_b = .Vx ∧ type_ = .EQX then NetCase_match type_ ra rb
    else if bit_a = .Vz ∧ type_ ≠ .EQ then NetCase_match type_ ra rb
    else if bit_b = .Vz ∧ type_ ≠ .EQ then NetCase_match type_ ra rb
    else if bit_a ≠ bit_b then false
    else NetCase_match type_ ra rb
  | _, _ => true

/-- The loop of `NetAssign::evaluate_function` that stores the bits of
`rval_v` in `lval_v` from `base` on; `idx` is the index of the first bit of
the list. -/
def NetAssign_splice (base : Int) : List verinum_V → Nat → verinum → Option verinum
  | [], _, lval_v => some lval_v
  | b :: bs, idx, lval_v =>
    match lval_v.set ((idx : Int) + base) b with
    | none => none
    | some v => NetAssign_splice base bs (idx + 1) v

/-- The loop of `NetESelect::evaluate_function` that reads the `wid` bits of
`sub` from `base` on. -/
def NetESelect_bits (sub : verinum) (base : Int) (wid : Nat) : List verinum_V :=
  (List.range wid).map (fun idx => sub.get (base + (idx : Int)))

/-- The loop of `NetFuncDef::evaluate_function` that loads the input ports
into the map. -/
def load_ports : List NetNet → List (Option eval_value) → context_map_t → context_map_t
  | port :: ports, arg :: args, m =>
    load_ports ports args (map_assign m port.name (fix_assign_value port arg))
  | _, _, m => m

/-- Method `NetScope::evaluate_function_find_locals`; `signals` are the
values of `signals_map_`. -/
def evaluate_function_find_locals : List NetNet → context_map_t → context_map_t
  | [], m => m
  | tmp :: rest, m =>
    if tmp.is_port = true then evaluate_function_find_locals rest m
    else evaluate_function_find_locals rest (map_assign m tmp.name none)

/-- The statements of `NetAssign::evaluate_function` for an l-value with a
part select, after the base expression has given the constant `base_const`:
the result is `none` when an assertion fails or a cast gives null where the
code does not expect it. -/
def NetAssign_part (sig : NetNet) (lwidth : Nat) (base_const : verinum)
    (rval_result : eval_value) (st : eval_state) : Option (Bool × eval_state) :=
  let base := sig.sb_to_idx base_const.as_long
  match map_find st.context_map sig.name with
  | none => none
  | some second =>
    let second := match second with
      | none => make_const_x sig.vector_width
      | some v => v
    if base + (lwidth : Int) ≤ (second.expr_width : Int) then
      match second, rval_result with
      | .NetEConst lval_v, .NetEConst rval_v =>
        match NetAssign_splice base (rval_v.cast_to_width lwidth).bits 0 lval_v with
        | none => none
        | some v =>
          some (true, st.set_map (map_put st.context_map sig.name (some (.NetEConst v))))
      | _, _ => none
    else none

mutual
/-- The expression classes that override `evaluate_function`, with the
fields that the methods read; `other` is a class that inherits
`NetExpr::evaluate_function`. Modelled from the spec: the methods
`eval_arguments_`, `blended_arguments_`, `evaluate_one_arg_` and
`evaluate_two_arg_`, whose code is elsewhere, are carried by the node as
functions on result objects; `built_in` says that `built_in_id_()` is not
`NOT_BUILT_IN`. -/
inductive NetExpr where
  | NetEConst (value_ : verinum)
  | NetECReal (value_ : Rat)
  | NetESignal (name : String) (word_ : Bool) (expr_type : ivl_variable_type_t)
      (expr_width : Nat)
  | NetEBinary (eval_arguments_ : eval_value → eval_value → Option eval_value)
      (left_ right_ : NetExpr)
  | NetEConcat (eval_arguments_ : List eval_value → Nat → Option eval_value)
      (parms_ : List NetExpr)
  | NetESelect (expr_ : NetExpr) (base_ : Option NetExpr) (has_sign : Bool) (expr_width : Nat)
  | NetETernary (blended_arguments_ : Option eval_value → Option eval_value → Option eval_value)
      (cond_ true_val_ false_val_ : NetExpr)
  | NetEUnary (eval_arguments_ : eval_value → Option eval_value) (expr_ : NetExpr)
  | NetESFunc (built_in : Bool) (nargs_ : Nat)
      (evaluate_one_arg_ : eval_value → Option eval_value)
      (evaluate_two_arg_ : eval_value → eval_value → Option eval_value)
      (parms_ : List NetExpr)
  | NetEUFunc (func_def : Option NetFuncDef) (parms_ : List NetExpr)
  | other
/-- The statement classes that override `evaluate_function`; `other` is a
class that inherits `NetProc::evaluate_function`. The statements of a block
are listed from `last_->next_` to `last_`; `expr_type` of a `NetCase` is
`expr_->expr_type()`. -/
inductive NetProc where
  | NetAssign (l_vals : List NetAssign_) (rval : NetExpr)
  | NetBlock (subscope_ : Option Nat) (statements : List NetProc)
  | NetCase (type_ : NetCase_TYPE) (expr_type : ivl_variable_type_t) (expr_ : NetExpr)
      (items_ : List (Option NetExpr × Option NetProc))
  | NetCondit (expr_ : NetExpr) (if_ else_ : Option NetProc)
  | NetDisable (target_ : Option Nat)
  | NetForever (statement_ : NetProc)
  | NetRepeat (expr_ : NetExpr) (statement_ : NetProc)
  | NetSTask
  | NetWhile (cond_ : NetExpr) (proc_ : NetProc)
  | other
/-- An l-value `NetAssign_`: its signal `sig()`, whether `word()` is not
null, the base expression `get_base()` and `lwidth()`. -/
inductive NetAssign_ where
  | mk (sig : NetNet) (word : Bool) (base : Option NetExpr) (lwidth : Nat)
/-- A function definition: `scope_->basename()`, the ports `ports_`, the
signals of `scope_` and the statement `statement_`. -/
inductive NetFuncDef where
  | mk (basename : String) (ports_ : List NetNet) (signals_ : List NetNet)
      (statement_ : Option NetProc)
end

mutual
/-- The methods `evaluate_function` of the expression classes. The first
argument bounds the depth of the calls; the result is `none` when the bound
is reached, an assertion fails or a null pointer is dereferenced, and else
the pointer returned (`none` for null) and the state left. -/
def NetExpr.evaluate_function :
    Nat → NetExpr → eval_state → Option (Option eval_value × eval_state)
  | 0, _, _ => none
  | _ + 1, .NetEConst value_, st => some (some (.NetEConst value_), st)
  | _ + 1, .NetECReal value_, st => some (some (.NetECReal value_), st)
  | _ + 1, .NetESignal name word_ expr_type expr_width, st =>
    some (NetESignal_evaluate_function name word_ expr_type expr_width st)
  | fuel + 1, .NetEBinary eval_arguments_ left_ right_, st =>
    match NetExpr.evaluate_function fuel left_ st with
    | none => none
    | some (lval, st1) =>
      match NetExpr.evaluate_function fuel right_ st1 with
      | none => none
      | some (rval, st2) =>
        match lval, rval with
        | some lval, some rval => some (eval_arguments_ lval rval, st2)
        | _, _ => some (none, st2)
  | fuel + 1, .NetEConcat eval_arguments_ parms_, st =>
    match evaluate_parms fuel parms_ st with
    | none => none
    | some (vals, st1) =>
      let valid := vals.filterMap id
      let gap := (valid.map eval_value.expr_width).sum
      if valid.length = parms_.length then some (eval_arguments_ valid gap, st1)
      else some (none, st1)
  | fuel + 1, .NetESelect expr_ base_ has_sign expr_width, st =>
    match NetExpr.evaluate_function fuel expr_ st with
    | some (some (.NetEConst sub), st1) =>
      match base_ with
      | some base_ =>
        match NetExpr.evaluate_function fuel base_ st1 with
        | some (some (.NetEConst base_const), st2) =>
          some (some (.NetEConst ⟨NetESelect_bits sub base_const.as_long expr_width, false⟩), st2)
        | _ => none
      | none =>
        let sub := ({ sub with has_sign := has_sign } : verinum).pad_to_width expr_width
        some (some (.NetEConst ⟨NetESelect_bits sub 0 expr_width, false⟩), st1)
    | _ => none
  | fuel + 1, .NetETernary blended_arguments_ cond_ true_val_ false_val_, st =>
    match NetExpr.evaluate_function fuel cond_ st with
    | none => none
    | some (none, _) => none
    | some (some cval, st1) =>
      match const_logical cval with
      | .C_0 => NetExpr.evaluate_function fuel false_val_ st1
      | .C_1 => NetExpr.evaluate_function fuel true_val_ st1
      | .C_NON => some (none, st1)
      | .C_X =>
        match NetExpr.evaluate_function fuel true_val_ st1 with
        | none => none
        | some (tval, st2) =>
          match NetExpr.evaluate_function fuel false_val_ st2 with
          | none => none
          | some (fval, st3) => some (blended_arguments_ tval fval, st3)
  | fuel + 1, .NetEUnary eval_arguments_ expr_, st =>
    match NetExpr.evaluate_function fuel expr_ st with
    | none => none
    | some (none, st1) => some (none, st1)
    | some (some val, st1) => some (eval_arguments_ val, st1)
  | fuel + 1, .NetESFunc built_in nargs_ evaluate_one_arg_ evaluate_two_arg_ parms_, st =>
    if built_in = false then none
    else
      match nargs_, parms_ with
      | 1, p0 :: _ =>
        match NetExpr.evaluate_function fuel p0 st with
        | none => none
        | some (none, st1) => some (none, st1)
        | some (some val0, st1) => some (evaluate_one_arg_ val0, st1)
      | 2, p0 :: p1 :: _ =>
        match NetExpr.evaluate_function fuel p0 st with
        | none => none
        | some (val0, st1) =>
          match NetExpr.evaluate_function fuel p1 st1 with
          | none => none
          | some (val1, st2) =>
            match val0, val1 with
            | some val0, some val1 => some (evaluate_two_arg_ val0 val1, st2)
            | _, _ => some (none, st2)
      | _, _ => none
  | fuel + 1, .NetEUFunc func_def parms_, st =>
    match func_def with
    | none => none
    | some func_def =>
      match evaluate_parms fuel parms_ st with
      | none => none
      | some (args, st1) =>
        match NetFuncDef.evaluate_function fuel func_def args st1.disable with
        | none => none
        | some (res, disable) => some (res, { st1 with disable := disable })
  | _ + 1, .other, st => some (none, st)
/-- The loop `vals[idx] = parms_[idx]->evaluate_function(loc, context_map)`
of `NetEConcat` and `NetEUFunc`: the pointers, null ones among them. -/
def evaluate_parms :
    Nat → List NetExpr → eval_state → Option (List (Option eval_value) × eval_state)
  | 0, _, _ => none
  | _ + 1, [], st => some ([], st)
  | fuel + 1, parm :: parms, st =>
    match NetExpr.evaluate_function fuel parm st with
    | none => none
    | some (val, st1) =>
      match evaluate_parms fuel parms st1 with
      | none => none
      | some (vals, st2) => some (val :: vals, st2)
/-- Method `NetFuncDef::evaluate_function`: the pointer returned and the
value of `disable` left. -/
def NetFuncDef.evaluate_function :
    Nat → NetFuncDef → List (Option eval_value) → Option Nat →
      Option (Option eval_value × Option Nat)
  | 0, _, _, _ => none
  | fuel + 1, .mk basename ports_ signals_ statement_, args, disable =>
    let context_map := map_assign [] basename none
    if ports_.length ≠ args.length then none
    else
      let context_map := load_ports ports_ args context_map
      let context_map := evaluate_function_find_locals signals_ context_map
      let r : Option (Bool × eval_state) :=
        match statement_ with
        | none => some (false, ⟨context_map, disable⟩)
        | some statement_ => NetProc.evaluate_function fuel statement_ ⟨context_map, disable⟩
      match r with
      | none => none
      | some (flag, st) =>
        match map_find st.context_map basename with
        | none => none
        | some res => if flag = true then some (res, st.disable) else some (none, st.disable)
/-- The methods `evaluate_function` of the statement classes. -/
def NetProc.evaluate_function : Nat → NetProc → eval_state → Option (Bool × eval_state)
  | 0, _, _ => none
  | fuel + 1, .NetAssign l_vals rval, st =>
    match l_vals with
    | [.mk sig word base lwidth] =>
      match map_find st.context_map sig.name with
      | none => none
      | some _ =>
        if word = true then none
        else
          match NetExpr.evaluate_function fuel rval st with
          | none => none
          | some (none, st1) => some (false, st1)
          | some (some rval_result, st1) =>
            match base with
            | some base_expr =>
              match NetExpr.evaluate_function fuel base_expr st1 with
              | none => none
              | some (none, st2) => some (false, st2)
              | some (some (.NetECReal _), _) => none
              | some (some (.NetEConst base_const), st2) =>
                NetAssign_part sig lwidth base_const rval_result st2
            | none =>
              some (true, st1.set_map
                (map_put st1.context_map sig.name (fix_assign_value sig (some rval_result))))
    | _ => some (false, st)
  | fuel + 1, .NetBlock subscope_ statements, st =>
    match NetBlock_loop fuel statements true st with
    | none => none
    | some (flag, st1) =>
      some (flag, if st1.disable = subscope_ then { st1 with disable := none } else st1)
  | fuel + 1, .NetCase type_ expr_type expr_ items_, st =>
    if expr_type = .IVL_VT_REAL then
      match NetExpr.evaluate_function fuel expr_ st with
      | none => none
      | some (none, st1) => some (false, st1)
      | some (some (.NetEConst _), _) => none
      | some (some (.NetECReal case_val), st1) =>
        NetCase_real_loop fuel case_val items_ none st1
    else
      match NetExpr.evaluate_function fuel expr_ st with
      | none => none
      | some (none, st1) => some (false, st1)
      | some (some (.NetECReal _), _) => none
      | some (some (.NetEConst case_val), st1) =>
        NetCase_vect_loop fuel type_ case_val items_ none st1
  | fuel + 1, .NetCondit expr_ if_ else_, st =>
    match NetExpr.evaluate_function fuel expr_ st with
    | none => none
    | some (none, st1) => some (false, st1)
    | some (some (.NetECReal _), _) => none
    | some (some (.NetEConst cond_const), st1) =>
      if cond_const.as_long ≠ 0 then
        match if_ with
        | none => some (true, st1)
        | some if_ => NetProc.evaluate_function fuel if_ st1
      else
        match else_ with
        | none => some (true, st1)
        | some else_ => NetProc.evaluate_function fuel else_ st1
  | _ + 1, .NetDisable target_, st => some (true, { st with disable := target_ })
  | fuel + 1, .NetForever statement_, st => NetForever_loop fuel statement_ true st
  | fuel + 1, .NetRepeat expr_ statement_, st =>
    match NetExpr.evaluate_function fuel expr_ st with
    | none => none
    | some (none, st1) => some (false, st1)
    | some (some (.NetECReal _), _) => none
    | some (some (.NetEConst count_const), st1) =>
      NetRepeat_loop fuel statement_ count_const.as_long true st1
  | _ + 1, .NetSTask, st => some (true, st)
  | fuel + 1, .NetWhile cond_ proc_, st => NetWhile_loop fuel cond_ proc_ true st
  | _ + 1, .other, st => some (false, st)
/-- The loop of `NetBlock::evaluate_function` from the statement `cur` on;
the empty list is a block with `last_ == 0`. -/
def NetBlock_loop : Nat → List NetProc → Bool → eval_state → Option (Bool × eval_state)
  | 0, _, _, _ => none
  | _ + 1, [], _, _ => none
  | fuel + 1, cur :: rest, flag, st =>
    match NetProc.evaluate_function fuel cur st with
    | none => none
    | some (cur_flag, st1) =>
      if rest.isEmpty = false ∧ st1.disable = none then NetBlock_loop fuel rest (flag && cur_flag) st1
      else some (flag && cur_flag, st1)
/-- The loop of `NetCase::evaluate_function_vect_` over the items, and the
statements after it. -/
def NetCase_vect_loop : Nat → NetCase_TYPE → verinum →
    List (Option NetExpr × Option NetProc) → Option NetProc → eval_state →
      Option (Bool × eval_state)
  | 0, _, _, _, _, _ => none
  | fuel + 1, _, _, [], default_statement, st =>
    match default_statement with
    | none => some (true, st)
    | some default_statement => NetProc.evaluate_function fuel default_statement st
  | fuel + 1, type_, case_val, (none, statement) :: rest, _, st =>
    NetCase_vect_loop fuel type_ case_val rest statement st
  | fuel + 1, type_, case_val, (some guard, statement) :: rest, default_statement, st =>
    match NetExpr.evaluate_function fuel guard st with
    | none => none
    | some (none, st1) => some (false, st1)
    | some (some (.NetECReal _), _) => none
    | some (some (.NetEConst item_val), st1) =>
      if item_val.bits.length ≠ case_val.bits.length then none
      else if NetCase_match type_ case_val.bits item_val.bits = false then
        NetCase_vect_loop fuel type_ case_val rest default_statement st1
      else
        match statement with
        | none => none
        | some statement => NetProc.evaluate_function fuel statement st1
/-- The loop of `NetCase::evaluate_function_real_` over the items, and the
statements after it. -/
def NetCase_real_loop : Nat → Rat →
    List (Option NetExpr × Option NetProc) → Option NetProc → eval_state →
      Option (Bool × eval_state)
  | 0, _, _, _, _ => none
  | fuel + 1, _, [], default_statement, st =>
    match default_statement with
    | none => some (true, st)
    | some default_statement => NetProc.evaluate_function fuel default_statement st
  | fuel + 1, case_val, (none, statement) :: rest, _, st =>
    NetCase_real_loop fuel case_val rest statement st
  | fuel + 1, case_val, (some guard, statement) :: rest, default_statement, st =>
    match NetExpr.evaluate_function fuel guard st with
    | none => none
    | some (none, st1) => some (false, st1)
    | some (some (.NetEConst _), _) => none
    | some (some (.NetECReal item_val), st1) =>
      if item_val ≠ case_val then NetCase_real_loop fuel case_val rest default_statement st1
      else
        match statement with
        | none => none
        | some statement => NetProc.evaluate_function fuel statement st1
/-- The loop of `NetForever::evaluate_function`. -/
def NetForever_loop : Nat → NetProc → Bool → eval_state → Option (Bool × eval_state)
  | 0, _, _, _ => none
  | fuel + 1, statement_, flag, st =>
    if flag = true ∧ st.disable = none then
      match NetProc.evaluate_function fuel statement_ st with
      | none => none
      | some (cur_flag, st1) => NetForever_loop fuel statement_ (flag && cur_flag) st1
    else some (flag, st)
/-- The loop of `NetRepeat::evaluate_function`. -/
def NetRepeat_loop : Nat → NetProc → Int → Bool → eval_state → Option (Bool × eval_state)
  | 0, _, _, _, _ => none
  | fuel + 1, statement_, count, flag, st =>
    if count > 0 ∧ flag = true ∧ st.disable = none then
      match NetProc.evaluate_function fuel statement_ st with
      | none => none
      | some (cur_flag, st1) => NetRepeat_loop fuel statement_ (count - 1) (flag && cur_flag) st1
    else some (flag, st)
/-- The loop of `NetWhile::evaluate_function`. -/
def NetWhile_loop : Nat → NetExpr → NetProc → Bool → eval_state → Option (Bool × eval_state)
  | 0, _, _, _, _ => none
  | fuel + 1, cond_, proc_, flag, st =>
    if flag = true ∧ st.disable = none then
      match NetExpr.evaluate_function fuel cond_ st with
      | none => none
      | some (none, st1) => some (false, st1)
      | some (some (.NetECReal _), _) => none
      | some (some (.NetEConst cond_const), st1) =>
        if cond_const.as_long = 0 then some (flag, st1)
        else
          match NetProc.evaluate_function fuel proc_ st1 with
          | none => none
          | some (tmp_flag, st2) =>
            NetWhile_loop fuel cond_ proc_ (if tmp_flag = false then false else flag) st2
    else some (flag, st)
end

/-! ## Properties of the function evaluator -/

/-- The map `m'` has the keys of `m`, in the same order, and every value of
`m` that is not null: only null entries may have changed. -/
def map_le (m m' : context_map_t) : Prop :=
  map_keys m' = map_keys m ∧
    ∀ k v, map_find m k = some (some v) → map_find m' k = some (some v)

/-- The guard matches the selector, in the words of the specification: for
`case` the bits are equal at every position; for `casez` the positions where
either bit is Z are ignored; for `casex` the positions where either bit is X
or Z are ignored. -/
def spec_case_match (type_ : NetCase_TYPE) (sel guard : List verinum_V) : Prop :=
  ∀ i, i < guard.length →
    match type_ with
    | .EQ => sel.getD i .Vx = guard.getD i .Vx
    | .EQZ => sel.getD i .Vx = .Vz ∨ guard.getD i .Vx = .Vz ∨ sel.getD i .Vx = guard.getD i .Vx
    | .EQX =>
      (sel.getD i .Vx = .Vx ∨ sel.getD i .Vx = .Vz) ∨
      (guard.getD i .Vx = .Vx ∨ guard.getD i .Vx = .Vz) ∨
      sel.getD i .Vx = guard.getD i .Vx

/-- The keys of the context map after a statement are the keys before it, in
the same order. -/
def keys_kept (st st' : eval_state) : Prop :=
  map_keys st'.context_map = map_keys st.context_map

/-- The statements of a block evaluated in order, in the words of the
specification: `block_run fuel l st fs st'` says that the statements of `l`
are evaluated one after the other from the state `st` on, each in the state
that the one before it has left, up to and including the first statement
that leaves `disable` set, or the last statement of the block; `fs` holds the
result of each statement evaluated and `st'` is the state that the last of
them leaves. The statement at the head is evaluated with the bound `fuel - 1`
on the depth of its calls, the next with `fuel - 2`, and so on. -/
inductive block_run : Nat → List NetProc → eval_state → List Bool → eval_state → Prop where
  | last (fuel : Nat) (cur : NetProc) (rest : List NetProc) (st : eval_state) (f : Bool)
      (st1 : eval_state) :
      NetProc.evaluate_function fuel cur st = some (f, st1) →
      (rest = [] ∨ st1.disable ≠ none) → block_run (fuel + 1) (cur :: rest) st [f] st1
  | next (fuel : Nat) (cur : NetProc) (rest : List NetProc) (st : eval_state) (f : Bool)
      (st1 : eval_state) (fs : List Bool) (st' : eval_state) :
      NetProc.evaluate_function fuel cur st = some (f, st1) →
      rest ≠ [] → st1.disable = none → block_run fuel rest st1 fs st' →
      block_run (fuel + 1) (cur :: rest) st (f :: fs) st'

/-- The guards that do not match, in the words of the specification:
`guards_skipped type_ case_val fuel items dflt st fuel' dflt' st'` says that
the guards of `items` are evaluated in declaration order from the state `st`
on, each in the state that the one before it has left, that each gives a
constant of the width of the selector `case_val` that does not match it, and
that `st'` is the state after the last of them; an item without a guard is a
default item, and `dflt'` is the statement of the last default item among
`items`, or `dflt` when there is none. The bound on the depth of the calls is
`fuel` at the first item and `fuel'` after the last. -/
inductive guards_skipped (type_ : NetCase_TYPE) (case_val : verinum) :
    Nat → List (Option NetExpr × Option NetProc) → Option NetProc → eval_state →
      Nat → Option NetProc → eval_state → Prop where
  | done (fuel : Nat) (dflt : Option NetProc) (st : eval_state) :
      guards_skipped type_ case_val fuel [] dflt st fuel dflt st
  | default_item (fuel : Nat) (statement : Option NetProc)
      (rest : List (Option NetExpr × Option NetProc)) (dflt : Option NetProc) (st : eval_state)
      (fuel' : Nat) (dflt' : Option NetProc) (st' : eval_state) :
      guards_skipped type_ case_val fuel rest statement st fuel' dflt' st' →
      guards_skipped type_ case_val (fuel + 1) ((none, statement) :: rest) dflt st fuel' dflt' st'
  | guard_item (fuel : Nat) (guard : NetExpr) (statement : Option NetProc)
      (rest : List (Option NetExpr × Option NetProc)) (dflt : Option NetProc) (st : eval_state)
      (item_val : verinum) (st1 : eval_state)
      (fuel' : Nat) (dflt' : Option NetProc) (st' : eval_state) :
      NetExpr.evaluate_function fuel guard st = some (some (.NetEConst item_val), st1) →
      item_val.bits.length = case_val.bits.length →
      ¬ spec_case_match type_ case_val.bits item_val.bits →
      guards_skipped type_ case_val fuel rest dflt st1 fuel' dflt' st' →
      guards_skipped type_ case_val (fuel + 1) ((some guard, statement) :: rest) dflt st
        fuel' dflt' st'

/-- The outcomes of a case statement with the selector value `case_val`, in
the words of the specification. `matched`: the guards before an item do not
match, the guard of the item matches, and the result is the result of the
statement of that item. `default_run`: no guard matches, there is a default
statement, and the result is its result. `no_match`: no guard matches, there
is no default statement, the result is true and the state is the state after
the guards. `guard_failed`: the guards before an item do not match, the
guard of the item gives null, and the result is false. -/
inductive case_outcome (type_ : NetCase_TYPE) (case_val : verinum) (fuel : Nat)
    (items : List (Option NetExpr × Option NetProc)) (dflt : Option NetProc) (st : eval_state)
    (b : Bool) (st' : eval_state) : Prop where
  | matched (pre : List (Option NetExpr × Option NetProc)) (guard : NetExpr)
      (statement : NetProc) (post : List (Option NetExpr × Option NetProc)) (fuel1 : Nat)
      (d : Option NetProc) (st1 : eval_state) (item_val : verinum) (st2 : eval_state) :
      items = pre ++ (some guard, some statement) :: post →
      guards_skipped type_ case_val fuel pre dflt st (fuel1 + 1) d st1 →
      NetExpr.evaluate_function fuel1 guard st1 = some (some (.NetEConst item_val), st2) →
      item_val.bits.length = case_val.bits.length →
      spec_case_match type_ case_val.bits item_val.bits →
      NetProc.evaluate_function fuel1 statement st2 = some (b, st') →
      case_outcome type_ case_val fuel items dflt st b st'
  | default_run (fuel1 : Nat) (statement : NetProc) (st1 : eval_state) :
      guards_skipped type_ case_val fuel items dflt st (fuel1 + 1) (some statement) st1 →
      NetProc.evaluate_function fuel1 statement st1 = some (b, st') →
      case_outcome type_ case_val fuel items dflt st b st'
  | no_match (fuel1 : Nat) :
      guards_skipped type_ case_val fuel items dflt st (fuel1 + 1) none st' →
      b = true →
      case_outcome type_ case_val fuel items dflt st b st'
  | guard_failed (pre : List (Option NetExpr × Option NetProc)) (guard : NetExpr)
      (statement : Option NetProc) (post : List (Option NetExpr × Option NetProc)) (fuel1 : Nat)
      (d : Option NetProc) (st1 : eval_state) :
      items = pre ++ (some guard, statement) :: post →
      guards_skipped type_ case_val fuel pre dflt st (fuel1 + 1) d st1 →
      NetExpr.evaluate_function fuel1 guard st1 = some (none, st') →
      b = false →
      case_outcome type_ case_val fuel items dflt st b st'

/-- The context map with which `NetFuncDef::evaluate_function` starts the
evaluation of the statement. -/
def setup_map (basename : String) (ports_ signals_ : List NetNet)
    (args : List (Option eval_value)) : context_map_t :=
  evaluate_function_find_locals signals_ (load_ports ports_ args (map_assign [] basename none))

/-! ## Examples -/

/-- A signal of the given name and width, unsigned, whose declared indices
are the canonical ones. -/
def net_sig (name : String) (vector_width : Nat) (is_port : Bool) : NetNet :=
  { name := name, vector_width := vector_width, get_signed := false, is_port := is_port,
    sb_to_idx := fun i => i }

/-- The constant `4'b0101`. -/
def const_5 : verinum := ⟨[.V1, .V0, .V1, .V0], false⟩

/-- The constant `2'b11`. -/
def const_3 : verinum := ⟨[.V1, .V1], false⟩

/-- The constant `1` of 32 bits, as a base expression. -/
def const_1 : verinum := ⟨.V1 :: List.replicate 31 .V0, true⟩

/-- The constant `0` of 32 bits, as a base expression. -/
def const_0 : verinum := ⟨List.replicate 32 .V0, true⟩

/-- A whole assignment `name = rval`. -/
def assign_to (name : String) (vector_width : Nat) (rval : NetExpr) : NetProc :=
  .NetAssign [.mk (net_sig name vector_width false) false none vector_width] rval

/-- The statement `y[2:1] = x`, where `x` is a logic signal of 2 bits. -/
def assign_part : NetProc :=
  .NetAssign [.mk (net_sig "y" 4 false) false (some (.NetEConst const_1)) 2]
    (.NetESignal "x" false .IVL_VT_LOGIC 2)

/-- The statement `y[0] = y`, where `y` is a two-state signal of 4 bits. -/
def assign_self : NetProc :=
  .NetAssign [.mk (net_sig "y" 4 false) false (some (.NetEConst const_0)) 1]
    (.NetESignal "y" false .IVL_VT_BOOL 4)

/-- A context map with the return value `f`, the port `a` and the locals `x`
and `y`: `a` is `4'b0101`, the others have no value. -/
def ctx_fxy : eval_state :=
  ⟨[("f", none), ("a", some (.NetEConst const_5)), ("x", none), ("y", none)], none⟩

/-- The function `f` with the input `a` of 4 bits and the locals `x` and
`y`, whose statement is the system task call `$display`. -/
def func_display : NetFuncDef :=
  .mk "f" [net_sig "a" 4 true] [net_sig "a" 4 true, net_sig "x" 2 false, net_sig "y" 4 false]
    (some .NetSTask)

/-- The function `g` with the input `a` of 4 bits, whose statement is
`g = 2'b11`. -/
def func_const : NetFuncDef :=
  .mk "g" [net_sig "a" 4 true] [net_sig "a" 4 true] (some (assign_to "g" 2 (.NetEConst const_3)))

/-- The function `h` with the input `a` of 4 bits, whose statement is
`h = a`. -/
def func_ident : NetFuncDef :=
  .mk "h" [net_sig "a" 4 true] [net_sig "a" 4 true]
    (some (assign_to "h" 4 (.NetESignal "a" false .IVL_VT_LOGIC 4)))

/-- The block with the sub-scope `subscope_` whose statements are
`disable 7` and `f = 2'b11`, where 7 names a scope. -/
def block_disable (subscope_ : Option Nat) : NetProc :=
  .NetBlock subscope_ [.NetDisable (some 7), assign_to "f" 2 (.NetEConst const_3)]

/-- The statement `case (x) 2'b11: f = 2'b11; endcase`, where `x` is a
logic signal of 2 bits. -/
def case_x : NetProc :=
  .NetCase .EQ .IVL_VT_LOGIC (.NetESignal "x" false .IVL_VT_LOGIC 2)
    [(some (.NetEConst const_3), some (assign_to "f" 2 (.NetEConst const_3)))]

/-- The context map `ctx_fxy` after a read of `x` as a logic signal of 2
bits. -/
def ctx_x_bound : eval_state :=
  ⟨[("f", none), ("a", some (.NetEConst const_5)), ("x", some (make_const_x 2)), ("y", none)],
    none⟩

/-- The context map `ctx_fxy` after the statement `y[2:1] = x`. -/
def ctx_fxy_assigned : eval_state :=
  ⟨[("f", none), ("a", some (.NetEConst const_5)), ("x", some (make_const_x 2)),
    ("y", some (make_const_x 4))], none⟩

/-! ## Dynamic arrays (`vvp/vvp_darray.cc`) -/

/-- Class `vvp_darray_real`: the vector `array_`; a `double` is a rational
number here. -/
structure vvp_darray_real where
  array_ : List Rat
deriving DecidableEq

/-- Method `vvp_darray_real::set_word`. -/
def vvp_darray_real.set_word (d : vvp_darray_real) (adr : Nat) (value : Rat) :
    vvp_darray_real :=
  if adr ≥ d.array_.length then d else ⟨d.array_.set adr value⟩

/-- Method `vvp_darray_real::get_word`: the value that it leaves in `value`. -/
def vvp_darray_real.get_word (d : vvp_darray_real) (adr : Nat) : Rat :=
  if adr ≥ d.array_.length then 0 else d.array_.getD adr 0

/-- Class `vvp_darray_string`: the vector `array_`. -/
structure vvp_darray_string where
  array_ : List String
deriving DecidableEq

/-- Method `vvp_darray_string::set_word`. -/
def vvp_darray_string.set_word (d : vvp_darray_string) (adr : Nat) (value : String) :
    vvp_darray_string :=
  if adr ≥ d.array_.length then d else ⟨d.array_.set adr value⟩

/-- Method `vvp_darray_string::get_word`: the value that it leaves in `value`. -/
def vvp_darray_string.get_word (d : vvp_darray_string) (adr : Nat) : String :=
  if adr ≥ d.array_.length then "" else d.array_.getD adr ""

/-- Class `vvp_darray_atom<TYPE>`: `sizeof_TYPE` is `sizeof(TYPE)` (1, 2, 4 or
8), and `array_` holds the words, each an integer in the range of `TYPE`. -/
structure vvp_darray_atom where
  sizeof_TYPE : Nat
  array_ : List Int
deriving DecidableEq

/-- The loop of `vvp_darray_atom<TYPE>::get_word` over the bits of `tmp`: bit
`idx` is 1 when `word & 1`, else it stays 0, and `word >>= 1` (an arithmetic
shift for a signed `TYPE`). The first argument is the number of bits left. -/
def vvp_darray_atom_bits : Nat → Int → List vvp_bit4_t
  | 0, _ => []
  | n + 1, word => (if word % 2 = 1 then BIT4_1 else BIT4_0) :: vvp_darray_atom_bits n (word >>> (1 : Nat))

/-- Method `vvp_darray_atom<TYPE>::get_word`: the vector that it leaves in
`value`. -/
def vvp_darray_atom.get_word (d : vvp_darray_atom) (adr : Nat) : List vvp_bit4_t :=
  if adr ≥ d.array_.length then List.replicate (8 * d.sizeof_TYPE) BIT4_X
  else vvp_darray_atom_bits (8 * d.sizeof_TYPE) (d.array_.getD adr 0)

/-! ## Scopes (`vvp/vpi_scope.cc`) -/

/-- Modelled from the spec: the property code `vpiType` of `vpi_user.h`. -/
def vpiType : Int := 1
/-- Modelled from the spec: the property code `vpiName` of `vpi_user.h`. -/
def vpiName : Int := 2
/-- Modelled from the spec: the property code `vpiFullName` of `vpi_user.h`. -/
def vpiFullName : Int := 3
/-- Modelled from the spec: the property code `vpiFile` of `vpi_user.h`. -/
def vpiFile : Int := 5
/-- Modelled from the spec: the property code `vpiDefName` of `vpi_user.h`. -/
def vpiDefName : Int := 9
/-- Modelled from the spec: the property code `vpiDefFile` of `vpi_user.h`. -/
def vpiDefFile : Int := 15
/-- Modelled from the spec: the object code `vpiFunction` of `vpi_user.h`. -/
def vpiFunction : Int := 20
/-- Modelled from the spec: the object code `vpiModule` of `vpi_user.h`. -/
def vpiModule : Int := 32
/-- Modelled from the spec: the object code `vpiNamedBegin` of `vpi_user.h`. -/
def vpiNamedBegin : Int := 33
/-- Modelled from the spec: the object code `vpiNamedFork` of `vpi_user.h`. -/
def vpiNamedFork : Int := 34
/-- Modelled from the spec: the object code `vpiTask` of `vpi_user.h`. -/
def vpiTask : Int := 59
/-- Modelled from the spec: the object code `vpiPackage` of `sv_vpi_user.h`. -/
def vpiPackage : Int := 600
/-- Modelled from the spec: the object code `vpiClassTypespec` of
`sv_vpi_user.h`. -/
def vpiClassTypespec : Int := 630

/-- The classes derived from `__vpiScope`. -/
inductive vpiScope_class where
  | vpiScopeModule | vpiScopePackage | vpiScopeTask | vpiScopeFunction
  | vpiScopeBegin | vpiScopeFork | vpiScopeClass
deriving DecidableEq

/-- The methods `get_type_code` of the classes derived from `__vpiScope`. -/
def vpiScope_class.get_type_code : vpiScope_class → Int
  | .vpiScopeModule => vpiModule
  | .vpiScopePackage => vpiPackage
  | .vpiScopeTask => vpiTask
  | .vpiScopeFunction => vpiFunction
  | .vpiScopeBegin => vpiNamedBegin
  | .vpiScopeFork => vpiNamedFork
  | .vpiScopeClass => vpiClassTypespec

/-- The fields of a `__vpiScope` that `scope_get_str` reads, and its class;
`scope` is the parent scope, or null. -/
inductive __vpiScope where
  | mk (cls : vpiScope_class) (name tname : String) (file_idx lineno : Nat)
      (def_file_idx def_lineno : Nat) (is_automatic is_cell : Bool) (scope : Option __vpiScope)

/-- Method `get_type_code` of a scope. -/
def __vpiScope.get_type_code : __vpiScope → Int
  | .mk cls _ _ _ _ _ _ _ _ _ => cls.get_type_code

/-- Function `compile_scope_decl`: the scope that it creates; `parent` is the
scope that `compile_vpi_lookup` finds for the parent label, if there is a
label. The result is `none` when `assert(0)` is reached. -/
def compile_scope_decl (type name : String) (tname : Option String)
    (parent : Option __vpiScope) (file_idx lineno def_file_idx def_lineno : Nat)
    (is_cell : Int) : Option __vpiScope :=
  let is_automatic := decide (type.take 4 = "auto")
  let base_type := if type.take 4 = "auto" then type.drop 4 else type
  let cls : Option vpiScope_class :=
    if base_type = "module" then some .vpiScopeModule
    else if base_type = "function" then some .vpiScopeFunction
    else if base_type = "task" then some .vpiScopeTask
    else if base_type = "fork" then some .vpiScopeFork
    else if base_type = "begin" then some .vpiScopeBegin
    else if base_type = "generate" then some .vpiScopeBegin
    else if base_type = "package" then some .vpiScopePackage
    else if base_type = "class" then some .vpiScopeClass
    else none
  match cls with
  | none => none
  | some cls =>
    some (.mk cls name (tname.getD "") file_idx lineno def_file_idx def_lineno is_automatic
      (decide (is_cell ≠ 0)) parent)

/-- Function `scope_get_type`: the string returned, or null. -/
def scope_get_type (code : Int) : Option String :=
  if code = vpiModule then some "vpiModule"
  else if code = vpiFunction then some "vpiFunction"
  else if code = vpiTask then some "vpiTask"
  else if code = vpiNamedBegin then some "vpiNamedBegin"
  else if code = vpiNamedFork then some "vpiNamedFork"
  else none

/-- Function `construct_scope_fullname`: the contents of `buf` after it. -/
def construct_scope_fullname : __vpiScope → String → String
  | .mk _ name _ _ _ _ _ _ _ none, buf => buf ++ name
  | .mk _ name _ _ _ _ _ _ _ (some scope), buf =>
    (construct_scope_fullname scope buf ++ ".") ++ name

/-- Function `scope_get_str`: the string `p` that it passes to
`simple_set_rbuf_str`, which copies it to the result buffer, or null (`none`)
when `p` is null or the function returns `NULL`. -/
def scope_get_str (file_names : List String) (code : Int) (ref : __vpiScope) : Option String :=
  match ref with
  | .mk _ name tname file_idx _ def_file_idx _ _ _ _ =>
    if code = vpiDefFile then file_names[def_file_idx]?
    else if code = vpiFile then file_names[file_idx]?
    else if code = vpiFullName then some (construct_scope_fullname ref "")
    else if code = vpiName then some name
    else if code = vpiDefName then some tname
    else if code = vpiType then scope_get_type code
    else none

/-- Method `__vpiScope::vpi_get_str`. -/
def __vpiScope.vpi_get_str (file_names : List String) (ref : __vpiScope) (code : Int) :
    Option String :=
  scope_get_str file_names code ref

/-! ## Compare with an immediate -/

/-- The bit loop of `of_CMPIS`, on (`eq`, `eeq`, `lt`); the arguments are the
number of iterations left, `idx1` and `imm`. The statements on the flags are
those of the loop of `of_CMPS`. -/
def of_CMPIS_loop (bits4 : List vvp_bit4_t) :
    Nat → Nat → Nat → vvp_bit4_t × vvp_bit4_t × vvp_bit4_t →
      Option (vvp_bit4_t × vvp_bit4_t × vvp_bit4_t)
  | 0, _, _, st => some st
  | n + 1, idx1, imm, st =>
    match thr_get_bit bits4 idx1 with
    | some lv =>
      let rv := if imm &&& 1 ≠ 0 then BIT4_1 else BIT4_0
      of_CMPIS_loop bits4 n (if idx1 ≥ 4 then idx1 + 1 else idx1) (imm >>> 1)
        (of_CMPS_step lv rv st)
    | none => none

/-- Handler `of_CMPIS` (`%cmpi/s`); `bit_idx1` is the immediate. -/
def of_CMPIS (bits4 : List vvp_bit4_t) (cp : vvp_code_s) : Option (List vvp_bit4_t) :=
  let idx1 := cp.bit_idx0
  let imm := cp.bit_idx1
  let end1 := if idx1 < 4 then idx1 else idx1 + cp.number - 1
  let bits4 := thr_check_addr bits4 end1
  match thr_get_bit bits4 end1 with
  | some sig1 =>
    match of_CMPIS_loop bits4 cp.number idx1 imm (BIT4_1, BIT4_1, BIT4_0) with
    | none => none
    | some (eq, eeq, lt) =>
      let lt := if eq = BIT4_X then BIT4_X else if sig1 = BIT4_1 then BIT4_1 else lt
      some (thr_put_bit (thr_put_bit (thr_put_bit bits4 4 eq) 5 lt) 6 eeq)
  | none => none

/-- A thread whose bits 8..11 and 12..15 both hold `4'b1111`. -/
def thr_ones4 : List vvp_bit4_t := thr_with (thr_with thr_new 8 4 15) 12 4 15

/-! ## Event-controlled assignments -/

/-- Modelled from the spec: the calls that the event-controlled assignment
handlers make on the scheduler and on the VPI, with their arguments:
`schedule_assign_plucked_vector`, `schedule_assign_vector`,
`schedule_assign_array_word` (vector and real), `vpi_put_value` of a real
without delay, and the four overloads of `schedule_evctl`. -/
inductive schedule_call where
  | assign_plucked_vector (net delay : Nat) (value : List vvp_bit4_t) (adr wid : Nat)
  | assign_vector (net : Nat) (off : Int) (vwid : Nat) (value : List vvp_bit4_t) (delay : Nat)
  | assign_array_word (array : Nat) (adr off : Int) (value : List vvp_bit4_t) (delay : Nat)
  | assign_array_word_real (array : Nat) (adr : Int) (value : Rat) (delay : Nat)
  | vpi_put_value_real (handle : Nat) (value : Rat)
  | evctl_vector (net : Nat) (value : List vvp_bit4_t) (off : Int) (wid : Nat)
      (event : Option Nat) (ecount : Nat)
  | evctl_array_word (array : Nat) (adr : Int) (value : List vvp_bit4_t) (off : Int)
      (event : Option Nat) (ecount : Nat)
  | evctl_array_word_real (array : Nat) (adr : Int) (value : Rat)
      (event : Option Nat) (ecount : Nat)
  | evctl_real (handle : Nat) (value : Rat) (event : Option Nat) (ecount : Nat)
deriving DecidableEq

/-- The fields of a thread that the event-controlled assignments read and
write: the armed event control `event` (a net, or null) and `ecount`, the
word registers (`w_int`), the bit space, the stack of reals (its back is the
last element), and the calls made so far. -/
structure evctl_thread where
  event : Option Nat
  ecount : Nat
  words : List Int
  bits4 : List vvp_bit4_t
  stack_real_ : List Rat
  scheduled : List schedule_call
deriving DecidableEq

/-- The statements `thr->event = 0; thr->ecount = 0;`. -/
def evctl_thread.clear (thr : evctl_thread) : evctl_thread :=
  { thr with event := none, ecount := 0 }

/-- A call is added to the calls made. -/
def evctl_thread.call (thr : evctl_thread) (c : schedule_call) : evctl_thread :=
  { thr with scheduled := thr.scheduled ++ [c] }

/-- Handler `of_EVCTL` (`%evctl`); `none` is the failed assertion. -/
def of_EVCTL (thr : evctl_thread) (net bit_idx0 : Nat) : Option evctl_thread :=
  if thr.event = none ∧ thr.ecount = 0 then
    some { thr with event := some net, ecount := (thr.words.getD bit_idx0 0 % 2 ^ 64).toNat }
  else none

/-- Handler `of_EVCTLC` (`%evctl/c`). -/
def of_EVCTLC (thr : evctl_thread) : evctl_thread := thr.clear

/-- Handler `of_EVCTLI` (`%evctl/i`); `none` is the failed assertion. -/
def of_EVCTLI (thr : evctl_thread) (net bit_idx0 : Nat) : Option evctl_thread :=
  if thr.event = none ∧ thr.ecount = 0 then
    some { thr with event := some net, ecount := bit_idx0 }
  else none

/-- Handler `of_EVCTLS` (`%evctl/s`); `none` is the failed assertion. -/
def of_EVCTLS (thr : evctl_thread) (net bit_idx0 : Nat) : Option evctl_thread :=
  if thr.event = none ∧ thr.ecount = 0 then
    let val := thr.words.getD bit_idx0 0
    let val := if val < 0 then 0 else val
    some { thr with event := some net, ecount := val.toNat }
  else none

/-- Handler `of_ASSIGN_V0E` (`%assign/v0/e`); `none` is a failed assertion. -/
def of_ASSIGN_V0E (thr : evctl_thread) (net bit_idx0 : Nat) : Option evctl_thread :=
  if thr.event = none then none
  else
    let wid := unsigned_of_long (thr.words.getD 0 0)
    if wid > 0 then
      let bit := bit_idx0
      let value := vthread_bits_to_vector thr.bits4 bit wid
      let thr :=
        if thr.ecount = 0 then thr.call (.assign_plucked_vector net 0 value 0 wid)
        else thr.call (.evctl_vector net value 0 0 thr.event thr.ecount)
      some thr.clear
    else none

/-- The statements of `of_ASSIGN_V0X1` (and of `of_ASSIGN_V0X1D`,
`of_ASSIGN_V0X1E`) between the read of the registers and `assert(wid > 0)`:
`none` when the handler returns early, else the values of `wid`, `bit` and
`off`. -/
def of_ASSIGN_V0X1_trim (wid : Nat) (off : Int) (bit value_size : Nat) :
    Option (Nat × Nat × Int) :=
  if off ≥ (value_size : Int) then none
  else if off < 0 then
    if unsigned_of_long (-off) ≥ wid then none
    else some (unsigned_of_long ((wid : Int) + off), unsigned_of_long ((bit : Int) - off), 0)
  else some (wid, bit, off)

/-- Handler `of_ASSIGN_V0X1E` (`%assign/v0/x1/e`); `value_size` is
`sig->value_size()`, and `none` is the failed assertion. -/
def of_ASSIGN_V0X1E (thr : evctl_thread) (net bit_idx0 value_size : Nat) :
    Option evctl_thread :=
  let wid := unsigned_of_long (thr.words.getD 0 0)
  let off := thr.words.getD 1 0
  match of_ASSIGN_V0X1_trim wid off bit_idx0 value_size with
  | none => some thr.clear
  | some (wid, bit, off) =>
    if wid > 0 then
      let value := vthread_bits_to_vector thr.bits4 bit wid
      let thr :=
        if thr.ecount = 0 then thr.call (.assign_vector net off value_size value 0)
        else thr.call (.evctl_vector net value off value_size thr.event thr.ecount)
      some thr.clear
    else none

/-- Handler `of_ASSIGN_WRE` (`%assign/wr/e`); `none` is a failed assertion
(of the handler or of `pop_real`). -/
def of_ASSIGN_WRE (thr : evctl_thread) (handle : Nat) : Option evctl_thread :=
  if thr.event = none then none
  else
    match thr.stack_real_.getLast? with
    | none => none
    | some value =>
      let thr := { thr with stack_real_ := thr.stack_real_.dropLast }
      let thr :=
        if thr.ecount = 0 then thr.call (.vpi_put_value_real handle value)
        else thr.call (.evctl_real handle value thr.event thr.ecount)
      some thr.clear

/-- Handler `of_ASSIGN_AVE` (`%assign/av/e`); `vwidth` is
`get_array_word_size(cp->array)`, and `none` is the failed assertion. The
statements up to the assertion are those of `of_ASSIGN_AV`. -/
def of_ASSIGN_AVE (thr : evctl_thread) (array vwidth bit_idx0 : Nat) : Option evctl_thread :=
  let wid := unsigned_of_long (thr.words.getD 0 0)
  let off := thr.words.getD 1 0
  let adr := thr.words.getD 3 0
  match of_ASSIGN_AV_trim wid off adr vwidth bit_idx0 with
  | none => some thr
  | some (wid, off, bit) =>
    if wid > 0 then
      let value := vthread_bits_to_vector thr.bits4 bit wid
      if thr.ecount = 0 then some (thr.call (.assign_array_word array adr off value 0))
      else some (thr.call (.evctl_array_word array adr value off thr.event thr.ecount))
    else none

/-- Handler `of_ASSIGN_ARE` (`%assign/ar/e`); `none` is the failed assertion
of `pop_real`. -/
def of_ASSIGN_ARE (thr : evctl_thread) (array : Nat) : Option evctl_thread :=
  let adr := thr.words.getD 3 0
  match thr.stack_real_.getLast? with
  | none => none
  | some value =>
    let thr := { thr with stack_real_ := thr.stack_real_.dropLast }
    if adr ≥ 0 then
      if thr.ecount = 0 then some (thr.call (.assign_array_word_real array adr value 0))
      else some (thr.call (.evctl_array_word_real array adr value thr.event thr.ecount))
    else some thr

/-- A thread that `%evctl` has armed with the event 3 and the count 2: word
register 0 holds the width 4, the registers 1 and 3 hold `off` and `adr`,
and the stack of reals holds 5.0. -/
def thr_armed (off adr : Int) : evctl_thread :=
  ⟨some 3, 2, [4, off, 0, adr], thr_ones4, [5], []⟩

/-! ## Part assignments below the least significant bit -/

/-- Handler `of_ASSIGN_V0X1` (`%assign/v0/x1`): `words0` and `words1` are
`thr->words[0].w_int` and `thr->words[1].w_int`, `value_size` is
`sig->value_size()`. The result is `none` when `assert(wid > 0)` fails,
`some none` when the handler returns without a call, and else the call of
`schedule_assign_vector`. -/
def of_ASSIGN_V0X1 (bits4 : List vvp_bit4_t) (words0 words1 : Int)
    (net delay bit_idx1 value_size : Nat) : Option (Option schedule_call) :=
  let wid := unsigned_of_long words0
  let off := words1
  match of_ASSIGN_V0X1_trim wid off bit_idx1 value_size with
  | none => some none
  | some (wid, bit, off) =>
    if wid > 0 then
      some (some (.assign_vector net off value_size (vthread_bits_to_vector bits4 bit wid) delay))
    else none

/-- The call `vvp_send_vec4_pv(ptr, bit_vec, index, wid, vwid, context)` of
`of_SET_X0`, without the context. -/
structure send_vec4_pv where
  net : Nat
  bit_vec : List vvp_bit4_t
  index : Int
  wid : Nat
  vwid : Nat
deriving DecidableEq

/-- The loop of `of_SET_X0` that reads the bits of `bit_vec`; the arguments
are the number of iterations left and `bit`, and `none` is the failed
assertion of `thr_get_bit`. -/
def of_SET_X0_loop (bits4 : List vvp_bit4_t) : Nat → Nat → Option (List vvp_bit4_t)
  | 0, _ => some []
  | n + 1, bit =>
    match thr_get_bit bits4 bit with
    | none => none
    | some bit_val =>
      match of_SET_X0_loop bits4 n (if bit ≥ 4 then bit + 1 else bit) with
      | none => none
      | some rest => some (bit_val :: rest)

/-- Handler `of_SET_X0` (`%set/x0`): `words0` is `thr->words[0].w_int`,
`value_size` is `sig->value_size()`. The result is `none` when an assertion
fails, `some none` when the handler returns without a call, and else the
call of `vvp_send_vec4_pv`. -/
def of_SET_X0 (bits4 : List vvp_bit4_t) (words0 : Int) (net bit_idx0 bit_idx1 value_size : Nat) :
    Option (Option send_vec4_pv) :=
  let bit := bit_idx0
  let wid := bit_idx1
  let index := words0
  if index < 0 ∧ wid ≤ unsigned_of_long (-index) then some none
  else if index ≥ (value_size : Int) then some none
  else
    let bit :=
      if index < 0 then
        if bit ≥ 4 then (bit + unsigned_of_long (-index)) % 2 ^ 32 else bit
      else bit
    let wid :=
      if index < 0 then unsigned_of_long ((wid : Int) - (unsigned_of_long (-index) : Int))
      else wid
    let index := if index < 0 then 0 else index
    let wid :=
      if index + (wid : Int) > (value_size : Int) then
        unsigned_of_long ((value_size : Int) - index)
      else wid
    match of_SET_X0_loop bits4 wid bit with
    | none => none
    | some bit_vec => some (some ⟨net, bit_vec, index, wid, value_size⟩)

/-! ## Logic opcodes: the narrow and the wide variants -/

/-- Modelled from the spec: `operator&` of two `vvp_bit4_t` (`vvp_net.h`). -/
def bit4_and (a b : vvp_bit4_t) : vvp_bit4_t :=
  if a = BIT4_0 ∨ b = BIT4_0 then BIT4_0
  else if a = BIT4_1 ∧ b = BIT4_1 then BIT4_1
  else BIT4_X

/-- Modelled from the spec: `operator|` of two `vvp_bit4_t` (`vvp_net.h`). -/
def bit4_or (a b : vvp_bit4_t) : vvp_bit4_t :=
  if a = BIT4_1 ∨ b = BIT4_1 then BIT4_1
  else if a = BIT4_0 ∧ b = BIT4_0 then BIT4_0
  else BIT4_X

/-- Modelled from the spec: `operator~` of a `vvp_bit4_t` (`vvp_net.h`). -/
def bit4_not (a : vvp_bit4_t) : vvp_bit4_t :=
  match a with
  | BIT4_0 => BIT4_1
  | BIT4_1 => BIT4_0
  | _ => BIT4_X

/-- Modelled from the spec: `vvp_vector4_t::operator&=`, bit by bit. -/
def vec4_and (a b : List vvp_bit4_t) : List vvp_bit4_t := List.zipWith bit4_and a b

/-- Modelled from the spec: `vvp_vector4_t::operator|=`, bit by bit. -/
def vec4_or (a b : List vvp_bit4_t) : List vvp_bit4_t := List.zipWith bit4_or a b

/-- Modelled from the spec: `operator~` of a `vvp_vector4_t`, bit by bit. -/
def vec4_not (a : List vvp_bit4_t) : List vvp_bit4_t := a.map bit4_not

/-- The loop of `of_AND_narrow`, `of_OR_narrow`, `of_NOR_narrow` and
`of_NAND_narrow`, which differ in the bit `f lb rb` that they put; the
arguments are the number of iterations left, `idx1`, `idx2` and the bit
space, and `none` is the failed assertion of `thr_get_bit`. -/
def logic_narrow_loop (f : vvp_bit4_t → vvp_bit4_t → vvp_bit4_t) :
    Nat → Nat → Nat → List vvp_bit4_t → Option (List vvp_bit4_t)
  | 0, _, _, bits4 => some bits4
  | n + 1, idx1, idx2, bits4 =>
    match thr_get_bit bits4 idx1, thr_get_bit bits4 idx2 with
    | some lb, some rb =>
      logic_narrow_loop f n (idx1 + 1) (if idx2 ≥ 4 then idx2 + 1 else idx2)
        (thr_put_bit bits4 idx1 (f lb rb))
    | _, _ => none

/-- Handler `of_AND_wide`. -/
def of_AND_wide (bits4 : List vvp_bit4_t) (cp : vvp_code_s) : Option (List vvp_bit4_t) :=
  let idx1 := cp.bit_idx0
  let idx2 := cp.bit_idx1
  let wid := cp.number
  let val := vthread_bits_to_vector bits4 idx1 wid
  let val := vec4_and val (vthread_bits_to_vector bits4 idx2 wid)
  set_vec bits4 idx1 val

/-- Handler `of_AND_narrow`. -/
def of_AND_narrow (bits4 : List vvp_bit4_t) (cp : vvp_code_s) : Option (List vvp_bit4_t) :=
  logic_narrow_loop (fun lb rb => bit4_and lb rb) cp.number cp.bit_idx0 cp.bit_idx1 bits4

/-- Handler `of_AND` (`%and`), which selects the variant. -/
def of_AND (bits4 : List vvp_bit4_t) (cp : vvp_code_s) : Option (List vvp_bit4_t) :=
  if cp.bit_idx0 ≥ 4 then
    if cp.number ≤ 4 then of_AND_narrow bits4 cp else of_AND_wide bits4 cp
  else none

/-- Handler `of_NAND_wide`. -/
def of_NAND_wide (bits4 : List vvp_bit4_t) (cp : vvp_code_s) : Option (List vvp_bit4_t) :=
  let idx1 := cp.bit_idx0
  let idx2 := cp.bit_idx1
  let wid := cp.number
  let val := vthread_bits_to_vector bits4 idx1 wid
  let val := vec4_and val (vthread_bits_to_vector bits4 idx2 wid)
  set_vec bits4 idx1 (vec4_not val)

/-- Handler `of_NAND_narrow`. -/
def of_NAND_narrow (bits4 : List vvp_bit4_t) (cp : vvp_code_s) : Option (List vvp_bit4_t) :=
  logic_narrow_loop (fun lb rb => bit4_not (bit4_and lb rb)) cp.number cp.bit_idx0 cp.bit_idx1
    bits4

/-- Handler `of_NAND` (`%nand`), which selects the variant. -/
def of_NAND (bits4 : List vvp_bit4_t) (cp : vvp_code_s) : Option (List vvp_bit4_t) :=
  if cp.bit_idx0 ≥ 4 then
    if cp.number ≤ 4 then of_NAND_narrow bits4 cp else of_NAND_wide bits4 cp
  else none

/-- Handler `of_OR_wide`. -/
def of_OR_wide (bits4 : List vvp_bit4_t) (cp : vvp_code_s) : Option (List vvp_bit4_t) :=
  let idx1 := cp.bit_idx0
  let idx2 := cp.bit_idx1
  let wid := cp.number
  let val := vthread_bits_to_vector bits4 idx1 wid
  let val := vec4_or val (vthread_bits_to_vector bits4 idx2 wid)
  set_vec bits4 idx1 val

/-- Handler `of_OR_narrow`. -/
def of_OR_narrow (bits4 : List vvp_bit4_t) (cp : vvp_code_s) : Option (List vvp_bit4_t) :=
  logic_narrow_loop (fun lb rb => bit4_or lb rb) cp.number cp.bit_idx0 cp.bit_idx1 bits4

/-- Handler `of_OR` (`%or`), which selects the variant. -/
def of_OR (bits4 : List vvp_bit4_t) (cp : vvp_code_s) : Option (List vvp_bit4_t) :=
  if cp.bit_idx0 ≥ 4 then
    if cp.number ≤ 4 then of_OR_narrow bits4 cp else of_OR_wide bits4 cp
  else none

/-- Handler `of_NOR_wide`, with its own assertion. -/
def of_NOR_wide (bits4 : List vvp_bit4_t) (cp : vvp_code_s) : Option (List vvp_bit4_t) :=
  if cp.bit_idx0 ≥ 4 then
    let idx1 := cp.bit_idx0
    let idx2 := cp.bit_idx1
    let wid := cp.number
    let val := vthread_bits_to_vector bits4 idx1 wid
    let val := vec4_or val (vthread_bits_to_vector bits4 idx2 wid)
    set_vec bits4 idx1 (vec4_not val)
  else none

/-- Handler `of_NOR_narrow`. -/
def of_NOR_narrow (bits4 : List vvp_bit4_t) (cp : vvp_code_s) : Option (List vvp_bit4_t) :=
  logic_narrow_loop (fun lb rb => bit4_not (bit4_or lb rb)) cp.number cp.bit_idx0 cp.bit_idx1
    bits4

/-- Handler `of_NOR` (`%nor`), which selects the variant. -/
def of_NOR (bits4 : List vvp_bit4_t) (cp : vvp_code_s) : Option (List vvp_bit4_t) :=
  if cp.bit_idx0 ≥ 4 then
    if cp.number ≤ 4 then of_NOR_narrow bits4 cp else of_NOR_wide bits4 cp
  else none

/-- Handler `of_INV_wide`; the width is `cp->bit_idx[1]`. -/
def of_INV_wide (bits4 : List vvp_bit4_t) (cp : vvp_code_s) : Option (List vvp_bit4_t) :=
  let idx1 := cp.bit_idx0
  let wid := cp.bit_idx1
  let val := vthread_bits_to_vector bits4 idx1 wid
  set_vec bits4 idx1 (vec4_not val)

/-- The loop of `of_INV_narrow`; the arguments are the number of iterations
left, `idx1` and the bit space. -/
def of_INV_narrow_loop : Nat → Nat → List vvp_bit4_t → Option (List vvp_bit4_t)
  | 0, _, bits4 => some bits4
  | n + 1, idx1, bits4 =>
    match thr_get_bit bits4 idx1 with
    | some lb => of_INV_narrow_loop n (idx1 + 1) (thr_put_bit bits4 idx1 (bit4_not lb))
    | none => none

/-- Handler `of_INV_narrow`; the width is `cp->bit_idx[1]`. -/
def of_INV_narrow (bits4 : List vvp_bit4_t) (cp : vvp_code_s) : Option (List vvp_bit4_t) :=
  of_INV_narrow_loop cp.bit_idx1 cp.bit_idx0 bits4

/-- Handler `of_INV` (`%inv`), which selects the variant by `cp->number`. -/
def of_INV (bits4 : List vvp_bit4_t) (cp : vvp_code_s) : Option (List vvp_bit4_t) :=
  if cp.bit_idx0 ≥ 4 then
    if cp.number ≤ 4 then of_INV_narrow bits4 cp else of_INV_wide bits4 cp
  else none

/-- A thread whose bits 7, 8 and 9 hold the bits 0, 1 and 2 of `n`. -/
def thr_overlap (n : Nat) : List vvp_bit4_t := thr_with thr_new 7 3 n

/-! ## Loads with an added index (`%load/vp0`) -/

/-- The macro `CPU_WORD_STRIDE` for an `unsigned long` of 8 bytes:
`CPU_WORD_BITS - 1`. -/
def CPU_WORD_STRIDE : Nat := CPU_WORD_BITS - 1

/-- Modelled from the spec: `vvp_vector4_t::copy_bits(that)` on the vector
`v`: the bits of `that` replace the bits of `v` from bit 0 on, as far as both
vectors reach. -/
def copy_bits (v that : List vvp_bit4_t) : List vvp_bit4_t :=
  that.take v.length ++ v.drop that.length

/-- One iteration of the word loop of `load_vp0_common`, on (`val`, `carry`,
`imm`, `addend`): `addend` is an `int64_t`, shifted arithmetically, and `imm`
is its conversion to `unsigned long`. -/
def load_vp0_step (idx : Nat) (st : List Nat × Nat × Nat × Int) : List Nat × Nat × Nat × Int :=
  let r := add_with_carry (st.1.getD idx 0) st.2.2.1 st.2.1
  let addend := st.2.2.2 >>> CPU_WORD_STRIDE
  (st.1.set idx r.1, r.2, ofSigned addend, addend)

/-- Function `load_vp0_common`: `words0` is `thr->words[0].w_int`, and the
destination is `cp->bit_idx[0]` with the width `cp->bit_idx[1]`. -/
def load_vp0_common (bits4 : List vvp_bit4_t) (cp : vvp_code_s) (words0 : Int)
    (sig_value : List vvp_bit4_t) : Option (List vvp_bit4_t) :=
  let bit := cp.bit_idx0
  let wid := cp.bit_idx1
  let addend := words0
  let bits4 := thr_check_addr bits4 (bit + wid - 1)
  match subarray sig_value 0 wid with
  | none => set_vec bits4 bit (List.replicate wid BIT4_X)
  | some val =>
    let words := wordCount wid
    let st := forLoop load_vp0_step words 0 (val, 0, ofSigned addend, addend)
    setarray bits4 bit wid st.1

/-- Handler `of_LOAD_VP0` (`%load/vp0`); `tmp` is the value of the signal
that `load_base` reads. -/
def of_LOAD_VP0 (bits4 : List vvp_bit4_t) (cp : vvp_code_s) (words0 : Int)
    (tmp : List vvp_bit4_t) : Option (List vvp_bit4_t) :=
  let wid := cp.bit_idx1
  let sig_value := copy_bits (List.replicate wid BIT4_0) tmp
  load_vp0_common bits4 cp words0 sig_value

/-- Handler `of_LOAD_VP0_S` (`%load/vp0/s`); `tmp.value(tmp.size()-1)` is the
top bit of `tmp`, and X for an empty vector. -/
def of_LOAD_VP0_S (bits4 : List vvp_bit4_t) (cp : vvp_code_s) (words0 : Int)
    (tmp : List vvp_bit4_t) : Option (List vvp_bit4_t) :=
  let wid := cp.bit_idx1
  let sig_value := copy_bits (List.replicate wid (tmp.getLast?.getD BIT4_X)) tmp
  load_vp0_common bits4 cp words0 sig_value

/-- The words that the loop of `load_vp0_common` adds for the addend `k`: the
low word of `k`, and then the word of its sign. -/
def load_vp0_imm (k : Int) (n : Nat) : List Nat :=
  (List.range n).map (fun i => if i = 0 then ofSigned k else ofSigned (k >>> CPU_WORD_STRIDE))

/-- The zero extension or truncation of a number to `w` bits, in the words
of the specification. -/
def zext_w (w v : Nat) : Nat := v % 2 ^ w

/-- The sign extension or truncation of an integer to `w` bits, in the words
of the specification: the number of `w` bits that is congruent to it. -/
def sext_w (w : Nat) (x : Int) : Nat := (x % 2 ^ w).toNat

/-! ## Examples for the active-disable target -/

/-- The function `d` with the input `a` of 4 bits, whose statement is the
unnamed block `begin d = 2'b11; disable d; end`, where the scope of the
function has the number 7. -/
def func_disable : NetFuncDef :=
  .mk "d" [net_sig "a" 4 true] [net_sig "a" 4 true]
    (some (.NetBlock none [assign_to "d" 2 (.NetEConst const_3), .NetDisable (some 7)]))

/-- The unnamed block `begin x = d(4'b0101); f = 2'b11; end`. -/
def block_call : NetProc :=
  .NetBlock none [assign_to "x" 2 (.NetEUFunc (some func_disable) [.NetEConst const_5]),
    assign_to "f" 2 (.NetEConst const_3)]

/-- The context map `ctx_fxy` after `x = 2'b11`, with the disable target 7. -/
def ctx_x_disabled : eval_state :=
  ⟨[("f", none), ("a", some (.NetEConst const_5)), ("x", some (.NetEConst const_3)),
    ("y", none)], some 7⟩

/-! ## Basic facts on vectors -/

theorem WORD_pos : 0 < WORD := by unfold WORD; positivity

theorem WORD_eq : WORD = 2 ^ 64 := rfl

theorem vec4Val_lt (v : List vvp_bit4_t) : vec4Val v < 2 ^ v.length := by
  induction v with
  | nil => simp [vec4Val]
  | cons b rest ih =>
    simp only [vec4Val, List.length_cons, pow_succ]
    split <;> omega

theorem vec4Val_append (u v : List vvp_bit4_t) :
    vec4Val (u ++ v) = vec4Val u + 2 ^ u.length * vec4Val v := by
  induction u with
  | nil => simp [vec4Val]
  | cons b rest ih =>
    rw [List.cons_append, vec4Val, ih, vec4Val, List.length_cons, pow_succ]
    ring

theorem vec4Known_append (u v : List vvp_bit4_t) :
    vec4Known (u ++ v) = (vec4Known u && vec4Known v) := by
  simp [vec4Known, List.all_append]

theorem vec4Known_replicate_X (w : Nat) (hw : 1 ≤ w) :
    vec4Known (List.replicate w BIT4_X) = false := by
  cases w with
  | zero => omega
  | succ n => simp [vec4Known, List.replicate_succ, bit4_is_xz]

theorem vec4Known_replicate_Z (w : Nat) (hw : 1 ≤ w) :
    vec4Known (List.replicate w BIT4_Z) = false := by
  cases w with
  | zero => omega
  | succ n => simp [vec4Known, List.replicate_succ, bit4_is_xz]

theorem vec4OfNat_length (w n : Nat) : (vec4OfNat w n).length = w := by
  simp [vec4OfNat]

theorem vec4OfNat_known (w n : Nat) : vec4Known (vec4OfNat w n) = true := by
  simp only [vec4Known, vec4OfNat, List.all_eq_true, List.mem_map, List.mem_range]
  rintro b ⟨i, -, rfl⟩
  split <;> rfl

theorem vec4OfNat_succ (w n : Nat) :
    vec4OfNat (w + 1) n = (if n % 2 = 1 then BIT4_1 else BIT4_0) :: vec4OfNat w (n / 2) := by
  simp only [vec4OfNat, List.range_succ_eq_map, List.map_cons, List.map_map]
  congr 1
  · simp [Nat.testBit_zero]
  · apply List.map_congr_left
    intro i _
    simp [Nat.testBit_succ]

theorem vec4Val_ofNat (w n : Nat) : vec4Val (vec4OfNat w n) = n % 2 ^ w := by
  induction w generalizing n with
  | zero => simp [vec4OfNat, vec4Val, Nat.mod_one]
  | succ w ih =>
    rw [vec4OfNat_succ, vec4Val, ih, pow_succ]
    have h2 : n % (2 ^ w * 2) = n % 2 + 2 * (n / 2 % 2 ^ w) := by
      rw [mul_comm, Nat.mod_mul]
    rw [h2]
    rcases Nat.mod_two_eq_zero_or_one n with h | h <;> simp [h]

theorem vec4_eq_ofNat (v : List vvp_bit4_t) (hk : vec4Known v = true) :
    v = vec4OfNat v.length (vec4Val v) := by
  induction v with
  | nil => simp [vec4OfNat]
  | cons b rest ih =>
    have hk' : vec4Known rest = true := by
      simp only [vec4Known, List.all_cons, Bool.and_eq_true] at hk ⊢
      exact hk.2
    have hb : bit4_is_xz b = false := by
      simp only [vec4Known, List.all_cons, Bool.and_eq_true] at hk
      simpa using hk.1
    rw [List.length_cons, vec4OfNat_succ, vec4Val]
    cases b
    · simp only [reduceCtorEq, if_false, zero_add]
      rw [Nat.mul_mod_right, Nat.mul_div_cancel_left _ (by norm_num : 0 < 2)]
      simp only [zero_ne_one, if_false]
      rw [← ih hk']
    · simp only [if_true]
      have h1 : (1 + 2 * vec4Val rest) % 2 = 1 := by omega
      have h2 : (1 + 2 * vec4Val rest) / 2 = vec4Val rest := by omega
      rw [h1, h2]
      simp only [if_true]
      rw [← ih hk']
    · simp [bit4_is_xz] at hb
    · simp [bit4_is_xz] at hb

/-- Two known vectors of one length and one value are equal. -/
theorem vec4_ext (u v : List vvp_bit4_t) (hu : vec4Known u = true) (hv : vec4Known v = true)
    (hl : u.length = v.length) (hval : vec4Val u = vec4Val v) : u = v := by
  rw [vec4_eq_ofNat u hu, vec4_eq_ofNat v hv, hl, hval]

theorem vec4Part_length (v : List vvp_bit4_t) (adr wid : Nat) (h : adr + wid ≤ v.length) :
    (vec4Part v adr wid).length = wid := by
  simp [vec4Part]; omega

/-! ## `set_vec` -/

theorem set_vec_some (v : List vvp_bit4_t) (adr : Nat) (that : List vvp_bit4_t)
    (h : adr + that.length ≤ v.length) :
    set_vec v adr that = some (v.take adr ++ that ++ v.drop (adr + that.length)) := by
  simp [set_vec, h]

theorem splice_length (v : List vvp_bit4_t) (adr : Nat) (that : List vvp_bit4_t)
    (h : adr + that.length ≤ v.length) :
    (v.take adr ++ that ++ v.drop (adr + that.length)).length = v.length := by
  simp; omega

theorem splice_getElem? (v : List vvp_bit4_t) (adr : Nat) (that : List vvp_bit4_t)
    (h : adr + that.length ≤ v.length) (j : Nat) :
    (v.take adr ++ that ++ v.drop (adr + that.length))[j]? =
      if adr ≤ j ∧ j < adr + that.length then that[j - adr]? else v[j]? := by
  have hl : (v.take adr).length = adr := by simp; omega
  by_cases h1 : j < adr
  · rw [List.append_assoc, List.getElem?_append_left (by omega)]
    rw [List.getElem?_take_of_lt h1, if_neg (by omega)]
  · by_cases h2 : j < adr + that.length
    · rw [List.getElem?_append_left (by simp; omega)]
      rw [List.getElem?_append_right (by omega), hl, if_pos (by omega)]
    · rw [List.getElem?_append_right (by simp; omega)]
      simp only [List.length_append, hl, List.getElem?_drop]
      rw [if_neg (by omega)]
      congr 1; omega

theorem vec4Part_getElem? (v : List vvp_bit4_t) (adr wid j : Nat) :
    (vec4Part v adr wid)[j]? = if j < wid then v[adr + j]? else none := by
  simp only [vec4Part]
  split
  · rw [List.getElem?_take_of_lt (by assumption), List.getElem?_drop]
  · rw [List.getElem?_eq_none]
    simp; omega

theorem splice_part (v : List vvp_bit4_t) (adr : Nat) (that : List vvp_bit4_t)
    (h : adr + that.length ≤ v.length) :
    vec4Part (v.take adr ++ that ++ v.drop (adr + that.length)) adr that.length = that := by
  apply List.ext_getElem?
  intro j
  rw [vec4Part_getElem?, splice_getElem? v adr that h]
  by_cases hj : j < that.length
  · simp [hj]
  · simp [hj]; omega

theorem splice_part_other (v : List vvp_bit4_t) (adr : Nat) (that : List vvp_bit4_t)
    (h : adr + that.length ≤ v.length) (s w : Nat)
    (hdis : s + w ≤ adr ∨ adr + that.length ≤ s) :
    vec4Part (v.take adr ++ that ++ v.drop (adr + that.length)) s w = vec4Part v s w := by
  apply List.ext_getElem?
  intro j
  rw [vec4Part_getElem?, vec4Part_getElem?, splice_getElem? v adr that h]
  by_cases hj : j < w
  · simp only [hj, if_true]
    rw [if_neg (by omega)]
  · simp [hj]

theorem splice_take4 (v : List vvp_bit4_t) (adr : Nat) (that : List vvp_bit4_t)
    (h : adr + that.length ≤ v.length) (hadr : 4 ≤ adr) :
    (v.take adr ++ that ++ v.drop (adr + that.length)).take 4 = v.take 4 := by
  have := splice_part_other v adr that h 0 4 (Or.inl (by omega))
  simpa [vec4Part] using this

/-! ## Word arrays -/

theorem wordsOfNat_length (n v : Nat) : (wordsOfNat n v).length = n := by
  simp [wordsOfNat]

theorem wordsOfNat_ok (n v : Nat) : wordsOk (wordsOfNat n v) := by
  intro x hx
  simp only [wordsOfNat, List.mem_map, List.mem_range] at hx
  obtain ⟨k, -, rfl⟩ := hx
  exact Nat.mod_lt _ WORD_pos

theorem wordsOfNat_succ (n v : Nat) :
    wordsOfNat (n + 1) v = (v % WORD) :: wordsOfNat n (v / WORD) := by
  simp only [wordsOfNat, List.range_succ_eq_map, List.map_cons, List.map_map]
  congr 1
  · simp
  · apply List.map_congr_left
    intro k _
    simp only [Function.comp, CPU_WORD_BITS, WORD, Nat.succ_eq_add_one]
    rw [Nat.mul_add, pow_add, Nat.mul_one, mul_comm (2 ^ (64 * k)), Nat.div_div_eq_div_mul]

theorem wordsVal_ofNat (n v : Nat) : wordsVal (wordsOfNat n v) = v % WORD ^ n := by
  induction n generalizing v with
  | zero => simp [wordsOfNat, wordsVal, Nat.mod_one]
  | succ n ih =>
    rw [wordsOfNat_succ, wordsVal, ih, pow_succ, mul_comm (WORD ^ n), Nat.mod_mul]

theorem wordsVal_lt (l : List Nat) (h : wordsOk l) : wordsVal l < WORD ^ l.length := by
  induction l with
  | nil => simp [wordsVal]
  | cons x rest ih =>
    have hx : x < WORD := h x (List.mem_cons_self _ _)
    have hr := ih (fun y hy => h y (List.mem_cons_of_mem _ hy))
    simp only [wordsVal, List.length_cons, pow_succ]
    have : WORD * (wordsVal rest + 1) ≤ WORD * WORD ^ rest.length :=
      Nat.mul_le_mul_left _ hr
    rw [mul_comm (WORD ^ rest.length)]
    linarith [Nat.mul_add WORD (wordsVal rest) 1]

theorem wordsVal_append (u v : List Nat) :
    wordsVal (u ++ v) = wordsVal u + WORD ^ u.length * wordsVal v := by
  induction u with
  | nil => simp [wordsVal]
  | cons b rest ih =>
    rw [List.cons_append, wordsVal, ih, wordsVal, List.length_cons, pow_succ]
    ring

theorem wordsOk_append (u v : List Nat) : wordsOk (u ++ v) ↔ wordsOk u ∧ wordsOk v := by
  simp only [wordsOk, List.mem_append]
  constructor
  · intro h
    exact ⟨fun x hx => h x (Or.inl hx), fun x hx => h x (Or.inr hx)⟩
  · rintro ⟨h1, h2⟩ x (hx | hx)
    · exact h1 x hx
    · exact h2 x hx

theorem wordsOk_cons (x : Nat) (l : List Nat) : wordsOk (x :: l) ↔ x < WORD ∧ wordsOk l := by
  simp [wordsOk]

theorem wordsOk_nil : wordsOk [] := by simp [wordsOk]

theorem wordsOk_replicate (n x : Nat) (hx : x < WORD) : wordsOk (List.replicate n x) := by
  intro y hy
  rw [List.eq_of_mem_replicate hy]
  exact hx

theorem wordsVal_replicate_zero (n : Nat) : wordsVal (List.replicate n 0) = 0 := by
  induction n with
  | zero => simp [wordsVal]
  | succ n ih => simp [List.replicate_succ, wordsVal, ih]

theorem wordsVal_replicate_max (n : Nat) :
    wordsVal (List.replicate n (WORD - 1)) = WORD ^ n - 1 := by
  induction n with
  | zero => simp [wordsVal]
  | succ n ih =>
    have h1 : 1 ≤ WORD ^ n := Nat.one_le_pow _ _ WORD_pos
    have h2 : 1 ≤ WORD := WORD_pos
    simp only [List.replicate_succ, wordsVal, ih, pow_succ]
    zify [h1, h2, Nat.one_le_pow _ _ WORD_pos, (by nlinarith : 1 ≤ WORD ^ n * WORD)]
    ring

/-- A word array is determined by its length and its value. -/
theorem words_eq_ofNat (l : List Nat) (h : wordsOk l) :
    l = wordsOfNat l.length (wordsVal l) := by
  induction l with
  | nil => simp [wordsOfNat]
  | cons x rest ih =>
    have hx : x < WORD := h x (List.mem_cons_self _ _)
    have hr : wordsOk rest := fun y hy => h y (List.mem_cons_of_mem _ hy)
    rw [List.length_cons, wordsOfNat_succ, wordsVal]
    rw [Nat.add_mul_mod_self_left, Nat.mod_eq_of_lt hx]
    rw [Nat.add_mul_div_left _ _ WORD_pos, Nat.div_eq_of_lt hx, zero_add, ← ih hr]

theorem words_ext (u v : List Nat) (hu : wordsOk u) (hv : wordsOk v)
    (hl : u.length = v.length) (hval : wordsVal u = wordsVal v) : u = v := by
  rw [words_eq_ofNat u hu, words_eq_ofNat v hv, hl, hval]

theorem wordsVal_testBit (l : List Nat) (h : wordsOk l) (i : Nat) :
    (wordsVal l).testBit i = (l.getD (i / CPU_WORD_BITS) 0).testBit (i % CPU_WORD_BITS) := by
  induction l generalizing i with
  | nil => simp [wordsVal]
  | cons x rest ih =>
    have hx : x < 2 ^ 64 := h x (List.mem_cons_self _ _)
    have hr : wordsOk rest := fun y hy => h y (List.mem_cons_of_mem _ hy)
    rw [wordsVal, add_comm, WORD_eq, Nat.testBit_mul_pow_two_add _ hx]
    simp only [CPU_WORD_BITS]
    by_cases hi : i < 64
    · simp [hi, Nat.div_eq_of_lt hi, Nat.mod_eq_of_lt hi]
    · simp only [hi, if_false]
      rw [ih hr]
      have h1 : i / 64 = (i - 64) / 64 + 1 := by omega
      have h2 : i % 64 = (i - 64) % 64 := by omega
      simp only [CPU_WORD_BITS, h1, h2, List.getD_cons_succ]

theorem wordCount_bound (wid : Nat) : wid ≤ CPU_WORD_BITS * wordCount wid := by
  simp only [wordCount, CPU_WORD_BITS]; omega

theorem two_pow_le_WORD_pow (wid : Nat) : 2 ^ wid ≤ WORD ^ wordCount wid := by
  rw [WORD_eq, ← pow_mul]
  exact Nat.pow_le_pow_right (by norm_num) (wordCount_bound wid)

/-! ## `setarray` and `vector_to_array` -/

theorem setarray_eq (v : List vvp_bit4_t) (adr wid : Nat) (val : List Nat)
    (h : wordsOk val) :
    setarray v adr wid val = set_vec v adr (vec4OfNat wid (wordsVal val)) := by
  simp only [setarray, vec4OfNat]
  congr 1
  apply List.map_congr_left
  intro i _
  rw [wordsVal_testBit val h]

theorem setarray_some (v : List vvp_bit4_t) (adr wid : Nat) (val : List Nat)
    (h : wordsOk val) (hin : adr + wid ≤ v.length) :
    setarray v adr wid val =
      some (v.take adr ++ vec4OfNat wid (wordsVal val) ++ v.drop (adr + wid)) := by
  rw [setarray_eq v adr wid val h, set_vec_some _ _ _ (by rw [vec4OfNat_length]; exact hin),
    vec4OfNat_length]

theorem vec4Val_replicate_zero (n : Nat) : vec4Val (List.replicate n BIT4_0) = 0 := by
  induction n with
  | zero => simp [vec4Val]
  | succ n ih => simp [List.replicate_succ, vec4Val, ih]

theorem vec4Val_replicate_one (n : Nat) : vec4Val (List.replicate n BIT4_1) = 2 ^ n - 1 := by
  induction n with
  | zero => simp [vec4Val]
  | succ n ih =>
    have h1 : 1 ≤ 2 ^ n := Nat.one_le_two_pow
    simp only [List.replicate_succ, vec4Val, ih, pow_succ, if_true]
    omega

theorem subarray_known (v : List vvp_bit4_t) (adr wid : Nat) (hin : adr + wid ≤ v.length)
    (hk : vec4Known (vec4Part v adr wid) = true) :
    subarray v adr wid = some (wordsOfNat (wordCount wid) (vec4Val (vec4Part v adr wid))) := by
  simp [subarray, hin, hk, wordsOfNat]

theorem subarray_xz (v : List vvp_bit4_t) (adr wid : Nat)
    (hk : vec4Known (vec4Part v adr wid) = false) :
    subarray v adr wid = none := by
  simp [subarray, hk]

theorem vector_to_array_xz (bits4 : List vvp_bit4_t) (addr wid : Nat)
    (hk : vec4Known (vthread_bits_to_vector bits4 addr wid) = false) :
    vector_to_array bits4 addr wid = none := by
  unfold vector_to_array
  unfold vthread_bits_to_vector at hk
  by_cases h4 : addr ≥ 4
  · rw [if_pos h4] at hk
    rw [if_neg (by omega), if_neg (by omega), if_neg (by omega)]
    exact subarray_xz _ _ _ hk
  · rw [if_neg h4] at hk
    have h0 : addr ≠ 0 := by
      rintro rfl
      simp [vec4Known, thr_index_to_bit4, bit4_is_xz] at hk
    have h1 : addr ≠ 1 := by
      rintro rfl
      simp [vec4Known, thr_index_to_bit4, bit4_is_xz] at hk
    rw [if_neg h0, if_neg h1, if_pos (by omega)]

theorem top_mask_eq (k : Nat) (hk : k < 64) (hk1 : 1 ≤ k) :
    (WORD - 1) &&& ((WORD - 1) >>> (CPU_WORD_BITS - k)) = 2 ^ k - 1 := by
  have h1 : (WORD - 1) >>> (CPU_WORD_BITS - k) = 2 ^ k - 1 := by
    rw [Nat.shiftRight_eq_div_pow, WORD_eq]
    simp only [CPU_WORD_BITS]
    have e : (2:Nat) ^ 64 = 2 ^ k * 2 ^ (64 - k) := by rw [← pow_add]; congr 1; omega
    have hp : 0 < 2 ^ (64 - k) := by positivity
    have hq : 1 ≤ 2 ^ k := Nat.one_le_two_pow
    apply Nat.div_eq_of_lt_le
    · rw [e]
      have : (2 ^ k - 1) * 2 ^ (64 - k) + 2 ^ (64 - k) = 2 ^ k * 2 ^ (64 - k) := by
        rw [← Nat.succ_mul]; congr 1; omega
      have h2 : 2 ≤ 2 ^ (64 - k) := by
        calc 2 = 2 ^ 1 := by norm_num
          _ ≤ 2 ^ (64 - k) := Nat.pow_le_pow_right (by norm_num) (by omega)
      omega
    · rw [e]
      have : (2 ^ k - 1 + 1) * 2 ^ (64 - k) = 2 ^ k * 2 ^ (64 - k) := by
        congr 1; omega
      omega
  rw [h1, Nat.and_pow_two_sub_one_eq_mod, WORD_eq]
  have : (2:Nat) ^ 64 - 1 = 2 ^ k * (2 ^ (64 - k) - 1) + (2 ^ k - 1) := by
    have e : (2:Nat) ^ 64 = 2 ^ k * 2 ^ (64 - k) := by rw [← pow_add]; congr 1; omega
    have hp : 1 ≤ 2 ^ (64 - k) := Nat.one_le_two_pow
    have hq : 1 ≤ 2 ^ k := Nat.one_le_two_pow
    rw [e, Nat.mul_sub, mul_one]
    have : 2 ^ k ≤ 2 ^ k * 2 ^ (64 - k) := Nat.le_mul_of_pos_right _ (by positivity)
    omega
  rw [this, Nat.mul_add_mod, Nat.mod_eq_of_lt]
  have hq : 1 ≤ 2 ^ k := Nat.one_le_two_pow
  omega

theorem vector_to_array_known (bits4 : List vvp_bit4_t) (addr wid : Nat) (hw : 1 ≤ wid)
    (hin : operand_ok bits4 addr wid)
    (hk : vec4Known (vthread_bits_to_vector bits4 addr wid) = true) :
    ∃ ws, vector_to_array bits4 addr wid = some ws ∧ ws.length = wordCount wid ∧
      wordsOk ws ∧ wordsVal ws = vec4Val (vthread_bits_to_vector bits4 addr wid) := by
  unfold vector_to_array
  unfold vthread_bits_to_vector at hk ⊢
  by_cases h4 : addr ≥ 4
  · rw [if_pos h4] at hk ⊢
    rw [if_neg (by omega), if_neg (by omega), if_neg (by omega)]
    have hin' : addr + wid ≤ bits4.length := by
      rcases hin with h | h
      · omega
      · exact h
    refine ⟨_, subarray_known _ _ _ hin' hk, wordsOfNat_length _ _, wordsOfNat_ok _ _, ?_⟩
    rw [wordsVal_ofNat, Nat.mod_eq_of_lt]
    have := vec4Val_lt (vec4Part bits4 addr wid)
    rw [vec4Part_length _ _ _ hin'] at this
    exact lt_of_lt_of_le this (two_pow_le_WORD_pow wid)
  · rw [if_neg h4] at hk ⊢
    by_cases h0 : addr = 0
    · subst h0
      rw [if_pos rfl]
      refine ⟨_, rfl, by simp, wordsOk_replicate _ _ WORD_pos, ?_⟩
      rw [wordsVal_replicate_zero]
      simp [thr_index_to_bit4, vec4Val_replicate_zero]
    · by_cases h1 : addr = 1
      · subst h1
        rw [if_neg h0, if_pos rfl]
        have hthr : thr_index_to_bit4 1 = BIT4_1 := rfl
        rw [hthr, vec4Val_replicate_one]
        obtain ⟨k, hk1⟩ : ∃ k, wordCount wid = k + 1 := by
          refine ⟨wordCount wid - 1, ?_⟩
          have : 1 ≤ wordCount wid := by simp only [wordCount, CPU_WORD_BITS]; omega
          omega
        have hkw : 64 * k < wid ∧ wid ≤ 64 * k + 64 := by
          simp only [wordCount, CPU_WORD_BITS] at hk1
          omega
        have hW : (1:Nat) ≤ WORD ^ k := Nat.one_le_pow _ _ WORD_pos
        simp only [hk1, Nat.add_sub_cancel, CPU_WORD_BITS]
        by_cases hlt : wid - k * 64 < 64
        · rw [if_pos hlt]
          refine ⟨_, rfl, by simp, ?_, ?_⟩
          · rw [List.replicate_succ', List.set_append]
            simp only [List.length_replicate, lt_self_iff_false, if_false, Nat.sub_self,
              List.set_cons_zero]
            rw [wordsOk_append]
            refine ⟨wordsOk_replicate _ _ (by unfold WORD; omega), ?_⟩
            rw [wordsOk_cons]
            refine ⟨?_, wordsOk_nil⟩
            refine lt_of_le_of_lt Nat.and_le_right ?_
            rw [Nat.shiftRight_eq_div_pow]
            exact lt_of_le_of_lt (Nat.div_le_self _ _) (by unfold WORD; omega)
          · rw [List.replicate_succ', List.set_append]
            simp only [List.length_replicate, lt_self_iff_false, if_false, Nat.sub_self,
              List.set_cons_zero]
            rw [wordsVal_append, wordsVal_replicate_max, List.length_replicate]
            have hg : (List.replicate k (WORD - 1) ++ [WORD - 1]).getD k 0 = WORD - 1 := by
              rw [List.getD_eq_getElem?_getD, List.getElem?_append_right (by simp)]
              simp
            rw [hg]
            have := top_mask_eq (wid - k * 64) hlt (by omega)
            simp only [CPU_WORD_BITS] at this
            rw [this]
            simp only [wordsVal, mul_zero, add_zero]
            have e : (2:Nat) ^ wid = WORD ^ k * 2 ^ (wid - k * 64) := by
              rw [WORD_eq, ← pow_mul, ← pow_add]; congr 1; omega
            have hq : 1 ≤ 2 ^ (wid - k * 64) := Nat.one_le_two_pow
            rw [e, Nat.mul_sub, mul_one]
            have : WORD ^ k ≤ WORD ^ k * 2 ^ (wid - k * 64) :=
              Nat.le_mul_of_pos_right _ (by positivity)
            omega
        · rw [if_neg hlt]
          refine ⟨_, rfl, by simp, wordsOk_replicate _ _ (by unfold WORD; omega), ?_⟩
          rw [wordsVal_replicate_max]
          have : wid = 64 * (k + 1) := by omega
          rw [this, WORD_eq, ← pow_mul]
      · exfalso
        have : addr = 2 ∨ addr = 3 := by omega
        rcases this with rfl | rfl
        · have hthr : thr_index_to_bit4 2 = BIT4_X := rfl
          rw [hthr, vec4Known_replicate_X wid hw] at hk
          exact Bool.false_ne_true hk
        · have hthr : thr_index_to_bit4 3 = BIT4_Z := rfl
          rw [hthr, vec4Known_replicate_Z wid hw] at hk
          exact Bool.false_ne_true hk

/-! ## Addition with carry over word arrays -/

theorem add_with_carry_spec (a b c : Nat) (ha : a < WORD) (hb : b < WORD) (hc : c ≤ 1) :
    (add_with_carry a b c).1 + WORD * (add_with_carry a b c).2 = a + b + c ∧
    (add_with_carry a b c).1 < WORD ∧ (add_with_carry a b c).2 ≤ 1 := by
  simp only [add_with_carry]
  have hW : WORD = 18446744073709551616 := by norm_num [WORD]
  rw [hW] at ha hb ⊢
  refine ⟨?_, Nat.mod_lt _ (by norm_num), ?_⟩
  · split_ifs <;> omega
  · split_ifs <;> omega

theorem addLists_length (f : Nat → Nat) (xs ys : List Nat) (c : Nat) :
    (addLists f xs ys c).1.length = xs.length := by
  induction xs generalizing ys c with
  | nil => simp [addLists]
  | cons x xs ih => simp [addLists, ih]

theorem addLists_spec (f : Nat → Nat) (xs ys : List Nat) (c : Nat)
    (hf : ∀ y ∈ ys, f y < WORD)
    (hxs : wordsOk xs) (hlen : xs.length ≤ ys.length ∨ f 0 = 0) (hc : c ≤ 1) :
    wordsVal (addLists f xs ys c).1 + WORD ^ xs.length * (addLists f xs ys c).2
      = wordsVal xs + wordsVal ((ys.take xs.length).map f) + c ∧
    wordsOk (addLists f xs ys c).1 ∧ (addLists f xs ys c).2 ≤ 1 := by
  induction xs generalizing ys c with
  | nil => simp [addLists, wordsVal, wordsOk_nil, hc]
  | cons x xs ih =>
    rw [wordsOk_cons] at hxs
    have key : ∀ (fy : Nat) (ys' : List Nat), fy < WORD → (∀ y ∈ ys', f y < WORD) →
        (xs.length ≤ ys'.length ∨ f 0 = 0) →
        wordsVal ((add_with_carry x fy c).1 :: (addLists f xs ys' (add_with_carry x fy c).2).1)
          + WORD ^ (xs.length + 1) * (addLists f xs ys' (add_with_carry x fy c).2).2
          = wordsVal (x :: xs) + (fy + WORD * wordsVal ((ys'.take xs.length).map f)) + c ∧
        wordsOk ((add_with_carry x fy c).1 :: (addLists f xs ys' (add_with_carry x fy c).2).1) ∧
        (addLists f xs ys' (add_with_carry x fy c).2).2 ≤ 1 := by
      intro fy ys' hfy hf' hlen'
      obtain ⟨h1, h2, h3⟩ := add_with_carry_spec x fy c hxs.1 hfy hc
      obtain ⟨i1, i2, i3⟩ := ih ys' (add_with_carry x fy c).2 hf' hxs.2 hlen' h3
      simp only [wordsVal, pow_succ]
      refine ⟨?_, ?_, i3⟩
      · have e1 : WORD * wordsVal (addLists f xs ys' (add_with_carry x fy c).2).1
            + WORD * (WORD ^ xs.length * (addLists f xs ys' (add_with_carry x fy c).2).2)
            = WORD * (wordsVal xs + wordsVal ((ys'.take xs.length).map f)
              + (add_with_carry x fy c).2) := by
          rw [← Nat.mul_add, i1]
        have e2 : WORD ^ xs.length * WORD * (addLists f xs ys' (add_with_carry x fy c).2).2
            = WORD * (WORD ^ xs.length * (addLists f xs ys' (add_with_carry x fy c).2).2) := by
          ring
        rw [e2]
        have e3 : WORD * (wordsVal xs + wordsVal ((ys'.take xs.length).map f)
              + (add_with_carry x fy c).2)
            = WORD * wordsVal xs + WORD * wordsVal ((ys'.take xs.length).map f)
              + WORD * (add_with_carry x fy c).2 := by ring
        omega
      · rw [wordsOk_cons]
        exact ⟨h2, i2⟩
    cases ys with
    | nil =>
      have hf0 : f 0 = 0 := by
        rcases hlen with h | h
        · simp at h
        · exact h
      have := key 0 [] WORD_pos (by simp) (Or.inr hf0)
      simpa [addLists, hf0, wordsVal] using this
    | cons y ys =>
      have hlen' : xs.length ≤ ys.length ∨ f 0 = 0 := by
        rcases hlen with h | h
        · left; simpa using h
        · exact Or.inr h
      have := key (f y) ys (hf y (List.mem_cons_self _ _))
        (fun z hz => hf z (List.mem_cons_of_mem _ hz)) hlen'
      simpa [addLists, wordsVal] using this

theorem wordNot_lt (x : Nat) : wordNot x < WORD := by
  unfold wordNot
  have := WORD_pos
  omega

theorem wordsVal_map_wordNot (ys : List Nat) (h : wordsOk ys) :
    wordsVal (ys.map wordNot) + wordsVal ys + 1 = WORD ^ ys.length := by
  induction ys with
  | nil => simp [wordsVal]
  | cons y ys ih =>
    rw [wordsOk_cons] at h
    have := ih h.2
    simp only [List.map_cons, wordsVal, List.length_cons, pow_succ, wordNot,
      Nat.mod_eq_of_lt h.1]
    have hy := h.1
    have e : WORD ^ ys.length * WORD = WORD * (wordsVal (ys.map wordNot) + wordsVal ys + 1) := by
      rw [this]; ring
    rw [e]
    have e2 : WORD * (wordsVal (ys.map wordNot) + wordsVal ys + 1)
        = WORD * wordsVal (ys.map wordNot) + WORD * wordsVal ys + WORD := by ring
    omega

theorem forLoop_zero {σ : Type} (body : Nat → σ → σ) (lo : Nat) (s : σ) :
    forLoop body 0 lo s = s := rfl

theorem forLoop_succ {σ : Type} (body : Nat → σ → σ) (n lo : Nat) (s : σ) :
    forLoop body (n + 1) lo s = forLoop body n (lo + 1) (body lo s) := rfl

theorem getD_mid (pre : List Nat) (x : Nat) (rest : List Nat) :
    (pre ++ x :: rest).getD pre.length 0 = x := by
  rw [List.getD_eq_getElem?_getD, List.getElem?_append_right (le_refl _)]
  simp

theorem set_mid (pre : List Nat) (x : Nat) (rest : List Nat) (v : Nat) :
    (pre ++ x :: rest).set pre.length v = (pre ++ [v]) ++ rest := by
  rw [List.set_append]
  simp

theorem forLoop_addShifted (f : Nat → Nat) (y : List Nat) (off : Nat) (xs : List Nat) :
    ∀ (pre post : List Nat) (c : Nat), off ≤ pre.length →
      forLoop (addShifted f y off) xs.length pre.length (pre ++ xs ++ post, c)
        = (pre ++ (addLists f xs (y.drop (pre.length - off)) c).1 ++ post,
           (addLists f xs (y.drop (pre.length - off)) c).2) := by
  induction xs with
  | nil => intro pre post c _; simp [forLoop, addLists]
  | cons x xs ih =>
    intro pre post c hoff
    rw [List.length_cons, forLoop_succ]
    have hb : addShifted f y off pre.length (pre ++ x :: xs ++ post, c)
        = ((pre ++ [(add_with_carry x (f (y.getD (pre.length - off) 0)) c).1]) ++ xs ++ post,
           (add_with_carry x (f (y.getD (pre.length - off) 0)) c).2) := by
      simp only [addShifted, List.append_assoc, List.cons_append, getD_mid, set_mid]
    rw [hb]
    have hl : (pre ++ [(add_with_carry x (f (y.getD (pre.length - off) 0)) c).1]).length
        = pre.length + 1 := by simp
    have := ih (pre ++ [(add_with_carry x (f (y.getD (pre.length - off) 0)) c).1]) post
      (add_with_carry x (f (y.getD (pre.length - off) 0)) c).2 (by rw [hl]; omega)
    rw [hl] at this
    rw [this]
    have hd : (y.drop (pre.length - off)).headD 0 = y.getD (pre.length - off) 0 := by
      rw [List.getD_eq_getElem?_getD, List.headD_eq_head?_getD, List.head?_drop]
    have ht : (y.drop (pre.length - off)).tail = y.drop (pre.length + 1 - off) := by
      rw [List.tail_drop]; congr 1; omega
    simp only [addLists, hd, ht, List.append_assoc, List.singleton_append]

theorem addArrays_eq (f : Nat → Nat) (lvb : List Nat) :
    addArrays f lvb = addShifted f lvb 0 := by
  funext idx st
  simp [addArrays, addShifted]

theorem forLoop_addArrays (f : Nat → Nat) (lvb lva : List Nat) (c : Nat) :
    forLoop (addArrays f lvb) lva.length 0 (lva, c) = addLists f lva lvb c := by
  have := forLoop_addShifted f lvb 0 lva [] [] c (le_refl _)
  simp only [List.length_nil, List.nil_append, List.append_nil, Nat.sub_self,
    List.drop_zero] at this
  rw [addArrays_eq, this]

theorem vec4OfNat_congr (w n m : Nat) (h : n % 2 ^ w = m % 2 ^ w) :
    vec4OfNat w n = vec4OfNat w m := by
  apply vec4_ext _ _ (vec4OfNat_known _ _) (vec4OfNat_known _ _)
  · simp [vec4OfNat_length]
  · rw [vec4Val_ofNat, vec4Val_ofNat, h]

theorem two_pow_dvd_WORD_pow (wid : Nat) : 2 ^ wid ∣ WORD ^ wordCount wid := by
  rw [WORD_eq, ← pow_mul]
  exact pow_dvd_pow 2 (wordCount_bound wid)

/-- A congruence modulo `WORD^n` descends to the width. -/
theorem mod_width_of_words (wid x y c : Nat) (h : x + WORD ^ wordCount wid * c = y) :
    x % 2 ^ wid = y % 2 ^ wid := by
  obtain ⟨q, hq⟩ := two_pow_dvd_WORD_pow wid
  rw [← h, hq, mul_assoc, Nat.add_mul_mod_self_left]

/-! ## `of_ADD` and `of_SUB` -/

theorem set_x_out_some (bits4 : List vvp_bit4_t) (d w : Nat) (hin : d + w ≤ bits4.length) :
    set_x_out bits4 d w
      = some (bits4.take d ++ List.replicate w BIT4_X ++ bits4.drop (d + w)) := by
  unfold set_x_out
  have := set_vec_some bits4 d (List.replicate w BIT4_X) (by simpa using hin)
  simpa using this

theorem splice_part' (bits4 : List vvp_bit4_t) (d w : Nat) (that : List vvp_bit4_t)
    (hl : that.length = w) (hin : d + w ≤ bits4.length) :
    vec4Part (bits4.take d ++ that ++ bits4.drop (d + w)) d w = that := by
  subst hl
  exact splice_part bits4 d that hin

theorem set_x_out_part (bits4 : List vvp_bit4_t) (d w : Nat) (hin : d + w ≤ bits4.length) :
    ∃ bits', set_x_out bits4 d w = some bits' ∧
      vec4Part bits' d w = List.replicate w BIT4_X :=
  ⟨_, set_x_out_some bits4 d w hin, splice_part' bits4 d w _ (by simp) hin⟩

theorem operand_lt (bits4 : List vvp_bit4_t) (addr wid : Nat)
    (hin : operand_ok bits4 addr wid) :
    vec4Val (vthread_bits_to_vector bits4 addr wid) < 2 ^ wid := by
  have := vec4Val_lt (vthread_bits_to_vector bits4 addr wid)
  have hl : (vthread_bits_to_vector bits4 addr wid).length = wid := by
    unfold vthread_bits_to_vector
    split
    · rcases hin with h | h
      · omega
      · exact vec4Part_length _ _ _ h
    · simp
  rwa [hl] at this

theorem take_of_length_le (l : List Nat) (n : Nat) (h : l.length ≤ n) : l.take n = l :=
  List.take_of_length_le h

theorem stored_part (bits4 : List vvp_bit4_t) (d w r : Nat) (hin : d + w ≤ bits4.length) :
    vec4Part (stored bits4 d w r) d w = vec4OfNat w r :=
  splice_part' bits4 d w _ (vec4OfNat_length _ _) hin

theorem stored_length (bits4 : List vvp_bit4_t) (d w r : Nat) (hin : d + w ≤ bits4.length) :
    (stored bits4 d w r).length = bits4.length := by
  have := splice_length bits4 d (vec4OfNat w r) (by rw [vec4OfNat_length]; exact hin)
  rw [vec4OfNat_length] at this
  exact this

theorem stored_part_other (bits4 : List vvp_bit4_t) (d w r : Nat) (hin : d + w ≤ bits4.length)
    (s n : Nat) (hdis : s + n ≤ d ∨ d + w ≤ s) :
    vec4Part (stored bits4 d w r) s n = vec4Part bits4 s n := by
  have := splice_part_other bits4 d (vec4OfNat w r) (by rw [vec4OfNat_length]; exact hin) s n
    (by rw [vec4OfNat_length]; exact hdis)
  rw [vec4OfNat_length] at this
  exact this

theorem stored_congr (bits4 : List vvp_bit4_t) (d w r r' : Nat) (h : r % 2 ^ w = r' % 2 ^ w) :
    stored bits4 d w r = stored bits4 d w r' := by
  unfold stored
  rw [vec4OfNat_congr w r r' h]

theorem setarray_stored (bits4 : List vvp_bit4_t) (d w : Nat) (val : List Nat)
    (h : wordsOk val) (hin : d + w ≤ bits4.length) :
    setarray bits4 d w val = some (stored bits4 d w (wordsVal val)) :=
  setarray_some bits4 d w val h hin

theorem of_ADD_known (bits4 : List vvp_bit4_t) (d s w : Nat) (hd : 4 ≤ d) (hw : 1 ≤ w)
    (hin : d + w ≤ bits4.length) (hs : operand_ok bits4 s w)
    (hka : vec4Known (vthread_bits_to_vector bits4 d w) = true)
    (hkb : vec4Known (vthread_bits_to_vector bits4 s w) = true) :
    of_ADD bits4 ⟨d, s, w⟩ = some (stored bits4 d w
      ((vec4Val (vthread_bits_to_vector bits4 d w)
        + vec4Val (vthread_bits_to_vector bits4 s w)) % 2 ^ w)) := by
  obtain ⟨wa, ha, hla, hoa, hva⟩ := vector_to_array_known bits4 d w hw (Or.inr hin) hka
  obtain ⟨wb, hb, hlb, hob, hvb⟩ := vector_to_array_known bits4 s w hw hs hkb
  unfold of_ADD
  simp only [ha, hb]
  rw [if_neg (by omega), ← hla, forLoop_addArrays]
  obtain ⟨h1, h2, h3⟩ := addLists_spec id wa wb 0 (fun y hy => hob y hy) hoa
    (Or.inl (by omega)) (by omega)
  rw [setarray_stored _ _ _ _ h2 hin]
  congr 1
  apply stored_congr
  rw [Nat.mod_mod]
  rw [hla] at h1
  have := mod_width_of_words w _ _ _ h1
  rw [this, List.map_id, List.take_of_length_le (by omega), hva, hvb, add_zero]

theorem of_SUB_known (bits4 : List vvp_bit4_t) (d s w : Nat) (hd : 4 ≤ d) (hw : 1 ≤ w)
    (hin : d + w ≤ bits4.length) (hs : operand_ok bits4 s w)
    (hka : vec4Known (vthread_bits_to_vector bits4 d w) = true)
    (hkb : vec4Known (vthread_bits_to_vector bits4 s w) = true) :
    ∃ r, of_SUB bits4 ⟨d, s, w⟩ = some (stored bits4 d w r) ∧ r < 2 ^ w ∧
      (r + vec4Val (vthread_bits_to_vector bits4 s w)) % 2 ^ w
        = vec4Val (vthread_bits_to_vector bits4 d w) % 2 ^ w := by
  obtain ⟨wa, ha, hla, hoa, hva⟩ := vector_to_array_known bits4 d w hw (Or.inr hin) hka
  obtain ⟨wb, hb, hlb, hob, hvb⟩ := vector_to_array_known bits4 s w hw hs hkb
  unfold of_SUB
  simp only [ha, hb]
  rw [if_neg (by omega), ← hla, forLoop_addArrays]
  obtain ⟨h1, h2, h3⟩ := addLists_spec wordNot wa wb 1 (fun y _ => wordNot_lt y) hoa
    (Or.inl (by omega)) (by omega)
  rw [setarray_stored _ _ _ _ h2 hin]
  refine ⟨wordsVal (addLists wordNot wa wb 1).1 % 2 ^ w, ?_, Nat.mod_lt _ (by positivity), ?_⟩
  · congr 1
    apply stored_congr
    rw [Nat.mod_mod]
  · rw [List.take_of_length_le (by omega)] at h1
    have hn := wordsVal_map_wordNot wb hob
    rw [hlb] at hn
    rw [hla] at h1
    have e : wordsVal (addLists wordNot wa wb 1).1 + wordsVal wb
          + WORD ^ wordCount w * (addLists wordNot wa wb 1).2
        = wordsVal wa + WORD ^ wordCount w * 1 := by
      omega
    have e1 := mod_width_of_words w _ _ _ e
    have e2 := mod_width_of_words w (wordsVal wa) _ 1 rfl
    rw [Nat.mod_add_mod, ← hvb, e1, ← e2, hva]

/-! ## Multiplication -/

theorem and_mask32 (x : Nat) : x &&& 4294967295 = x % 4294967296 := by
  have := Nat.and_pow_two_sub_one_eq_mod x 32
  norm_num at this
  exact this

/-- The arithmetic of `multiply_with_carry` on the four partial products. -/
theorem mul_halves (p00 p01 p10 p11 : Nat) (t00 : p00 ≤ 18446744065119617025)
    (t01 : p01 ≤ 18446744065119617025) (t10 : p10 ≤ 18446744065119617025)
    (t11 : p11 ≤ 18446744065119617025) :
    ((((p00 % 18446744073709551616 / 4294967296 % 4294967296
            + p01 % 18446744073709551616 % 4294967296
            + p10 % 18446744073709551616 % 4294967296) % 18446744073709551616 % 4294967296)
          * 4294967296 % 18446744073709551616
        + p00 % 18446744073709551616 % 4294967296) % 18446744073709551616)
      + 18446744073709551616 *
        ((((((p00 % 18446744073709551616 / 4294967296 % 4294967296
                + p01 % 18446744073709551616 % 4294967296
                + p10 % 18446744073709551616 % 4294967296) % 18446744073709551616
                  / 4294967296 % 4294967296
              + (p01 % 18446744073709551616 / 4294967296 % 4294967296
                + p10 % 18446744073709551616 / 4294967296 % 4294967296
                + p11 % 18446744073709551616 % 4294967296)) % 18446744073709551616
                / 4294967296 % 4294967296
            + p11 % 18446744073709551616 / 4294967296 % 4294967296) % 18446744073709551616
              % 4294967296) * 4294967296 % 18446744073709551616
          + ((p00 % 18446744073709551616 / 4294967296 % 4294967296
                + p01 % 18446744073709551616 % 4294967296
                + p10 % 18446744073709551616 % 4294967296) % 18446744073709551616
                  / 4294967296 % 4294967296
              + (p01 % 18446744073709551616 / 4294967296 % 4294967296
                + p10 % 18446744073709551616 / 4294967296 % 4294967296
                + p11 % 18446744073709551616 % 4294967296)) % 18446744073709551616
                % 4294967296) % 18446744073709551616)
      = p11 * 18446744073709551616 + (p01 + p10) * 4294967296 + p00 := by
  have w00 : p00 % 18446744073709551616 = p00 := Nat.mod_eq_of_lt (by omega)
  have w01 : p01 % 18446744073709551616 = p01 := Nat.mod_eq_of_lt (by omega)
  have w10 : p10 % 18446744073709551616 = p10 := Nat.mod_eq_of_lt (by omega)
  have w11 : p11 % 18446744073709551616 = p11 := Nat.mod_eq_of_lt (by omega)
  rw [w00, w01, w10, w11]
  have d00 : p00 / 4294967296 % 4294967296 = p00 / 4294967296 := Nat.mod_eq_of_lt (by omega)
  have d01 : p01 / 4294967296 % 4294967296 = p01 / 4294967296 := Nat.mod_eq_of_lt (by omega)
  have d10 : p10 / 4294967296 % 4294967296 = p10 / 4294967296 := Nat.mod_eq_of_lt (by omega)
  have d11 : p11 / 4294967296 % 4294967296 = p11 / 4294967296 := Nat.mod_eq_of_lt (by omega)
  rw [d00, d01, d10, d11]
  have e00 : p00 = 4294967296 * (p00 / 4294967296) + p00 % 4294967296 := by omega
  have e01 : p01 = 4294967296 * (p01 / 4294967296) + p01 % 4294967296 := by omega
  have e10 : p10 = 4294967296 * (p10 / 4294967296) + p10 % 4294967296 := by omega
  have e11 : p11 = 4294967296 * (p11 / 4294967296) + p11 % 4294967296 := by omega
  have m00 : p00 % 4294967296 < 4294967296 := Nat.mod_lt _ (by norm_num)
  have m01 : p01 % 4294967296 < 4294967296 := Nat.mod_lt _ (by norm_num)
  have m10 : p10 % 4294967296 < 4294967296 := Nat.mod_lt _ (by norm_num)
  have m11 : p11 % 4294967296 < 4294967296 := Nat.mod_lt _ (by norm_num)
  have b00 : p00 / 4294967296 ≤ 4294967294 := by omega
  have b01 : p01 / 4294967296 ≤ 4294967294 := by omega
  have b10 : p10 / 4294967296 ≤ 4294967294 := by omega
  have b11 : p11 / 4294967296 ≤ 4294967294 := by omega
  generalize p00 / 4294967296 = c00 at *
  generalize p01 / 4294967296 = c01 at *
  generalize p10 / 4294967296 = c10 at *
  generalize p11 / 4294967296 = c11 at *
  generalize p00 % 4294967296 = r00 at *
  generalize p01 % 4294967296 = r01 at *
  generalize p10 % 4294967296 = r10 at *
  generalize p11 % 4294967296 = r11 at *
  subst e00 e01 e10 e11
  have s1 : (c00 + r01 + r10) % 18446744073709551616 = c00 + r01 + r10 :=
    Nat.mod_eq_of_lt (by omega)
  rw [s1]
  have q1b : (c00 + r01 + r10) / 4294967296 ≤ 2 := by omega
  have s1d : (c00 + r01 + r10) / 4294967296 % 4294967296 = (c00 + r01 + r10) / 4294967296 :=
    Nat.mod_eq_of_lt (by omega)
  rw [s1d]
  have es1 : c00 + r01 + r10
      = 4294967296 * ((c00 + r01 + r10) / 4294967296) + (c00 + r01 + r10) % 4294967296 := by
    omega
  have ms1 : (c00 + r01 + r10) % 4294967296 < 4294967296 := Nat.mod_lt _ (by norm_num)
  generalize (c00 + r01 + r10) / 4294967296 = q1 at *
  generalize (c00 + r01 + r10) % 4294967296 = m1 at *
  have s2 : (q1 + (c01 + c10 + r11)) % 18446744073709551616 = q1 + (c01 + c10 + r11) :=
    Nat.mod_eq_of_lt (by omega)
  rw [s2]
  have q2b : (q1 + (c01 + c10 + r11)) / 4294967296 ≤ 2 := by omega
  have s2d : (q1 + (c01 + c10 + r11)) / 4294967296 % 4294967296
      = (q1 + (c01 + c10 + r11)) / 4294967296 := Nat.mod_eq_of_lt (by omega)
  rw [s2d]
  have es2 : q1 + (c01 + c10 + r11)
      = 4294967296 * ((q1 + (c01 + c10 + r11)) / 4294967296)
        + (q1 + (c01 + c10 + r11)) % 4294967296 := by omega
  have ms2 : (q1 + (c01 + c10 + r11)) % 4294967296 < 4294967296 :=
    Nat.mod_lt _ (by norm_num)
  generalize (q1 + (c01 + c10 + r11)) / 4294967296 = q2 at *
  generalize (q1 + (c01 + c10 + r11)) % 4294967296 = m2 at *
  have s3 : (q2 + c11) % 18446744073709551616 = q2 + c11 := Nat.mod_eq_of_lt (by omega)
  rw [s3]
  -- the high half of the carry does not overflow
  have hq2 : q2 + c11 < 4294967296 := by omega
  have s3m : (q2 + c11) % 4294967296 = q2 + c11 := Nat.mod_eq_of_lt hq2
  rw [s3m]
  have s4 : (q2 + c11) * 4294967296 % 18446744073709551616 = (q2 + c11) * 4294967296 :=
    Nat.mod_eq_of_lt (by omega)
  have s5 : m1 * 4294967296 % 18446744073709551616 = m1 * 4294967296 :=
    Nat.mod_eq_of_lt (by omega)
  rw [s4, s5]
  have s6 : (m1 * 4294967296 + r00) % 18446744073709551616 = m1 * 4294967296 + r00 :=
    Nat.mod_eq_of_lt (by omega)
  have s7 : ((q2 + c11) * 4294967296 + m2) % 18446744073709551616
      = (q2 + c11) * 4294967296 + m2 := Nat.mod_eq_of_lt (by omega)
  rw [s6, s7]
  omega

theorem multiply_with_carry_spec (a b : Nat) (ha : a < WORD) (hb : b < WORD) :
    (multiply_with_carry a b).1 + WORD * (multiply_with_carry a b).2 = a * b ∧
    (multiply_with_carry a b).1 < WORD ∧ (multiply_with_carry a b).2 < WORD := by
  have hmask : (1 <<< (CPU_WORD_BITS / 2)) % WORD - 1 = 4294967295 := by
    norm_num [CPU_WORD_BITS, WORD, Nat.shiftLeft_eq]
  have hW : WORD = 18446744073709551616 := by norm_num [WORD]
  simp only [multiply_with_carry, hmask]
  simp only [and_mask32, Nat.shiftRight_eq_div_pow, Nat.shiftLeft_eq, CPU_WORD_BITS]
  rw [hW] at ha hb
  simp only [hW]
  norm_num only
  refine ⟨?_, Nat.mod_lt _ (by norm_num), Nat.mod_lt _ (by norm_num)⟩
  have h0 : a % 4294967296 < 4294967296 := Nat.mod_lt _ (by norm_num)
  have h1 : a / 4294967296 % 4294967296 < 4294967296 := Nat.mod_lt _ (by norm_num)
  have h2 : b % 4294967296 < 4294967296 := Nat.mod_lt _ (by norm_num)
  have h3 : b / 4294967296 % 4294967296 < 4294967296 := Nat.mod_lt _ (by norm_num)
  have ea : a = (a / 4294967296 % 4294967296) * 4294967296 + a % 4294967296 := by omega
  have eb : b = (b / 4294967296 % 4294967296) * 4294967296 + b % 4294967296 := by omega
  generalize a % 4294967296 = a0 at *
  generalize a / 4294967296 % 4294967296 = a1 at *
  generalize b % 4294967296 = b0 at *
  generalize b / 4294967296 % 4294967296 = b1 at *
  have hab : a * b = a1 * b1 * 18446744073709551616 + (a0 * b1 + a1 * b0) * 4294967296
      + a0 * b0 := by
    rw [ea, eb]; ring
  have t00 : a0 * b0 ≤ 4294967295 * 4294967295 := Nat.mul_le_mul (by omega) (by omega)
  have t01 : a0 * b1 ≤ 4294967295 * 4294967295 := Nat.mul_le_mul (by omega) (by omega)
  have t10 : a1 * b0 ≤ 4294967295 * 4294967295 := Nat.mul_le_mul (by omega) (by omega)
  have t11 : a1 * b1 ≤ 4294967295 * 4294967295 := Nat.mul_le_mul (by omega) (by omega)
  rw [hab]
  norm_num only at t00 t01 t10 t11
  exact mul_halves (a0 * b0) (a0 * b1) (a1 * b0) (a1 * b1) t00 t01 t10 t11

theorem forLoop_invariant {σ : Type} (body : Nat → σ → σ) (P : Nat → σ → Prop) (n : Nat) :
    ∀ (lo : Nat) (s : σ), P lo s →
      (∀ i s, lo ≤ i → i < lo + n → P i s → P (i + 1) (body i s)) →
      P (lo + n) (forLoop body n lo s) := by
  induction n with
  | zero => intro lo s h0 _; simpa [forLoop] using h0
  | succ n ih =>
    intro lo s h0 hstep
    rw [forLoop_succ]
    have := ih (lo + 1) (body lo s) (hstep lo s (le_refl _) (by omega) h0)
      (fun i s hi1 hi2 hp => hstep i s (by omega) (by omega) hp)
    have e : lo + 1 + n = lo + (n + 1) := by omega
    rwa [e] at this

theorem addLists_nil_zero (xs : List Nat) (c : Nat) :
    addLists id xs [0] c = addLists id xs [] c := by
  cases xs with
  | nil => simp [addLists]
  | cons x xs => simp [addLists]

theorem forLoop_addSumStep (xs : List Nat) :
    ∀ (pre post : List Nat) (sum c : Nat),
      (forLoop addSumStep xs.length pre.length (pre ++ xs ++ post, sum, c)).1
        = pre ++ (addLists id xs [sum] c).1 ++ post := by
  induction xs with
  | nil => intro pre post sum c; simp [forLoop, addLists]
  | cons x xs ih =>
    intro pre post sum c
    rw [List.length_cons, forLoop_succ]
    have hb : addSumStep pre.length (pre ++ x :: xs ++ post, sum, c)
        = ((pre ++ [(add_with_carry x sum c).1]) ++ xs ++ post, 0,
           (add_with_carry x sum c).2) := by
      simp only [addSumStep, List.append_assoc, List.cons_append, getD_mid, set_mid]
    rw [hb]
    have hl : (pre ++ [(add_with_carry x sum c).1]).length = pre.length + 1 := by simp
    have := ih (pre ++ [(add_with_carry x sum c).1]) post 0 (add_with_carry x sum c).2
    rw [hl] at this
    rw [this, addLists_nil_zero]
    simp [addLists]

theorem list_split_at (l : List Nat) (i : Nat) (h : i < l.length) :
    l = l.take i ++ l.getD i 0 :: l.drop (i + 1) ∧ (l.take i).length = i := by
  constructor
  · rw [List.getD_eq_getElem?_getD, List.getElem?_eq_getElem h, Option.getD_some]
    rw [← List.drop_eq_getElem_cons h, List.take_append_drop]
  · simp; omega

theorem wordsOk_take (l : List Nat) (h : wordsOk l) (i : Nat) : wordsOk (l.take i) :=
  fun x hx => h x (List.mem_of_mem_take hx)

theorem wordsOk_drop (l : List Nat) (h : wordsOk l) (i : Nat) : wordsOk (l.drop i) :=
  fun x hx => h x (List.mem_of_mem_drop hx)

theorem wordsOk_getD (l : List Nat) (h : wordsOk l) (i : Nat) : l.getD i 0 < WORD := by
  rw [List.getD_eq_getElem?_getD]
  by_cases hi : i < l.length
  · rw [List.getElem?_eq_getElem hi, Option.getD_some]
    exact h _ (List.getElem_mem hi)
  · rw [List.getElem?_eq_none (by omega)]
    exact WORD_pos

/-- One partial product added into the result array. -/
theorem addProduct_spec (words base x y : Nat) (res : List Nat) (hx : x < WORD)
    (hy : y < WORD) (hlen : res.length = words) (hok : wordsOk res) (hbase : base < words) :
    (addProduct words base x y res).length = words ∧ wordsOk (addProduct words base x y res) ∧
    wordsVal (addProduct words base x y res) % WORD ^ words
      = (wordsVal res + x * y * WORD ^ base) % WORD ^ words := by
  obtain ⟨hsplit, hpl⟩ := list_split_at res base (by omega)
  obtain ⟨m1, m2, m3⟩ := multiply_with_carry_spec x y hx hy
  have hv := wordsOk_getD res hok base
  obtain ⟨a1, a2, a3⟩ := add_with_carry_spec (res.getD base 0) (multiply_with_carry x y).1 0
    hv m2 (by omega)
  have hposts : (res.drop (base + 1)).length = words - (base + 1) := by simp; omega
  have hset : res.set base (add_with_carry (res.getD base 0) (multiply_with_carry x y).1 0).1
      = (res.take base ++ [(add_with_carry (res.getD base 0)
          (multiply_with_carry x y).1 0).1]) ++ res.drop (base + 1) ++ [] := by
    rw [List.set_eq_take_append_cons_drop, if_pos (by omega)]
    simp
  have hpl1 : (res.take base ++ [(add_with_carry (res.getD base 0)
      (multiply_with_carry x y).1 0).1]).length = base + 1 := by simp; omega
  have hloop := forLoop_addSumStep (res.drop (base + 1))
    (res.take base ++ [(add_with_carry (res.getD base 0) (multiply_with_carry x y).1 0).1]) []
    (multiply_with_carry x y).2
    (add_with_carry (res.getD base 0) (multiply_with_carry x y).1 0).2
  rw [hpl1, hposts, ← hset] at hloop
  have hAP : addProduct words base x y res
      = (res.take base ++ [(add_with_carry (res.getD base 0) (multiply_with_carry x y).1 0).1])
        ++ (addLists id (res.drop (base + 1)) [(multiply_with_carry x y).2]
          (add_with_carry (res.getD base 0) (multiply_with_carry x y).1 0).2).1 ++ [] := by
    unfold addProduct
    exact hloop
  obtain ⟨s1, s2, s3⟩ := addLists_spec id (res.drop (base + 1)) [(multiply_with_carry x y).2]
    (add_with_carry (res.getD base 0) (multiply_with_carry x y).1 0).2
    (by intro z hz; simp at hz; subst hz; exact m3) (wordsOk_drop res hok _) (Or.inr rfl) a3
  rw [hAP, List.append_nil]
  refine ⟨?_, ?_, ?_⟩
  · simp [addLists_length]; omega
  · rw [wordsOk_append, wordsOk_append]
    exact ⟨⟨wordsOk_take res hok _, by rw [wordsOk_cons]; exact ⟨a2, wordsOk_nil⟩⟩, s2⟩
  · have hres : wordsVal res = wordsVal (res.take base)
        + WORD ^ base * (res.getD base 0 + WORD * wordsVal (res.drop (base + 1))) := by
      conv_lhs => rw [hsplit]
      rw [wordsVal_append, hpl, wordsVal]
    rw [wordsVal_append, wordsVal_append, hpl1, hpl, hres]
    simp only [wordsVal, mul_zero, add_zero]
    rw [hposts] at s1
    have hww : WORD ^ words = WORD ^ base * (WORD * WORD ^ (words - (base + 1))) := by
      rw [← pow_succ', ← pow_add]; congr 1; omega
    -- the word written at `base`, the tail, and the two carries
    generalize (add_with_carry (res.getD base 0) (multiply_with_carry x y).1 0).1 = r1 at *
    generalize (add_with_carry (res.getD base 0) (multiply_with_carry x y).1 0).2 = c1 at *
    generalize (addLists id (res.drop (base + 1)) [(multiply_with_carry x y).2] c1).1 = tl at *
    generalize (addLists id (res.drop (base + 1)) [(multiply_with_carry x y).2] c1).2 = c2 at *
    generalize (multiply_with_carry x y).1 = lo at *
    generalize (multiply_with_carry x y).2 = hi at *
    generalize res.getD base 0 = v at *
    generalize wordsVal (res.take base) = P at *
    generalize wordsVal (res.drop (base + 1)) = Q at *
    have htake : wordsVal (List.map id (List.take (words - (base + 1)) [hi]))
        + WORD ^ (words - (base + 1)) * (if words - (base + 1) = 0 then hi else 0) = hi := by
      by_cases h0 : words - (base + 1) = 0
      · simp [h0, wordsVal]
      · obtain ⟨k, hk⟩ : ∃ k, words - (base + 1) = k + 1 := ⟨words - (base + 1) - 1, by omega⟩
        simp [hk, wordsVal]
    generalize wordsVal (List.map id (List.take (words - (base + 1)) [hi])) = T at *
    have key : P + WORD ^ base * (r1 + WORD * wordsVal tl)
        + WORD ^ words * (c2 + (if words - (base + 1) = 0 then hi else 0))
        = P + WORD ^ base * (v + WORD * Q) + x * y * WORD ^ base := by
      rw [hww, ← m1]
      have e1 : WORD ^ base * (WORD * WORD ^ (words - (base + 1))) *
            (c2 + (if words - (base + 1) = 0 then hi else 0))
          = WORD ^ base * (WORD * (WORD ^ (words - (base + 1)) * c2
            + WORD ^ (words - (base + 1)) * (if words - (base + 1) = 0 then hi else 0))) := by
        ring
      rw [e1]
      have e2 : WORD ^ (words - (base + 1)) * c2 = Q + T + c1 - wordsVal tl := by omega
      have e3 : wordsVal tl ≤ Q + T + c1 := by omega
      have e4 : WORD ^ (words - (base + 1)) * (if words - (base + 1) = 0 then hi else 0)
          = hi - T := by omega
      have e5 : T ≤ hi := by omega
      rw [e2, e4]
      zify [e3, e5]
      have a1' : (r1 : Int) = v + lo + 0 - WORD * c1 := by
        have := a1; zify at this; linarith
      rw [a1']
      ring
    have := congrArg (· % WORD ^ words) key
    simp only [Nat.add_mul_mod_self_left] at this
    have e6 : P + WORD ^ base * r1 + WORD ^ (base + 1) * wordsVal tl
        = P + WORD ^ base * (r1 + WORD * wordsVal tl) := by
      rw [pow_succ]; ring
    rw [e6]
    exact this

theorem wordsVal_take_succ (l : List Nat) (j : Nat) (h : j < l.length) :
    wordsVal (l.take (j + 1)) = wordsVal (l.take j) + WORD ^ j * l.getD j 0 := by
  rw [List.take_succ, wordsVal_append, List.getD_eq_getElem?_getD,
    List.getElem?_eq_getElem h]
  have hm : min j l.length = j := by omega
  simp [wordsVal, hm]

theorem wordsVal_take_drop (l : List Nat) (k : Nat) (h : k ≤ l.length) :
    wordsVal l = wordsVal (l.take k) + WORD ^ k * wordsVal (l.drop k) := by
  conv_lhs => rw [← List.take_append_drop k l]
  rw [wordsVal_append]
  simp [h]

theorem mod_width_of_mod (wid x y : Nat) (h : x % WORD ^ wordCount wid = y % WORD ^ wordCount wid) :
    x % 2 ^ wid = y % 2 ^ wid := by
  have hd := two_pow_dvd_WORD_pow wid
  have := Nat.ModEq.of_dvd hd h
  exact this

/-- The inner loop of the schoolbook product adds `x * W^i * bp` to the
result. -/
theorem mul_inner_spec (words i x : Nat) (bp res : List Nat) (hx : x < WORD)
    (hbl : bp.length = words) (hbo : wordsOk bp) (hi : i < words)
    (hlen : res.length = words) (hok : wordsOk res) :
    (forLoop (fun mul_b res => addProduct words (i + mul_b) x (bp.getD mul_b 0) res)
        (words - i) 0 res).length = words ∧
    wordsOk (forLoop (fun mul_b res => addProduct words (i + mul_b) x (bp.getD mul_b 0) res)
        (words - i) 0 res) ∧
    wordsVal (forLoop (fun mul_b res => addProduct words (i + mul_b) x (bp.getD mul_b 0) res)
        (words - i) 0 res) ≡ wordsVal res + x * WORD ^ i * wordsVal bp [MOD WORD ^ words] := by
  have inv := forLoop_invariant
    (fun mul_b res => addProduct words (i + mul_b) x (bp.getD mul_b 0) res)
    (fun j r => r.length = words ∧ wordsOk r ∧
      wordsVal r ≡ wordsVal res + x * WORD ^ i * wordsVal (bp.take j) [MOD WORD ^ words])
    (words - i) 0 res
    ⟨hlen, hok, by simp [wordsVal]; exact Nat.ModEq.refl _⟩
    (by
      intro j r _ hj ⟨h1, h2, h3⟩
      obtain ⟨p1, p2, p3⟩ := addProduct_spec words (i + j) x (bp.getD j 0) r hx
        (wordsOk_getD bp hbo j) h1 h2 (by omega)
      refine ⟨p1, p2, ?_⟩
      have p3' : wordsVal (addProduct words (i + j) x (bp.getD j 0) r)
          ≡ wordsVal r + x * bp.getD j 0 * WORD ^ (i + j) [MOD WORD ^ words] := p3
      refine p3'.trans ?_
      rw [wordsVal_take_succ bp j (by omega)]
      have e : wordsVal res + x * WORD ^ i * (wordsVal (bp.take j) + WORD ^ j * bp.getD j 0)
          = wordsVal res + x * WORD ^ i * wordsVal (bp.take j)
            + x * bp.getD j 0 * WORD ^ (i + j) := by
        rw [pow_add]; ring
      rw [e]
      exact Nat.ModEq.add_right _ h3)
  rw [zero_add] at inv
  obtain ⟨h1, h2, h3⟩ := inv
  refine ⟨h1, h2, h3.trans ?_⟩
  rw [wordsVal_take_drop bp (words - i) (by omega)]
  have e : wordsVal res + x * WORD ^ i
        * (wordsVal (bp.take (words - i)) + WORD ^ (words - i) * wordsVal (bp.drop (words - i)))
      = wordsVal res + x * WORD ^ i * wordsVal (bp.take (words - i))
        + WORD ^ words * (x * wordsVal (bp.drop (words - i))) := by
    have : WORD ^ words = WORD ^ i * WORD ^ (words - i) := by
      rw [← pow_add]; congr 1; omega
    rw [this]; ring
  rw [e]
  unfold Nat.ModEq
  rw [Nat.add_mul_mod_self_left]

/-- The schoolbook product of `of_MUL`. -/
theorem mul_outer_spec (words : Nat) (ap bp : List Nat) (hal : ap.length = words)
    (hao : wordsOk ap) (hbl : bp.length = words) (hbo : wordsOk bp) :
    wordsOk (forLoop (fun mul_a res =>
        forLoop (fun mul_b res =>
            addProduct words (mul_a + mul_b) (ap.getD mul_a 0) (bp.getD mul_b 0) res)
          (words - mul_a) 0 res)
        words 0 (List.replicate words 0)) ∧
    wordsVal (forLoop (fun mul_a res =>
        forLoop (fun mul_b res =>
            addProduct words (mul_a + mul_b) (ap.getD mul_a 0) (bp.getD mul_b 0) res)
          (words - mul_a) 0 res)
        words 0 (List.replicate words 0)) ≡ wordsVal ap * wordsVal bp [MOD WORD ^ words] := by
  have inv := forLoop_invariant
    (fun mul_a res =>
        forLoop (fun mul_b res =>
            addProduct words (mul_a + mul_b) (ap.getD mul_a 0) (bp.getD mul_b 0) res)
          (words - mul_a) 0 res)
    (fun i r => r.length = words ∧ wordsOk r ∧
      wordsVal r ≡ wordsVal (ap.take i) * wordsVal bp [MOD WORD ^ words])
    words 0 (List.replicate words 0)
    ⟨by simp, wordsOk_replicate _ _ WORD_pos, by
      simp [wordsVal, wordsVal_replicate_zero]; exact Nat.ModEq.refl _⟩
    (by
      intro i r _ hi ⟨h1, h2, h3⟩
      obtain ⟨q1, q2, q3⟩ := mul_inner_spec words i (ap.getD i 0) bp r
        (wordsOk_getD ap hao i) hbl hbo (by omega) h1 h2
      refine ⟨q1, q2, q3.trans ?_⟩
      rw [wordsVal_take_succ ap i (by omega)]
      have e : (wordsVal (ap.take i) + WORD ^ i * ap.getD i 0) * wordsVal bp
          = wordsVal (ap.take i) * wordsVal bp + ap.getD i 0 * WORD ^ i * wordsVal bp := by
        ring
      rw [e]
      exact Nat.ModEq.add_right _ h3)
  rw [zero_add] at inv
  obtain ⟨_, h2, h3⟩ := inv
  refine ⟨h2, ?_⟩
  rwa [List.take_of_length_le (by omega)] at h3

theorem wordCount_eq_one (w : Nat) (hw : 1 ≤ w) (h64 : w ≤ CPU_WORD_BITS) : wordCount w = 1 := by
  simp only [wordCount, CPU_WORD_BITS] at *
  omega

theorem words_single (l : List Nat) (h : l.length = 1) : l = [l.getD 0 0] := by
  match l, h with
  | [x], _ => rfl

theorem of_MUL_known (bits4 : List vvp_bit4_t) (d s w : Nat) (hd : 4 ≤ d) (hw : 1 ≤ w)
    (hin : d + w ≤ bits4.length) (hs : operand_ok bits4 s w)
    (hka : vec4Known (vthread_bits_to_vector bits4 d w) = true)
    (hkb : vec4Known (vthread_bits_to_vector bits4 s w) = true) :
    of_MUL bits4 ⟨d, s, w⟩ = some (stored bits4 d w
      ((vec4Val (vthread_bits_to_vector bits4 d w)
        * vec4Val (vthread_bits_to_vector bits4 s w)) % 2 ^ w)) := by
  obtain ⟨wa, ha, hla, hoa, hva⟩ := vector_to_array_known bits4 d w hw (Or.inr hin) hka
  obtain ⟨wb, hb, hlb, hob, hvb⟩ := vector_to_array_known bits4 s w hw hs hkb
  unfold of_MUL
  simp only [ha, hb]
  rw [if_neg (by omega)]
  by_cases h64 : w ≤ CPU_WORD_BITS
  · rw [if_pos h64]
    have h1 := wordCount_eq_one w hw h64
    rw [h1] at hla hlb
    have ea := words_single wa hla
    have eb := words_single wb hlb
    have hx := wordsOk_getD wa hoa 0
    have hy := wordsOk_getD wb hob 0
    generalize wa.getD 0 0 = x at *
    generalize wb.getD 0 0 = y at *
    subst ea eb
    simp only [List.set_cons_zero]
    rw [setarray_stored _ _ _ _ (by rw [wordsOk_cons]; exact ⟨Nat.mod_lt _ WORD_pos, wordsOk_nil⟩)
      hin]
    congr 1
    apply stored_congr
    rw [Nat.mod_mod, ← hva, ← hvb]
    simp only [wordsVal, mul_zero, add_zero]
    apply mod_width_of_mod
    rw [h1, pow_one, Nat.mod_mod]
  · rw [if_neg h64]
    obtain ⟨m1, m2⟩ := mul_outer_spec (wordCount w) wa wb hla hoa hlb hob
    rw [setarray_stored _ _ _ _ m1 hin]
    congr 1
    apply stored_congr
    rw [Nat.mod_mod, ← hva, ← hvb]
    exact mod_width_of_mod w _ _ m2

/-! ## Division -/

theorem multiply_array_imm_spec (val : List Nat) (words imm : Nat) (hv : wordsOk val)
    (hl : words ≤ val.length) (himm : imm < WORD) :
    (multiply_array_imm val words imm).length = words ∧
    wordsOk (multiply_array_imm val words imm) ∧
    wordsVal (multiply_array_imm val words imm)
      ≡ wordsVal (val.take words) * imm [MOD WORD ^ words] := by
  have inv := forLoop_invariant
    (fun mul_idx res => addProduct words mul_idx (val.getD mul_idx 0) imm res)
    (fun i r => r.length = words ∧ wordsOk r ∧
      wordsVal r ≡ wordsVal (val.take i) * imm [MOD WORD ^ words])
    words 0 (List.replicate words 0)
    ⟨by simp, wordsOk_replicate _ _ WORD_pos, by
      simp [wordsVal, wordsVal_replicate_zero]; exact Nat.ModEq.refl _⟩
    (by
      intro i r _ hi ⟨h1, h2, h3⟩
      obtain ⟨p1, p2, p3⟩ := addProduct_spec words i (val.getD i 0) imm r
        (wordsOk_getD val hv i) himm h1 h2 (by omega)
      refine ⟨p1, p2, ?_⟩
      have p3' : wordsVal (addProduct words i (val.getD i 0) imm r)
          ≡ wordsVal r + val.getD i 0 * imm * WORD ^ i [MOD WORD ^ words] := p3
      refine p3'.trans ?_
      rw [wordsVal_take_succ val i (by omega)]
      have e : (wordsVal (val.take i) + WORD ^ i * val.getD i 0) * imm
          = wordsVal (val.take i) * imm + val.getD i 0 * imm * WORD ^ i := by ring
      rw [e]
      exact Nat.ModEq.add_right _ h3)
  rw [zero_add] at inv
  exact inv

theorem multiply_array_imm_one (val : List Nat) (hv : wordsOk val) :
    multiply_array_imm val val.length 1 = val := by
  obtain ⟨h1, h2, h3⟩ := multiply_array_imm_spec val val.length 1 hv (le_refl _)
    (by unfold WORD; norm_num)
  apply words_ext _ _ h2 hv h1
  rw [List.take_of_length_le (le_refl _), mul_one] at h3
  have := h3
  unfold Nat.ModEq at this
  have l1 := wordsVal_lt _ h2
  rw [h1] at l1
  rwa [Nat.mod_eq_of_lt l1, Nat.mod_eq_of_lt (wordsVal_lt _ hv)] at this

theorem divide_bits_btop_spec (bp : List Nat) (n : Nat) :
    divide_bits_btop bp n ≤ n ∧
    (∀ j, divide_bits_btop bp n < j → j ≤ n → bp.getD j 0 = 0) ∧
    (0 < divide_bits_btop bp n → bp.getD (divide_bits_btop bp n) 0 ≠ 0) := by
  induction n with
  | zero =>
    refine ⟨le_refl _, ?_, ?_⟩
    · intro j h1 h2; simp [divide_bits_btop] at h1; omega
    · simp [divide_bits_btop]
  | succ n ih =>
    by_cases h : bp.getD (n + 1) 0 = 0
    · have e : divide_bits_btop bp (n + 1) = divide_bits_btop bp n := by
        rw [divide_bits_btop, if_pos h]
      rw [e]
      refine ⟨by omega, ?_, ih.2.2⟩
      intro j h1 h2
      by_cases hj : j = n + 1
      · rw [hj]; exact h
      · exact ih.2.1 j h1 (by omega)
    · have e : divide_bits_btop bp (n + 1) = n + 1 := by
        rw [divide_bits_btop, if_neg h]
      rw [e]
      refine ⟨le_refl _, ?_, fun _ => h⟩
      intro j h1 h2; omega

theorem wordsVal_eq_zero (l : List Nat) (h : wordsVal l = 0) : ∀ i, l.getD i 0 = 0 := by
  induction l with
  | nil => intro i; simp
  | cons x rest ih =>
    simp only [wordsVal] at h
    have hx : x = 0 := by omega
    have hr : wordsVal rest = 0 := by
      have : WORD * wordsVal rest = 0 := by omega
      rcases Nat.mul_eq_zero.mp this with h' | h'
      · have := WORD_pos; omega
      · exact h'
    intro i
    cases i with
    | zero => simpa using hx
    | succ i => simpa using ih hr i

theorem wordsVal_zero_of_all (l : List Nat) (h : ∀ i, l.getD i 0 = 0) : wordsVal l = 0 := by
  induction l with
  | nil => rfl
  | cons x rest ih =>
    have hx : x = 0 := by simpa using h 0
    have hr : wordsVal rest = 0 := ih (fun i => by simpa using h (i + 1))
    simp [wordsVal, hx, hr]

/-- A zero divisor makes `divide_bits` return null. -/
theorem divide_bits_zero (ap bp : List Nat) (wid : Nat) (hb : wordsVal bp = 0) :
    divide_bits ap bp wid = some divide_bits_result.null := by
  have hz := wordsVal_eq_zero bp hb
  have hbt : divide_bits_btop bp (wordCount wid - 1) = 0 := by
    by_contra hne
    have := (divide_bits_btop_spec bp (wordCount wid - 1)).2.2 (Nat.pos_of_ne_zero hne)
    exact this (hz _)
  unfold divide_bits
  simp only [hbt]
  rw [if_pos ⟨trivial, hz 0⟩]

theorem divide2words_high_zero (a b : Nat) (hb : b ≠ 0) :
    divide2words a b 0 = some ((a / b) % WORD) := by
  simp [divide2words, hb, divide2words_loop]

/-- The iterations of `divide_bits_loop` above the top word of a dividend that
is no longer than the divisor are skipped. -/
theorem divide_bits_loop_skip (ap bp result : List Nat) (words btop : Nat)
    (hb : bp.getD btop 0 ≠ 0) (hz : ∀ j, btop < j → ap.getD j 0 = 0) (n : Nat) :
    divide_bits_loop bp words btop (n + 1) (ap, result)
      = divide_bits_loop bp words btop 1 (ap, result) := by
  induction n with
  | zero => rfl
  | succ n ih =>
    have hest : divide_bits_estimate ap bp words btop (n + 1) = some none := by
      unfold divide_bits_estimate
      have h1 : ap.getD (n + 1 + btop) 0 = 0 := hz _ (by omega)
      have h2 : ap.getD (n + 1 + btop + 1) 0 = 0 := hz _ (by omega)
      rw [h1, h2]
      rw [if_neg (by omega)]
      split
      · rfl
      · simp
    rw [divide_bits_loop, hest]
    exact ih

theorem addLists_self_not (ap : List Nat) (hok : wordsOk ap) :
    addLists wordNot ap ap 1 = (List.replicate ap.length 0, 1) := by
  obtain ⟨h1, h2, h3⟩ := addLists_spec wordNot ap ap 1 (fun y _ => wordNot_lt y) hok
    (Or.inl (le_refl _)) (le_refl _)
  rw [List.take_of_length_le (le_refl _)] at h1
  have hn := wordsVal_map_wordNot ap hok
  have hlt := wordsVal_lt _ h2
  rw [addLists_length] at hlt
  have hc : (addLists wordNot ap ap 1).2 = 1 := by
    by_contra hne
    have h0 : (addLists wordNot ap ap 1).2 = 0 := by omega
    rw [h0] at h1
    omega
  have hv : wordsVal (addLists wordNot ap ap 1).1 = 0 := by
    rw [hc] at h1
    omega
  have hl : (addLists wordNot ap ap 1).1 = List.replicate ap.length 0 := by
    apply words_ext _ _ h2 (wordsOk_replicate _ _ WORD_pos)
    · simp [addLists_length]
    · rw [hv, wordsVal_replicate_zero]
  exact Prod.ext hl hc

theorem wordsVal_set_zero_one (n : Nat) (hn : 1 ≤ n) :
    wordsVal ((List.replicate n 0).set 0 1) = 1 ∧ wordsOk ((List.replicate n 0).set 0 1) := by
  obtain ⟨k, rfl⟩ : ∃ k, n = k + 1 := ⟨n - 1, by omega⟩
  simp only [List.replicate_succ, List.set_cons_zero, wordsVal, wordsVal_replicate_zero]
  refine ⟨by omega, ?_⟩
  rw [wordsOk_cons]
  exact ⟨by unfold WORD; norm_num, wordsOk_replicate _ _ WORD_pos⟩

/-- Function `divide_bits` of a non-zero array by itself: the quotient is 1. -/
theorem divide_bits_self (ap : List Nat) (wid : Nat) (hl : ap.length = wordCount wid)
    (hw : 1 ≤ wid) (hok : wordsOk ap) (hne : wordsVal ap ≠ 0) :
    divide_bits ap ap wid = some (divide_bits_result.value (List.replicate (wordCount wid) 0)
      ((List.replicate (wordCount wid) 0).set 0 1)) := by
  have hwc : 1 ≤ wordCount wid := by simp only [wordCount, CPU_WORD_BITS]; omega
  obtain ⟨b1, b2, b3⟩ := divide_bits_btop_spec ap (wordCount wid - 1)
  have hz : ∀ j, divide_bits_btop ap (wordCount wid - 1) < j → ap.getD j 0 = 0 := by
    intro j hj
    by_cases hjn : j ≤ wordCount wid - 1
    · exact b2 j hj hjn
    · rw [List.getD_eq_getElem?_getD, List.getElem?_eq_none (by omega)]
      rfl
  have htop : ap.getD (divide_bits_btop ap (wordCount wid - 1)) 0 ≠ 0 := by
    by_cases h0 : 0 < divide_bits_btop ap (wordCount wid - 1)
    · exact b3 h0
    · have e0 : divide_bits_btop ap (wordCount wid - 1) = 0 := by omega
      rw [e0]
      intro h
      apply hne
      apply wordsVal_zero_of_all
      intro i
      cases i with
      | zero => exact h
      | succ i => exact hz _ (by omega)
  unfold divide_bits
  simp only
  generalize divide_bits_btop ap (wordCount wid - 1) = btop at *
  rw [if_neg (by
    rintro ⟨h1, h2⟩
    rw [h1] at htop
    exact htop h2)]
  obtain ⟨n, hn⟩ : ∃ n, wordCount wid - btop = n + 1 := ⟨wordCount wid - btop - 1, by omega⟩
  rw [hn, divide_bits_loop_skip ap ap _ _ btop htop hz n]
  have hest : divide_bits_estimate ap ap (wordCount wid) btop 0 = some (some 1) := by
    unfold divide_bits_estimate
    simp only [zero_add, ge_iff_le, le_refl, if_true]
    have hh : (if btop + 1 < wordCount wid then ap.getD (btop + 1) 0 else 0) = 0 := by
      split
      · exact hz _ (by omega)
      · rfl
    rw [hh, divide2words_high_zero _ _ htop, Nat.div_self (Nat.pos_of_ne_zero htop)]
    simp [WORD]
  have hdiff : multiply_array_imm ap (wordCount wid - 0) 1 = ap := by
    rw [Nat.sub_zero, ← hl]
    exact multiply_array_imm_one ap hok
  have hsub : forLoop (addShifted wordNot ap 0) (wordCount wid - 0) 0 (ap, 1)
      = (List.replicate (wordCount wid) 0, 1) := by
    rw [Nat.sub_zero, ← hl, ← addArrays_eq, forLoop_addArrays, addLists_self_not ap hok]
  rw [divide_bits_loop, hest]
  simp only [hdiff, hsub]
  simp [divide_bits_loop]

theorem all_x_of_set_x_out (bits4 : List vvp_bit4_t) (d w : Nat) (hin : d + w ≤ bits4.length) :
    all_x_result (set_x_out bits4 d w) d w :=
  set_x_out_part bits4 d w hin

theorem value_result_stored (bits4 : List vvp_bit4_t) (d w n : Nat)
    (hin : d + w ≤ bits4.length) :
    value_result (some (stored bits4 d w n)) d w n :=
  ⟨_, rfl, stored_part bits4 d w n hin⟩

/-! ### X or Z in an operand -/

theorem of_ADD_xz (bits4 : List vvp_bit4_t) (d s w : Nat) (hd : 4 ≤ d)
    (hin : d + w ≤ bits4.length)
    (hxz : vec4Known (vthread_bits_to_vector bits4 d w) = false ∨
      vec4Known (vthread_bits_to_vector bits4 s w) = false) :
    all_x_result (of_ADD bits4 ⟨d, s, w⟩) d w := by
  have : of_ADD bits4 ⟨d, s, w⟩ = set_x_out bits4 d w := by
    unfold of_ADD set_x_out
    simp only
    rw [if_neg (by omega)]
    rcases hxz with h | h
    · rw [vector_to_array_xz _ _ _ h]
    · rw [vector_to_array_xz _ _ _ h]
      cases vector_to_array bits4 d w <;> rfl
  rw [this]
  exact all_x_of_set_x_out bits4 d w hin

theorem of_SUB_xz (bits4 : List vvp_bit4_t) (d s w : Nat) (hd : 4 ≤ d)
    (hin : d + w ≤ bits4.length)
    (hxz : vec4Known (vthread_bits_to_vector bits4 d w) = false ∨
      vec4Known (vthread_bits_to_vector bits4 s w) = false) :
    all_x_result (of_SUB bits4 ⟨d, s, w⟩) d w := by
  have : of_SUB bits4 ⟨d, s, w⟩ = set_x_out bits4 d w := by
    unfold of_SUB set_x_out
    simp only
    rw [if_neg (by omega)]
    rcases hxz with h | h
    · rw [vector_to_array_xz _ _ _ h]
    · rw [vector_to_array_xz _ _ _ h]
      cases vector_to_array bits4 d w <;> rfl
  rw [this]
  exact all_x_of_set_x_out bits4 d w hin

theorem of_MUL_xz (bits4 : List vvp_bit4_t) (d s w : Nat) (hd : 4 ≤ d)
    (hin : d + w ≤ bits4.length)
    (hxz : vec4Known (vthread_bits_to_vector bits4 d w) = false ∨
      vec4Known (vthread_bits_to_vector bits4 s w) = false) :
    all_x_result (of_MUL bits4 ⟨d, s, w⟩) d w := by
  have : of_MUL bits4 ⟨d, s, w⟩ = set_x_out bits4 d w := by
    unfold of_MUL
    simp only
    rw [if_neg (by omega)]
    rcases hxz with h | h
    · rw [vector_to_array_xz _ _ _ h]
    · rw [vector_to_array_xz _ _ _ h]
      cases vector_to_array bits4 d w <;> rfl
  rw [this]
  exact all_x_of_set_x_out bits4 d w hin

theorem of_DIV_xz (bits4 : List vvp_bit4_t) (d s w : Nat) (hd : 4 ≤ d)
    (hin : d + w ≤ bits4.length)
    (hxz : vec4Known (vthread_bits_to_vector bits4 d w) = false ∨
      vec4Known (vthread_bits_to_vector bits4 s w) = false) :
    all_x_result (of_DIV bits4 ⟨d, s, w⟩) d w := by
  have : of_DIV bits4 ⟨d, s, w⟩ = set_x_out bits4 d w := by
    unfold of_DIV
    simp only
    rw [if_neg (by omega)]
    rcases hxz with h | h
    · rw [vector_to_array_xz _ _ _ h]
    · rw [vector_to_array_xz _ _ _ h]
      cases vector_to_array bits4 d w <;> rfl
  rw [this]
  exact all_x_of_set_x_out bits4 d w hin

/-! ### A zero divisor -/

theorem of_DIV_zero (bits4 : List vvp_bit4_t) (d s w : Nat) (hd : 4 ≤ d) (hw : 1 ≤ w)
    (hin : d + w ≤ bits4.length) (hs : operand_ok bits4 s w)
    (hka : vec4Known (vthread_bits_to_vector bits4 d w) = true)
    (hkb : vec4Known (vthread_bits_to_vector bits4 s w) = true)
    (hz : vec4Val (vthread_bits_to_vector bits4 s w) = 0) :
    all_x_result (of_DIV bits4 ⟨d, s, w⟩) d w := by
  obtain ⟨wa, ha, hla, hoa, hva⟩ := vector_to_array_known bits4 d w hw (Or.inr hin) hka
  obtain ⟨wb, hb, hlb, hob, hvb⟩ := vector_to_array_known bits4 s w hw hs hkb
  rw [hz] at hvb
  have : of_DIV bits4 ⟨d, s, w⟩ = set_x_out bits4 d w := by
    unfold of_DIV
    simp only [ha, hb]
    rw [if_neg (by omega)]
    split
    · rw [if_pos (wordsVal_eq_zero wb hvb 0)]
    · rw [divide_bits_zero wa wb w hvb]
  rw [this]
  exact all_x_of_set_x_out bits4 d w hin

theorem sign_extend_top_zero (sign_mask : Nat) (v : List Nat) (words : Nat)
    (hz : wordsVal v = 0) : sign_extend_top sign_mask v words = v := by
  unfold sign_extend_top
  rw [wordsVal_eq_zero v hz, Nat.zero_and]
  simp

theorem of_DIV_S_zero (bits4 : List vvp_bit4_t) (d s w : Nat) (hd : 4 ≤ d) (hw : 1 ≤ w)
    (hin : d + w ≤ bits4.length) (hs : operand_ok bits4 s w)
    (hka : vec4Known (vthread_bits_to_vector bits4 d w) = true)
    (hkb : vec4Known (vthread_bits_to_vector bits4 s w) = true)
    (hz : vec4Val (vthread_bits_to_vector bits4 s w) = 0) :
    all_x_result (of_DIV_S bits4 ⟨d, s, w⟩) d w := by
  obtain ⟨wa, ha, hla, hoa, hva⟩ := vector_to_array_known bits4 d w hw (Or.inr hin) hka
  obtain ⟨wb, hb, hlb, hob, hvb⟩ := vector_to_array_known bits4 s w hw hs hkb
  rw [hz] at hvb
  have hsz : ∀ m, (if wordCount w * CPU_WORD_BITS - w ≠ 0
      then sign_extend_top m wb (wordCount w) else wb) = wb := by
    intro m
    split
    · exact sign_extend_top_zero m wb _ hvb
    · rfl
  have : of_DIV_S bits4 ⟨d, s, w⟩ = set_x_out bits4 d w := by
    unfold of_DIV_S
    simp only [ha, hb, hsz]
    rw [if_neg (by omega)]
    split
    · rw [if_pos (wordsVal_eq_zero wb hvb 0)]
    · have hneg : decide (toSigned (wb.getD (wordCount w - 1) 0) < 0) = false := by
        rw [wordsVal_eq_zero wb hvb]
        decide
      simp only [hneg, Bool.false_eq_true, if_false]
      rw [divide_bits_zero _ wb w hvb]
  rw [this]
  exact all_x_of_set_x_out bits4 d w hin

/-! ### Equal operands -/

theorem of_DIV_self (bits4 : List vvp_bit4_t) (d s w : Nat) (hd : 4 ≤ d) (hw : 1 ≤ w)
    (hin : d + w ≤ bits4.length) (hs : operand_ok bits4 s w)
    (hka : vec4Known (vthread_bits_to_vector bits4 d w) = true)
    (hkb : vec4Known (vthread_bits_to_vector bits4 s w) = true)
    (heq : vec4Val (vthread_bits_to_vector bits4 s w)
      = vec4Val (vthread_bits_to_vector bits4 d w))
    (hne : vec4Val (vthread_bits_to_vector bits4 d w) ≠ 0) :
    of_DIV bits4 ⟨d, s, w⟩ = some (stored bits4 d w 1) := by
  obtain ⟨wa, ha, hla, hoa, hva⟩ := vector_to_array_known bits4 d w hw (Or.inr hin) hka
  obtain ⟨wb, hb, hlb, hob, hvb⟩ := vector_to_array_known bits4 s w hw hs hkb
  have hab : wb = wa := words_ext _ _ hob hoa (by omega) (by rw [hva, hvb, heq])
  subst hab
  rw [← hva] at hne
  unfold of_DIV
  simp only [ha, hb]
  rw [if_neg (by omega)]
  by_cases h64 : w ≤ CPU_WORD_BITS
  · rw [if_pos h64]
    have h1 := wordCount_eq_one w hw h64
    rw [h1] at hla
    have ea := words_single wb hla
    have hx : wb.getD 0 0 ≠ 0 := by
      intro h0
      rw [ea, h0] at hne
      simp [wordsVal] at hne
    rw [if_neg hx, Nat.div_self (Nat.pos_of_ne_zero hx)]
    have hso : wordsOk (wb.set 0 1) := by
      rw [ea]
      simp only [List.set_cons_zero]
      rw [wordsOk_cons]
      exact ⟨by unfold WORD; norm_num, wordsOk_nil⟩
    rw [setarray_stored _ _ _ _ hso hin]
    congr 2
    rw [ea]
    simp [wordsVal]
  · rw [if_neg h64, divide_bits_self wb w hla hw hoa hne]
    simp only
    have hwc : 1 ≤ wordCount w := by simp only [wordCount, CPU_WORD_BITS]; omega
    obtain ⟨v1, v2⟩ := wordsVal_set_zero_one (wordCount w) hwc
    rw [setarray_stored _ _ _ _ v2 hin, v1]

/-! ## Reading and writing thread bits one at a time -/

theorem thr_put_bit_in (bits4 : List vvp_bit4_t) (addr : Nat) (v : vvp_bit4_t)
    (h : addr < bits4.length) : thr_put_bit bits4 addr v = bits4.set addr v := by
  unfold thr_put_bit thr_check_addr
  rw [if_neg (by omega)]

theorem set_take_drop (bits4 : List vvp_bit4_t) (i : Nat) (v : vvp_bit4_t)
    (h : i < bits4.length) :
    bits4.set i v = bits4.take i ++ [v] ++ bits4.drop (i + 1) := by
  rw [List.set_eq_take_append_cons_drop, if_pos h]
  simp

theorem forLoop_put {σ : Type} (g : Nat → σ → vvp_bit4_t) (h : Nat → σ → σ) (d : Nat)
    (n : Nat) : ∀ (lo : Nat) (bits4 : List vvp_bit4_t) (s : σ), d + lo + n ≤ bits4.length →
      (forLoop (fun idx (st : List vvp_bit4_t × σ) =>
          (thr_put_bit st.1 (d + idx) (g idx st.2), h idx st.2)) n lo (bits4, s)).1
        = bits4.take (d + lo) ++ putSeq g h n lo s ++ bits4.drop (d + lo + n) := by
  induction n with
  | zero => intro lo bits4 s _; simp [forLoop, putSeq]
  | succ n ih =>
    intro lo bits4 s hin
    rw [forLoop_succ]
    simp only
    rw [thr_put_bit_in _ _ _ (by omega)]
    have hl : (bits4.set (d + lo) (g lo s)).length = bits4.length := by simp
    rw [ih (lo + 1) _ _ (by rw [hl]; omega)]
    rw [set_take_drop _ _ _ (by omega : d + lo < bits4.length)]
    have ht : (bits4.take (d + lo)).length = d + lo := by simp; omega
    have e1 : (List.take (d + lo) bits4 ++ [g lo s] ++ List.drop (d + lo + 1) bits4).take
        (d + (lo + 1)) = List.take (d + lo) bits4 ++ [g lo s] := by
      rw [List.take_append_of_le_length (by simp; omega)]
      rw [List.take_of_length_le (by simp; omega)]
    have e2 : (List.take (d + lo) bits4 ++ [g lo s] ++ List.drop (d + lo + 1) bits4).drop
        (d + (lo + 1) + n) = List.drop (d + lo + (n + 1)) bits4 := by
      rw [List.drop_append_eq_append_drop]
      have hl2 : (List.take (d + lo) bits4 ++ [g lo s]).length = d + lo + 1 := by simp; omega
      rw [List.drop_of_length_le (by rw [hl2]; omega), hl2, List.nil_append, List.drop_drop]
      congr 1; omega
    rw [e1, e2]
    simp [putSeq]

theorem putSeq_length {σ : Type} (g : Nat → σ → vvp_bit4_t) (h : Nat → σ → σ) (n lo : Nat)
    (s : σ) : (putSeq g h n lo s).length = n := by
  induction n generalizing lo s with
  | zero => rfl
  | succ n ih => simp [putSeq, ih]

theorem forLoop_put_unit (v : Nat → vvp_bit4_t) (d n : Nat) (bits4 : List vvp_bit4_t)
    (hin : d + n ≤ bits4.length) :
    forLoop (fun idx b => thr_put_bit b (d + idx) (v idx)) n 0 bits4
      = bits4.take d ++ putSeq (fun idx (_ : Unit) => v idx) (fun _ u => u) n 0 ()
        ++ bits4.drop (d + n) := by
  have key : ∀ (n lo : Nat) (b : List vvp_bit4_t),
      forLoop (fun idx b => thr_put_bit b (d + idx) (v idx)) n lo b
        = (forLoop (fun idx (st : List vvp_bit4_t × Unit) =>
            (thr_put_bit st.1 (d + idx) (v idx), ())) n lo (b, ())).1 := by
    intro n
    induction n with
    | zero => intro lo b; rfl
    | succ n ih => intro lo b; rw [forLoop_succ, forLoop_succ, ih]
  rw [key]
  have := forLoop_put (fun idx (_ : Unit) => v idx) (fun _ u => u) d n 0 bits4 () (by omega)
  simpa using this

theorem putSeq_const (x : vvp_bit4_t) (n lo : Nat) :
    putSeq (fun _ (_ : Unit) => x) (fun _ u => u) n lo () = List.replicate n x := by
  induction n generalizing lo with
  | zero => rfl
  | succ n ih => simp [putSeq, ih, List.replicate_succ]

theorem put_x_out_eq (bits4 : List vvp_bit4_t) (d s w : Nat) (hin : d + w ≤ bits4.length) :
    put_x_out bits4 ⟨d, s, w⟩
      = bits4.take d ++ List.replicate w BIT4_X ++ bits4.drop (d + w) := by
  unfold put_x_out
  simp only
  rw [forLoop_put_unit (fun _ => BIT4_X) d w bits4 hin, putSeq_const]

theorem all_x_of_put_x_out (bits4 : List vvp_bit4_t) (d s w : Nat)
    (hin : d + w ≤ bits4.length) :
    all_x_result (some (put_x_out bits4 ⟨d, s, w⟩)) d w :=
  ⟨_, rfl, by rw [put_x_out_eq bits4 d s w hin]; exact splice_part' bits4 d w _ (by simp) hin⟩

/-! ### The operand as a sequence of reads -/

theorem advance_succ (idx k : Nat) :
    advance (if idx ≥ 4 then idx + 1 else idx) k = advance idx (k + 1) := by
  unfold advance
  by_cases h : idx ≥ 4
  · rw [if_pos h, if_pos (by omega), if_pos h]; omega
  · rw [if_neg h, if_neg h, if_neg h]

theorem advance_zero (idx : Nat) : advance idx 0 = idx := by
  unfold advance; split <;> rfl

theorem advance_ge (idx k : Nat) (h : 4 ≤ idx) : advance idx k = idx + k := by
  unfold advance; rw [if_pos h]

/-- The bit that the operand loops read in iteration `k` is bit `k` of the
operand vector. -/
theorem operand_read (bits4 : List vvp_bit4_t) (s w k : Nat) (hc : thr_consts_ok bits4)
    (hs : operand_ok bits4 s w) (hk : k < w) :
    thr_get_bit bits4 (advance s k) = (vthread_bits_to_vector bits4 s w)[k]? := by
  unfold thr_get_bit advance vthread_bits_to_vector
  by_cases h4 : s ≥ 4
  · rw [if_pos h4, if_pos h4, vec4Part_getElem?, if_pos hk]
  · rw [if_neg h4, if_neg h4, List.getElem?_replicate, if_pos hk]
    unfold thr_consts_ok at hc
    have h4' : s < 4 := by omega
    have : (bits4.take 4)[s]? = bits4[s]? := List.getElem?_take_of_lt h4'
    rw [← this, hc]
    interval_cases s <;> rfl

theorem operand_length (bits4 : List vvp_bit4_t) (s w : Nat) (hs : operand_ok bits4 s w) :
    (vthread_bits_to_vector bits4 s w).length = w := by
  unfold vthread_bits_to_vector
  split
  · rcases hs with h | h
    · omega
    · exact vec4Part_length _ _ _ h
  · simp

theorem xz_test (x y : vvp_bit4_t) :
    ((x.code ||| y.code) &&& 2 ≠ 0) ↔ (bit4_is_xz x = true ∨ bit4_is_xz y = true) := by
  cases x <;> cases y <;> decide

theorem known_cons (x : vvp_bit4_t) (l : List vvp_bit4_t) :
    vec4Known (x :: l) = (!bit4_is_xz x && vec4Known l) := by
  simp [vec4Known]

theorem code_of_known (x : vvp_bit4_t) (h : bit4_is_xz x = false) :
    x.code = if x = BIT4_1 then 1 else 0 := by
  cases x <;> simp [bit4_is_xz, vvp_bit4_t.code] at h ⊢

theorem or_shift_eq_add (lv b idx : Nat) (hlv : lv < 2 ^ idx) (hb : b ≤ 1) (hidx : idx < 64) :
    lv ||| (b <<< idx) % WORD = lv + 2 ^ idx * b := by
  have h1 : b <<< idx < WORD := by
    rw [Nat.shiftLeft_eq, WORD_eq]
    calc b * 2 ^ idx ≤ 1 * 2 ^ idx := Nat.mul_le_mul_right _ hb
      _ = 2 ^ idx := by ring
      _ < 2 ^ 64 := Nat.pow_lt_pow_right (by norm_num) hidx
  rw [Nat.mod_eq_of_lt h1, Nat.shiftLeft_eq, Nat.lor_comm, mul_comm,
    ← Nat.mul_add_lt_is_or hlv, add_comm]

/-- The operand loop of `of_MOD` on operands without X/Z bits. -/
theorem of_MOD_read_known (bits4 : List vvp_bit4_t) (n : Nat) :
    ∀ (idx idx1 idx2 lv rv : Nat) (la lb : List vvp_bit4_t), la.length = n → lb.length = n →
      (∀ k, k < n → thr_get_bit bits4 (idx1 + k) = la[k]?) →
      (∀ k, k < n → thr_get_bit bits4 (advance idx2 k) = lb[k]?) →
      vec4Known la = true → vec4Known lb = true → lv < 2 ^ idx → rv < 2 ^ idx →
      idx + n ≤ 64 →
      of_MOD_read bits4 n idx idx1 idx2 (lv, rv)
        = some (some (lv + 2 ^ idx * vec4Val la, rv + 2 ^ idx * vec4Val lb)) := by
  induction n with
  | zero =>
    intro idx idx1 idx2 lv rv la lb hla hlb _ _ _ _ _ _ _
    rw [List.length_eq_zero] at hla hlb
    subst hla hlb
    simp [of_MOD_read, vec4Val]
  | succ n ih =>
    intro idx idx1 idx2 lv rv la lb hla hlb h1 h2 hka hkb hlv hrv hidx
    obtain ⟨x, la', rfl⟩ := List.exists_cons_of_length_eq_add_one hla
    obtain ⟨y, lb', rfl⟩ := List.exists_cons_of_length_eq_add_one hlb
    rw [known_cons, Bool.and_eq_true] at hka hkb
    have hx : bit4_is_xz x = false := by simpa using hka.1
    have hy : bit4_is_xz y = false := by simpa using hkb.1
    have g1 : thr_get_bit bits4 idx1 = some x := by simpa using h1 0 (by omega)
    have g2 : thr_get_bit bits4 idx2 = some y := by
      have := h2 0 (by omega)
      rw [advance_zero] at this
      simpa using this
    have hnx : ¬ ((x.code ||| y.code) &&& 2 ≠ 0) := by
      rw [xz_test, hx, hy]; simp
    rw [of_MOD_read, g1, g2]
    simp only
    rw [if_neg hnx]
    have cx : x.code ≤ 1 := by rw [code_of_known x hx]; split <;> omega
    have cy : y.code ≤ 1 := by rw [code_of_known y hy]; split <;> omega
    rw [or_shift_eq_add lv _ idx hlv cx (by omega), or_shift_eq_add rv _ idx hrv cy (by omega)]
    have hp : 2 ^ (idx + 1) = 2 ^ idx + 2 ^ idx := by rw [pow_succ]; omega
    have hpp : 0 < 2 ^ idx := by positivity
    rw [ih (idx + 1) (idx1 + 1) _ _ _ la' lb' (by simpa using hla) (by simpa using hlb)
      (fun k hk => by
        have := h1 (k + 1) (by omega)
        simp only [List.getElem?_cons_succ] at this
        rw [← this]; congr 1; omega)
      (fun k hk => by
        have := h2 (k + 1) (by omega)
        simp only [List.getElem?_cons_succ] at this
        rw [← this, advance_succ])
      hka.2 hkb.2
      (by rw [hp]; nlinarith)
      (by rw [hp]; nlinarith)
      (by omega)]
    simp only [vec4Val, code_of_known x hx, code_of_known y hy, pow_succ]
    congr 2
    apply Prod.ext <;> simp only <;> ring

/-- The operand loop of `of_MOD` on an operand with an X or Z bit. -/
theorem of_MOD_read_xz (bits4 : List vvp_bit4_t) (n : Nat) :
    ∀ (idx idx1 idx2 : Nat) (st : Nat × Nat) (la lb : List vvp_bit4_t),
      la.length = n → lb.length = n →
      (∀ k, k < n → thr_get_bit bits4 (idx1 + k) = la[k]?) →
      (∀ k, k < n → thr_get_bit bits4 (advance idx2 k) = lb[k]?) →
      (vec4Known la = false ∨ vec4Known lb = false) →
      of_MOD_read bits4 n idx idx1 idx2 st = some none := by
  induction n with
  | zero =>
    intro idx idx1 idx2 st la lb hla hlb _ _ hxz
    rw [List.length_eq_zero] at hla hlb
    subst hla hlb
    simp [vec4Known] at hxz
  | succ n ih =>
    intro idx idx1 idx2 st la lb hla hlb h1 h2 hxz
    obtain ⟨x, la', rfl⟩ := List.exists_cons_of_length_eq_add_one hla
    obtain ⟨y, lb', rfl⟩ := List.exists_cons_of_length_eq_add_one hlb
    have g1 : thr_get_bit bits4 idx1 = some x := by simpa using h1 0 (by omega)
    have g2 : thr_get_bit bits4 idx2 = some y := by
      have := h2 0 (by omega)
      rw [advance_zero] at this
      simpa using this
    obtain ⟨lv, rv⟩ := st
    rw [of_MOD_read, g1, g2]
    simp only
    by_cases hnx : (x.code ||| y.code) &&& 2 ≠ 0
    · rw [if_pos hnx]
    · rw [if_neg hnx]
      rw [xz_test] at hnx
      push_neg at hnx
      have hx : bit4_is_xz x = false := by simpa using hnx.1
      have hy : bit4_is_xz y = false := by simpa using hnx.2
      rw [known_cons, known_cons, hx, hy] at hxz
      simp only [Bool.not_false, Bool.true_and] at hxz
      exact ih (idx + 1) (idx1 + 1) _ _ la' lb' (by simpa using hla) (by simpa using hlb)
        (fun k hk => by
          have := h1 (k + 1) (by omega)
          simp only [List.getElem?_cons_succ] at this
          rw [← this]; congr 1; omega)
        (fun k hk => by
          have := h2 (k + 1) (by omega)
          simp only [List.getElem?_cons_succ] at this
          rw [← this, advance_succ])
        hxz

/-! ## `of_MOD`: the native path -/

theorem putSeq_of_MOD_write (n lo lv : Nat) :
    putSeq (fun _ (lv : Nat) => if lv &&& 1 ≠ 0 then BIT4_1 else BIT4_0)
      (fun _ lv => lv >>> 1) n lo lv = vec4OfNat n lv := by
  induction n generalizing lo lv with
  | zero => simp [putSeq, vec4OfNat]
  | succ n ih =>
    rw [putSeq, ih, vec4OfNat_succ, Nat.and_one_is_mod, Nat.shiftRight_eq_div_pow, pow_one]
    congr 1
    rcases Nat.mod_two_eq_zero_or_one lv with h | h <;> simp [h]

theorem of_MOD_write_eq (bits4 : List vvp_bit4_t) (d w lv : Nat) (hin : d + w ≤ bits4.length) :
    (forLoop (of_MOD_write d) w 0 (bits4, lv)).1 = stored bits4 d w lv := by
  have := forLoop_put (fun _ (lv : Nat) => if lv &&& 1 ≠ 0 then BIT4_1 else BIT4_0)
    (fun _ lv => lv >>> 1) d w 0 bits4 lv (by omega)
  rw [putSeq_of_MOD_write] at this
  simp only [Nat.add_zero] at this
  unfold stored
  rw [← this]
  rfl

theorem dest_reads (bits4 : List vvp_bit4_t) (d w : Nat) (hd : 4 ≤ d)
    (hin : d + w ≤ bits4.length) (hc : thr_consts_ok bits4) :
    ∀ k, k < w → thr_get_bit bits4 (d + k) = (vthread_bits_to_vector bits4 d w)[k]? := by
  intro k hk
  have := operand_read bits4 d w k hc (Or.inr hin) hk
  rwa [advance_ge d k hd] at this

theorem of_MOD_native (bits4 : List vvp_bit4_t) (d s w : Nat) (hd : 4 ≤ d)
    (hw64 : w ≤ 64) (hin : d + w ≤ bits4.length) (hs : operand_ok bits4 s w)
    (hc : thr_consts_ok bits4)
    (hka : vec4Known (vthread_bits_to_vector bits4 d w) = true)
    (hkb : vec4Known (vthread_bits_to_vector bits4 s w) = true) :
    of_MOD bits4 ⟨d, s, w⟩ =
      if vec4Val (vthread_bits_to_vector bits4 s w) = 0 then some (put_x_out bits4 ⟨d, s, w⟩)
      else some (stored bits4 d w (vec4Val (vthread_bits_to_vector bits4 d w)
        % vec4Val (vthread_bits_to_vector bits4 s w))) := by
  have hr := of_MOD_read_known bits4 w 0 d s 0 0 _ _
    (operand_length bits4 d w (Or.inr hin)) (operand_length bits4 s w hs)
    (dest_reads bits4 d w hd hin hc) (fun k hk => operand_read bits4 s w k hc hs hk)
    hka hkb (by norm_num) (by norm_num) (by omega)
  simp only [pow_zero, one_mul, zero_add] at hr
  unfold of_MOD
  simp only
  rw [if_neg (by omega), if_pos hw64, hr]
  simp only
  split
  · rfl
  · rw [of_MOD_write_eq bits4 d w _ hin]

/-! ## `do_verylong_mod`: the operand loop -/

theorem set_mid' (pre : List Nat) (x : Nat) (rest : List Nat) (v i : Nat)
    (hi : pre.length = i) :
    (pre ++ x :: rest).set i v = (pre ++ [v]) ++ rest := by
  subst hi
  exact set_mid pre x rest v

theorem do_verylong_mod_read_known (bits4 : List vvp_bit4_t) (l r : Bool) (n : Nat) :
    ∀ (idx idx1 idx2 : Nat) (zpre zmid zpost apre amid apost : List Nat) (lc rc : Nat)
      (la lb : List vvp_bit4_t), la.length = n → lb.length = n →
      zpre.length = idx → zmid.length = n → apre.length = idx → amid.length = n →
      (∀ k, k < n → thr_get_bit bits4 (idx1 + k) = la[k]?) →
      (∀ k, k < n → thr_get_bit bits4 (advance idx2 k) = lb[k]?) →
      vec4Known la = true → vec4Known lb = true →
      do_verylong_mod_read bits4 l r n idx idx1 idx2
          (zpre ++ zmid ++ zpost, apre ++ amid ++ apost, lc, rc)
        = some (some (zpre ++ readBits l la lc ++ zpost,
            apre ++ (readBits r lb rc).map (fun b => 1 - b) ++ apost)) := by
  induction n with
  | zero =>
    intro idx idx1 idx2 zpre zmid zpost apre amid apost lc rc la lb hla hlb _ hzm _ ham _ _ _ _
    rw [List.length_eq_zero] at hla hlb hzm ham
    subst hla hlb hzm ham
    simp [do_verylong_mod_read, readBits]
  | succ n ih =>
    intro idx idx1 idx2 zpre zmid zpost apre amid apost lc rc la lb hla hlb hzp hzm hap ham
      h1 h2 hka hkb
    obtain ⟨x, la', rfl⟩ := List.exists_cons_of_length_eq_add_one hla
    obtain ⟨y, lb', rfl⟩ := List.exists_cons_of_length_eq_add_one hlb
    obtain ⟨z0, zmid', rfl⟩ := List.exists_cons_of_length_eq_add_one hzm
    obtain ⟨a0, amid', rfl⟩ := List.exists_cons_of_length_eq_add_one ham
    rw [known_cons, Bool.and_eq_true] at hka hkb
    have hx : bit4_is_xz x = false := by simpa using hka.1
    have hy : bit4_is_xz y = false := by simpa using hkb.1
    have g1 : thr_get_bit bits4 idx1 = some x := by simpa using h1 0 (by omega)
    have g2 : thr_get_bit bits4 idx2 = some y := by
      have := h2 0 (by omega)
      rw [advance_zero] at this
      simpa using this
    have hnx : ¬ ((x.code ||| y.code) &&& 2 ≠ 0) := by
      rw [xz_test, hx, hy]; simp
    rw [do_verylong_mod_read, g1, g2]
    simp only
    rw [if_neg hnx]
    simp only [List.append_assoc, List.cons_append]
    rw [set_mid' zpre z0 _ _ idx hzp, set_mid' apre a0 _ _ idx hap]
    have := ih (idx + 1) (idx1 + 1) (if idx2 ≥ 4 then idx2 + 1 else idx2)
      (zpre ++ [(if l = true then negate_bit x.code lc else (x.code, lc)).1]) zmid' zpost
      (apre ++ [1 - (if r = true then negate_bit y.code rc else (y.code, rc)).1]) amid' apost
      (if l = true then negate_bit x.code lc else (x.code, lc)).2
      (if r = true then negate_bit y.code rc else (y.code, rc)).2
      la' lb' (by simpa using hla) (by simpa using hlb) (by simp [hzp]) (by simpa using hzm)
      (by simp [hap]) (by simpa using ham)
      (fun k hk => by
        have := h1 (k + 1) (by omega)
        simp only [List.getElem?_cons_succ] at this
        rw [← this]; congr 1; omega)
      (fun k hk => by
        have := h2 (k + 1) (by omega)
        simp only [List.getElem?_cons_succ] at this
        rw [← this, advance_succ])
      hka.2 hkb.2
    simp only [List.append_assoc, List.singleton_append, List.cons_append] at this ⊢
    rw [this]
    simp [readBits]

theorem do_verylong_mod_read_xz (bits4 : List vvp_bit4_t) (l r : Bool) (n : Nat) :
    ∀ (idx idx1 idx2 : Nat) (st : List Nat × List Nat × Nat × Nat) (la lb : List vvp_bit4_t),
      la.length = n → lb.length = n →
      (∀ k, k < n → thr_get_bit bits4 (idx1 + k) = la[k]?) →
      (∀ k, k < n → thr_get_bit bits4 (advance idx2 k) = lb[k]?) →
      (vec4Known la = false ∨ vec4Known lb = false) →
      do_verylong_mod_read bits4 l r n idx idx1 idx2 st = some none := by
  induction n with
  | zero =>
    intro idx idx1 idx2 st la lb hla hlb _ _ hxz
    rw [List.length_eq_zero] at hla hlb
    subst hla hlb
    simp [vec4Known] at hxz
  | succ n ih =>
    intro idx idx1 idx2 st la lb hla hlb h1 h2 hxz
    obtain ⟨x, la', rfl⟩ := List.exists_cons_of_length_eq_add_one hla
    obtain ⟨y, lb', rfl⟩ := List.exists_cons_of_length_eq_add_one hlb
    have g1 : thr_get_bit bits4 idx1 = some x := by simpa using h1 0 (by omega)
    have g2 : thr_get_bit bits4 idx2 = some y := by
      have := h2 0 (by omega)
      rw [advance_zero] at this
      simpa using this
    obtain ⟨z, a, lc, rc⟩ := st
    rw [do_verylong_mod_read, g1, g2]
    simp only
    by_cases hnx : (x.code ||| y.code) &&& 2 ≠ 0
    · rw [if_pos hnx]
    · rw [if_neg hnx]
      rw [xz_test] at hnx
      push_neg at hnx
      have hx : bit4_is_xz x = false := by simpa using hnx.1
      have hy : bit4_is_xz y = false := by simpa using hnx.2
      rw [known_cons, known_cons, hx, hy] at hxz
      simp only [Bool.not_false, Bool.true_and] at hxz
      exact ih (idx + 1) (idx1 + 1) _ _ la' lb' (by simpa using hla) (by simpa using hlb)
        (fun k hk => by
          have := h1 (k + 1) (by omega)
          simp only [List.getElem?_cons_succ] at this
          rw [← this]; congr 1; omega)
        (fun k hk => by
          have := h2 (k + 1) (by omega)
          simp only [List.getElem?_cons_succ] at this
          rw [← this, advance_succ])
        hxz

/-- C1 for `of_MOD`: an X or Z bit in an operand gives an all-X result. -/
theorem of_MOD_xz (bits4 : List vvp_bit4_t) (d s w : Nat) (hd : 4 ≤ d)
    (hin : d + w ≤ bits4.length) (hs : operand_ok bits4 s w) (hc : thr_consts_ok bits4)
    (hxz : vec4Known (vthread_bits_to_vector bits4 d w) = false ∨
      vec4Known (vthread_bits_to_vector bits4 s w) = false) :
    all_x_result (of_MOD bits4 ⟨d, s, w⟩) d w := by
  have : of_MOD bits4 ⟨d, s, w⟩ = some (put_x_out bits4 ⟨d, s, w⟩) := by
    unfold of_MOD
    simp only
    rw [if_neg (by omega)]
    split
    · rw [of_MOD_read_xz bits4 w 0 d s (0, 0) _ _
        (operand_length bits4 d w (Or.inr hin)) (operand_length bits4 s w hs)
        (dest_reads bits4 d w hd hin hc) (fun k hk => operand_read bits4 s w k hc hs hk) hxz]
    · unfold do_verylong_mod
      simp only
      rw [do_verylong_mod_read_xz bits4 false false w 0 d s _ _ _
        (operand_length bits4 d w (Or.inr hin)) (operand_length bits4 s w hs)
        (dest_reads bits4 d w hd hin hc) (fun k hk => operand_read bits4 s w k hc hs hk) hxz]
  rw [this]
  exact all_x_of_put_x_out bits4 d s w hin

/-! ## Arrays of binary digits -/

theorem bitsOk_nil : bitsOk [] := by simp [bitsOk]

theorem bitsOk_cons (x : Nat) (l : List Nat) : bitsOk (x :: l) ↔ x ≤ 1 ∧ bitsOk l := by
  simp [bitsOk]

theorem bitsOk_append (u v : List Nat) : bitsOk (u ++ v) ↔ bitsOk u ∧ bitsOk v := by
  simp only [bitsOk, List.mem_append]
  constructor
  · intro h
    exact ⟨fun x hx => h x (Or.inl hx), fun x hx => h x (Or.inr hx)⟩
  · rintro ⟨h1, h2⟩ x (hx | hx)
    · exact h1 x hx
    · exact h2 x hx

theorem bitsOk_take (l : List Nat) (h : bitsOk l) (i : Nat) : bitsOk (l.take i) :=
  fun x hx => h x (List.mem_of_mem_take hx)

theorem bitsOk_drop (l : List Nat) (h : bitsOk l) (i : Nat) : bitsOk (l.drop i) :=
  fun x hx => h x (List.mem_of_mem_drop hx)

theorem bitsOk_getD (l : List Nat) (h : bitsOk l) (i : Nat) : l.getD i 0 ≤ 1 := by
  rw [List.getD_eq_getElem?_getD]
  by_cases hi : i < l.length
  · rw [List.getElem?_eq_getElem hi, Option.getD_some]
    exact h _ (List.getElem_mem hi)
  · rw [List.getElem?_eq_none (by omega)]
    simp

theorem bitsVal_append (u v : List Nat) :
    bitsVal (u ++ v) = bitsVal u + 2 ^ u.length * bitsVal v := by
  induction u with
  | nil => simp [bitsVal]
  | cons b rest ih =>
    rw [List.cons_append, bitsVal, ih, bitsVal, List.length_cons, pow_succ]
    ring

theorem bitsVal_lt (l : List Nat) (h : bitsOk l) : bitsVal l < 2 ^ l.length := by
  induction l with
  | nil => simp [bitsVal]
  | cons x rest ih =>
    rw [bitsOk_cons] at h
    have := ih h.2
    simp only [bitsVal, List.length_cons, pow_succ]
    omega

theorem bitsVal_take_drop (l : List Nat) (k : Nat) (h : k ≤ l.length) :
    bitsVal l = bitsVal (l.take k) + 2 ^ k * bitsVal (l.drop k) := by
  conv_lhs => rw [← List.take_append_drop k l]
  rw [bitsVal_append]
  simp [h]

theorem bitsVal_take_succ (l : List Nat) (j : Nat) (h : j < l.length) :
    bitsVal (l.take (j + 1)) = bitsVal (l.take j) + 2 ^ j * l.getD j 0 := by
  rw [List.take_succ, bitsVal_append, List.getD_eq_getElem?_getD,
    List.getElem?_eq_getElem h]
  have hm : min j l.length = j := by omega
  simp [bitsVal, hm]

theorem bitsVal_replicate_zero (n : Nat) : bitsVal (List.replicate n 0) = 0 := by
  induction n with
  | zero => rfl
  | succ n ih => simp [List.replicate_succ, bitsVal, ih]

theorem bitsVal_zero_of_all (l : List Nat) (h : ∀ i, i < l.length → l.getD i 0 = 0) :
    bitsVal l = 0 := by
  induction l with
  | nil => rfl
  | cons x rest ih =>
    have hx : x = 0 := by simpa using h 0 (by simp)
    have hr : bitsVal rest = 0 :=
      ih (fun i hi => by simpa using h (i + 1) (by simpa using hi))
    simp [bitsVal, hx, hr]

theorem bitsVal_compl (l : List Nat) (h : bitsOk l) :
    bitsVal (l.map (fun b => 1 - b)) + bitsVal l + 1 = 2 ^ l.length := by
  induction l with
  | nil => simp [bitsVal]
  | cons x rest ih =>
    rw [bitsOk_cons] at h
    have := ih h.2
    simp only [List.map_cons, bitsVal, List.length_cons, pow_succ]
    omega

theorem bitsOk_compl (l : List Nat) : bitsOk (l.map (fun b => 1 - b)) := by
  intro x hx
  simp only [List.mem_map] at hx
  obtain ⟨b, -, rfl⟩ := hx
  omega

/-! ### The operand bits -/

theorem readBits_false (la : List vvp_bit4_t) (c : Nat) :
    readBits false la c = la.map vvp_bit4_t.code := by
  induction la generalizing c with
  | nil => rfl
  | cons x la ih => simp [readBits, ih]

theorem readBits_length (neg : Bool) (la : List vvp_bit4_t) (c : Nat) :
    (readBits neg la c).length = la.length := by
  induction la generalizing c with
  | nil => rfl
  | cons x la ih => simp [readBits, ih]

theorem codes_of_known (la : List vvp_bit4_t) (hk : vec4Known la = true) :
    bitsOk (la.map vvp_bit4_t.code) ∧ bitsVal (la.map vvp_bit4_t.code) = vec4Val la := by
  induction la with
  | nil => exact ⟨bitsOk_nil, rfl⟩
  | cons x la ih =>
    rw [known_cons, Bool.and_eq_true] at hk
    have hx : bit4_is_xz x = false := by simpa using hk.1
    obtain ⟨i1, i2⟩ := ih hk.2
    constructor
    · rw [List.map_cons, bitsOk_cons, code_of_known x hx]
      exact ⟨by split <;> omega, i1⟩
    · rw [List.map_cons, bitsVal, vec4Val, i2, code_of_known x hx]

theorem negate_bit_zero_one : negate_bit 0 1 = (0, 1) := by decide

/-- The bits stored for a zero operand are all 0, negated or not. -/
theorem readBits_zero (neg : Bool) (n : Nat) :
    readBits neg (List.replicate n BIT4_0) (if neg then 1 else 0) = List.replicate n 0 := by
  induction n with
  | zero => rfl
  | succ n ih =>
    cases neg
    · simp only [Bool.false_eq_true, if_false] at ih ⊢
      simp [readBits, List.replicate_succ, ih, vvp_bit4_t.code]
    · simp only [if_true] at ih ⊢
      simp only [List.replicate_succ, readBits, if_true, vvp_bit4_t.code, negate_bit_zero_one]
      rw [ih]

theorem known_zero_eq (la : List vvp_bit4_t) (hk : vec4Known la = true)
    (hz : vec4Val la = 0) : la = List.replicate la.length BIT4_0 := by
  apply vec4_ext _ _ hk
  · simp [vec4Known, bit4_is_xz]
  · simp
  · rw [hz, vec4Val_replicate_zero]

/-! ### The top bit searches -/

theorem find_top_spec (p : Nat → Bool) (x : List Nat) (n : Nat) :
    (find_top p x n = -1 ∧ ∀ i, i < n → p (x.getD i 0) = false) ∨
    (∃ m : Nat, find_top p x n = (m : Int) ∧ m < n ∧ p (x.getD m 0) = true ∧
      ∀ i, m < i → i < n → p (x.getD i 0) = false) := by
  induction n with
  | zero => left; exact ⟨rfl, fun i hi => by omega⟩
  | succ n ih =>
    by_cases hp : p (x.getD n 0) = true
    · right
      refine ⟨n, by rw [find_top, if_pos hp], by omega, hp, fun i h1 h2 => by omega⟩
    · have hpf : p (x.getD n 0) = false := by simpa using hp
      have e : find_top p x (n + 1) = find_top p x n := by rw [find_top, if_neg hp]
      rw [e]
      rcases ih with ⟨h1, h2⟩ | ⟨m, h1, h2, h3, h4⟩
      · left
        refine ⟨h1, fun i hi => ?_⟩
        by_cases hin : i = n
        · rw [hin]; exact hpf
        · exact h2 i (by omega)
      · right
        refine ⟨m, h1, by omega, h3, fun i hi1 hi2 => ?_⟩
        by_cases hin : i = n
        · rw [hin]; exact hpf
        · exact h4 i hi1 (by omega)

theorem find_top_compl (l : List Nat) (hok : bitsOk l) (n : Nat) (hn : n ≤ l.length) :
    find_top (fun x => decide (x = 0)) (l.map (fun b => 1 - b)) n
      = find_top (fun x => decide (x ≠ 0)) l n := by
  induction n with
  | zero => rfl
  | succ n ih =>
    have hg : (l.map (fun b => 1 - b)).getD n 0 = 1 - l.getD n 0 := by
      rw [List.getD_eq_getElem?_getD, List.getD_eq_getElem?_getD, List.getElem?_map,
        List.getElem?_eq_getElem (by omega : n < l.length)]
      simp
    have hb := bitsOk_getD l hok n
    rw [find_top, find_top, hg, ih (by omega)]
    have : l.getD n 0 = 0 ∨ l.getD n 0 = 1 := by omega
    rcases this with h | h <;> rw [h] <;> simp

/-- The value of a bit array below its top set bit. -/
theorem top_bit_bounds (l : List Nat) (hok : bitsOk l) (n m : Nat) (hn : n ≤ l.length)
    (hm : m < n) (hset : l.getD m 0 ≠ 0) (hz : ∀ i, m < i → i < n → l.getD i 0 = 0) :
    2 ^ m ≤ bitsVal (l.take n) ∧ bitsVal (l.take n) < 2 ^ (m + 1) ∧
    bitsVal ((l.take n).drop (m + 1)) = 0 := by
  have hzero : bitsVal ((l.take n).drop (m + 1)) = 0 := by
    apply bitsVal_zero_of_all
    intro i hi
    simp only [List.length_drop, List.length_take] at hi
    rw [List.getD_eq_getElem?_getD, List.getElem?_drop, List.getElem?_take_of_lt (by omega),
      ← List.getD_eq_getElem?_getD]
    exact hz _ (by omega) (by omega)
  have hsplit := bitsVal_take_drop (l.take n) (m + 1) (by simp; omega)
  rw [hzero, mul_zero, add_zero] at hsplit
  have hlt := bitsVal_lt ((l.take n).take (m + 1)) (bitsOk_take _ (bitsOk_take l hok n) _)
  have hlen : ((l.take n).take (m + 1)).length = m + 1 := by simp; omega
  rw [hlen] at hlt
  have hsucc := bitsVal_take_succ (l.take n) m (by simp; omega)
  have hgm : (l.take n).getD m 0 = l.getD m 0 := by
    rw [List.getD_eq_getElem?_getD, List.getElem?_take_of_lt hm, ← List.getD_eq_getElem?_getD]
  rw [hgm] at hsucc
  have hb := bitsOk_getD l hok m
  have h1 : l.getD m 0 = 1 := by omega
  rw [h1, mul_one] at hsucc
  refine ⟨?_, ?_, hzero⟩
  · rw [hsplit, hsucc]; omega
  · rw [hsplit]; exact hlt

theorem top_bit_none (l : List Nat) (n : Nat) (hn : n ≤ l.length)
    (hz : ∀ i, i < n → l.getD i 0 = 0) : bitsVal (l.take n) = 0 := by
  apply bitsVal_zero_of_all
  intro i hi
  simp only [List.length_take] at hi
  rw [List.getD_eq_getElem?_getD, List.getElem?_take_of_lt (by omega),
    ← List.getD_eq_getElem?_getD]
  exact hz i (by omega)

/-! ## The trial subtraction of `do_verylong_mod` -/

theorem take_set_succ (t : List Nat) (i v : Nat) (h : i < t.length) :
    (t.set i v).take (i + 1) = t.take i ++ [v] := by
  rw [List.set_eq_take_append_cons_drop, if_pos h]
  have hl : (t.take i).length = i := by simp; omega
  rw [List.take_append_eq_append_take, hl, List.take_of_length_le (by omega)]
  simp

theorem getD_drop (z : List Nat) (cur i : Nat) : (z.drop cur).getD i 0 = z.getD (i + cur) 0 := by
  rw [List.getD_eq_getElem?_getD, List.getD_eq_getElem?_getD, List.getElem?_drop, add_comm]

theorem mod_sub_spec (z a t : List Nat) (cur copylen : Nat) (hz : bitsOk z) (ha : bitsOk a)
    (hzl : cur + copylen ≤ z.length) (hal : copylen ≤ a.length) (htl : copylen ≤ t.length) :
    (forLoop (mod_sub_step z a cur) copylen 0 (t, 1)).1.length = t.length ∧
    (forLoop (mod_sub_step z a cur) copylen 0 (t, 1)).2 ≤ 1 ∧
    bitsOk ((forLoop (mod_sub_step z a cur) copylen 0 (t, 1)).1.take copylen) ∧
    bitsVal ((forLoop (mod_sub_step z a cur) copylen 0 (t, 1)).1.take copylen)
        + 2 ^ copylen * (forLoop (mod_sub_step z a cur) copylen 0 (t, 1)).2
      = bitsVal ((z.drop cur).take copylen) + bitsVal (a.take copylen) + 1 := by
  have inv := forLoop_invariant (mod_sub_step z a cur)
    (fun i st => st.1.length = t.length ∧ st.2 ≤ 1 ∧ bitsOk (st.1.take i) ∧
      bitsVal (st.1.take i) + 2 ^ i * st.2
        = bitsVal ((z.drop cur).take i) + bitsVal (a.take i) + 1)
    copylen 0 (t, 1)
    ⟨rfl, le_refl _, by simp [bitsOk_nil], by simp [bitsVal]⟩
    (by
      rintro i ⟨t', c⟩ _ hi ⟨h1, h2, h3, h4⟩
      simp only at h1 h2 h3 h4
      have hzb := bitsOk_getD z hz (i + cur)
      have hab := bitsOk_getD a ha i
      have htemp : (z.getD (i + cur) 0 + a.getD i 0 + c) % 256
          = z.getD (i + cur) 0 + a.getD i 0 + c := Nat.mod_eq_of_lt (by omega)
      simp only [mod_sub_step, htemp, Nat.and_one_is_mod, Nat.shiftRight_eq_div_pow, pow_one]
      refine ⟨by simp [h1], by omega, ?_, ?_⟩
      · rw [take_set_succ t' i _ (by omega), bitsOk_append]
        refine ⟨h3, ?_⟩
        rw [bitsOk_cons]
        exact ⟨by omega, bitsOk_nil⟩
      · rw [take_set_succ t' i _ (by omega), bitsVal_append,
          bitsVal_take_succ (z.drop cur) i (by simp; omega), bitsVal_take_succ a i (by omega),
          getD_drop]
        have hl : (t'.take i).length = i := by simp; omega
        rw [hl]
        simp only [bitsVal, mul_zero, add_zero, pow_succ]
        generalize z.getD (i + cur) 0 = zb at *
        generalize a.getD i 0 = ab at *
        generalize bitsVal (t'.take i) = T at *
        generalize bitsVal ((z.drop cur).take i) = Zt at *
        generalize bitsVal (a.take i) = At at *
        generalize 2 ^ i = P at *
        have e1 : (zb + ab + c) % 2 + 2 * ((zb + ab + c) / 2) = zb + ab + c := by omega
        generalize (zb + ab + c) % 2 = M at *
        generalize (zb + ab + c) / 2 = Q at *
        zify at h4 e1 ⊢
        linear_combination h4 + (P : ℤ) * e1)
  rw [zero_add] at inv
  exact inv

theorem copy_back_spec (z t : List Nat) (cur copylen : Nat) (hzl : cur + copylen ≤ z.length)
    (htl : copylen ≤ t.length) :
    forLoop (fun i z => z.set (i + cur) (t.getD i 0)) copylen 0 z
      = z.take cur ++ t.take copylen ++ z.drop (cur + copylen) := by
  have inv := forLoop_invariant (fun i (z : List Nat) => z.set (i + cur) (t.getD i 0))
    (fun i z' => z' = z.take cur ++ t.take i ++ z.drop (cur + i))
    copylen 0 z (by simp)
    (by
      intro i z' _ hi hz'
      subst hz'
      have hd : z.drop (cur + i) = z.getD (cur + i) 0 :: z.drop (cur + i + 1) := by
        rw [List.getD_eq_getElem?_getD, List.getElem?_eq_getElem (by omega), Option.getD_some,
          ← List.drop_eq_getElem_cons]
      have hl : (z.take cur ++ t.take i).length = i + cur := by simp; omega
      beta_reduce
      rw [hd, set_mid' _ _ _ _ _ hl, List.take_succ, List.getD_eq_getElem?_getD,
        List.getElem?_eq_getElem (by omega : i < t.length)]
      simp [add_assoc])
  rw [zero_add] at inv
  exact inv

/-! ## The restoring division loop of `do_verylong_mod` -/

/-- One iteration of the `while (current > -1)` loop keeps the remainder
congruent to the dividend and halves its bound. -/
theorem mod_step_spec (a z t : List Nat) (ma len A B c : Nat) (ha : bitsOk a)
    (hal : a.length = len + 1)
    (haw : bitsVal (a.take (ma + 2)) + B + 1 = 2 ^ (ma + 2)) (hB2 : B < 2 ^ (ma + 1))
    (hz : bitsOk z) (hzl : z.length = len + 1) (htl : t.length = len + 1)
    (hwin : c + 1 + ma ≤ len) (hlt : bitsVal z < B * 2 ^ (c + 1))
    (hmod : bitsVal z ≡ A [MOD B]) :
    ∃ z' t', do_verylong_mod_loop a (ma + 2) (c + 1) (z, t)
        = do_verylong_mod_loop a (ma + 2) c (z', t') ∧
      bitsOk z' ∧ z'.length = len + 1 ∧ t'.length = len + 1 ∧
      bitsVal z' < B * 2 ^ c ∧ bitsVal z' ≡ A [MOD B] := by
  obtain ⟨r1, r2, r3, r4⟩ := mod_sub_spec z a t c (ma + 2) hz ha (by omega) (by omega) (by omega)
  have hstep : do_verylong_mod_loop a (ma + 2) (c + 1) (z, t)
      = do_verylong_mod_loop a (ma + 2) c
          (if (forLoop (mod_sub_step z a c) (ma + 2) 0 (t, 1)).2 ≠ 0 then
              forLoop (fun i zz => zz.set (i + c)
                ((forLoop (mod_sub_step z a c) (ma + 2) 0 (t, 1)).1.getD i 0)) (ma + 2) 0 z
            else z,
           (forLoop (mod_sub_step z a c) (ma + 2) 0 (t, 1)).1) := rfl
  refine ⟨_, _, hstep, ?_⟩
  generalize (forLoop (mod_sub_step z a c) (ma + 2) 0 (t, 1)).1 = t1 at *
  generalize (forLoop (mod_sub_step z a c) (ma + 2) 0 (t, 1)).2 = carry at *
  -- the pieces of `z`: below the window, the window, above the window
  have s1 := bitsVal_take_drop z c (by omega)
  have s2 := bitsVal_take_drop (z.drop c) (ma + 2) (by simp; omega)
  have hlow := bitsVal_lt (z.take c) (bitsOk_take z hz c)
  have hlowl : (z.take c).length = c := by simp; omega
  rw [hlowl] at hlow
  have hT := bitsVal_lt (t1.take (ma + 2)) r3
  have hTl : (t1.take (ma + 2)).length = ma + 2 := by simp; omega
  rw [hTl] at hT
  have hdd : (z.drop c).drop (ma + 2) = z.drop (c + (ma + 2)) := by
    rw [List.drop_drop, add_comm]
  rw [hdd] at s2
  generalize hlowv : bitsVal (z.take c) = low at *
  generalize bitsVal ((z.drop c).take (ma + 2)) = Wv at *
  generalize hU : bitsVal (z.drop (c + (ma + 2))) = U at *
  generalize bitsVal (z.drop c) = D at *
  generalize hTv : bitsVal (t1.take (ma + 2)) = T at *
  generalize bitsVal (a.take (ma + 2)) = NB at *
  have hpc : 2 ^ (c + 1) = 2 * 2 ^ c := by rw [pow_succ]; ring
  have hpm : 2 ^ (ma + 2) = 2 * 2 ^ (ma + 1) := by rw [pow_succ]; ring
  have hPpos : 0 < 2 ^ c := by positivity
  have hlowl' := hlowl
  generalize hP : 2 ^ c = P at *
  generalize 2 ^ (ma + 1) = Q at *
  rw [hpm] at s2 haw hT r4
  rw [hpc] at hlt
  -- the bits above the window are zero
  have hD : D < 2 * Q := by
    by_contra hge
    push_neg at hge
    have h1 : P * (2 * Q) ≤ P * D := Nat.mul_le_mul_left _ hge
    have h2 : B * (2 * P) < Q * (2 * P) := Nat.mul_lt_mul_of_pos_right hB2 (by omega)
    have e1 : P * (2 * Q) = Q * (2 * P) := by ring
    omega
  have hU0 : U = 0 := by
    by_contra hne
    have : 2 * Q * 1 ≤ 2 * Q * U := Nat.mul_le_mul_left _ (by omega)
    omega
  rw [hU0, mul_zero, add_zero] at s2
  subst s2
  have hWv : D < 2 * B := by
    by_contra hge
    push_neg at hge
    have h1 : P * (2 * B) ≤ P * D := Nat.mul_le_mul_left _ hge
    have e1 : P * (2 * B) = B * (2 * P) := by ring
    omega
  by_cases hc : carry ≠ 0
  · rw [if_pos hc]
    have hc1 : carry = 1 := by omega
    rw [hc1, mul_one] at r4
    have hTD : T + B = D := by omega
    rw [copy_back_spec z t1 c (ma + 2) (by omega) (by omega)]
    have hval : bitsVal (z.take c ++ t1.take (ma + 2) ++ z.drop (c + (ma + 2)))
        = low + P * T := by
      rw [bitsVal_append, bitsVal_append, hlowl', hTv, hU, hU0, hP, hlowv]
      simp
    refine ⟨?_, ?_, by omega, ?_, ?_⟩
    · rw [bitsOk_append, bitsOk_append]
      exact ⟨⟨bitsOk_take z hz c, r3⟩, bitsOk_drop z hz _⟩
    · simp; omega
    · rw [hval]
      have h1 : P * (T + 1) ≤ P * B := Nat.mul_le_mul_left _ (by omega)
      have e1 : P * (T + 1) = P * T + P := by ring
      have e2 : B * P = P * B := by ring
      omega
    · rw [hval]
      have e : low + P * T + B * P = bitsVal z := by
        rw [s1, ← hTD]; ring
      have h1 : low + P * T + B * P ≡ A [MOD B] := by rw [e]; exact hmod
      have h2 : low + P * T + B * P ≡ low + P * T [MOD B] := by
        unfold Nat.ModEq
        rw [Nat.add_mul_mod_self_left]
      exact h2.symm.trans h1
  · rw [if_neg hc]
    have hc0 : carry = 0 := by omega
    rw [hc0, mul_zero, add_zero] at r4
    have hDB : D < B := by omega
    refine ⟨hz, hzl, by omega, ?_, hmod⟩
    have h1 : P * (D + 1) ≤ P * B := Nat.mul_le_mul_left _ (by omega)
    have e1 : P * (D + 1) = P * D + P := by ring
    have e2 : B * P = P * B := by ring
    omega

theorem do_verylong_mod_loop_spec (a : List Nat) (ma len A B : Nat) (ha : bitsOk a)
    (hal : a.length = len + 1)
    (haw : bitsVal (a.take (ma + 2)) + B + 1 = 2 ^ (ma + 2)) (hB2 : B < 2 ^ (ma + 1))
    (cur : Nat) :
    ∀ (z t : List Nat), bitsOk z → z.length = len + 1 → t.length = len + 1 →
      (cur = 0 ∨ cur + ma ≤ len) → bitsVal z < B * 2 ^ cur → bitsVal z ≡ A [MOD B] →
      bitsOk (do_verylong_mod_loop a (ma + 2) cur (z, t)).1 ∧
      (do_verylong_mod_loop a (ma + 2) cur (z, t)).1.length = len + 1 ∧
      bitsVal (do_verylong_mod_loop a (ma + 2) cur (z, t)).1 = A % B := by
  induction cur with
  | zero =>
    intro z t hz hzl _ _ hlt hmod
    simp only [do_verylong_mod_loop]
    refine ⟨hz, hzl, ?_⟩
    rw [pow_zero, mul_one] at hlt
    have := hmod
    unfold Nat.ModEq at this
    rwa [Nat.mod_eq_of_lt hlt] at this
  | succ c ih =>
    intro z t hz hzl htl hwin hlt hmod
    obtain ⟨z', t', e, h1, h2, h3, h4, h5⟩ := mod_step_spec a z t ma len A B c ha hal haw hB2
      hz hzl htl (by omega) hlt hmod
    rw [e]
    exact ih z' t' h1 h2 h3 (by omega) h4 h5

/-! ## The result loop of `do_verylong_mod` -/

theorem putSeq_tally (z : List Nat) (n : Nat) : ∀ (lo c : Nat), lo + n ≤ z.length →
    putSeq (fun idx (c : Nat) =>
        if (if false = true then negate_bit (z.getD idx 0) c else (z.getD idx 0, c)).1 ≠ 0
        then BIT4_1 else BIT4_0)
      (fun idx c => (if false = true then negate_bit (z.getD idx 0) c else (z.getD idx 0, c)).2)
      n lo c
    = ((z.drop lo).take n).map (fun b => if b ≠ 0 then BIT4_1 else BIT4_0) := by
  induction n with
  | zero => intro lo c _; simp [putSeq]
  | succ n ih =>
    intro lo c hlo
    rw [putSeq, ih (lo + 1) _ (by omega)]
    have hd : z.drop lo = z.getD lo 0 :: z.drop (lo + 1) := by
      rw [List.getD_eq_getElem?_getD, List.getElem?_eq_getElem (by omega), Option.getD_some,
        ← List.drop_eq_getElem_cons]
    rw [hd]
    simp

theorem vec4_of_bits (l : List Nat) (h : bitsOk l) :
    vec4Known (l.map (fun b => if b ≠ 0 then BIT4_1 else BIT4_0)) = true ∧
    vec4Val (l.map (fun b => if b ≠ 0 then BIT4_1 else BIT4_0)) = bitsVal l := by
  induction l with
  | nil => exact ⟨rfl, rfl⟩
  | cons x l ih =>
    rw [bitsOk_cons] at h
    obtain ⟨i1, i2⟩ := ih h.2
    constructor
    · rw [List.map_cons, known_cons, i1]
      split <;> rfl
    · rw [List.map_cons, vec4Val, bitsVal, i2]
      have : x = 0 ∨ x = 1 := by omega
      rcases this with hx | hx <;> simp [hx]

/-- The loop at `tally` without negation stores the remainder array. -/
theorem tally_spec (bits4 : List vvp_bit4_t) (z : List Nat) (d w : Nat)
    (hin : d + w ≤ bits4.length) (hz : bitsOk z) (hzl : z.length = w + 1)
    (hv : bitsVal z < 2 ^ w) :
    (forLoop (do_verylong_mod_tally z false d) w 0 (bits4, 0)).1
      = stored bits4 d w (bitsVal z) := by
  have hbody : do_verylong_mod_tally z false d
      = (fun idx (st : List vvp_bit4_t × Nat) =>
          (thr_put_bit st.1 (d + idx)
            ((fun idx (c : Nat) =>
              if (if false = true then negate_bit (z.getD idx 0) c else (z.getD idx 0, c)).1 ≠ 0
              then BIT4_1 else BIT4_0) idx st.2),
           (fun idx c => (if false = true then negate_bit (z.getD idx 0) c
              else (z.getD idx 0, c)).2) idx st.2)) := by
    funext idx st
    rfl
  have hput := forLoop_put
    (fun idx (c : Nat) =>
      if (if false = true then negate_bit (z.getD idx 0) c else (z.getD idx 0, c)).1 ≠ 0
      then BIT4_1 else BIT4_0)
    (fun idx c => (if false = true then negate_bit (z.getD idx 0) c else (z.getD idx 0, c)).2)
    d w 0 bits4 0 (by omega)
  rw [hbody, hput, putSeq_tally z w 0 0 (by omega)]
  simp only [List.drop_zero, Nat.add_zero]
  unfold stored
  congr 2
  obtain ⟨k1, k2⟩ := vec4_of_bits (z.take w) (bitsOk_take z hz w)
  have hsplit := bitsVal_take_drop z w (by omega)
  have hd0 : bitsVal (z.drop w) = 0 := by
    by_contra hne
    have : 2 ^ w * 1 ≤ 2 ^ w * bitsVal (z.drop w) := Nat.mul_le_mul_left _ (by omega)
    omega
  rw [hd0, mul_zero, add_zero] at hsplit
  apply vec4_ext _ _ k1 (vec4OfNat_known _ _)
  · simp [vec4OfNat_length]; omega
  · rw [k2, vec4Val_ofNat, Nat.mod_eq_of_lt hv, hsplit]

/-! ## `do_verylong_mod` -/

theorem do_verylong_mod_read_init (bits4 : List vvp_bit4_t) (l r : Bool) (d s w lc rc : Nat)
    (hd : 4 ≤ d) (hin : d + w ≤ bits4.length) (hs : operand_ok bits4 s w)
    (hc : thr_consts_ok bits4)
    (hka : vec4Known (vthread_bits_to_vector bits4 d w) = true)
    (hkb : vec4Known (vthread_bits_to_vector bits4 s w) = true) :
    do_verylong_mod_read bits4 l r w 0 d s
        (List.replicate (w + 1) 0, List.replicate (w + 1) 0, lc, rc)
      = some (some (readBits l (vthread_bits_to_vector bits4 d w) lc ++ [0],
          (readBits r (vthread_bits_to_vector bits4 s w) rc).map (fun b => 1 - b) ++ [0])) := by
  have := do_verylong_mod_read_known bits4 l r w 0 d s [] (List.replicate w 0) [0]
    [] (List.replicate w 0) [0] lc rc _ _
    (operand_length bits4 d w (Or.inr hin)) (operand_length bits4 s w hs) rfl (by simp) rfl
    (by simp) (dest_reads bits4 d w hd hin hc)
    (fun k hk => operand_read bits4 s w k hc hs hk) hka hkb
  simp only [List.nil_append] at this
  rw [List.replicate_succ']
  exact this

theorem getD_append_left (u v : List Nat) (i : Nat) (h : i < u.length) :
    (u ++ v).getD i 0 = u.getD i 0 := by
  rw [List.getD_eq_getElem?_getD, List.getD_eq_getElem?_getD, List.getElem?_append_left h]

theorem set_last (u : List Nat) (x v n : Nat) (h : u.length = n) :
    (u ++ [x]).set n v = u ++ [v] := by
  subst h
  rw [List.set_append]
  simp

/-- A zero divisor sends `do_verylong_mod` to `x_out`, whatever the signs. -/
theorem do_verylong_mod_zero (bits4 : List vvp_bit4_t) (l r : Bool) (d s w : Nat)
    (hd : 4 ≤ d) (hin : d + w ≤ bits4.length) (hs : operand_ok bits4 s w)
    (hc : thr_consts_ok bits4)
    (hka : vec4Known (vthread_bits_to_vector bits4 d w) = true)
    (hkb : vec4Known (vthread_bits_to_vector bits4 s w) = true)
    (hz : vec4Val (vthread_bits_to_vector bits4 s w) = 0) :
    do_verylong_mod bits4 ⟨d, s, w⟩ l r = some (put_x_out bits4 ⟨d, s, w⟩) := by
  have hlb := known_zero_eq _ hkb hz
  rw [operand_length bits4 s w hs] at hlb
  unfold do_verylong_mod
  simp only
  rw [do_verylong_mod_read_init bits4 l r d s w _ _ hd hin hs hc hka hkb]
  simp only
  rw [hlb, readBits_zero r w]
  have hal : (List.map (fun b => 1 - b) (List.replicate w 0)).length = w := by simp
  rw [set_last _ 0 1 w hal]
  have hmxa : find_top (fun x => decide (x = 0))
      (List.map (fun b => 1 - b) (List.replicate w 0) ++ [1]) w = -1 := by
    rcases find_top_spec (fun x => decide (x = 0))
      (List.map (fun b => 1 - b) (List.replicate w 0) ++ [1]) w with ⟨h1, _⟩ | ⟨m, _, h2, h3, _⟩
    · exact h1
    · exfalso
      rw [getD_append_left _ _ _ (by rw [hal]; exact h2)] at h3
      rw [List.getD_eq_getElem?_getD, List.getElem?_map, List.getElem?_replicate,
        if_pos h2] at h3
      simp at h3
  rw [hmxa]
  simp

theorem operand_bits (bits4 : List vvp_bit4_t) (s w : Nat) (hs : operand_ok bits4 s w)
    (hk : vec4Known (vthread_bits_to_vector bits4 s w) = true) :
    bitsOk ((vthread_bits_to_vector bits4 s w).map vvp_bit4_t.code ++ [0]) ∧
    ((vthread_bits_to_vector bits4 s w).map vvp_bit4_t.code ++ [0]).length = w + 1 ∧
    bitsVal ((vthread_bits_to_vector bits4 s w).map vvp_bit4_t.code ++ [0])
      = vec4Val (vthread_bits_to_vector bits4 s w) ∧
    bitsVal (((vthread_bits_to_vector bits4 s w).map vvp_bit4_t.code ++ [0]).take w)
      = vec4Val (vthread_bits_to_vector bits4 s w) := by
  obtain ⟨c1, c2⟩ := codes_of_known _ hk
  have hl := operand_length bits4 s w hs
  refine ⟨?_, by simp [hl], ?_, ?_⟩
  · rw [bitsOk_append]
    exact ⟨c1, by rw [bitsOk_cons]; exact ⟨by omega, bitsOk_nil⟩⟩
  · rw [bitsVal_append, c2]
    simp [bitsVal]
  · rw [List.take_append_of_le_length (by simp [hl]), List.take_of_length_le (by simp [hl]), c2]

/-- The bits of an array above its top set bit are 0. -/
theorem above_top_zero (l : List Nat) (w m : Nat) (hl : l.length = w + 1)
    (hlast : l.getD w 0 = 0)
    (hz : ∀ i, m < i → i < w → decide (l.getD i 0 ≠ 0) = false) :
    ∀ i, m < i → l.getD i 0 = 0 := by
  intro i hi
  by_cases h1 : i < w
  · simpa using hz i hi h1
  · by_cases h2 : i = w
    · rw [h2]; exact hlast
    · rw [List.getD_eq_getElem?_getD, List.getElem?_eq_none (by omega)]
      rfl

theorem bitsVal_take_of_top (l : List Nat) (k : Nat) (hk : k ≤ l.length)
    (hz : ∀ i, k ≤ i → l.getD i 0 = 0) : bitsVal (l.take k) = bitsVal l := by
  have hsplit := bitsVal_take_drop l k hk
  have hd0 : bitsVal (l.drop k) = 0 := by
    apply bitsVal_zero_of_all
    intro i _
    rw [List.getD_eq_getElem?_getD, List.getElem?_drop, ← List.getD_eq_getElem?_getD]
    exact hz _ (by omega)
  rw [hd0, mul_zero, add_zero] at hsplit
  exact hsplit.symm

/-- Function `do_verylong_mod` without negation stores the unsigned remainder. -/
theorem do_verylong_mod_unsigned (bits4 : List vvp_bit4_t) (d s w : Nat)
    (hd : 4 ≤ d) (hin : d + w ≤ bits4.length) (hs : operand_ok bits4 s w)
    (hc : thr_consts_ok bits4)
    (hka : vec4Known (vthread_bits_to_vector bits4 d w) = true)
    (hkb : vec4Known (vthread_bits_to_vector bits4 s w) = true)
    (hnz : vec4Val (vthread_bits_to_vector bits4 s w) ≠ 0) :
    do_verylong_mod bits4 ⟨d, s, w⟩ false false
      = some (stored bits4 d w (vec4Val (vthread_bits_to_vector bits4 d w)
          % vec4Val (vthread_bits_to_vector bits4 s w))) := by
  obtain ⟨za1, za2, za3, za4⟩ := operand_bits bits4 d w (Or.inr hin) hka
  obtain ⟨zb1, zb2, zb3, zb4⟩ := operand_bits bits4 s w hs hkb
  have hAlt := operand_lt bits4 d w (Or.inr hin)
  have hBlt := operand_lt bits4 s w hs
  have hla := operand_length bits4 d w (Or.inr hin)
  have hlb := operand_length bits4 s w hs
  unfold do_verylong_mod
  simp only
  rw [do_verylong_mod_read_init bits4 false false d s w _ _ hd hin hs hc hka hkb]
  simp only [readBits_false]
  rw [set_last _ 0 0 w (by simp [hla]), set_last _ 0 1 w (by simp [hlb])]
  have hae : List.map (fun b => 1 - b)
        (List.map vvp_bit4_t.code (vthread_bits_to_vector bits4 s w)) ++ [1]
      = (List.map vvp_bit4_t.code (vthread_bits_to_vector bits4 s w) ++ [0]).map
          (fun b => 1 - b) := by simp
  rw [hae, find_top_compl _ zb1 w (by omega)]
  generalize hA : vec4Val (vthread_bits_to_vector bits4 d w) = A at *
  generalize hB : vec4Val (vthread_bits_to_vector bits4 s w) = B at *
  generalize hZ : List.map vvp_bit4_t.code (vthread_bits_to_vector bits4 d w) ++ [0] = Z at *
  generalize hBB : List.map vvp_bit4_t.code (vthread_bits_to_vector bits4 s w) ++ [0] = Bz at *
  have hZlast : Z.getD w 0 = 0 := by
    rw [← hZ, List.getD_eq_getElem?_getD, List.getElem?_append_right (by simp [hla])]
    simp [hla]
  have hBlast : Bz.getD w 0 = 0 := by
    rw [← hBB, List.getD_eq_getElem?_getD, List.getElem?_append_right (by simp [hlb])]
    simp [hlb]
  -- the top bit of the divisor
  rcases find_top_spec (fun x => decide (x ≠ 0)) Bz w with ⟨_, hb2⟩ | ⟨ma, hb1, hb2, hb3, hb4⟩
  · exfalso
    apply hnz
    rw [← zb4]
    exact top_bit_none Bz w (by omega) (fun i hi => by simpa using hb2 i hi)
  have hb3' : Bz.getD ma 0 ≠ 0 := by simpa using hb3
  obtain ⟨tb1, tb2, _⟩ := top_bit_bounds Bz zb1 w ma (by omega) hb2 hb3'
    (fun i h1 h2 => by simpa using hb4 i h1 h2)
  rw [zb4] at tb1 tb2
  rw [hb1]
  have hBabove := above_top_zero Bz w ma zb2 hBlast hb4
  -- the result when the dividend is below the divisor
  have hsmall : A < B →
      some (forLoop (do_verylong_mod_tally Z false d) w 0
        (bits4, if false = true then 1 else 0)).1 = some (stored bits4 d w (A % B)) := by
    intro hAB
    simp only [Bool.false_eq_true, if_false]
    rw [tally_spec bits4 Z d w hin za1 za2 (by rw [za3]; exact hAlt), za3,
      Nat.mod_eq_of_lt hAB]
  -- the top bit of the dividend
  rcases find_top_spec (fun x => decide (x ≠ 0)) Z w with ⟨hz1, hz2⟩ | ⟨mz, hz1, hz2, hz3, hz4⟩
  · have hA0 : A = 0 := by
      rw [← za4]
      exact top_bit_none Z w (by omega) (fun i hi => by simpa using hz2 i hi)
    rw [hz1]
    rw [if_pos (Or.inl (by omega)), if_neg (by omega)]
    exact hsmall (by omega)
  have hz3' : Z.getD mz 0 ≠ 0 := by simpa using hz3
  obtain ⟨tz1, tz2, _⟩ := top_bit_bounds Z za1 w mz (by omega) hz2 hz3'
    (fun i h1 h2 => by simpa using hz4 i h1 h2)
  rw [za4] at tz1 tz2
  rw [hz1]
  by_cases hcmp : (ma : Int) > (mz : Int)
  · rw [if_pos (Or.inl hcmp), if_neg (by omega)]
    apply hsmall
    have : 2 ^ (mz + 1) ≤ 2 ^ ma := Nat.pow_le_pow_right (by norm_num) (by omega)
    omega
  · rw [if_neg (by omega)]
    have hle : ma ≤ mz := by omega
    have e1 : ((ma : Int) + 2).toNat = ma + 2 := by omega
    have e2 : ((mz : Int) - (ma : Int) + 1).toNat = mz - ma + 1 := by omega
    rw [e1, e2]
    have haw : bitsVal ((Bz.map (fun b => 1 - b)).take (ma + 2)) + B + 1 = 2 ^ (ma + 2) := by
      rw [← List.map_take]
      have := bitsVal_compl (Bz.take (ma + 2)) (bitsOk_take Bz zb1 _)
      rw [bitsVal_take_of_top Bz (ma + 2) (by omega) (fun i hi => hBabove i (by omega)), zb3]
        at this
      rw [this]
      simp
      omega
    have hlt : bitsVal Z < B * 2 ^ (mz - ma + 1) := by
      rw [za3]
      have e : 2 ^ (mz + 1) = 2 ^ ma * 2 ^ (mz - ma + 1) := by
        rw [← pow_add]; congr 1; omega
      have : 2 ^ ma * 2 ^ (mz - ma + 1) ≤ B * 2 ^ (mz - ma + 1) :=
        Nat.mul_le_mul_right _ tb1
      omega
    obtain ⟨l1, l2, l3⟩ := do_verylong_mod_loop_spec (Bz.map (fun b => 1 - b)) ma w A B
      (bitsOk_compl Bz) (by simp [zb2]) haw tb2 (mz - ma + 1) Z (List.replicate (w + 1) 0)
      za1 za2 (by simp) (Or.inr (by omega)) hlt (by rw [za3])
    simp only [Bool.false_eq_true, if_false]
    have hBpos : 0 < B := Nat.pos_of_ne_zero hnz
    rw [tally_spec bits4 _ d w hin l1 l2
      (by rw [l3]; exact lt_trans (Nat.mod_lt _ hBpos) hBlt), l3]

theorem of_MOD_wide (bits4 : List vvp_bit4_t) (d s w : Nat) (hd : 4 ≤ d)
    (hw64 : 64 < w) (hin : d + w ≤ bits4.length) (hs : operand_ok bits4 s w)
    (hc : thr_consts_ok bits4)
    (hka : vec4Known (vthread_bits_to_vector bits4 d w) = true)
    (hkb : vec4Known (vthread_bits_to_vector bits4 s w) = true) :
    of_MOD bits4 ⟨d, s, w⟩ =
      if vec4Val (vthread_bits_to_vector bits4 s w) = 0 then some (put_x_out bits4 ⟨d, s, w⟩)
      else some (stored bits4 d w (vec4Val (vthread_bits_to_vector bits4 d w)
        % vec4Val (vthread_bits_to_vector bits4 s w))) := by
  unfold of_MOD
  simp only
  rw [if_neg (by omega), if_neg (by omega)]
  split
  · next h => exact do_verylong_mod_zero bits4 false false d s w hd hin hs hc hka hkb h
  · next h => exact do_verylong_mod_unsigned bits4 d s w hd hin hs hc hka hkb h

theorem of_MOD_known (bits4 : List vvp_bit4_t) (d s w : Nat) (hd : 4 ≤ d)
    (hin : d + w ≤ bits4.length) (hs : operand_ok bits4 s w)
    (hc : thr_consts_ok bits4)
    (hka : vec4Known (vthread_bits_to_vector bits4 d w) = true)
    (hkb : vec4Known (vthread_bits_to_vector bits4 s w) = true) :
    of_MOD bits4 ⟨d, s, w⟩ =
      if vec4Val (vthread_bits_to_vector bits4 s w) = 0 then some (put_x_out bits4 ⟨d, s, w⟩)
      else some (stored bits4 d w (vec4Val (vthread_bits_to_vector bits4 d w)
        % vec4Val (vthread_bits_to_vector bits4 s w))) := by
  by_cases h : w ≤ 64
  · exact of_MOD_native bits4 d s w hd h hin hs hc hka hkb
  · exact of_MOD_wide bits4 d s w hd (by omega) hin hs hc hka hkb

/-! ## `of_MOD_S` with a zero divisor -/

theorem thr_get_bit_in (bits4 : List vvp_bit4_t) (i : Nat) (h : i < bits4.length) :
    ∃ b, thr_get_bit bits4 i = some b :=
  ⟨bits4[i], by unfold thr_get_bit; exact List.getElem?_eq_getElem h⟩

theorem of_MOD_S_zero (bits4 : List vvp_bit4_t) (d s w : Nat) (hd : 4 ≤ d) (hw : 1 ≤ w)
    (hin : d + w ≤ bits4.length) (hs : operand_ok bits4 s w) (hc : thr_consts_ok bits4)
    (hka : vec4Known (vthread_bits_to_vector bits4 d w) = true)
    (hkb : vec4Known (vthread_bits_to_vector bits4 s w) = true)
    (hz : vec4Val (vthread_bits_to_vector bits4 s w) = 0) :
    of_MOD_S bits4 ⟨d, s, w⟩ = some (put_x_out bits4 ⟨d, s, w⟩) := by
  unfold of_MOD_S
  simp only
  rw [if_neg (by omega)]
  by_cases h64 : w ≤ 64
  · have hr := of_MOD_read_known bits4 w 0 d s 0 0 _ _
      (operand_length bits4 d w (Or.inr hin)) (operand_length bits4 s w hs)
      (dest_reads bits4 d w hd hin hc) (fun k hk => operand_read bits4 s w k hc hs hk)
      hka hkb (by norm_num) (by norm_num) (by omega)
    simp only [pow_zero, one_mul, zero_add] at hr
    rw [if_pos h64, hr, hz]
    simp
  · rw [if_neg h64]
    obtain ⟨b1, hb1⟩ := thr_get_bit_in bits4 (d + w - 1) (by omega)
    obtain ⟨b2, hb2⟩ := thr_get_bit_in bits4 (s + w - 1) (by
      rcases hs with h | h <;> omega)
    rw [hb1, hb2]
    exact do_verylong_mod_zero bits4 _ _ d s w hd hin hs hc hka hkb hz

/-! ## `of_CMPU` -/

theorem thr_put_bit_length (b : List vvp_bit4_t) (a : Nat) (v : vvp_bit4_t) :
    a < (thr_put_bit b a v).length := by
  unfold thr_put_bit thr_check_addr
  split
  · simp; omega
  · simp; omega

theorem thr_put_bit_get_self (b : List vvp_bit4_t) (a : Nat) (v : vvp_bit4_t) :
    (thr_put_bit b a v)[a]? = some v := by
  have h := thr_put_bit_length b a v
  unfold thr_put_bit at h ⊢
  rw [List.getElem?_set]
  simp only [List.length_set] at h
  simp [h]

theorem thr_put_bit_get_other (b : List vvp_bit4_t) (a j : Nat) (v : vvp_bit4_t)
    (hne : j ≠ a) (hj : j < b.length) : (thr_put_bit b a v)[j]? = b[j]? := by
  unfold thr_put_bit thr_check_addr
  rw [List.getElem?_set, if_neg (by omega)]
  split
  · rw [List.getElem?_append_left hj]
  · rfl

theorem thr_put_bit_length_ge (b : List vvp_bit4_t) (a : Nat) (v : vvp_bit4_t) :
    b.length ≤ (thr_put_bit b a v).length := by
  unfold thr_put_bit thr_check_addr
  split <;> simp

/-- The three compare flags after they have been written. -/
theorem flags_written (b : List vvp_bit4_t) (x y z : vvp_bit4_t) :
    (thr_put_bit (thr_put_bit (thr_put_bit b 4 x) 5 y) 6 z)[4]? = some x ∧
    (thr_put_bit (thr_put_bit (thr_put_bit b 4 x) 5 y) 6 z)[5]? = some y ∧
    (thr_put_bit (thr_put_bit (thr_put_bit b 4 x) 5 y) 6 z)[6]? = some z := by
  have l4 := thr_put_bit_length b 4 x
  have l5 := thr_put_bit_length (thr_put_bit b 4 x) 5 y
  have g4 := thr_put_bit_length_ge (thr_put_bit b 4 x) 5 y
  refine ⟨?_, ?_, thr_put_bit_get_self _ _ _⟩
  · rw [thr_put_bit_get_other _ 6 4 _ (by omega) (by omega),
      thr_put_bit_get_other _ 5 4 _ (by omega) (by omega), thr_put_bit_get_self]
  · rw [thr_put_bit_get_other _ 6 5 _ (by omega) (by omega), thr_put_bit_get_self]

/-- The word loop of `of_CMPU` compares the values of the two arrays. -/
theorem of_CMPU_words (wa wb : List Nat) (hoa : wordsOk wa) (hob : wordsOk wb)
    (hl : wa.length = wb.length) :
    forLoop (of_CMPU_step wa wb) wa.length 0 (BIT4_1, BIT4_0)
      = (if wordsVal wa = wordsVal wb then BIT4_1 else BIT4_0,
         if wordsVal wa < wordsVal wb then BIT4_1 else BIT4_0) := by
  have inv := forLoop_invariant (of_CMPU_step wa wb)
    (fun i st => st = (if wordsVal (wa.take i) = wordsVal (wb.take i) then BIT4_1 else BIT4_0,
         if wordsVal (wa.take i) < wordsVal (wb.take i) then BIT4_1 else BIT4_0))
    wa.length 0 (BIT4_1, BIT4_0) (by simp [wordsVal])
    (by
      intro i st _ hi hst
      subst hst
      have ha := wordsVal_lt _ (wordsOk_take wa hoa i)
      have hb := wordsVal_lt _ (wordsOk_take wb hob i)
      have hla : (wa.take i).length = i := by simp; omega
      have hlb : (wb.take i).length = i := by simp; omega
      rw [hla] at ha
      rw [hlb] at hb
      rw [wordsVal_take_succ wa i (by omega), wordsVal_take_succ wb i (by omega)]
      unfold of_CMPU_step
      generalize wordsVal (wa.take i) = Va at *
      generalize wordsVal (wb.take i) = Vb at *
      generalize wa.getD i 0 = x at *
      generalize wb.getD i 0 = y at *
      generalize WORD ^ i = P at *
      by_cases hxy : x = y
      · subst hxy
        rw [if_pos rfl]
        simp
      · rw [if_neg hxy]
        by_cases hlt : x < y
        · have h1 : P * (x + 1) ≤ P * y := Nat.mul_le_mul_left _ hlt
          have e1 : P * (x + 1) = P * x + P := by ring
          rw [if_pos hlt, if_neg (by omega), if_pos (by omega)]
        · have h1 : P * (y + 1) ≤ P * x := Nat.mul_le_mul_left _ (by omega)
          have e1 : P * (y + 1) = P * y + P := by ring
          rw [if_neg hlt, if_neg (by omega), if_neg (by omega)])
  rw [zero_add, List.take_of_length_le (le_refl _),
    List.take_of_length_le (by omega : wb.length ≤ wa.length)] at inv
  exact inv

theorem definite_mismatch_cons (x y : vvp_bit4_t) (xs ys : List vvp_bit4_t) :
    definite_mismatch (x :: xs) (y :: ys)
      = ((decide (x = BIT4_0 ∧ y = BIT4_1) || decide (x = BIT4_1 ∧ y = BIT4_0))
        || definite_mismatch xs ys) := rfl

/-- The loop of `of_CMPU_the_hard_way`: EQ is 0 when two known bits differ,
and otherwise stays 1 only if it was 1 and no bit is X or Z. -/
theorem of_CMPU_the_hard_way_loop_spec (bits4 : List vvp_bit4_t) (n : Nat) :
    ∀ (idx1 idx2 : Nat) (eq eeq : vvp_bit4_t) (la lb : List vvp_bit4_t),
      la.length = n → lb.length = n →
      (∀ k, k < n → thr_get_bit bits4 (advance idx1 k) = la[k]?) →
      (∀ k, k < n → thr_get_bit bits4 (advance idx2 k) = lb[k]?) →
      (eq = BIT4_1 ∨ eq = BIT4_X) →
      ∃ eeq', of_CMPU_the_hard_way_loop bits4 n idx1 idx2 (eq, eeq)
        = some (if definite_mismatch la lb = true then BIT4_0
            else if eq = BIT4_1 ∧ vec4Known la = true ∧ vec4Known lb = true then BIT4_1
            else BIT4_X, eeq') := by
  induction n with
  | zero =>
    intro idx1 idx2 eq eeq la lb hla hlb _ _ heq
    rw [List.length_eq_zero] at hla hlb
    subst hla hlb
    refine ⟨eeq, ?_⟩
    rcases heq with h | h <;> subst h <;> simp [of_CMPU_the_hard_way_loop, definite_mismatch,
      vec4Known]
  | succ n ih =>
    intro idx1 idx2 eq eeq la lb hla hlb h1 h2 heq
    obtain ⟨x, la', rfl⟩ := List.exists_cons_of_length_eq_add_one hla
    obtain ⟨y, lb', rfl⟩ := List.exists_cons_of_length_eq_add_one hlb
    have g1 : thr_get_bit bits4 idx1 = some x := by
      have := h1 0 (by omega)
      rw [advance_zero] at this
      simpa using this
    have g2 : thr_get_bit bits4 idx2 = some y := by
      have := h2 0 (by omega)
      rw [advance_zero] at this
      simpa using this
    rw [of_CMPU_the_hard_way_loop, g1, g2]
    simp only
    rw [definite_mismatch_cons, known_cons, known_cons]
    by_cases hmm : (x = BIT4_0 ∧ y = BIT4_1) ∨ (x = BIT4_1 ∧ y = BIT4_0)
    · -- a definite mismatch at this position: the loop breaks with EQ = 0
      refine ⟨if x ≠ y then BIT4_0 else eeq, ?_⟩
      rcases hmm with ⟨hx, hy⟩ | ⟨hx, hy⟩ <;> subst hx hy <;> simp
    · push_neg at hmm
      have hm1 : ¬ (x = BIT4_0 ∧ y = BIT4_1) := fun h => hmm.1 h.1 h.2
      have hm2 : ¬ (x = BIT4_1 ∧ y = BIT4_0) := fun h => hmm.2 h.1 h.2
      rw [if_neg hm1, if_neg hm2]
      have hne0 : ¬ ((if eq = BIT4_1 ∧ (bit4_is_xz x = true ∨ bit4_is_xz y = true)
          then BIT4_X else eq) = BIT4_0) := by
        split
        · decide
        · rcases heq with h | h <;> rw [h] <;> decide
      rw [if_neg hne0]
      obtain ⟨eeq', he⟩ := ih (if idx1 ≥ 4 then idx1 + 1 else idx1)
        (if idx2 ≥ 4 then idx2 + 1 else idx2)
        (if eq = BIT4_1 ∧ (bit4_is_xz x = true ∨ bit4_is_xz y = true) then BIT4_X else eq)
        (if x ≠ y then BIT4_0 else eeq) la' lb' (by simpa using hla) (by simpa using hlb)
        (fun k hk => by
          have := h1 (k + 1) (by omega)
          simp only [List.getElem?_cons_succ] at this
          rw [← this, advance_succ])
        (fun k hk => by
          have := h2 (k + 1) (by omega)
          simp only [List.getElem?_cons_succ] at this
          rw [← this, advance_succ])
        (by
          split
          · right; rfl
          · exact heq)
      refine ⟨eeq', ?_⟩
      rw [he]
      congr 2
      have d1 : decide (x = BIT4_0 ∧ y = BIT4_1) = false := by simpa using hm1
      have d2 : decide (x = BIT4_1 ∧ y = BIT4_0) = false := by simpa using hm2
      rw [d1, d2]
      simp only [Bool.or_false, Bool.false_or]
      by_cases hdm : definite_mismatch la' lb' = true
      · rw [if_pos hdm, if_pos hdm]
      · rw [if_neg hdm, if_neg hdm]
        rcases heq with h | h <;> subst h <;>
          cases hx : bit4_is_xz x <;> cases hy : bit4_is_xz y <;> simp

theorem operand_frame (bits4 : List vvp_bit4_t) (d w r s : Nat) (hin : d + w ≤ bits4.length)
    (hs : s < 4 ∨ s + w ≤ d ∨ d + w ≤ s) :
    vthread_bits_to_vector (stored bits4 d w r) s w = vthread_bits_to_vector bits4 s w := by
  unfold vthread_bits_to_vector
  by_cases h4 : s ≥ 4
  · rw [if_pos h4, if_pos h4]
    exact stored_part_other bits4 d w r hin s w (by omega)
  · rw [if_neg h4, if_neg h4]

/-- C2: for a destination `d >= 4`, a source `s` and a width `w >= 1` whose
operands hold only 0/1 bits, `of_ADD` leaves in bits `[d, d+w)` the value
`(a + b) mod 2^w` of the unsigned operand values (the carry out of bit `w-1`
is dropped); a source at the constant address 0 reads as 0 and at the
constant address 1 as `2^w - 1`. -/
theorem C2_of_ADD_sum (bits4 : List vvp_bit4_t) (d s w : Nat) (hd : 4 ≤ d) (hw : 1 ≤ w)
    (hin : d + w ≤ bits4.length) (hs : operand_ok bits4 s w)
    (hka : vec4Known (vthread_bits_to_vector bits4 d w) = true)
    (hkb : vec4Known (vthread_bits_to_vector bits4 s w) = true) :
    (∃ bits', of_ADD bits4 ⟨d, s, w⟩ = some bits' ∧
      vec4Part bits' d w = vec4OfNat w ((vec4Val (vthread_bits_to_vector bits4 d w)
        + vec4Val (vthread_bits_to_vector bits4 s w)) % 2 ^ w)) ∧
    vec4Val (vthread_bits_to_vector bits4 0 w) = 0 ∧
    vec4Val (vthread_bits_to_vector bits4 1 w) = 2 ^ w - 1 := by
  refine ⟨⟨_, of_ADD_known bits4 d s w hd hw hin hs hka hkb, stored_part _ _ _ _ hin⟩, ?_, ?_⟩
  · simp [vthread_bits_to_vector, thr_index_to_bit4, vec4Val_replicate_zero]
  · simp [vthread_bits_to_vector, thr_index_to_bit4, vec4Val_replicate_one]

/-- C2 at `a = 0b1101` (bits 8..11), `b = 0b0011` (bits 16..19), `w = 4`: the
destination holds `0b0000`. -/
theorem C2_of_ADD_sum_witness :
    (4 ≤ 8 ∧ 1 ≤ 4 ∧ 8 + 4 ≤ thr_add4.length ∧ operand_ok thr_add4 16 4 ∧
      vec4Known (vthread_bits_to_vector thr_add4 8 4) = true ∧
      vec4Known (vthread_bits_to_vector thr_add4 16 4) = true) ∧
    vec4Val (vthread_bits_to_vector thr_add4 8 4) = 13 ∧
    vec4Val (vthread_bits_to_vector thr_add4 16 4) = 3 ∧
    ((∃ bits', of_ADD thr_add4 ⟨8, 16, 4⟩ = some bits' ∧
      vec4Part bits' 8 4 = vec4OfNat 4 ((vec4Val (vthread_bits_to_vector thr_add4 8 4)
        + vec4Val (vthread_bits_to_vector thr_add4 16 4)) % 2 ^ 4)) ∧
    vec4Val (vthread_bits_to_vector thr_add4 0 4) = 0 ∧
    vec4Val (vthread_bits_to_vector thr_add4 1 4) = 2 ^ 4 - 1) ∧
    vec4OfNat 4 ((13 + 3) % 2 ^ 4) = [BIT4_0, BIT4_0, BIT4_0, BIT4_0] :=
  ⟨by decide, by decide, by decide,
   C2_of_ADD_sum thr_add4 8 16 4 (by decide) (by decide) (by decide) (by decide) (by decide)
     (by decide), by decide⟩

/-- C3: for a width `w >= 1`, a destination `d >= 4` and a source that is a
constant or a range disjoint from the destination, both without X/Z bits,
`add d,s,w` followed by `sub d,s,w` restores the bits `[d, d+w)`:
`(a + b) - b == a` modulo `2^w`. -/
theorem C3_add_then_sub_restores (bits4 : List vvp_bit4_t) (d s w : Nat) (hd : 4 ≤ d)
    (hw : 1 ≤ w) (hin : d + w ≤ bits4.length)
    (hs : s < 4 ∨ (s + w ≤ bits4.length ∧ (s + w ≤ d ∨ d + w ≤ s)))
    (hka : vec4Known (vthread_bits_to_vector bits4 d w) = true)
    (hkb : vec4Known (vthread_bits_to_vector bits4 s w) = true) :
    ∃ bits1 bits2, of_ADD bits4 ⟨d, s, w⟩ = some bits1 ∧
      of_SUB bits1 ⟨d, s, w⟩ = some bits2 ∧ vec4Part bits2 d w = vec4Part bits4 d w := by
  have hs1 : operand_ok bits4 s w := by
    rcases hs with h | h
    · exact Or.inl h
    · exact Or.inr h.1
  have hs2 : s < 4 ∨ s + w ≤ d ∨ d + w ≤ s := by
    rcases hs with h | h
    · exact Or.inl h
    · exact Or.inr h.2
  have hd4 : ∀ b : List vvp_bit4_t, vthread_bits_to_vector b d w = vec4Part b d w := by
    intro b
    simp [vthread_bits_to_vector, hd]
  set a := vec4Val (vthread_bits_to_vector bits4 d w) with ha
  set b := vec4Val (vthread_bits_to_vector bits4 s w) with hb
  have hadd := of_ADD_known bits4 d s w hd hw hin hs1 hka hkb
  rw [← ha, ← hb] at hadd
  have hlen1 := stored_length bits4 d w ((a + b) % 2 ^ w) hin
  have hop1 : vthread_bits_to_vector (stored bits4 d w ((a + b) % 2 ^ w)) s w
      = vthread_bits_to_vector bits4 s w := operand_frame bits4 d w _ s hin hs2
  have hpart1 : vthread_bits_to_vector (stored bits4 d w ((a + b) % 2 ^ w)) d w
      = vec4OfNat w ((a + b) % 2 ^ w) := by
    rw [hd4]; exact stored_part _ _ _ _ hin
  obtain ⟨r, hsub, hr, hmod⟩ := of_SUB_known (stored bits4 d w ((a + b) % 2 ^ w)) d s w hd hw
    (by rw [hlen1]; exact hin)
    (by rcases hs1 with h | h
        · exact Or.inl h
        · exact Or.inr (by rw [hlen1]; exact h))
    (by rw [hpart1]; exact vec4OfNat_known _ _)
    (by rw [hop1]; exact hkb)
  refine ⟨_, _, hadd, hsub, ?_⟩
  rw [stored_part _ _ _ _ (by rw [hlen1]; exact hin)]
  rw [hop1, hpart1, vec4Val_ofNat, ← hb, Nat.mod_mod, Nat.mod_mod] at hmod
  have hcong : r ≡ a [MOD 2 ^ w] := Nat.ModEq.add_right_cancel' b hmod
  have ha_lt : a < 2 ^ w := operand_lt bits4 d w (Or.inr hin)
  have hra : r = a := by
    have := hcong
    unfold Nat.ModEq at this
    rwa [Nat.mod_eq_of_lt hr, Nat.mod_eq_of_lt ha_lt] at this
  rw [hra, ha, hd4]
  have hk : vec4Known (vec4Part bits4 d w) = true := by rw [← hd4]; exact hka
  have := vec4_eq_ofNat (vec4Part bits4 d w) hk
  rw [vec4Part_length _ _ _ hin] at this
  exact this.symm

/-- C3 at the 4-bit operands `a = 0b1101` (bits 8..11) and `b = 0b0011`
(bits 16..19). -/
theorem C3_add_then_sub_restores_witness :
    (4 ≤ 8 ∧ 1 ≤ 4 ∧ 8 + 4 ≤ thr_add4.length ∧
      (16 < 4 ∨ (16 + 4 ≤ thr_add4.length ∧ (16 + 4 ≤ 8 ∨ 8 + 4 ≤ 16))) ∧
      vec4Known (vthread_bits_to_vector thr_add4 8 4) = true ∧
      vec4Known (vthread_bits_to_vector thr_add4 16 4) = true) ∧
    ∃ bits1 bits2, of_ADD thr_add4 ⟨8, 16, 4⟩ = some bits1 ∧
      of_SUB bits1 ⟨8, 16, 4⟩ = some bits2 ∧ vec4Part bits2 8 4 = vec4Part thr_add4 8 4 :=
  ⟨by decide,
   C3_add_then_sub_restores thr_add4 8 16 4 (by decide) (by decide) (by decide) (by decide)
     (by decide) (by decide)⟩

/-! ## The claims -/

/-- C1: for each of the opcodes add, sub, mul, div and mod, every destination
`d >= 4`, source `s` and width `w` inside the bit space: if one of the `w`
bits of either operand is X or Z, then after the opcode all `w` destination
bits `[d, d+w)` are X. -/
theorem C1_xz_operand_gives_all_x (bits4 : List vvp_bit4_t) (d s w : Nat) (hd : 4 ≤ d)
    (hin : d + w ≤ bits4.length) (hs : operand_ok bits4 s w) (hc : thr_consts_ok bits4)
    (hxz : vec4Known (vthread_bits_to_vector bits4 d w) = false ∨
      vec4Known (vthread_bits_to_vector bits4 s w) = false) :
    all_x_result (of_ADD bits4 ⟨d, s, w⟩) d w ∧ all_x_result (of_SUB bits4 ⟨d, s, w⟩) d w ∧
    all_x_result (of_MUL bits4 ⟨d, s, w⟩) d w ∧ all_x_result (of_DIV bits4 ⟨d, s, w⟩) d w ∧
    all_x_result (of_MOD bits4 ⟨d, s, w⟩) d w :=
  ⟨of_ADD_xz bits4 d s w hd hin hxz, of_SUB_xz bits4 d s w hd hin hxz,
   of_MUL_xz bits4 d s w hd hin hxz, of_DIV_xz bits4 d s w hd hin hxz,
   of_MOD_xz bits4 d s w hd hin hs hc hxz⟩

/-- C1 at the 4-bit destination `0b1101` (bits 8..11) and the constant
source address 2 (all X). -/
theorem C1_xz_operand_gives_all_x_witness :
    (4 ≤ 8 ∧ 8 + 4 ≤ thr_add4.length ∧ operand_ok thr_add4 2 4 ∧ thr_consts_ok thr_add4 ∧
      vec4Known (vthread_bits_to_vector thr_add4 2 4) = false) ∧
    (all_x_result (of_ADD thr_add4 ⟨8, 2, 4⟩) 8 4 ∧ all_x_result (of_SUB thr_add4 ⟨8, 2, 4⟩) 8 4 ∧
     all_x_result (of_MUL thr_add4 ⟨8, 2, 4⟩) 8 4 ∧ all_x_result (of_DIV thr_add4 ⟨8, 2, 4⟩) 8 4 ∧
     all_x_result (of_MOD thr_add4 ⟨8, 2, 4⟩) 8 4) :=
  ⟨by decide,
   C1_xz_operand_gives_all_x thr_add4 8 2 4 (by decide) (by decide) (by decide) (by decide)
     (Or.inr (by decide))⟩

/-- C4 (failing input): for the 128-bit operands `a = 2^128 - 2^64` and
`b = 2^65 - 1`, without X/Z bits and with `b != 0`, `of_DIV` leaves
`2^64 - 1` in the destination, while the unsigned quotient `floor(a / b)` is
`2^63 - 1`. -/
theorem C4_of_DIV_wide_quotient_is_wrong :
    vec4Known (vthread_bits_to_vector thr_div128 8 128) = true ∧
    vec4Known (vthread_bits_to_vector thr_div128 136 128) = true ∧
    vec4Val (vthread_bits_to_vector thr_div128 8 128) = 2 ^ 128 - 2 ^ 64 ∧
    vec4Val (vthread_bits_to_vector thr_div128 136 128) = 2 ^ 65 - 1 ∧
    (of_DIV thr_div128 ⟨8, 136, 128⟩).map (fun b => vec4Part b 8 128)
      = some (vec4OfNat 128 (2 ^ 64 - 1)) ∧
    (2 ^ 128 - 2 ^ 64) / (2 ^ 65 - 1) = 2 ^ 63 - 1 := by
  set_option maxRecDepth 100000 in decide

/-- C5: for a width `w >= 1` and a dividend without X/Z bits, when the `w`
bits of the divisor are all 0 each of `of_DIV`, `of_DIV_S`, `of_MOD` and
`of_MOD_S` writes X to all `w` destination bits, on the single-word path and
on the paths through `divide_bits` and `do_verylong_mod`. -/
theorem C5_zero_divisor_gives_all_x (bits4 : List vvp_bit4_t) (d s w : Nat) (hd : 4 ≤ d)
    (hw : 1 ≤ w) (hin : d + w ≤ bits4.length) (hs : operand_ok bits4 s w)
    (hc : thr_consts_ok bits4)
    (hka : vec4Known (vthread_bits_to_vector bits4 d w) = true)
    (hzero : vthread_bits_to_vector bits4 s w = List.replicate w BIT4_0) :
    all_x_result (of_DIV bits4 ⟨d, s, w⟩) d w ∧ all_x_result (of_DIV_S bits4 ⟨d, s, w⟩) d w ∧
    all_x_result (of_MOD bits4 ⟨d, s, w⟩) d w ∧ all_x_result (of_MOD_S bits4 ⟨d, s, w⟩) d w := by
  have hkb : vec4Known (vthread_bits_to_vector bits4 s w) = true := by
    rw [hzero]; simp [vec4Known, bit4_is_xz]
  have hz : vec4Val (vthread_bits_to_vector bits4 s w) = 0 := by
    rw [hzero, vec4Val_replicate_zero]
  refine ⟨of_DIV_zero bits4 d s w hd hw hin hs hka hkb hz,
    of_DIV_S_zero bits4 d s w hd hw hin hs hka hkb hz, ?_, ?_⟩
  · rw [of_MOD_known bits4 d s w hd hin hs hc hka hkb, if_pos hz]
    exact all_x_of_put_x_out bits4 d s w hin
  · rw [of_MOD_S_zero bits4 d s w hd hw hin hs hc hka hkb hz]
    exact all_x_of_put_x_out bits4 d s w hin

/-- C5 at the 4-bit dividend `0b1101` (bits 8..11) and the constant source
address 0 (all 0). -/
theorem C5_zero_divisor_gives_all_x_witness :
    (4 ≤ 8 ∧ 1 ≤ 4 ∧ 8 + 4 ≤ thr_add4.length ∧ operand_ok thr_add4 0 4 ∧
      thr_consts_ok thr_add4 ∧ vec4Known (vthread_bits_to_vector thr_add4 8 4) = true ∧
      vthread_bits_to_vector thr_add4 0 4 = List.replicate 4 BIT4_0) ∧
    (all_x_result (of_DIV thr_add4 ⟨8, 0, 4⟩) 8 4 ∧
     all_x_result (of_DIV_S thr_add4 ⟨8, 0, 4⟩) 8 4 ∧
     all_x_result (of_MOD thr_add4 ⟨8, 0, 4⟩) 8 4 ∧
     all_x_result (of_MOD_S thr_add4 ⟨8, 0, 4⟩) 8 4) :=
  ⟨by decide,
   C5_zero_divisor_gives_all_x thr_add4 8 0 4 (by decide) (by decide) (by decide) (by decide)
     (by decide) (by decide) (by decide)⟩

/-- C6: for a width `w >= 1` and operands `a`, `b` without X/Z bits, `of_MUL`
leaves `(a * b) mod 2^w` in the destination, on the single-word path and on
the multi-word schoolbook path; in particular `a * 1 == a`. -/
theorem C6_of_MUL_product (bits4 : List vvp_bit4_t) (d s w : Nat) (hd : 4 ≤ d) (hw : 1 ≤ w)
    (hin : d + w ≤ bits4.length) (hs : operand_ok bits4 s w)
    (hka : vec4Known (vthread_bits_to_vector bits4 d w) = true)
    (hkb : vec4Known (vthread_bits_to_vector bits4 s w) = true) :
    value_result (of_MUL bits4 ⟨d, s, w⟩) d w
      ((vec4Val (vthread_bits_to_vector bits4 d w)
        * vec4Val (vthread_bits_to_vector bits4 s w)) % 2 ^ w) ∧
    (vec4Val (vthread_bits_to_vector bits4 s w) = 1 →
      ∃ bits', of_MUL bits4 ⟨d, s, w⟩ = some bits' ∧
        vec4Part bits' d w = vec4Part bits4 d w) := by
  have hmul := of_MUL_known bits4 d s w hd hw hin hs hka hkb
  refine ⟨by rw [hmul]; exact value_result_stored bits4 d w _ hin, ?_⟩
  intro h1
  refine ⟨_, hmul, ?_⟩
  rw [stored_part _ _ _ _ hin, h1, mul_one,
    Nat.mod_eq_of_lt (operand_lt bits4 d w (Or.inr hin))]
  have hd4 : vthread_bits_to_vector bits4 d w = vec4Part bits4 d w := by
    simp [vthread_bits_to_vector, hd]
  rw [hd4] at hka ⊢
  have := vec4_eq_ofNat (vec4Part bits4 d w) hka
  rw [vec4Part_length _ _ _ hin] at this
  exact this.symm

/-- C6 at `a = 0b1101` (bits 8..11), `b = 0b0011` (bits 16..19), `w = 4`:
the destination holds `39 mod 16 = 7`. -/
theorem C6_of_MUL_product_witness :
    (4 ≤ 8 ∧ 1 ≤ 4 ∧ 8 + 4 ≤ thr_add4.length ∧ operand_ok thr_add4 16 4 ∧
      vec4Known (vthread_bits_to_vector thr_add4 8 4) = true ∧
      vec4Known (vthread_bits_to_vector thr_add4 16 4) = true) ∧
    (value_result (of_MUL thr_add4 ⟨8, 16, 4⟩) 8 4
      ((vec4Val (vthread_bits_to_vector thr_add4 8 4)
        * vec4Val (vthread_bits_to_vector thr_add4 16 4)) % 2 ^ 4) ∧
    (vec4Val (vthread_bits_to_vector thr_add4 16 4) = 1 →
      ∃ bits', of_MUL thr_add4 ⟨8, 16, 4⟩ = some bits' ∧
        vec4Part bits' 8 4 = vec4Part thr_add4 8 4)) ∧
    (vec4Val (vthread_bits_to_vector thr_add4 8 4)
        * vec4Val (vthread_bits_to_vector thr_add4 16 4)) % 2 ^ 4 = 7 :=
  ⟨by decide,
   C6_of_MUL_product thr_add4 8 16 4 (by decide) (by decide) (by decide) (by decide)
     (by decide) (by decide), by decide⟩

/-- C7: for a width `w >= 1` and operands `a`, `b` without X/Z bits and with
`b != 0`, `of_MOD` leaves the unsigned remainder `a mod b` in the
destination, on the native path (`w <= 64`) and on the bit-serial
`do_verylong_mod` path (`w > 64`). -/
theorem C7_of_MOD_remainder (bits4 : List vvp_bit4_t) (d s w : Nat) (hd : 4 ≤ d)
    (hin : d + w ≤ bits4.length) (hs : operand_ok bits4 s w)
    (hc : thr_consts_ok bits4)
    (hka : vec4Known (vthread_bits_to_vector bits4 d w) = true)
    (hkb : vec4Known (vthread_bits_to_vector bits4 s w) = true)
    (hnz : vec4Val (vthread_bits_to_vector bits4 s w) ≠ 0) :
    value_result (of_MOD bits4 ⟨d, s, w⟩) d w
      (vec4Val (vthread_bits_to_vector bits4 d w)
        % vec4Val (vthread_bits_to_vector bits4 s w)) := by
  rw [of_MOD_known bits4 d s w hd hin hs hc hka hkb, if_neg hnz]
  exact value_result_stored bits4 d w _ hin

/-- C9: for a width `w >= 1` and a value `a != 0` without X/Z bits, `of_DIV`
with both operands equal to `a` leaves the value 1 in the destination, for
single-word and multi-word widths. -/
theorem C9_of_DIV_self_is_one (bits4 : List vvp_bit4_t) (d s w : Nat) (hd : 4 ≤ d)
    (hw : 1 ≤ w) (hin : d + w ≤ bits4.length) (hs : operand_ok bits4 s w)
    (hka : vec4Known (vthread_bits_to_vector bits4 d w) = true)
    (heq : vthread_bits_to_vector bits4 s w = vthread_bits_to_vector bits4 d w)
    (hne : vec4Val (vthread_bits_to_vector bits4 d w) ≠ 0) :
    value_result (of_DIV bits4 ⟨d, s, w⟩) d w 1 := by
  rw [of_DIV_self bits4 d s w hd hw hin hs hka (by rw [heq]; exact hka) (by rw [heq]) hne]
  exact value_result_stored bits4 d w 1 hin

/-- C9 at `a = 0b1101` in bits 8..11, both operand addresses 8. -/
theorem C9_of_DIV_self_is_one_witness :
    (4 ≤ 8 ∧ 1 ≤ 4 ∧ 8 + 4 ≤ thr_add4.length ∧ operand_ok thr_add4 8 4 ∧
      vec4Known (vthread_bits_to_vector thr_add4 8 4) = true ∧
      vec4Val (vthread_bits_to_vector thr_add4 8 4) ≠ 0) ∧
    value_result (of_DIV thr_add4 ⟨8, 8, 4⟩) 8 4 1 :=
  ⟨by decide,
   C9_of_DIV_self_is_one thr_add4 8 8 4 (by decide) (by decide) (by decide) (by decide)
     (by decide) rfl (by decide)⟩

/-- C7 on the bit-serial path, at the 66-bit operands `a = 2^65 + 12345`
(bits 8..73) and `b = 2^64 + 2^63` (bits 80..145): the remainder is
`a - b = 2^63 + 12345`. -/
theorem C7_of_MOD_remainder_witness :
    (4 ≤ 8 ∧ 8 + 66 ≤ thr_mod66.length ∧ operand_ok thr_mod66 80 66 ∧
      thr_consts_ok thr_mod66 ∧ vec4Known (vthread_bits_to_vector thr_mod66 8 66) = true ∧
      vec4Known (vthread_bits_to_vector thr_mod66 80 66) = true ∧
      vec4Val (vthread_bits_to_vector thr_mod66 80 66) ≠ 0) ∧
    value_result (of_MOD thr_mod66 ⟨8, 80, 66⟩) 8 66
      (vec4Val (vthread_bits_to_vector thr_mod66 8 66)
        % vec4Val (vthread_bits_to_vector thr_mod66 80 66)) ∧
    vec4Val (vthread_bits_to_vector thr_mod66 8 66)
        % vec4Val (vthread_bits_to_vector thr_mod66 80 66) = 2 ^ 63 + 12345 :=
  ⟨by set_option maxRecDepth 100000 in decide,
   C7_of_MOD_remainder thr_mod66 8 80 66 (by decide) (by decide) (by decide) (by decide)
     (by set_option maxRecDepth 100000 in decide) (by set_option maxRecDepth 100000 in decide)
     (by set_option maxRecDepth 100000 in decide),
   by set_option maxRecDepth 100000 in decide⟩

/-- C8 (failing input): for the 65-bit signed operands `a = 5` (bits 8..72)
and `b = -1` (the constant source address 1, all ones), `of_MOD_S` takes the
sign of the divisor from bit `1 + 65 - 1 = 65` of the bit space, which is 0,
and leaves `5` in the destination, while `a - b*trunc(a/b)` is `0`. -/
theorem C8_of_MOD_S_constant_divisor_is_wrong :
    vec4Val (vthread_bits_to_vector thr_mod65 8 65) = 5 ∧
    vthread_bits_to_vector thr_mod65 1 65 = List.replicate 65 BIT4_1 ∧
    thr_get_bit thr_mod65 (1 + 65 - 1) = some BIT4_0 ∧
    (of_MOD_S thr_mod65 ⟨8, 1, 65⟩).map (fun b => vec4Part b 8 65)
      = some (vec4OfNat 65 5) ∧
    Int.tmod 5 (-1) = 0 := by
  set_option maxRecDepth 100000 in decide

theorem known_eq_iff (la lb : List vvp_bit4_t) (hka : vec4Known la = true)
    (hkb : vec4Known lb = true) (hl : la.length = lb.length) :
    la = lb ↔ vec4Val la = vec4Val lb :=
  ⟨fun h => by rw [h], fun h => vec4_ext la lb hka hkb hl h⟩

theorem definite_mismatch_known_ne (la lb : List vvp_bit4_t) (hka : vec4Known la = true)
    (hkb : vec4Known lb = true) (hl : la.length = lb.length) :
    definite_mismatch la lb = true ↔ la ≠ lb := by
  induction la generalizing lb with
  | nil =>
    cases lb with
    | nil => simp [definite_mismatch]
    | cons y ys => simp at hl
  | cons x xs ih =>
    cases lb with
    | nil => simp at hl
    | cons y ys =>
      rw [known_cons, Bool.and_eq_true] at hka hkb
      have hx : bit4_is_xz x = false := by simpa using hka.1
      have hy : bit4_is_xz y = false := by simpa using hkb.1
      have := ih ys hka.2 hkb.2 (by simpa using hl)
      rw [definite_mismatch_cons, Bool.or_eq_true, this]
      cases x <;> cases y <;> simp [bit4_is_xz] at hx hy ⊢

/-- C10: for operands of `of_CMPU` of width `w >= 1` inside the bit space
(or at constant addresses): flag EQ (bit 4) is 1 iff the operands have no
X/Z bit and are equal; EQ is X iff some operand bit is X/Z and no position
holds two known bits that differ; EQ is 0 otherwise; LT (bit 5) is X
whenever EQ is X; and when no bit is X/Z, LT is 1 iff `a < b` as unsigned
integers. -/
theorem C10_of_CMPU_flags (bits4 : List vvp_bit4_t) (d s w : Nat) (hw : 1 ≤ w)
    (hd : operand_ok bits4 d w) (hs : operand_ok bits4 s w) (hc : thr_consts_ok bits4) :
    ∃ bits' eq lt, of_CMPU bits4 ⟨d, s, w⟩ = some bits' ∧
      bits'[4]? = some eq ∧ bits'[5]? = some lt ∧
      (eq = BIT4_1 ↔ (vec4Known (vthread_bits_to_vector bits4 d w) = true ∧
        vec4Known (vthread_bits_to_vector bits4 s w) = true ∧
        vthread_bits_to_vector bits4 d w = vthread_bits_to_vector bits4 s w)) ∧
      (eq = BIT4_X ↔ ((vec4Known (vthread_bits_to_vector bits4 d w) = false ∨
          vec4Known (vthread_bits_to_vector bits4 s w) = false) ∧
        definite_mismatch (vthread_bits_to_vector bits4 d w)
          (vthread_bits_to_vector bits4 s w) = false)) ∧
      (eq = BIT4_0 ↔ (¬ (vec4Known (vthread_bits_to_vector bits4 d w) = true ∧
          vec4Known (vthread_bits_to_vector bits4 s w) = true ∧
          vthread_bits_to_vector bits4 d w = vthread_bits_to_vector bits4 s w) ∧
        ¬ ((vec4Known (vthread_bits_to_vector bits4 d w) = false ∨
            vec4Known (vthread_bits_to_vector bits4 s w) = false) ∧
          definite_mismatch (vthread_bits_to_vector bits4 d w)
            (vthread_bits_to_vector bits4 s w) = false))) ∧
      (eq = BIT4_X → lt = BIT4_X) ∧
      (vec4Known (vthread_bits_to_vector bits4 d w) = true →
        vec4Known (vthread_bits_to_vector bits4 s w) = true →
        (lt = BIT4_1 ↔ vec4Val (vthread_bits_to_vector bits4 d w)
          < vec4Val (vthread_bits_to_vector bits4 s w))) := by
  have hla := operand_length bits4 d w hd
  have hlb := operand_length bits4 s w hs
  generalize hLA : vthread_bits_to_vector bits4 d w = la at *
  generalize hLB : vthread_bits_to_vector bits4 s w = lb at *
  by_cases hk : vec4Known la = true ∧ vec4Known lb = true
  · -- the fast path on word arrays
    obtain ⟨hka, hkb⟩ := hk
    obtain ⟨wa, ha, hwl, hoa, hva⟩ := vector_to_array_known bits4 d w hw hd (by rw [hLA]; exact hka)
    obtain ⟨wb, hb, hwbl, hob, hvb⟩ := vector_to_array_known bits4 s w hw hs
      (by rw [hLB]; exact hkb)
    rw [hLA] at hva
    rw [hLB] at hvb
    have hcmp : of_CMPU bits4 ⟨d, s, w⟩ = some (thr_put_bit (thr_put_bit (thr_put_bit bits4 4
        (if vec4Val la = vec4Val lb then BIT4_1 else BIT4_0)) 5
        (if vec4Val la < vec4Val lb then BIT4_1 else BIT4_0)) 6
        (if vec4Val la = vec4Val lb then BIT4_1 else BIT4_0)) := by
      unfold of_CMPU
      simp only [ha, hb]
      rw [← hwl, of_CMPU_words wa wb hoa hob (by omega), hva, hvb]
    obtain ⟨f4, f5, _⟩ := flags_written bits4
      (if vec4Val la = vec4Val lb then BIT4_1 else BIT4_0)
      (if vec4Val la < vec4Val lb then BIT4_1 else BIT4_0)
      (if vec4Val la = vec4Val lb then BIT4_1 else BIT4_0)
    refine ⟨_, _, _, hcmp, f4, f5, ?_, ?_, ?_, ?_, ?_⟩
    · rw [known_eq_iff la lb hka hkb (by omega)]
      simp [hka, hkb]
    · simp only [hka, hkb]
      split <;> simp
    · rw [known_eq_iff la lb hka hkb (by omega)]
      simp only [hka, hkb]
      split <;> simp [*]
    · split <;> simp
    · intro _ _
      split <;> simp [*]
  · -- the bit loop of `of_CMPU_the_hard_way`
    have hxz : vec4Known la = false ∨ vec4Known lb = false := by
      by_cases h1 : vec4Known la = true
      · right
        by_contra h2
        exact hk ⟨h1, by simpa using h2⟩
      · left; simpa using h1
    have hhard : of_CMPU bits4 ⟨d, s, w⟩ = of_CMPU_the_hard_way bits4 ⟨d, s, w⟩ := by
      unfold of_CMPU
      simp only
      rcases hxz with h | h
      · rw [vector_to_array_xz bits4 d w (by rw [hLA]; exact h)]
      · rw [vector_to_array_xz bits4 s w (by rw [hLB]; exact h)]
        cases vector_to_array bits4 d w <;> rfl
    obtain ⟨eeq', hloop⟩ := of_CMPU_the_hard_way_loop_spec bits4 w d s BIT4_1 BIT4_1 la lb
      hla hlb
      (fun k hk => by rw [← hLA]; exact operand_read bits4 d w k hc hd hk)
      (fun k hk => by rw [← hLB]; exact operand_read bits4 s w k hc hs hk)
      (Or.inl rfl)
    have hnk : ¬ (BIT4_1 = BIT4_1 ∧ vec4Known la = true ∧ vec4Known lb = true) :=
      fun h => hk h.2
    rw [if_neg hnk] at hloop
    have hcmp : of_CMPU bits4 ⟨d, s, w⟩ = some (thr_put_bit (thr_put_bit (thr_put_bit bits4 4
        (if definite_mismatch la lb = true then BIT4_0 else BIT4_X)) 5 BIT4_X) 6 eeq') := by
      rw [hhard]
      unfold of_CMPU_the_hard_way
      simp only [hloop]
    obtain ⟨f4, f5, _⟩ := flags_written bits4
      (if definite_mismatch la lb = true then BIT4_0 else BIT4_X) BIT4_X eeq'
    refine ⟨_, _, _, hcmp, f4, f5, ?_, ?_, ?_, ?_, ?_⟩
    · constructor
      · intro h; split at h <;> simp at h
      · intro h; exact absurd ⟨h.1, h.2.1⟩ hk
    · constructor
      · intro h
        refine ⟨hxz, ?_⟩
        split at h
        · simp at h
        · simpa using ‹¬ definite_mismatch la lb = true›
      · intro h
        rw [if_neg (by rw [h.2]; simp)]
    · constructor
      · intro h
        refine ⟨fun h' => hk ⟨h'.1, h'.2.1⟩, fun h' => ?_⟩
        rw [if_neg (by rw [h'.2]; simp)] at h
        simp at h
      · intro h
        by_cases hdm : definite_mismatch la lb = true
        · rw [if_pos hdm]
        · exact absurd ⟨hxz, by simpa using hdm⟩ h.2
    · intro _; rfl
    · intro h1 h2
      exact absurd ⟨h1, h2⟩ hk

/-- C10 at `a = 0b10X1` (bits 8..11) and `b = 0b1001` (bits 16..19): EQ and
LT are X. -/
theorem C10_of_CMPU_flags_witness :
    (1 ≤ 4 ∧ operand_ok thr_cmp4 8 4 ∧ operand_ok thr_cmp4 16 4 ∧ thr_consts_ok thr_cmp4) ∧
    (∃ bits' eq lt, of_CMPU thr_cmp4 ⟨8, 16, 4⟩ = some bits' ∧
      bits'[4]? = some eq ∧ bits'[5]? = some lt ∧
      (eq = BIT4_1 ↔ (vec4Known (vthread_bits_to_vector thr_cmp4 8 4) = true ∧
        vec4Known (vthread_bits_to_vector thr_cmp4 16 4) = true ∧
        vthread_bits_to_vector thr_cmp4 8 4 = vthread_bits_to_vector thr_cmp4 16 4)) ∧
      (eq = BIT4_X ↔ ((vec4Known (vthread_bits_to_vector thr_cmp4 8 4) = false ∨
          vec4Known (vthread_bits_to_vector thr_cmp4 16 4) = false) ∧
        definite_mismatch (vthread_bits_to_vector thr_cmp4 8 4)
          (vthread_bits_to_vector thr_cmp4 16 4) = false)) ∧
      (eq = BIT4_0 ↔ (¬ (vec4Known (vthread_bits_to_vector thr_cmp4 8 4) = true ∧
          vec4Known (vthread_bits_to_vector thr_cmp4 16 4) = true ∧
          vthread_bits_to_vector thr_cmp4 8 4 = vthread_bits_to_vector thr_cmp4 16 4) ∧
        ¬ ((vec4Known (vthread_bits_to_vector thr_cmp4 8 4) = false ∨
            vec4Known (vthread_bits_to_vector thr_cmp4 16 4) = false) ∧
          definite_mismatch (vthread_bits_to_vector thr_cmp4 8 4)
            (vthread_bits_to_vector thr_cmp4 16 4) = false))) ∧
      (eq = BIT4_X → lt = BIT4_X) ∧
      (vec4Known (vthread_bits_to_vector thr_cmp4 8 4) = true →
        vec4Known (vthread_bits_to_vector thr_cmp4 16 4) = true →
        (lt = BIT4_1 ↔ vec4Val (vthread_bits_to_vector thr_cmp4 8 4)
          < vec4Val (vthread_bits_to_vector thr_cmp4 16 4)))) ∧
    (of_CMPU thr_cmp4 ⟨8, 16, 4⟩).map (fun b => vec4Part b 4 2) = some [BIT4_X, BIT4_X] :=
  ⟨by decide, C10_of_CMPU_flags thr_cmp4 8 16 4 (by decide) (by decide) (by decide) (by decide),
   by decide⟩

/-! ## The signed compare -/

theorem of_CMPS_loop_fold (bits4 : List vvp_bit4_t) (n : Nat) :
    ∀ (idx1 idx2 : Nat) (st : vvp_bit4_t × vvp_bit4_t × vvp_bit4_t) (la lb : List vvp_bit4_t),
      la.length = n → lb.length = n →
      (∀ k, k < n → thr_get_bit bits4 (advance idx1 k) = la[k]?) →
      (∀ k, k < n → thr_get_bit bits4 (advance idx2 k) = lb[k]?) →
      of_CMPS_loop bits4 n idx1 idx2 st = some (of_CMPS_fold la lb st) := by
  induction n with
  | zero =>
    intro idx1 idx2 st la lb hla hlb _ _
    rw [List.length_eq_zero] at hla hlb
    subst hla hlb
    rfl
  | succ n ih =>
    intro idx1 idx2 st la lb hla hlb h1 h2
    obtain ⟨x, la', rfl⟩ := List.exists_cons_of_length_eq_add_one hla
    obtain ⟨y, lb', rfl⟩ := List.exists_cons_of_length_eq_add_one hlb
    have g1 : thr_get_bit bits4 idx1 = some x := by
      have := h1 0 (by omega)
      rw [advance_zero] at this
      simpa using this
    have g2 : thr_get_bit bits4 idx2 = some y := by
      have := h2 0 (by omega)
      rw [advance_zero] at this
      simpa using this
    rw [of_CMPS_loop, g1, g2]
    simp only
    rw [ih _ _ _ la' lb' (by simpa using hla) (by simpa using hlb)
      (fun k hk => by
        have := h1 (k + 1) (by omega)
        simp only [List.getElem?_cons_succ] at this
        rw [← this, advance_succ])
      (fun k hk => by
        have := h2 (k + 1) (by omega)
        simp only [List.getElem?_cons_succ] at this
        rw [← this, advance_succ])]
    rfl

theorem has_xz_cons (x y : vvp_bit4_t) (xs ys : List vvp_bit4_t) :
    has_xz (x :: xs) (y :: ys) = (bit4_is_xz x || bit4_is_xz y || has_xz xs ys) := by
  unfold has_xz
  rw [known_cons, known_cons]
  cases bit4_is_xz x <;> cases bit4_is_xz y <;> cases vec4Known xs <;> cases vec4Known ys <;> rfl

/-- The flag `eq` after the loop of `of_CMPS`: X as soon as a bit is X or Z. -/
theorem of_CMPS_fold_eq (la : List vvp_bit4_t) :
    ∀ (lb : List vvp_bit4_t) (st : vvp_bit4_t × vvp_bit4_t × vvp_bit4_t),
      la.length = lb.length → st.1 ≠ BIT4_Z →
      (of_CMPS_fold la lb st).1 =
        if st.1 = BIT4_X then BIT4_X
        else if has_xz la lb = true then BIT4_X
        else if la = lb then st.1 else BIT4_0 := by
  induction la with
  | nil =>
    intro lb st hl _
    cases lb with
    | nil =>
      simp only [of_CMPS_fold, has_xz, vec4Known]
      split <;> simp_all
    | cons y ys => simp at hl
  | cons x xs ih =>
    intro lb st hl hz
    cases lb with
    | nil => simp at hl
    | cons y ys =>
      obtain ⟨eq, eeq, lt⟩ := st
      have hz' : (of_CMPS_step x y (eq, eeq, lt)).1 ≠ BIT4_Z := by
        simp only [of_CMPS_step]
        cases x <;> cases y <;> cases eq <;> simp [bit4_is_xz] at hz ⊢
      rw [of_CMPS_fold, ih ys _ (by simpa using hl) hz', has_xz_cons]
      simp only [of_CMPS_step, List.cons.injEq]
      cases x <;> cases y <;> cases eq <;> simp [bit4_is_xz] at hz ⊢

/-- The flag `eeq` after the loop of `of_CMPS`. -/
theorem of_CMPS_fold_eeq (la : List vvp_bit4_t) :
    ∀ (lb : List vvp_bit4_t) (st : vvp_bit4_t × vvp_bit4_t × vvp_bit4_t),
      la.length = lb.length →
      (of_CMPS_fold la lb st).2.1 = if la = lb then st.2.1 else BIT4_0 := by
  induction la with
  | nil =>
    intro lb st hl
    cases lb with
    | nil => simp [of_CMPS_fold]
    | cons y ys => simp at hl
  | cons x xs ih =>
    intro lb st hl
    cases lb with
    | nil => simp at hl
    | cons y ys =>
      obtain ⟨eq, eeq, lt⟩ := st
      rw [of_CMPS_fold, ih ys _ (by simpa using hl)]
      simp only [of_CMPS_step, List.cons.injEq]
      cases x <;> cases y <;> simp [vvp_bit4_t.code]

/-- The flag `lt` after the loop of `of_CMPS` on operands without X/Z: the
unsigned comparison. -/
theorem of_CMPS_fold_lt (la : List vvp_bit4_t) :
    ∀ (lb : List vvp_bit4_t) (st : vvp_bit4_t × vvp_bit4_t × vvp_bit4_t),
      la.length = lb.length → vec4Known la = true → vec4Known lb = true →
      (of_CMPS_fold la lb st).2.2 =
        if vec4Val la < vec4Val lb then BIT4_1
        else if vec4Val lb < vec4Val la then BIT4_0 else st.2.2 := by
  induction la with
  | nil =>
    intro lb st hl _ _
    cases lb with
    | nil => simp [of_CMPS_fold, vec4Val]
    | cons y ys => simp at hl
  | cons x xs ih =>
    intro lb st hl hka hkb
    cases lb with
    | nil => simp at hl
    | cons y ys =>
      obtain ⟨eq, eeq, lt⟩ := st
      rw [known_cons, Bool.and_eq_true] at hka hkb
      rw [of_CMPS_fold, ih ys _ (by simpa using hl) hka.2 hkb.2]
      have hx : bit4_is_xz x = false := by simpa using hka.1
      have hy : bit4_is_xz y = false := by simpa using hkb.1
      simp only [of_CMPS_step, vec4Val]
      generalize vec4Val xs = a
      generalize vec4Val ys = b
      cases x <;> cases y <;> simp [bit4_is_xz, vvp_bit4_t.code] at hx hy ⊢ <;>
        split_ifs <;> first | rfl | omega

theorem consts_length (bits4 : List vvp_bit4_t) (hc : thr_consts_ok bits4) :
    4 ≤ bits4.length := by
  unfold thr_consts_ok at hc
  have := congrArg List.length hc
  simp only [List.length_take, List.length_cons, List.length_nil] at this
  omega

/-- The most significant bit of a vector without X/Z splits its value. -/
theorem msb_split (la : List vvp_bit4_t) (w : Nat) (hw : 1 ≤ w) (hl : la.length = w)
    (hk : vec4Known la = true) :
    ∃ a0 sa : Nat, vec4Val la = a0 + 2 ^ (w - 1) * sa ∧ a0 < 2 ^ (w - 1) ∧ sa ≤ 1 ∧
      la[w - 1]? = some (if sa = 1 then BIT4_1 else BIT4_0) := by
  have hsplit : la = la.take (w - 1) ++ la.drop (w - 1) := (List.take_append_drop _ _).symm
  have hdl : (la.drop (w - 1)).length = 1 := by rw [List.length_drop]; omega
  obtain ⟨m, hm⟩ := List.length_eq_one.mp hdl
  have htl : (la.take (w - 1)).length = w - 1 := by rw [List.length_take]; omega
  have hget : la[w - 1]? = some m := by
    have : (la.drop (w - 1))[0]? = some m := by rw [hm]; rfl
    rw [List.getElem?_drop] at this
    simpa using this
  have hkm : bit4_is_xz m = false := by
    rw [hsplit, vec4Known_append, hm, Bool.and_eq_true] at hk
    simpa [vec4Known] using hk.2
  refine ⟨vec4Val (la.take (w - 1)), if m = BIT4_1 then 1 else 0, ?_, ?_, ?_, ?_⟩
  · conv_lhs => rw [hsplit]
    rw [vec4Val_append, htl, hm]
    simp [vec4Val]
  · have := vec4Val_lt (la.take (w - 1))
    rwa [htl] at this
  · split <;> omega
  · rw [hget]
    cases m <;> simp [bit4_is_xz] at hkm ⊢

/-- The handler `of_CMPS` in terms of the loop on the operand vectors. -/
theorem of_CMPS_eval (bits4 : List vvp_bit4_t) (d s w : Nat) (hw : 1 ≤ w)
    (hd : operand_ok bits4 d w) (hs : operand_ok bits4 s w) (hc : thr_consts_ok bits4) :
    ∃ sig1 sig2,
      (vthread_bits_to_vector bits4 d w)[w - 1]? = some sig1 ∧
      (vthread_bits_to_vector bits4 s w)[w - 1]? = some sig2 ∧
      of_CMPS bits4 ⟨d, s, w⟩ = some (thr_put_bit (thr_put_bit (thr_put_bit bits4 4
        (of_CMPS_fold (vthread_bits_to_vector bits4 d w) (vthread_bits_to_vector bits4 s w)
          (BIT4_1, BIT4_1, BIT4_0)).1) 5
        (of_CMPS_sign
          (of_CMPS_fold (vthread_bits_to_vector bits4 d w) (vthread_bits_to_vector bits4 s w)
            (BIT4_1, BIT4_1, BIT4_0)).1
          (of_CMPS_fold (vthread_bits_to_vector bits4 d w) (vthread_bits_to_vector bits4 s w)
            (BIT4_1, BIT4_1, BIT4_0)).2.2 sig1 sig2)) 6
        (of_CMPS_fold (vthread_bits_to_vector bits4 d w) (vthread_bits_to_vector bits4 s w)
          (BIT4_1, BIT4_1, BIT4_0)).2.1) := by
  have h4 := consts_length bits4 hc
  have hla := operand_length bits4 d w hd
  have hlb := operand_length bits4 s w hs
  have e1 : (if d < 4 then d else d + w - 1) = advance d (w - 1) := by
    unfold advance
    by_cases h : d < 4
    · rw [if_pos h, if_neg (by omega)]
    · rw [if_neg h, if_pos (by omega)]; omega
  have e2 : (if s < 4 then s else s + w - 1) = advance s (w - 1) := by
    unfold advance
    by_cases h : s < 4
    · rw [if_pos h, if_neg (by omega)]
    · rw [if_neg h, if_pos (by omega)]; omega
  have b1 : advance d (w - 1) < bits4.length := by
    unfold advance
    rcases hd with h | h
    · rw [if_neg (by omega)]; omega
    · split <;> omega
  have b2 : advance s (w - 1) < bits4.length := by
    unfold advance
    rcases hs with h | h
    · rw [if_neg (by omega)]; omega
    · split <;> omega
  have hchk : (if advance d (w - 1) > advance s (w - 1)
      then thr_check_addr bits4 (advance d (w - 1))
      else thr_check_addr bits4 (advance s (w - 1))) = bits4 := by
    unfold thr_check_addr
    split <;> rw [if_neg (by omega)]
  have r1 := operand_read bits4 d w (w - 1) hc hd (by omega)
  have r2 := operand_read bits4 s w (w - 1) hc hs (by omega)
  obtain ⟨sig1, g1⟩ := thr_get_bit_in bits4 _ b1
  obtain ⟨sig2, g2⟩ := thr_get_bit_in bits4 _ b2
  refine ⟨sig1, sig2, by rw [← r1, g1], by rw [← r2, g2], ?_⟩
  unfold of_CMPS
  simp only
  rw [e1, e2, hchk, g1, g2]
  simp only
  rw [of_CMPS_loop_fold bits4 w d s _ _ _ hla hlb
    (fun k hk => operand_read bits4 d w k hc hd hk)
    (fun k hk => operand_read bits4 s w k hc hs hk)]

theorem signedVal_lt (w a0 sa b0 sb : Nat) (hw : 1 ≤ w) (ha : a0 < 2 ^ (w - 1))
    (hb : b0 < 2 ^ (w - 1)) (hsa : sa ≤ 1) (hsb : sb ≤ 1) :
    signedVal w (a0 + 2 ^ (w - 1) * sa) < signedVal w (b0 + 2 ^ (w - 1) * sb) ↔
      (sa = 1 ∧ sb = 0) ∨ (sa = sb ∧ a0 + 2 ^ (w - 1) * sa < b0 + 2 ^ (w - 1) * sb) := by
  have hp : 2 ^ w = 2 * 2 ^ (w - 1) := by
    conv_lhs => rw [show w = (w - 1) + 1 by omega]
    rw [pow_succ]; ring
  unfold signedVal
  have hpi : ((2 : Int) ^ w) = 2 * ((2 ^ (w - 1) : Nat) : Int) := by
    have := congrArg (fun n : Nat => (n : Int)) hp
    simpa using this
  rw [hpi]
  generalize 2 ^ (w - 1) = P at *
  have hsa' : sa = 0 ∨ sa = 1 := by omega
  have hsb' : sb = 0 ∨ sb = 1 := by omega
  rcases hsa' with h | h <;> rcases hsb' with h' | h' <;> subst h <;> subst h' <;>
    simp only [Nat.mul_zero, Nat.mul_one, Nat.add_zero] <;>
    split_ifs <;> push_cast <;>
    simp only [false_and, true_and, and_true, and_false, false_or, or_false, or_true,
      true_or, iff_true, iff_false] <;> omega

/-! ## The flags of the two compares -/

/-- The flag `eeq` after the loop of `of_CMPU_the_hard_way`. -/
theorem of_CMPU_the_hard_way_loop_eeq (bits4 : List vvp_bit4_t) (n : Nat) :
    ∀ (idx1 idx2 : Nat) (eq eeq : vvp_bit4_t) (la lb : List vvp_bit4_t),
      la.length = n → lb.length = n →
      (∀ k, k < n → thr_get_bit bits4 (advance idx1 k) = la[k]?) →
      (∀ k, k < n → thr_get_bit bits4 (advance idx2 k) = lb[k]?) →
      (eq = BIT4_1 ∨ eq = BIT4_X) →
      ∃ eq', of_CMPU_the_hard_way_loop bits4 n idx1 idx2 (eq, eeq)
        = some (eq', if la = lb then eeq else BIT4_0) := by
  induction n with
  | zero =>
    intro idx1 idx2 eq eeq la lb hla hlb _ _ _
    rw [List.length_eq_zero] at hla hlb
    subst hla hlb
    exact ⟨eq, by simp [of_CMPU_the_hard_way_loop]⟩
  | succ n ih =>
    intro idx1 idx2 eq eeq la lb hla hlb h1 h2 heq
    obtain ⟨x, la', rfl⟩ := List.exists_cons_of_length_eq_add_one hla
    obtain ⟨y, lb', rfl⟩ := List.exists_cons_of_length_eq_add_one hlb
    have g1 : thr_get_bit bits4 idx1 = some x := by
      have := h1 0 (by omega)
      rw [advance_zero] at this
      simpa using this
    have g2 : thr_get_bit bits4 idx2 = some y := by
      have := h2 0 (by omega)
      rw [advance_zero] at this
      simpa using this
    rw [of_CMPU_the_hard_way_loop, g1, g2]
    simp only
    by_cases hmm : (x = BIT4_0 ∧ y = BIT4_1) ∨ (x = BIT4_1 ∧ y = BIT4_0)
    · refine ⟨BIT4_0, ?_⟩
      rcases hmm with ⟨hx, hy⟩ | ⟨hx, hy⟩ <;> subst hx hy <;> simp
    · push_neg at hmm
      have hm1 : ¬ (x = BIT4_0 ∧ y = BIT4_1) := fun h => hmm.1 h.1 h.2
      have hm2 : ¬ (x = BIT4_1 ∧ y = BIT4_0) := fun h => hmm.2 h.1 h.2
      rw [if_neg hm1, if_neg hm2]
      have hne0 : ¬ ((if eq = BIT4_1 ∧ (bit4_is_xz x = true ∨ bit4_is_xz y = true)
          then BIT4_X else eq) = BIT4_0) := by
        split
        · decide
        · rcases heq with h | h <;> rw [h] <;> decide
      rw [if_neg hne0]
      obtain ⟨eq', he⟩ := ih (if idx1 ≥ 4 then idx1 + 1 else idx1)
        (if idx2 ≥ 4 then idx2 + 1 else idx2)
        (if eq = BIT4_1 ∧ (bit4_is_xz x = true ∨ bit4_is_xz y = true) then BIT4_X else eq)
        (if x ≠ y then BIT4_0 else eeq) la' lb' (by simpa using hla) (by simpa using hlb)
        (fun k hk => by
          have := h1 (k + 1) (by omega)
          simp only [List.getElem?_cons_succ] at this
          rw [← this, advance_succ])
        (fun k hk => by
          have := h2 (k + 1) (by omega)
          simp only [List.getElem?_cons_succ] at this
          rw [← this, advance_succ])
        (by
          split
          · right; rfl
          · exact heq)
      refine ⟨eq', ?_⟩
      rw [he]
      congr 2
      by_cases hxy : x = y
      · subst hxy; simp
      · simp [hxy]

/-- The three flags that `of_CMPU` writes, for operands inside the bit space
or at constant addresses. -/
theorem of_CMPU_eval (bits4 : List vvp_bit4_t) (d s w : Nat) (hw : 1 ≤ w)
    (hd : operand_ok bits4 d w) (hs : operand_ok bits4 s w) (hc : thr_consts_ok bits4) :
    ∃ lt, of_CMPU bits4 ⟨d, s, w⟩ = some (thr_put_bit (thr_put_bit (thr_put_bit bits4 4
      (if has_xz (vthread_bits_to_vector bits4 d w) (vthread_bits_to_vector bits4 s w) = true
        then (if definite_mismatch (vthread_bits_to_vector bits4 d w)
            (vthread_bits_to_vector bits4 s w) = true then BIT4_0 else BIT4_X)
        else (if vthread_bits_to_vector bits4 d w = vthread_bits_to_vector bits4 s w
          then BIT4_1 else BIT4_0))) 5 lt) 6
      (if vthread_bits_to_vector bits4 d w = vthread_bits_to_vector bits4 s w
        then BIT4_1 else BIT4_0)) := by
  have hla := operand_length bits4 d w hd
  have hlb := operand_length bits4 s w hs
  generalize hLA : vthread_bits_to_vector bits4 d w = la at *
  generalize hLB : vthread_bits_to_vector bits4 s w = lb at *
  by_cases hk : vec4Known la = true ∧ vec4Known lb = true
  · obtain ⟨hka, hkb⟩ := hk
    obtain ⟨wa, ha, hwl, hoa, hva⟩ := vector_to_array_known bits4 d w hw hd (by rw [hLA]; exact hka)
    obtain ⟨wb, hb, hwbl, hob, hvb⟩ := vector_to_array_known bits4 s w hw hs
      (by rw [hLB]; exact hkb)
    rw [hLA] at hva
    rw [hLB] at hvb
    refine ⟨if vec4Val la < vec4Val lb then BIT4_1 else BIT4_0, ?_⟩
    have hx : has_xz la lb = false := by simp [has_xz, hka, hkb]
    rw [hx]
    simp only [Bool.false_eq_true, if_false]
    unfold of_CMPU
    simp only [ha, hb]
    rw [← hwl, of_CMPU_words wa wb hoa hob (by omega), hva, hvb]
    simp only [known_eq_iff la lb hka hkb (by omega)]
  · have hxz : vec4Known la = false ∨ vec4Known lb = false := by
      by_cases h1 : vec4Known la = true
      · right
        by_contra h2
        exact hk ⟨h1, by simpa using h2⟩
      · left; simpa using h1
    have hx : has_xz la lb = true := by
      rcases hxz with h | h <;> simp [has_xz, h]
    have hhard : of_CMPU bits4 ⟨d, s, w⟩ = of_CMPU_the_hard_way bits4 ⟨d, s, w⟩ := by
      unfold of_CMPU
      simp only
      rcases hxz with h | h
      · rw [vector_to_array_xz bits4 d w (by rw [hLA]; exact h)]
      · rw [vector_to_array_xz bits4 s w (by rw [hLB]; exact h)]
        cases vector_to_array bits4 d w <;> rfl
    have r1 : ∀ k, k < w → thr_get_bit bits4 (advance d k) = la[k]? :=
      fun k hk => by rw [← hLA]; exact operand_read bits4 d w k hc hd hk
    have r2 : ∀ k, k < w → thr_get_bit bits4 (advance s k) = lb[k]? :=
      fun k hk => by rw [← hLB]; exact operand_read bits4 s w k hc hs hk
    obtain ⟨eeq', hloop⟩ := of_CMPU_the_hard_way_loop_spec bits4 w d s BIT4_1 BIT4_1 la lb
      hla hlb r1 r2 (Or.inl rfl)
    obtain ⟨eq', hloop'⟩ := of_CMPU_the_hard_way_loop_eeq bits4 w d s BIT4_1 BIT4_1 la lb
      hla hlb r1 r2 (Or.inl rfl)
    have hnk : ¬ (BIT4_1 = BIT4_1 ∧ vec4Known la = true ∧ vec4Known lb = true) :=
      fun h => hk h.2
    rw [if_neg hnk] at hloop
    have he : eeq' = if la = lb then BIT4_1 else BIT4_0 := by
      rw [hloop] at hloop'
      simp only [Option.some.injEq, Prod.mk.injEq] at hloop'
      exact hloop'.2
    refine ⟨BIT4_X, ?_⟩
    rw [hhard, hx]
    simp only [if_true]
    unfold of_CMPU_the_hard_way
    simp only [hloop, he]

theorem of_CMPS_sign_known (w a0 sa b0 sb : Nat) (eq : vvp_bit4_t) (heq : eq ≠ BIT4_X)
    (hw : 1 ≤ w) (ha : a0 < 2 ^ (w - 1)) (hb : b0 < 2 ^ (w - 1)) (hsa : sa ≤ 1) (hsb : sb ≤ 1) :
    of_CMPS_sign eq
      (if a0 + 2 ^ (w - 1) * sa < b0 + 2 ^ (w - 1) * sb then BIT4_1
        else if b0 + 2 ^ (w - 1) * sb < a0 + 2 ^ (w - 1) * sa then BIT4_0 else BIT4_0)
      (if sa = 1 then BIT4_1 else BIT4_0) (if sb = 1 then BIT4_1 else BIT4_0)
    = if signedVal w (a0 + 2 ^ (w - 1) * sa) < signedVal w (b0 + 2 ^ (w - 1) * sb)
        then BIT4_1 else BIT4_0 := by
  have key := signedVal_lt w a0 sa b0 sb hw ha hb hsa hsb
  simp only [key]
  generalize 2 ^ (w - 1) = P at *
  have hsa' : sa = 0 ∨ sa = 1 := by omega
  have hsb' : sb = 0 ∨ sb = 1 := by omega
  rcases hsa' with h | h <;> rcases hsb' with h' | h' <;> subst h <;> subst h' <;>
    simp [of_CMPS_sign, heq]

/-- The three flags that `of_CMPS` writes, for operands inside the bit space
or at constant addresses. -/
theorem of_CMPS_flags (bits4 : List vvp_bit4_t) (d s w : Nat) (hw : 1 ≤ w)
    (hd : operand_ok bits4 d w) (hs : operand_ok bits4 s w) (hc : thr_consts_ok bits4) :
    ∃ lt, of_CMPS bits4 ⟨d, s, w⟩ = some (thr_put_bit (thr_put_bit (thr_put_bit bits4 4
      (if has_xz (vthread_bits_to_vector bits4 d w) (vthread_bits_to_vector bits4 s w) = true
        then BIT4_X
        else (if vthread_bits_to_vector bits4 d w = vthread_bits_to_vector bits4 s w
          then BIT4_1 else BIT4_0))) 5 lt) 6
      (if vthread_bits_to_vector bits4 d w = vthread_bits_to_vector bits4 s w
        then BIT4_1 else BIT4_0)) ∧
      (has_xz (vthread_bits_to_vector bits4 d w) (vthread_bits_to_vector bits4 s w) = true →
        lt = BIT4_X) ∧
      (has_xz (vthread_bits_to_vector bits4 d w) (vthread_bits_to_vector bits4 s w) = false →
        lt = if signedVal w (vec4Val (vthread_bits_to_vector bits4 d w))
            < signedVal w (vec4Val (vthread_bits_to_vector bits4 s w)) then BIT4_1 else BIT4_0) := by
  obtain ⟨sig1, sig2, hs1, hs2, hev⟩ := of_CMPS_eval bits4 d s w hw hd hs hc
  have hla := operand_length bits4 d w hd
  have hlb := operand_length bits4 s w hs
  generalize hLA : vthread_bits_to_vector bits4 d w = la at *
  generalize hLB : vthread_bits_to_vector bits4 s w = lb at *
  have heq := of_CMPS_fold_eq la lb (BIT4_1, BIT4_1, BIT4_0) (by omega) (by decide)
  have heeq := of_CMPS_fold_eeq la lb (BIT4_1, BIT4_1, BIT4_0) (by omega)
  simp only [show (BIT4_1 = BIT4_X) = False by simp, if_false] at heq
  refine ⟨_, by rw [hev, heq, heeq], ?_, ?_⟩
  · intro hx
    rw [if_pos hx]
    simp [of_CMPS_sign]
  · intro hx
    have hkk : vec4Known la = true ∧ vec4Known lb = true := by
      simpa [has_xz] using hx
    have hlt := of_CMPS_fold_lt la lb (BIT4_1, BIT4_1, BIT4_0) (by omega) hkk.1 hkk.2
    obtain ⟨a0, sa, hA, ha0, hsa, hga⟩ := msb_split la w hw hla hkk.1
    obtain ⟨b0, sb, hB, hb0, hsb, hgb⟩ := msb_split lb w hw hlb hkk.2
    rw [hs1] at hga
    rw [hs2] at hgb
    simp only [Option.some.injEq] at hga hgb
    rw [hlt, hga, hgb, hA, hB]
    exact of_CMPS_sign_known w a0 sa b0 sb _ (by rw [if_neg (by rw [hx]; simp)]; split <;> simp)
      hw ha0 hb0 hsa hsb

/-! ## The wildcard compare -/

theorem of_CMPX_loop_spec (bits4 : List vvp_bit4_t) (n : Nat) :
    ∀ (idx1 idx2 : Nat) (la lb : List vvp_bit4_t),
      la.length = n → lb.length = n →
      (∀ k, k < n → thr_get_bit bits4 (advance idx1 k) = la[k]?) →
      (∀ k, k < n → thr_get_bit bits4 (advance idx2 k) = lb[k]?) →
      of_CMPX_loop bits4 n idx1 idx2
        = some (if definite_mismatch la lb = true then BIT4_0 else BIT4_1) := by
  induction n with
  | zero =>
    intro idx1 idx2 la lb hla hlb _ _
    rw [List.length_eq_zero] at hla hlb
    subst hla hlb
    simp [of_CMPX_loop, definite_mismatch]
  | succ n ih =>
    intro idx1 idx2 la lb hla hlb h1 h2
    obtain ⟨x, la', rfl⟩ := List.exists_cons_of_length_eq_add_one hla
    obtain ⟨y, lb', rfl⟩ := List.exists_cons_of_length_eq_add_one hlb
    have g1 : thr_get_bit bits4 idx1 = some x := by
      have := h1 0 (by omega)
      rw [advance_zero] at this
      simpa using this
    have g2 : thr_get_bit bits4 idx2 = some y := by
      have := h2 0 (by omega)
      rw [advance_zero] at this
      simpa using this
    rw [of_CMPX_loop, g1, g2]
    simp only
    rw [ih _ _ la' lb' (by simpa using hla) (by simpa using hlb)
      (fun k hk => by
        have := h1 (k + 1) (by omega)
        simp only [List.getElem?_cons_succ] at this
        rw [← this, advance_succ])
      (fun k hk => by
        have := h2 (k + 1) (by omega)
        simp only [List.getElem?_cons_succ] at this
        rw [← this, advance_succ]), definite_mismatch_cons]
    cases x <;> cases y <;> simp [bit4_is_xz]

/-- A definite mismatch is a position with 0 against 1. -/
theorem definite_mismatch_iff (la : List vvp_bit4_t) :
    ∀ lb : List vvp_bit4_t, definite_mismatch la lb = true ↔
      ∃ k : Nat, (la[k]? = some BIT4_0 ∧ lb[k]? = some BIT4_1) ∨
        (la[k]? = some BIT4_1 ∧ lb[k]? = some BIT4_0) := by
  induction la with
  | nil =>
    intro lb
    simp [definite_mismatch]
  | cons x xs ih =>
    intro lb
    cases lb with
    | nil => simp [definite_mismatch]
    | cons y ys =>
      rw [definite_mismatch_cons, Bool.or_eq_true, ih ys]
      constructor
      · rintro (h | ⟨k, hk⟩)
        · refine ⟨0, ?_⟩
          simpa using h
        · exact ⟨k + 1, by simpa using hk⟩
      · rintro ⟨k, hk⟩
        cases k with
        | zero => left; simpa using hk
        | succ k => right; exact ⟨k, by simpa using hk⟩

/-- The flag that `of_CMPX` writes, for operands inside the bit space or at
constant addresses. -/
theorem of_CMPX_eval (bits4 : List vvp_bit4_t) (d s w : Nat)
    (hd : operand_ok bits4 d w) (hs : operand_ok bits4 s w) (hc : thr_consts_ok bits4) :
    of_CMPX bits4 ⟨d, s, w⟩ = some (thr_put_bit bits4 4
      (if definite_mismatch (vthread_bits_to_vector bits4 d w)
          (vthread_bits_to_vector bits4 s w) = true then BIT4_0 else BIT4_1)) := by
  unfold of_CMPX
  simp only
  rw [of_CMPX_loop_spec bits4 w d s _ _ (operand_length bits4 d w hd)
    (operand_length bits4 s w hs)
    (fun k hk => operand_read bits4 d w k hc hd hk)
    (fun k hk => operand_read bits4 s w k hc hs hk)]

/-! ## Compares of width 0 -/

theorem thr_check_addr_gt (b : List vvp_bit4_t) (a : Nat) :
    a < (thr_check_addr b a).length := by
  unfold thr_check_addr
  split
  · rw [List.length_append, List.length_replicate]; omega
  · omega

theorem of_CMPS_zero (bits4 : List vvp_bit4_t) (d s : Nat) :
    ∃ b lt, of_CMPS bits4 ⟨d, s, 0⟩
      = some (thr_put_bit (thr_put_bit (thr_put_bit b 4 BIT4_1) 5 lt) 6 BIT4_1) := by
  unfold of_CMPS
  simp only [of_CMPS_loop]
  generalize hb : (if (if d < 4 then d else d + 0 - 1) > (if s < 4 then s else s + 0 - 1)
    then thr_check_addr bits4 (if d < 4 then d else d + 0 - 1)
    else thr_check_addr bits4 (if s < 4 then s else s + 0 - 1)) = b
  have hlen : (if d < 4 then d else d + 0 - 1) < b.length ∧
      (if s < 4 then s else s + 0 - 1) < b.length := by
    rw [← hb]
    generalize (if d < 4 then d else d + 0 - 1) = e1
    generalize (if s < 4 then s else s + 0 - 1) = e2
    have g1 := thr_check_addr_gt bits4 e1
    have g2 := thr_check_addr_gt bits4 e2
    split <;> constructor <;> omega
  obtain ⟨x, hx⟩ := thr_get_bit_in b _ hlen.1
  obtain ⟨y, hy⟩ := thr_get_bit_in b _ hlen.2
  rw [hx, hy]
  exact ⟨b, _, rfl⟩

theorem of_CMPU_zero (bits4 : List vvp_bit4_t) (d s : Nat) :
    ∃ lt, of_CMPU bits4 ⟨d, s, 0⟩
      = some (thr_put_bit (thr_put_bit (thr_put_bit bits4 4 BIT4_1) 5 lt) 6 BIT4_1) := by
  unfold of_CMPU
  simp only
  cases vector_to_array bits4 d 0 with
  | none => exact ⟨BIT4_X, by simp [of_CMPU_the_hard_way, of_CMPU_the_hard_way_loop]⟩
  | some la =>
    cases vector_to_array bits4 s 0 with
    | none => exact ⟨BIT4_X, by simp [of_CMPU_the_hard_way, of_CMPU_the_hard_way_loop]⟩
    | some lb => exact ⟨BIT4_0, by simp [wordCount, CPU_WORD_BITS, forLoop]⟩

/-- C11: for a width `w >= 1` and operands `a`, `b` of `of_CMPS` without X/Z
bits, inside the bit space or at constant addresses: LT (bit 5) is 1 iff
`a < b` when both are read as two's-complement signed `w`-bit numbers, and
EQ (bit 4) and EEQ (bit 6) are 1 iff `a == b`. -/
theorem C11_of_CMPS_signed (bits4 : List vvp_bit4_t) (d s w : Nat) (hw : 1 ≤ w)
    (hd : operand_ok bits4 d w) (hs : operand_ok bits4 s w) (hc : thr_consts_ok bits4)
    (hka : vec4Known (vthread_bits_to_vector bits4 d w) = true)
    (hkb : vec4Known (vthread_bits_to_vector bits4 s w) = true) :
    ∃ bits' eq lt eeq, of_CMPS bits4 ⟨d, s, w⟩ = some bits' ∧
      bits'[4]? = some eq ∧ bits'[5]? = some lt ∧ bits'[6]? = some eeq ∧
      (lt = BIT4_1 ↔ signedVal w (vec4Val (vthread_bits_to_vector bits4 d w))
        < signedVal w (vec4Val (vthread_bits_to_vector bits4 s w))) ∧
      (eq = BIT4_1 ↔ vec4Val (vthread_bits_to_vector bits4 d w)
        = vec4Val (vthread_bits_to_vector bits4 s w)) ∧
      (eeq = BIT4_1 ↔ vec4Val (vthread_bits_to_vector bits4 d w)
        = vec4Val (vthread_bits_to_vector bits4 s w)) := by
  obtain ⟨lt, hev, _, hlt⟩ := of_CMPS_flags bits4 d s w hw hd hs hc
  have hx : has_xz (vthread_bits_to_vector bits4 d w) (vthread_bits_to_vector bits4 s w)
      = false := by simp [has_xz, hka, hkb]
  have hiff := known_eq_iff _ _ hka hkb
    (by rw [operand_length bits4 d w hd, operand_length bits4 s w hs])
  obtain ⟨f4, f5, f6⟩ := flags_written bits4
    (if has_xz (vthread_bits_to_vector bits4 d w) (vthread_bits_to_vector bits4 s w) = true
      then BIT4_X
      else (if vthread_bits_to_vector bits4 d w = vthread_bits_to_vector bits4 s w
        then BIT4_1 else BIT4_0)) lt
    (if vthread_bits_to_vector bits4 d w = vthread_bits_to_vector bits4 s w
      then BIT4_1 else BIT4_0)
  refine ⟨_, _, _, _, hev, f4, f5, f6, ?_, ?_, ?_⟩
  · rw [hlt hx]
    by_cases h : signedVal w (vec4Val (vthread_bits_to_vector bits4 d w))
        < signedVal w (vec4Val (vthread_bits_to_vector bits4 s w))
    · simp [h]
    · simp [h]
  · rw [hx, ← hiff]
    simp only [Bool.false_eq_true, if_false]
    by_cases h : vthread_bits_to_vector bits4 d w = vthread_bits_to_vector bits4 s w
    · simp [h]
    · simp [h]
  · rw [← hiff]
    by_cases h : vthread_bits_to_vector bits4 d w = vthread_bits_to_vector bits4 s w
    · simp [h]
    · simp [h]

/-- C11 at `a = 0b1101` (bits 8..11, the signed value -3) and `b = 0b0011`
(bits 16..19, the value 3): LT is 1, EQ and EEQ are 0. -/
theorem C11_of_CMPS_signed_witness :
    (1 ≤ 4 ∧ operand_ok thr_add4 8 4 ∧ operand_ok thr_add4 16 4 ∧ thr_consts_ok thr_add4 ∧
      vec4Known (vthread_bits_to_vector thr_add4 8 4) = true ∧
      vec4Known (vthread_bits_to_vector thr_add4 16 4) = true) ∧
    (∃ bits' eq lt eeq, of_CMPS thr_add4 ⟨8, 16, 4⟩ = some bits' ∧
      bits'[4]? = some eq ∧ bits'[5]? = some lt ∧ bits'[6]? = some eeq ∧
      (lt = BIT4_1 ↔ signedVal 4 (vec4Val (vthread_bits_to_vector thr_add4 8 4))
        < signedVal 4 (vec4Val (vthread_bits_to_vector thr_add4 16 4))) ∧
      (eq = BIT4_1 ↔ vec4Val (vthread_bits_to_vector thr_add4 8 4)
        = vec4Val (vthread_bits_to_vector thr_add4 16 4)) ∧
      (eeq = BIT4_1 ↔ vec4Val (vthread_bits_to_vector thr_add4 8 4)
        = vec4Val (vthread_bits_to_vector thr_add4 16 4))) ∧
    signedVal 4 (vec4Val (vthread_bits_to_vector thr_add4 8 4)) = -3 ∧
    (of_CMPS thr_add4 ⟨8, 16, 4⟩).map (fun b => vec4Part b 4 3)
      = some [BIT4_0, BIT4_1, BIT4_0] :=
  ⟨by decide,
   C11_of_CMPS_signed thr_add4 8 16 4 (by decide) (by decide) (by decide) (by decide)
     (by decide) (by decide), by decide, by decide⟩

/-- C12 (counterexample): at `a = 0b10X0` (bits 8..11) and `b = 0b1001`
(bits 16..19), where bit 0 is a definite mismatch and bit 1 of `a` is X,
`of_CMPS` writes EQ = X and `of_CMPU` writes EQ = 0. -/
theorem C12_eq_flags_differ :
    (of_CMPS thr_cmp4b ⟨8, 16, 4⟩).map (fun b => b[4]?) = some (some BIT4_X) ∧
    (of_CMPU thr_cmp4b ⟨8, 16, 4⟩).map (fun b => b[4]?) = some (some BIT4_0) ∧
    (of_CMPS thr_cmp4b ⟨8, 16, 4⟩).map (fun b => b[4]?)
      ≠ (of_CMPU thr_cmp4b ⟨8, 16, 4⟩).map (fun b => b[4]?) := by
  decide

/-- C12 (amended): for all operands of every width, inside the bit space or
at constant addresses, `of_CMPS` writes the same EEQ (bit 6) as `of_CMPU`,
and the same EQ (bit 4) unless some operand bit is X/Z while some position
holds two known bits that differ; `of_CMPS` writes EQ = X as soon as a bit
is X/Z, and `of_CMPU` writes EQ = 0 at a definite mismatch. -/
theorem C12_of_CMPS_vs_of_CMPU (bits4 : List vvp_bit4_t) (d s w : Nat)
    (hd : operand_ok bits4 d w) (hs : operand_ok bits4 s w) (hc : thr_consts_ok bits4) :
    ∃ bS bU, of_CMPS bits4 ⟨d, s, w⟩ = some bS ∧ of_CMPU bits4 ⟨d, s, w⟩ = some bU ∧
      bS[6]? = bU[6]? ∧
      (¬ (has_xz (vthread_bits_to_vector bits4 d w) (vthread_bits_to_vector bits4 s w) = true ∧
          definite_mismatch (vthread_bits_to_vector bits4 d w)
            (vthread_bits_to_vector bits4 s w) = true) → bS[4]? = bU[4]?) ∧
      (has_xz (vthread_bits_to_vector bits4 d w) (vthread_bits_to_vector bits4 s w) = true →
        bS[4]? = some BIT4_X) ∧
      (definite_mismatch (vthread_bits_to_vector bits4 d w)
          (vthread_bits_to_vector bits4 s w) = true → bU[4]? = some BIT4_0) := by
  rcases Nat.eq_zero_or_pos w with h0 | hw
  · subst h0
    obtain ⟨b, lt, hS⟩ := of_CMPS_zero bits4 d s
    obtain ⟨lt', hU⟩ := of_CMPU_zero bits4 d s
    obtain ⟨s4, _, s6⟩ := flags_written b BIT4_1 lt BIT4_1
    obtain ⟨u4, _, u6⟩ := flags_written bits4 BIT4_1 lt' BIT4_1
    have hla := operand_length bits4 d 0 hd
    have hlb := operand_length bits4 s 0 hs
    rw [List.length_eq_zero] at hla hlb
    refine ⟨_, _, hS, hU, by rw [s6, u6], fun _ => by rw [s4, u4], ?_, ?_⟩
    · rw [hla, hlb]; simp [has_xz, vec4Known]
    · rw [hla, hlb]; simp [definite_mismatch]
  · obtain ⟨lt, hS, _, _⟩ := of_CMPS_flags bits4 d s w hw hd hs hc
    obtain ⟨lt', hU⟩ := of_CMPU_eval bits4 d s w hw hd hs hc
    have hla := operand_length bits4 d w hd
    have hlb := operand_length bits4 s w hs
    generalize vthread_bits_to_vector bits4 d w = la at *
    generalize vthread_bits_to_vector bits4 s w = lb at *
    obtain ⟨s4, _, s6⟩ := flags_written bits4
      (if has_xz la lb = true then BIT4_X else (if la = lb then BIT4_1 else BIT4_0)) lt
      (if la = lb then BIT4_1 else BIT4_0)
    obtain ⟨u4, _, u6⟩ := flags_written bits4
      (if has_xz la lb = true
        then (if definite_mismatch la lb = true then BIT4_0 else BIT4_X)
        else (if la = lb then BIT4_1 else BIT4_0)) lt'
      (if la = lb then BIT4_1 else BIT4_0)
    refine ⟨_, _, hS, hU, by rw [s6, u6], ?_, ?_, ?_⟩
    · intro h
      rw [s4, u4]
      by_cases hx : has_xz la lb = true
      · have hdm : ¬ definite_mismatch la lb = true := fun h' => h ⟨hx, h'⟩
        rw [if_pos hx, if_pos hx, if_neg hdm]
      · rw [if_neg hx, if_neg hx]
    · intro hx
      rw [s4, if_pos hx]
    · intro hdm
      rw [u4, if_pos hdm]
      by_cases hx : has_xz la lb = true
      · rw [if_pos hx]
      · rw [if_neg hx]
        have hkk : vec4Known la = true ∧ vec4Known lb = true := by
          simpa [has_xz] using hx
        have hne := (definite_mismatch_known_ne la lb hkk.1 hkk.2 (by omega)).mp hdm
        rw [if_neg hne]

/-- C12 at the stated witness `a = 0b10X1` (bits 8..11), `b = 0b1001`
(bits 16..19), width 4: `of_CMPS` gives EQ = X, LT = X, EEQ = 0, and
`of_CMPU` gives the same three flags. -/
theorem C12_of_CMPS_vs_of_CMPU_witness :
    (operand_ok thr_cmp4 8 4 ∧ operand_ok thr_cmp4 16 4 ∧ thr_consts_ok thr_cmp4) ∧
    (∃ bS bU, of_CMPS thr_cmp4 ⟨8, 16, 4⟩ = some bS ∧ of_CMPU thr_cmp4 ⟨8, 16, 4⟩ = some bU ∧
      bS[6]? = bU[6]? ∧
      (¬ (has_xz (vthread_bits_to_vector thr_cmp4 8 4)
            (vthread_bits_to_vector thr_cmp4 16 4) = true ∧
          definite_mismatch (vthread_bits_to_vector thr_cmp4 8 4)
            (vthread_bits_to_vector thr_cmp4 16 4) = true) → bS[4]? = bU[4]?) ∧
      (has_xz (vthread_bits_to_vector thr_cmp4 8 4)
          (vthread_bits_to_vector thr_cmp4 16 4) = true → bS[4]? = some BIT4_X) ∧
      (definite_mismatch (vthread_bits_to_vector thr_cmp4 8 4)
          (vthread_bits_to_vector thr_cmp4 16 4) = true → bU[4]? = some BIT4_0)) ∧
    (of_CMPS thr_cmp4 ⟨8, 16, 4⟩).map (fun b => vec4Part b 4 3)
      = some [BIT4_X, BIT4_X, BIT4_0] ∧
    (of_CMPU thr_cmp4 ⟨8, 16, 4⟩).map (fun b => vec4Part b 4 3)
      = some [BIT4_X, BIT4_X, BIT4_0] :=
  ⟨by decide, C12_of_CMPS_vs_of_CMPU thr_cmp4 8 16 4 (by decide) (by decide) (by decide),
   by decide, by decide⟩

/-- C13: for every width and every pair of operands of `of_CMPX`, inside the
bit space or at constant addresses: if at each bit position the two bits
are equal or at least one of them is X, the EQ flag (bit 4) is set to 1; and
if some position holds two known bits that differ (0 against 1), EQ is set
to 0. -/
theorem C13_of_CMPX_flag (bits4 : List vvp_bit4_t) (d s w : Nat)
    (hd : operand_ok bits4 d w) (hs : operand_ok bits4 s w) (hc : thr_consts_ok bits4) :
    ∃ bits', of_CMPX bits4 ⟨d, s, w⟩ = some bits' ∧
      ((∀ k : Nat, k < w →
          (vthread_bits_to_vector bits4 d w)[k]? = (vthread_bits_to_vector bits4 s w)[k]? ∨
          (vthread_bits_to_vector bits4 d w)[k]? = some BIT4_X ∨
          (vthread_bits_to_vector bits4 s w)[k]? = some BIT4_X) → bits'[4]? = some BIT4_1) ∧
      ((∃ k : Nat,
          ((vthread_bits_to_vector bits4 d w)[k]? = some BIT4_0 ∧
            (vthread_bits_to_vector bits4 s w)[k]? = some BIT4_1) ∨
          ((vthread_bits_to_vector bits4 d w)[k]? = some BIT4_1 ∧
            (vthread_bits_to_vector bits4 s w)[k]? = some BIT4_0)) →
        bits'[4]? = some BIT4_0) := by
  have hla := operand_length bits4 d w hd
  have hlb := operand_length bits4 s w hs
  refine ⟨_, of_CMPX_eval bits4 d s w hd hs hc, ?_, ?_⟩
  · intro h
    rw [thr_put_bit_get_self]
    have hdm : ¬ definite_mismatch (vthread_bits_to_vector bits4 d w)
        (vthread_bits_to_vector bits4 s w) = true := by
      rw [definite_mismatch_iff]
      rintro ⟨k, hk⟩
      have hkw : k < w := by
        by_contra hge
        have : (vthread_bits_to_vector bits4 d w)[k]? = none := by
          rw [List.getElem?_eq_none_iff]; omega
        rcases hk with h' | h' <;> rw [this] at h' <;> simp at h'
      rcases h k hkw with e | e | e <;> rcases hk with ⟨h1, h2⟩ | ⟨h1, h2⟩ <;>
        simp_all
    rw [if_neg hdm]
  · intro h
    rw [thr_put_bit_get_self, if_pos ((definite_mismatch_iff _ _).mpr h)]

/-- C13 at `a = 0b10X1` (bits 8..11) and `b = 0b1001` (bits 16..19), which
agree up to the X bit: EQ is 1. -/
theorem C13_of_CMPX_flag_witness :
    (operand_ok thr_cmp4 8 4 ∧ operand_ok thr_cmp4 16 4 ∧ thr_consts_ok thr_cmp4) ∧
    (∃ bits', of_CMPX thr_cmp4 ⟨8, 16, 4⟩ = some bits' ∧
      ((∀ k : Nat, k < 4 →
          (vthread_bits_to_vector thr_cmp4 8 4)[k]? = (vthread_bits_to_vector thr_cmp4 16 4)[k]? ∨
          (vthread_bits_to_vector thr_cmp4 8 4)[k]? = some BIT4_X ∨
          (vthread_bits_to_vector thr_cmp4 16 4)[k]? = some BIT4_X) → bits'[4]? = some BIT4_1) ∧
      ((∃ k : Nat,
          ((vthread_bits_to_vector thr_cmp4 8 4)[k]? = some BIT4_0 ∧
            (vthread_bits_to_vector thr_cmp4 16 4)[k]? = some BIT4_1) ∨
          ((vthread_bits_to_vector thr_cmp4 8 4)[k]? = some BIT4_1 ∧
            (vthread_bits_to_vector thr_cmp4 16 4)[k]? = some BIT4_0)) →
        bits'[4]? = some BIT4_0)) ∧
    (of_CMPX thr_cmp4 ⟨8, 16, 4⟩).map (fun b => b[4]?) = some (some BIT4_1) ∧
    (of_CMPX thr_cmp4b ⟨8, 16, 4⟩).map (fun b => b[4]?) = some (some BIT4_0) :=
  ⟨by decide, C13_of_CMPX_flag thr_cmp4 8 16 4 (by decide) (by decide) (by decide),
   by decide, by decide⟩

/-- C14 (failing input): with word register 0 holding `2^32`, which is at
least the width 4, and flag bit 4 not 1, the handlers read the shift amount
into an `int`, get 0, and leave the vector `0b1101` (bits 8..11) as it is:
neither all 0 nor all equal to the sign bit. With the amount 4 the three
handlers do fill the vector. -/
theorem C14_shift_amount_is_truncated :
    thr_get_bit thr_add4 4 = some BIT4_X ∧ ((4 : Nat) : Int) ≤ 2 ^ 32 ∧
    (2 : Int) ^ 32 < 2 ^ 63 ∧ int_of_int64 (2 ^ 32) = 0 ∧
    vec4Part thr_add4 8 4 = [BIT4_1, BIT4_0, BIT4_1, BIT4_1] ∧
    (of_SHIFTL_I0 thr_add4 (2 ^ 32) ⟨8, 0, 4⟩).map (fun b => vec4Part b 8 4)
      = some [BIT4_1, BIT4_0, BIT4_1, BIT4_1] ∧
    (of_SHIFTR_I0 thr_add4 (2 ^ 32) ⟨8, 0, 4⟩).map (fun b => vec4Part b 8 4)
      = some [BIT4_1, BIT4_0, BIT4_1, BIT4_1] ∧
    (of_SHIFTR_S_I0 thr_add4 (2 ^ 32) ⟨8, 0, 4⟩).map (fun b => vec4Part b 8 4)
      = some [BIT4_1, BIT4_0, BIT4_1, BIT4_1] ∧
    (of_SHIFTL_I0 thr_add4 4 ⟨8, 0, 4⟩).map (fun b => vec4Part b 8 4)
      = some (List.replicate 4 BIT4_0) ∧
    (of_SHIFTR_I0 thr_add4 4 ⟨8, 0, 4⟩).map (fun b => vec4Part b 8 4)
      = some (List.replicate 4 BIT4_0) ∧
    (of_SHIFTR_S_I0 thr_add4 4 ⟨8, 0, 4⟩).map (fun b => vec4Part b 8 4)
      = some (List.replicate 4 BIT4_1) := by
  decide

/-! ## Sets of threads and assignments to thread fields -/

theorem mem_set_insert (x y : Nat) (s : List Nat) : y ∈ set_insert x s ↔ y = x ∨ y ∈ s := by
  induction s with
  | nil => simp [set_insert]
  | cons z zs ih =>
    unfold set_insert
    split
    · simp
    · split
      · subst_vars; simp
      · simp only [List.mem_cons, ih]
        tauto

theorem mem_set_erase (x y : Nat) (s : List Nat) : y ∈ set_erase x s ↔ y ∈ s ∧ y ≠ x := by
  simp [set_erase]

theorem set_erase_nil (x : Nat) : set_erase x [] = [] := rfl

theorem set_erase_length_le (x : Nat) (s : List Nat) : (set_erase x s).length ≤ s.length :=
  List.length_filter_le _ _

theorem set_erase_length_lt (x : Nat) (s : List Nat) (h : x ∈ s) :
    (set_erase x s).length < s.length := by
  unfold set_erase
  apply List.length_filter_lt_length_iff_exists.mpr
  exact ⟨x, h, by simp⟩

theorem set_erase_head (x : Nat) (s : List Nat) :
    (set_erase x (x :: s)).length ≤ s.length := by
  unfold set_erase
  rw [List.filter_cons_of_neg (by simp)]
  exact List.length_filter_le _ _

@[simp] theorem modify_thread_threads (st : vvp_world) (t i : Nat) (f : vthread_s → vthread_s) :
    (modify_thread st t f).threads i = if i = t then f (st.threads t) else st.threads i := rfl

@[simp] theorem modify_thread_nthreads (st : vvp_world) (t : Nat) (f : vthread_s → vthread_s) :
    (modify_thread st t f).nthreads = st.nthreads := rfl

@[simp] theorem modify_thread_scope (st : vvp_world) (t : Nat) (f : vthread_s → vthread_s) :
    (modify_thread st t f).scope_threads = st.scope_threads := rfl

@[simp] theorem scope_erase_threads (st : vvp_world) (s t : Nat) :
    (scope_erase st s t).threads = st.threads := rfl

@[simp] theorem scope_erase_nthreads (st : vvp_world) (s t : Nat) :
    (scope_erase st s t).nthreads = st.nthreads := rfl

@[simp] theorem scope_erase_scope (st : vvp_world) (s t i : Nat) :
    (scope_erase st s t).scope_threads i
      = if i = s then set_erase t (st.scope_threads i) else st.scope_threads i := rfl

@[simp] theorem set_stacked_threads (st : vvp_world) (c v : Nat) :
    (vvp_set_stacked_context st c v).threads = st.threads := rfl

@[simp] theorem set_stacked_nthreads (st : vvp_world) (c v : Nat) :
    (vvp_set_stacked_context st c v).nthreads = st.nthreads := rfl

@[simp] theorem set_stacked_scope (st : vvp_world) (c v : Nat) :
    (vvp_set_stacked_context st c v).scope_threads = st.scope_threads := rfl

/-! ## Steps that take threads apart -/

theorem step_rel_refl (st : vvp_world) : step_rel st st :=
  { nthreads_eq := rfl
    children_sub := fun _ _ h => h
    parent_sub := fun _ _ h => h
    joining_sub := fun _ h => ⟨h, rfl⟩
    ended_mono := fun _ h => h
    pc_mono := fun _ h => h
    newly_ended := fun _ h => Or.inl h
    scheduled := fun _ h => Or.inl h
    waiting_eq := fun _ => rfl
    scope_sub := fun _ _ h => h
    parent_scope_eq := fun _ => rfl }

theorem step_rel_trans {s1 s2 s3 : vvp_world} (h12 : step_rel s1 s2) (h23 : step_rel s2 s3) :
    step_rel s1 s3 := by
  refine
    { nthreads_eq := by rw [h23.nthreads_eq, h12.nthreads_eq]
      children_sub := fun t c h => h12.children_sub t c (h23.children_sub t c h)
      parent_sub := fun t p h => h12.parent_sub t p (h23.parent_sub t p h)
      joining_sub := fun t h => ?_
      ended_mono := fun t h => h23.ended_mono t (h12.ended_mono t h)
      pc_mono := fun t h => h23.pc_mono t (h12.pc_mono t h)
      newly_ended := fun t h => ?_
      scheduled := fun t h => ?_
      waiting_eq := fun t => by rw [h23.waiting_eq, h12.waiting_eq]
      scope_sub := fun s t h => h12.scope_sub s t (h23.scope_sub s t h)
      parent_scope_eq := fun t => by rw [h23.parent_scope_eq, h12.parent_scope_eq] }
  · obtain ⟨j2, c2⟩ := h23.joining_sub t h
    obtain ⟨j1, c1⟩ := h12.joining_sub t j2
    exact ⟨j1, by rw [c2, c1]⟩
  · have hj3 : (s2.threads t).i_am_joining = false → (s3.threads t).i_am_joining = false := by
      intro hj
      by_contra hc
      have := (h23.joining_sub t (by simpa using hc)).1
      rw [hj] at this
      exact Bool.noConfusion this
    have hc3 : (s2.threads t).children = [] → (s3.threads t).children = [] := by
      intro hc
      apply List.eq_nil_iff_forall_not_mem.mpr
      intro c hmem
      have := h23.children_sub t c hmem
      rw [hc] at this
      exact List.not_mem_nil _ this
    rcases h23.newly_ended t h with h2 | h2
    · rcases h12.newly_ended t h2 with h1 | ⟨hj, h1⟩
      · exact Or.inl h1
      · right
        refine ⟨hj3 hj, ?_⟩
        rcases h1 with h1 | ⟨hs, hw⟩
        · exact Or.inl (hc3 h1)
        · by_cases hs3 : (s3.threads t).is_scheduled = true
          · rcases h23.scheduled t hs3 with h' | h' | h'
            · rw [hs] at h'; exact Bool.noConfusion h'
            · rw [h] at h'; exact Bool.noConfusion h'
            · exact Or.inl h'
          · right
            refine ⟨by simpa using hs3, ?_⟩
            rw [h23.waiting_eq, hw]
    · exact Or.inr h2
  · rcases h23.scheduled t h with h2 | h2 | h2
    · rcases h12.scheduled t h2 with h1 | h1 | h1
      · exact Or.inl h1
      · by_cases he : (s3.threads t).i_have_ended = true
        · rcases h23.newly_ended t he with h' | ⟨_, h' | ⟨h', _⟩⟩
          · rw [h1] at h'; exact Bool.noConfusion h'
          · exact Or.inr (Or.inr h')
          · rw [h] at h'; exact Bool.noConfusion h'
        · exact Or.inr (Or.inl (by simpa using he))
      · right; right
        apply List.eq_nil_iff_forall_not_mem.mpr
        intro c hmem
        have := h23.children_sub t c hmem
        rw [h1] at this
        exact List.not_mem_nil _ this
    · exact Or.inr (Or.inl h2)
    · exact Or.inr (Or.inr h2)

/-- The invariants other than the first one survive a step that only takes
threads apart. -/
theorem thread_inv_of_step_rel {st st' : vvp_world} (hi : thread_inv st) (hr : step_rel st st')
    (ha : ∀ t c, c ∈ (st'.threads t).children ↔ (st'.threads c).parent = some t) :
    thread_inv st' := by
  refine
    { children_parent := ha
      ended_children := fun t he hc => ?_
      joining_alive := fun t hj => ?_
      joining_children := fun t hj => ?_
      fresh := fun t ht => ?_
      order := fun t c hc => hi.order t c (hr.children_sub t c hc) }
  · have hc0 : (st.threads t).children ≠ [] := by
      intro h0
      apply hc
      apply List.eq_nil_iff_forall_not_mem.mpr
      intro c hmem
      have := hr.children_sub t c hmem
      rw [h0] at this
      exact List.not_mem_nil _ this
    rw [hr.waiting_eq]
    rcases hr.newly_ended t he with h | ⟨_, h | ⟨hs, hw⟩⟩
    · obtain ⟨hs, hw⟩ := hi.ended_children t h hc0
      refine ⟨?_, hw⟩
      by_contra hsch
      rcases hr.scheduled t (by simpa using hsch) with h' | h' | h'
      · rw [hs] at h'; exact Bool.noConfusion h'
      · rw [he] at h'; exact Bool.noConfusion h'
      · exact hc h'
    · exact absurd h hc
    · exact ⟨hs, by rw [← hr.waiting_eq]; exact hw⟩
  · have hj0 := (hr.joining_sub t hj).1
    have he0 := hi.joining_alive t hj0
    by_contra he
    rcases hr.newly_ended t (by simpa using he) with h | ⟨h, _⟩
    · rw [he0] at h; exact Bool.noConfusion h
    · rw [hj] at h; exact Bool.noConfusion h
  · obtain ⟨hj0, hc⟩ := hr.joining_sub t hj
    rw [hc]
    exact hi.joining_children t hj0
  · rw [hr.nthreads_eq] at ht
    obtain ⟨hp, hc⟩ := hi.fresh t ht
    constructor
    · cases h : (st'.threads t).parent with
      | none => rfl
      | some p =>
        have := hr.parent_sub t p h
        rw [hp] at this
        exact Option.noConfusion this
    · apply List.eq_nil_iff_forall_not_mem.mpr
      intro c hmem
      have := hr.children_sub t c hmem
      rw [hc] at this
      exact List.not_mem_nil _ this

theorem rec_rel_refl (r : vthread_s) : rec_rel r r :=
  { children_sub := fun _ h => h
    parent_sub := fun _ h => h
    joining_sub := fun h => ⟨h, rfl⟩
    ended_mono := fun h => h
    pc_mono := fun h => h
    newly_ended := fun h => Or.inl h
    scheduled := fun h => Or.inl h
    waiting_eq := rfl
    parent_scope_eq := rfl }

theorem step_rel_of_records {st st' : vvp_world} (hn : st'.nthreads = st.nthreads)
    (hs : ∀ s t, t ∈ st'.scope_threads s → t ∈ st.scope_threads s)
    (hr : ∀ t, rec_rel (st.threads t) (st'.threads t)) : step_rel st st' :=
  { nthreads_eq := hn
    children_sub := fun t => (hr t).children_sub
    parent_sub := fun t => (hr t).parent_sub
    joining_sub := fun t => (hr t).joining_sub
    ended_mono := fun t => (hr t).ended_mono
    pc_mono := fun t => (hr t).pc_mono
    newly_ended := fun t => (hr t).newly_ended
    scheduled := fun t => (hr t).scheduled
    waiting_eq := fun t => (hr t).waiting_eq
    scope_sub := hs
    parent_scope_eq := fun t => (hr t).parent_scope_eq }

/-- An assignment to one thread is a step of `step_rel` if it is one on the
record of the thread. -/
theorem step_rel_modify (st : vvp_world) (t : Nat) (f : vthread_s → vthread_s)
    (h : rec_rel (st.threads t) (f (st.threads t))) : step_rel st (modify_thread st t f) := by
  refine @step_rel_of_records st (modify_thread st t f) rfl (fun _ _ h => h) ?_
  intro i
  rw [modify_thread_threads]
  split
  · subst_vars; exact h
  · exact rec_rel_refl _

theorem step_rel_scope_erase (st : vvp_world) (s t : Nat) : step_rel st (scope_erase st s t) := by
  refine @step_rel_of_records st (scope_erase st s t) rfl ?_ ?_
  · intro s' t' h
    rw [scope_erase_scope] at h
    split at h
    · exact ((mem_set_erase _ _ _).mp h).1
    · exact h
  · intro i
    exact rec_rel_refl _

theorem vthread_reap_children_nil (thr : Nat) (newp : Option Nat) (st : vvp_world) :
    vthread_reap_children thr newp [] st = some st := rfl

theorem modify_thread_id (st : vvp_world) (t : Nat) : modify_thread st t id = st := by
  cases st with
  | mk th n sc sk =>
    unfold modify_thread
    simp only [id]
    congr 1
    funext i
    split
    · subst_vars; rfl
    · rfl

/-- The result of `vthread_reap` on a thread without children. -/
theorem vthread_reap_childless (st st' : vvp_world) (thr : Nat)
    (hc : (st.threads thr).children = []) (h : vthread_reap st thr = some st') :
    ∃ f, only_marks f ∧ st' = modify_thread (vthread_reap_core st thr) thr f := by
  unfold vthread_reap at h
  rw [hc, vthread_reap_children_nil] at h
  simp only at h
  split at h
  · split at h
    · exact Option.noConfusion h
    · split at h
      · exact Option.noConfusion h
      · split at h
        · refine ⟨fun r => { r with del_scheduled := true }, fun r => ⟨r.deleted, true, rfl⟩, ?_⟩
          exact (Option.some.inj h).symm
        · refine ⟨fun r => { r with deleted := true }, fun r => ⟨true, r.del_scheduled, rfl⟩, ?_⟩
          exact (Option.some.inj h).symm
  · refine ⟨id, fun r => ⟨r.deleted, r.del_scheduled, rfl⟩, ?_⟩
    rw [← Option.some.inj h, modify_thread_id]

theorem only_marks_fields (f : vthread_s → vthread_s) (hf : only_marks f) (r : vthread_s) :
    (f r).children = r.children ∧ (f r).parent = r.parent ∧ (f r).pc_null = r.pc_null ∧
    (f r).i_am_joining = r.i_am_joining ∧ (f r).i_have_ended = r.i_have_ended ∧
    (f r).is_scheduled = r.is_scheduled ∧ (f r).waiting_for_event = r.waiting_for_event ∧
    (f r).parent_scope = r.parent_scope ∧ (f r).automatic_children = r.automatic_children ∧
    (f r).wt_context = r.wt_context ∧ (f r).wait_next = r.wait_next := by
  obtain ⟨d1, d2, h⟩ := hf r
  rw [h]
  exact ⟨rfl, rfl, rfl, rfl, rfl, rfl, rfl, rfl, rfl, rfl, rfl⟩

theorem reap_effect_core (st : vvp_world) (thr : Nat) (f : vthread_s → vthread_s)
    (hf : only_marks f) (hc : (st.threads thr).children = []) :
    reap_effect st thr (modify_thread (vthread_reap_core st thr) thr f) := by
  have hm := only_marks_fields f hf
  cases hp : (st.threads thr).parent with
  | none =>
    constructor <;> intros <;>
      simp only [vthread_reap_core, hp, modify_thread_threads, modify_thread_nthreads,
        modify_thread_scope, scope_erase_threads, scope_erase_nthreads, scope_erase_scope,
        if_true] <;>
      split_ifs <;> simp_all
  | some p =>
    constructor <;> intros <;>
      simp only [vthread_reap_core, hp, modify_thread_threads, modify_thread_nthreads,
        modify_thread_scope, scope_erase_threads, scope_erase_nthreads, scope_erase_scope,
        if_true] <;>
      split_ifs <;> simp_all [set_erase_nil]

theorem reap_effect_step {st st' : vvp_world} {thr : Nat} (h : reap_effect st thr st')
    (hj : ∀ p, (st.threads thr).parent = some p → (st.threads p).i_am_joining = false) :
    step_rel st st' := by
  refine @step_rel_of_records st st' h.nthreads_eq ?_ ?_
  · intro s t ht
    rw [h.scope_eq] at ht
    split at ht
    · exact ((mem_set_erase _ _ _).mp ht).1
    · exact ht
  · intro i
    refine
      { children_sub := fun c hc => ?_
        parent_sub := fun p hp => ?_
        joining_sub := fun hjo => ?_
        ended_mono := fun he => by rw [h.ended_eq]; exact he
        pc_mono := fun hpc => by rw [h.pc_null_eq]; split <;> simp [hpc]
        newly_ended := fun he => Or.inl (by rw [← h.ended_eq]; exact he)
        scheduled := fun hs => Or.inl (by rw [← h.scheduled_eq]; exact hs)
        waiting_eq := h.waiting_eq i
        parent_scope_eq := h.parent_scope_eq i }
    · rw [h.children_eq] at hc
      split at hc
      · exact ((mem_set_erase _ _ _).mp hc).1
      · exact hc
    · rw [h.parent_eq] at hp
      split at hp
      · exact Option.noConfusion hp
      · exact hp
    · rw [h.joining_eq] at hjo
      refine ⟨hjo, ?_⟩
      rw [h.children_eq]
      split
      · rename_i hpar
        have := hj i hpar
        rw [hjo] at this
        exact Bool.noConfusion this
      · rfl

/-- Reaping a thread without children keeps `c ∈ t.children ↔ c.parent = t`. -/
theorem reap_effect_children_parent {st st' : vvp_world} {thr : Nat} (h : reap_effect st thr st')
    (hc : (st.threads thr).children = [])
    (ha : ∀ t c, c ∈ (st.threads t).children ↔ (st.threads c).parent = some t) :
    ∀ t c, c ∈ (st'.threads t).children ↔ (st'.threads c).parent = some t := by
  intro t c
  rw [h.children_eq, h.parent_eq]
  by_cases hct : c = thr
  · subst hct
    rw [if_pos rfl]
    constructor
    · intro hmem
      exfalso
      split at hmem
      · exact ((mem_set_erase _ _ _).mp hmem).2 rfl
      · rename_i hne
        exact hne ((ha t c).mp hmem)
    · intro hn
      exact Option.noConfusion hn
  · rw [if_neg hct]
    split
    · rw [mem_set_erase]
      constructor
      · intro hm; exact (ha t c).mp hm.1
      · intro hp; exact ⟨(ha t c).mpr hp, hct⟩
    · exact ha t c

/-- The first loop of `vthread_reap` assigns parents only. -/
theorem vthread_reap_children_fields (thr : Nat) (newp : Option Nat) (l : List Nat) :
    ∀ st st1 : vvp_world, vthread_reap_children thr newp l st = some st1 →
      ∀ i, (st1.threads i).children = (st.threads i).children ∧
        (st1.threads i).is_scheduled = (st.threads i).is_scheduled ∧
        (st1.threads i).waiting_for_event = (st.threads i).waiting_for_event ∧
        ((st1.threads i).parent = (st.threads i).parent ∨ (st1.threads i).parent = newp) := by
  induction l with
  | nil =>
    intro st st1 h i
    rw [vthread_reap_children_nil] at h
    rw [← Option.some.inj h]
    exact ⟨rfl, rfl, rfl, Or.inl rfl⟩
  | cons x xs ih =>
    intro st st1 h i
    unfold vthread_reap_children at h
    split at h
    · obtain ⟨h1, h2, h3, h4⟩ := ih _ _ h i
      rw [modify_thread_threads] at h1 h2 h3 h4
      split at h1
      · subst_vars
        simp only [if_true] at h2 h3 h4
        refine ⟨h1, h2, h3, ?_⟩
        rcases h4 with h4 | h4
        · right; exact h4
        · right; exact h4
      · rename_i hne
        simp only [if_neg hne] at h2 h3 h4
        exact ⟨h1, h2, h3, h4⟩
    · exact Option.noConfusion h

/-- A thread with children that is neither scheduled nor waiting cannot be
reaped: `vthread_reap` fails `assert(thr->children.empty())`. -/
theorem vthread_reap_children_assert (st : vvp_world) (thr : Nat)
    (hc : (st.threads thr).children ≠ []) (hs : (st.threads thr).is_scheduled = false)
    (hw : (st.threads thr).waiting_for_event = false)
    (hself : (st.threads thr).parent ≠ some thr) : vthread_reap st thr = none := by
  unfold vthread_reap
  cases h1 : vthread_reap_children thr (st.threads thr).parent (st.threads thr).children st with
  | none => rfl
  | some st1 =>
    obtain ⟨f1, f2, f3, f4⟩ := vthread_reap_children_fields _ _ _ _ _ h1 thr
    have hp : (st1.threads thr).parent = (st.threads thr).parent := by
      rcases f4 with h | h <;> exact h
    have g1 : ((vthread_reap_core st1 thr).threads thr).is_scheduled = false := by
      rw [← hs, ← f2]
      cases hpp : (st1.threads thr).parent with
      | none => simp [vthread_reap_core, hpp]
      | some p =>
        by_cases hpt : thr = p
        · subst hpt; simp [vthread_reap_core, hpp]
        · simp [vthread_reap_core, hpp, hpt]
    have g2 : ((vthread_reap_core st1 thr).threads thr).waiting_for_event = false := by
      rw [← hw, ← f3]
      cases hpp : (st1.threads thr).parent with
      | none => simp [vthread_reap_core, hpp]
      | some p =>
        by_cases hpt : thr = p
        · subst hpt; simp [vthread_reap_core, hpp]
        · simp [vthread_reap_core, hpp, hpt]
    have g3 : ((vthread_reap_core st1 thr).threads thr).children ≠ [] := by
      rw [← f1] at hc
      cases hpp : (st1.threads thr).parent with
      | none => simpa [vthread_reap_core, hpp] using hc
      | some p =>
        have hne : thr ≠ p := by
          intro h
          apply hself
          rw [← hp, hpp, h]
        simpa [vthread_reap_core, hpp, hne] using hc
    simp only [g1, g2, and_self, if_true, if_pos g3]

theorem no_self_parent (st : vvp_world) (hi : thread_inv st) (t : Nat) :
    (st.threads t).parent ≠ some t := by
  intro h
  have := hi.order t t ((hi.children_parent t t).mpr h)
  omega

/-- In a state with the invariants, a thread that has ended is reaped only
when it has no children. -/
theorem dead_children (st : vvp_world) (hi : thread_inv st) (c : Nat)
    (he : (st.threads c).i_have_ended = true) (st' : vvp_world)
    (h : vthread_reap st c = some st') : (st.threads c).children = [] := by
  by_contra hc
  obtain ⟨hs, hw⟩ := hi.ended_children c he hc
  rw [vthread_reap_children_assert st c hc hs hw (no_self_parent st hi c)] at h
  exact Option.noConfusion h

/-- Reaping a thread without children leaves the automatic children and the
contexts of every thread as they are. -/
theorem vthread_reap_automatic (st st' : vvp_world) (thr : Nat)
    (hc : (st.threads thr).children = []) (h : vthread_reap st thr = some st') (i : Nat) :
    (st'.threads i).automatic_children = (st.threads i).automatic_children ∧
    (st'.threads i).wt_context = (st.threads i).wt_context := by
  obtain ⟨f, hf, rfl⟩ := vthread_reap_childless st st' thr hc h
  have hm := only_marks_fields f hf
  cases hp : (st.threads thr).parent with
  | none =>
    constructor <;>
      simp only [vthread_reap_core, hp, modify_thread_threads, scope_erase_threads] <;>
      split_ifs <;> simp_all
  | some p =>
    constructor <;>
      simp only [vthread_reap_core, hp, modify_thread_threads, scope_erase_threads] <;>
      split_ifs <;> simp_all

theorem vthread_reap_effect (st st' : vvp_world) (thr : Nat)
    (hc : (st.threads thr).children = []) (h : vthread_reap st thr = some st') :
    reap_effect st thr st' := by
  obtain ⟨f, hf, rfl⟩ := vthread_reap_childless st st' thr hc h
  exact reap_effect_core st thr f hf hc

/-- The context statements of `do_join` change the contexts and the
automatic children of `thr` only. -/
theorem do_join_contexts_fields (st : vvp_world) (thr child : Nat) :
    (do_join_contexts st thr child).nthreads = st.nthreads ∧
    (do_join_contexts st thr child).scope_threads = st.scope_threads ∧
    ∀ i, ((do_join_contexts st thr child).threads i).children = (st.threads i).children ∧
      ((do_join_contexts st thr child).threads i).parent = (st.threads i).parent ∧
      ((do_join_contexts st thr child).threads i).pc_null = (st.threads i).pc_null ∧
      ((do_join_contexts st thr child).threads i).i_am_joining = (st.threads i).i_am_joining ∧
      ((do_join_contexts st thr child).threads i).i_have_ended = (st.threads i).i_have_ended ∧
      ((do_join_contexts st thr child).threads i).is_scheduled = (st.threads i).is_scheduled ∧
      ((do_join_contexts st thr child).threads i).waiting_for_event
        = (st.threads i).waiting_for_event ∧
      ((do_join_contexts st thr child).threads i).parent_scope = (st.threads i).parent_scope ∧
      ((do_join_contexts st thr child).threads i).wait_next = (st.threads i).wait_next ∧
      ((do_join_contexts st thr child).threads i).automatic_children =
        if i = thr then set_erase child (st.threads i).automatic_children
        else (st.threads i).automatic_children := by
  unfold do_join_contexts
  split
  · simp only
    split
    · refine ⟨rfl, rfl, fun i => ?_⟩
      simp only [modify_thread_threads, set_stacked_threads]
      split_ifs <;> simp_all
    · refine ⟨rfl, rfl, fun i => ?_⟩
      simp only [modify_thread_threads]
      split_ifs <;> simp_all
  · rename_i hnm
    refine ⟨rfl, rfl, fun i => ⟨rfl, rfl, rfl, rfl, rfl, rfl, rfl, rfl, rfl, ?_⟩⟩
    split
    · subst_vars
      unfold set_erase
      rw [List.filter_eq_self.mpr]
      intro a ha
      simp only [ne_eq, decide_not, Bool.not_eq_eq_eq_not, Bool.not_true,
        decide_eq_false_iff_not]
      intro hac
      exact hnm (hac ▸ ha)
    · rfl

/-- The effect of `do_join` on a child without children is that of
`vthread_reap`; the contexts and the automatic children of `thr` aside. -/
theorem do_join_effect (st st' : vvp_world) (thr child : Nat)
    (hc : (st.threads child).children = []) (h : do_join st thr child = some st') :
    (st.threads child).parent = some thr ∧ reap_effect st child st' ∧
    (∀ i, (st'.threads i).automatic_children =
      if i = thr then set_erase child (st.threads i).automatic_children
      else (st.threads i).automatic_children) := by
  unfold do_join at h
  split at h
  · exact Option.noConfusion h
  · rename_i hpar
    have hpar' : (st.threads child).parent = some thr := by simpa using hpar
    refine ⟨hpar', ?_⟩
    obtain ⟨kn, ks, kt⟩ := do_join_contexts_fields st thr child
    generalize do_join_contexts st thr child = st1 at *
    have hc1 : (st1.threads child).children = [] := by rw [(kt child).1]; exact hc
    have he := vthread_reap_effect st1 st' child hc1 h
    have ha := fun i => (vthread_reap_automatic st1 st' child hc1 h i).1
    refine ⟨?_, fun i => by rw [ha i, (kt i).2.2.2.2.2.2.2.2.2]⟩
    exact
      { nthreads_eq := by rw [he.nthreads_eq, kn]
        children_eq := fun i => by rw [he.children_eq, (kt child).2.1, (kt i).1]
        parent_eq := fun i => by rw [he.parent_eq, (kt i).2.1]
        pc_null_eq := fun i => by rw [he.pc_null_eq, (kt i).2.2.1]
        joining_eq := fun i => by rw [he.joining_eq, (kt i).2.2.2.1]
        ended_eq := fun i => by rw [he.ended_eq, (kt i).2.2.2.2.1]
        scheduled_eq := fun i => by rw [he.scheduled_eq, (kt i).2.2.2.2.2.1]
        waiting_eq := fun i => by rw [he.waiting_eq, (kt i).2.2.2.2.2.2.1]
        parent_scope_eq := fun i => by rw [he.parent_scope_eq, (kt i).2.2.2.2.2.2.2.1]
        wait_next_eq := fun i => by rw [he.wait_next_eq, (kt i).2.2.2.2.2.2.2.2.1]
        scope_eq := fun s => by rw [he.scope_eq, ks, (kt child).2.2.2.2.2.2.2.1] }

/-- The child of a `do_join` that does not fail has no children, if it is
neither scheduled nor waiting. -/
theorem do_join_childless (st st' : vvp_world) (thr child : Nat)
    (hs : (st.threads child).is_scheduled = false)
    (hw : (st.threads child).waiting_for_event = false) (hne : child ≠ thr)
    (h : do_join st thr child = some st') : (st.threads child).children = [] := by
  by_contra hc
  unfold do_join at h
  split at h
  · exact Option.noConfusion h
  · rename_i hpar
    have hpar' : (st.threads child).parent = some thr := by simpa using hpar
    obtain ⟨_, _, kt⟩ := do_join_contexts_fields st thr child
    rw [vthread_reap_children_assert _ child (by rw [(kt child).1]; exact hc)
      (by rw [(kt child).2.2.2.2.2.1]; exact hs) (by rw [(kt child).2.2.2.2.2.2.1]; exact hw)
      (by rw [(kt child).2.1, hpar']; intro h'; exact hne (Option.some.inj h').symm)] at h
    exact Option.noConfusion h

/-! ## The invariants hold in every reachable state -/

theorem thread_inv_empty : thread_inv world_empty := by
  constructor <;> intros <;> simp_all [world_empty, no_thread]

theorem vthread_new_threads (st : vvp_world) (scope i : Nat) :
    (vthread_new st scope).threads i =
      if i = st.nthreads then
        { pc_null := false, i_am_joining := false, i_have_ended := false,
          waiting_for_event := false, is_scheduled := false, delay_delete := false,
          children := [], automatic_children := [], parent := none, parent_scope := scope,
          wait_next := none, wt_context := 0, rd_context := 0, deleted := false,
          del_scheduled := false }
      else st.threads i := rfl

theorem vthread_new_nthreads (st : vvp_world) (scope : Nat) :
    (vthread_new st scope).nthreads = st.nthreads + 1 := rfl

theorem thread_inv_new (st : vvp_world) (scope : Nat) (hi : thread_inv st) :
    thread_inv (vthread_new st scope) := by
  have hf := hi.fresh st.nthreads (Nat.le_refl _)
  refine
    { children_parent := fun t c => ?_
      ended_children := fun t => ?_
      joining_alive := fun t => ?_
      joining_children := fun t => ?_
      fresh := fun t ht => ?_
      order := fun t c => ?_ }
  · rw [vthread_new_threads, vthread_new_threads]
    by_cases ht : t = st.nthreads
    · subst ht
      rw [if_pos rfl]
      by_cases hc : c = st.nthreads
      · rw [if_pos hc]; simp
      · rw [if_neg hc]
        simp only [List.not_mem_nil, false_iff]
        intro hp
        have := (hi.children_parent _ _).mpr hp
        rw [hf.2] at this
        exact List.not_mem_nil _ this
    · rw [if_neg ht]
      by_cases hc : c = st.nthreads
      · subst hc
        rw [if_pos rfl]
        simp only [reduceCtorEq, iff_false]
        intro hmem
        have := (hi.children_parent _ _).mp hmem
        rw [hf.1] at this
        exact Option.noConfusion this
      · rw [if_neg hc]
        exact hi.children_parent t c
  · rw [vthread_new_threads]
    split
    · intro h; exact Bool.noConfusion h
    · exact hi.ended_children t
  · rw [vthread_new_threads]
    split
    · intro h; exact Bool.noConfusion h
    · exact hi.joining_alive t
  · rw [vthread_new_threads]
    split
    · intro h; exact Bool.noConfusion h
    · exact hi.joining_children t
  · rw [vthread_new_nthreads] at ht
    rw [vthread_new_threads, if_neg (by omega)]
    exact hi.fresh t (by omega)
  · rw [vthread_new_threads]
    split
    · intro h; exact absurd h (List.not_mem_nil _)
    · exact hi.order t c

theorem thread_inv_run (st st' : vvp_world) (thr : Nat) (hi : thread_inv st)
    (h : vthread_run_begin st thr = some st') : thread_inv st' := by
  unfold vthread_run_begin at h
  split at h
  · rw [← Option.some.inj h]
    constructor <;> intro t <;> simp only [modify_thread_threads, modify_thread_nthreads]
    · intro c
      have := hi.children_parent t c
      split_ifs <;> simp_all
    · have := hi.ended_children t
      split_ifs <;> simp_all
    · have := hi.joining_alive t
      split_ifs <;> simp_all
    · have := hi.joining_children t
      split_ifs <;> simp_all
    · have := hi.fresh t
      split_ifs <;> simp_all
    · intro c
      have := hi.order t c
      split_ifs <;> simp_all
  · exact Option.noConfusion h

/-- The fields of the state after `of_FORK` that the invariants read. -/
theorem of_FORK_fields (st : vvp_world) (thr : Nat) (scope : vpiScope) (hthr : thr < st.nthreads)
    (i : Nat) :
    ((of_FORK st thr scope).1.threads i).children =
      (if i = thr then set_insert st.nthreads (st.threads i).children
       else if i = st.nthreads then [] else (st.threads i).children) ∧
    ((of_FORK st thr scope).1.threads i).parent =
      (if i = st.nthreads then some thr else (st.threads i).parent) ∧
    ((of_FORK st thr scope).1.threads i).i_am_joining =
      (if i = st.nthreads then false else (st.threads i).i_am_joining) ∧
    ((of_FORK st thr scope).1.threads i).i_have_ended =
      (if i = st.nthreads then false else (st.threads i).i_have_ended) ∧
    ((of_FORK st thr scope).1.threads i).is_scheduled =
      (if i = st.nthreads then true else (st.threads i).is_scheduled) ∧
    ((of_FORK st thr scope).1.threads i).waiting_for_event =
      (if i = st.nthreads then false else (st.threads i).waiting_for_event) ∧
    (of_FORK st thr scope).1.nthreads = st.nthreads + 1 := by
  have hne : thr ≠ st.nthreads := by omega
  have hne' : st.nthreads ≠ thr := fun h => hne h.symm
  unfold of_FORK schedule_vthread
  by_cases ha : scope.is_automatic = true <;> by_cases hfn : scope.is_function = true <;>
    simp only [ha, hfn, if_true, if_false, Bool.false_eq_true, modify_thread_threads,
      modify_thread_nthreads, vthread_new_threads, vthread_new_nthreads, hne, hne'] <;>
    by_cases h1 : i = thr <;> by_cases h2 : i = st.nthreads <;>
    simp [h1, h2, hne, hne']

theorem thread_inv_fork (st : vvp_world) (thr : Nat) (scope : vpiScope) (hi : thread_inv st)
    (hd : dispatchable st thr) : thread_inv (of_FORK st thr scope).1 := by
  have hthr : thr < st.nthreads := hd.1
  have hne : thr ≠ st.nthreads := by omega
  have hf := hi.fresh st.nthreads (Nat.le_refl _)
  have fld := of_FORK_fields st thr scope hthr
  have hend : (st.threads thr).i_have_ended = false := hd.2.2.2.2.1
  refine
    { children_parent := fun t c => ?_
      ended_children := fun t => ?_
      joining_alive := fun t => ?_
      joining_children := fun t => ?_
      fresh := fun t ht => ?_
      order := fun t c => ?_ }
  · rw [(fld t).1, (fld c).2.1]
    by_cases hc : c = st.nthreads
    · subst hc
      rw [if_pos rfl]
      by_cases ht : t = thr
      · subst ht
        rw [if_pos rfl, mem_set_insert]
        simp
      · rw [if_neg ht]
        constructor
        · intro hmem
          exfalso
          split at hmem
          · exact List.not_mem_nil _ hmem
          · have := (hi.children_parent _ _).mp hmem
            rw [hf.1] at this
            exact Option.noConfusion this
        · intro h
          exact absurd (Option.some.inj h).symm ht
    · rw [if_neg hc]
      by_cases ht : t = thr
      · subst ht
        rw [if_pos rfl, mem_set_insert]
        constructor
        · rintro (h | h)
          · exact absurd h hc
          · exact (hi.children_parent _ _).mp h
        · intro h
          exact Or.inr ((hi.children_parent _ _).mpr h)
      · rw [if_neg ht]
        by_cases htn : t = st.nthreads
        · subst htn
          rw [if_pos rfl]
          simp only [List.not_mem_nil, false_iff]
          intro hp
          have := (hi.children_parent _ _).mpr hp
          rw [hf.2] at this
          exact List.not_mem_nil _ this
        · rw [if_neg htn]
          exact hi.children_parent t c
  · rw [(fld t).1, (fld t).2.2.2.1, (fld t).2.2.2.2.1, (fld t).2.2.2.2.2.1]
    by_cases htn : t = st.nthreads
    · rw [if_pos htn]
      intro h; exact Bool.noConfusion h
    · rw [if_neg htn, if_neg htn, if_neg htn, if_neg htn]
      by_cases ht : t = thr
      · subst ht
        intro he
        rw [hend] at he
        exact Bool.noConfusion he
      · rw [if_neg ht]
        exact hi.ended_children t
  · rw [(fld t).2.2.1, (fld t).2.2.2.1]
    split
    · intro h; exact Bool.noConfusion h
    · exact hi.joining_alive t
  · rw [(fld t).2.2.1, (fld t).1]
    by_cases htn : t = st.nthreads
    · rw [if_pos htn]
      intro h; exact Bool.noConfusion h
    · rw [if_neg htn, if_neg htn]
      by_cases ht : t = thr
      · subst ht
        rw [if_pos rfl]
        intro _ h0
        have : st.nthreads ∈ set_insert st.nthreads (st.threads t).children :=
          (mem_set_insert _ _ _).mpr (Or.inl rfl)
        rw [h0] at this
        exact List.not_mem_nil _ this
      · rw [if_neg ht]
        exact hi.joining_children t
  · rw [(fld t).2.2.2.2.2.2] at ht
    rw [(fld t).1, (fld t).2.1, if_neg (by omega), if_neg (by omega), if_neg (by omega)]
    exact hi.fresh t (by omega)
  · rw [(fld t).1]
    by_cases ht : t = thr
    · subst ht
      rw [if_pos rfl, mem_set_insert]
      rintro (h | h)
      · omega
      · exact hi.order _ _ h
    · rw [if_neg ht]
      split
      · intro h; exact absurd h (List.not_mem_nil _)
      · exact hi.order t c

theorem of_JOIN_find_some (st : vvp_world) (thr : Nat) (l : List Nat) (c : Nat)
    (h : of_JOIN_find st thr l = some c) :
    c ∈ l ∧ (st.threads c).i_have_ended = true ∧ test_joinable st thr c = true := by
  induction l with
  | nil => exact Option.noConfusion h
  | cons x xs ih =>
    unfold of_JOIN_find at h
    split at h
    · obtain ⟨h1, h2⟩ := ih h
      exact ⟨List.mem_cons_of_mem _ h1, h2⟩
    · split at h
      · obtain ⟨h1, h2⟩ := ih h
        exact ⟨List.mem_cons_of_mem _ h1, h2⟩
      · rename_i he hj
        have := Option.some.inj h
        subst this
        exact ⟨List.mem_cons_self _ _, by simpa using he, by simpa using hj⟩

theorem of_JOIN_find_none (st : vvp_world) (thr : Nat) (l : List Nat)
    (h : of_JOIN_find st thr l = none) :
    ∀ c ∈ l, ¬ ((st.threads c).i_have_ended = true ∧ test_joinable st thr c = true) := by
  induction l with
  | nil => intro c hc; exact absurd hc (List.not_mem_nil _)
  | cons x xs ih =>
    unfold of_JOIN_find at h
    intro c hc
    rcases List.mem_cons.mp hc with rfl | hc'
    · split at h
      · rename_i he
        intro hh
        rw [he] at hh
        exact Bool.noConfusion hh.1
      · split at h
        · rename_i hj
          intro hh
          rw [hj] at hh
          exact Bool.noConfusion hh.2
        · exact Option.noConfusion h
    · split at h
      · exact ih h c hc'
      · split at h
        · exact ih h c hc'
        · exact Option.noConfusion h

theorem test_joinable_iff (st : vvp_world) (thr c : Nat) :
    test_joinable st thr c = true ↔
      ((st.threads thr).automatic_children ≠ [] → c ∈ (st.threads thr).automatic_children) := by
  unfold test_joinable
  split
  · rename_i h
    simp only [Bool.false_eq_true, false_iff]
    intro h'
    exact h.2 (h' h.1)
  · rename_i h
    simp only [true_iff]
    intro hne
    by_contra hc
    exact h ⟨hne, hc⟩

/-- An assignment that keeps the children and the parent of the thread keeps
`c ∈ t.children ↔ c.parent = t`. -/
theorem children_parent_modify (st : vvp_world) (t : Nat) (f : vthread_s → vthread_s)
    (hc : (f (st.threads t)).children = (st.threads t).children)
    (hp : (f (st.threads t)).parent = (st.threads t).parent)
    (ha : ∀ a c, c ∈ (st.threads a).children ↔ (st.threads c).parent = some a) :
    ∀ a c, c ∈ ((modify_thread st t f).threads a).children ↔
      ((modify_thread st t f).threads c).parent = some a := by
  intro a c
  have := ha a c
  simp only [modify_thread_threads]
  split_ifs <;> simp_all

/-- The handler `of_JOIN` keeps the invariants. -/
theorem thread_inv_join (st : vvp_world) (thr : Nat) (r : vvp_world × Bool)
    (hi : thread_inv st) (hd : dispatchable st thr) (h : of_JOIN st thr = some r) :
    thread_inv r.1 := by
  unfold of_JOIN at h
  split at h
  · exact Option.noConfusion h
  · rename_i hj
    split at h
    · exact Option.noConfusion h
    · rename_i hne
      split at h
      · rename_i curp hfind
        obtain ⟨hmem, hend, _⟩ := of_JOIN_find_some st thr _ curp hfind
        split at h
        · exact Option.noConfusion h
        · rename_i st' hjoin
          rw [← Option.some.inj h]
          simp only
          have hcp : curp ≠ thr := by
            have := hi.order thr curp hmem
            omega
          have hchild : (st.threads curp).children = [] := by
            by_contra hc
            obtain ⟨hs, hw⟩ := hi.ended_children curp hend hc
            rw [do_join_childless st st' thr curp hs hw hcp hjoin] at hc
            exact hc rfl
          obtain ⟨hpar, heff, _⟩ := do_join_effect st st' thr curp hchild hjoin
          have hstep := reap_effect_step heff (fun p hp => by
            rw [hpar] at hp
            rw [← Option.some.inj hp]
            simpa using hj)
          exact thread_inv_of_step_rel hi hstep
            (reap_effect_children_parent heff hchild hi.children_parent)
      · rw [← Option.some.inj h]
        simp only
        have hend : (st.threads thr).i_have_ended = false := hd.2.2.2.2.1
        refine
          { children_parent := children_parent_modify st thr _ rfl rfl hi.children_parent
            ended_children := fun t => ?_
            joining_alive := fun t => ?_
            joining_children := fun t => ?_
            fresh := fun t ht => ?_
            order := fun t c => ?_ }
        · have := hi.ended_children t
          simp only [modify_thread_threads]
          split_ifs <;> simp_all
        · have := hi.joining_alive t
          simp only [modify_thread_threads]
          split_ifs <;> simp_all
        · have := hi.joining_children t
          simp only [modify_thread_threads]
          split_ifs <;> simp_all
        · have := hi.fresh t ht
          simp only [modify_thread_threads]
          split_ifs <;> simp_all
        · have := hi.order t c
          simp only [modify_thread_threads]
          split_ifs <;> simp_all

/-- An assignment to the flags of one thread keeps the invariants if it is a
step of `rec_rel` on the record. -/
theorem thread_inv_modify (st : vvp_world) (t : Nat) (f : vthread_s → vthread_s)
    (hi : thread_inv st) (hr : rec_rel (st.threads t) (f (st.threads t)))
    (hc : (f (st.threads t)).children = (st.threads t).children)
    (hp : (f (st.threads t)).parent = (st.threads t).parent) :
    thread_inv (modify_thread st t f) :=
  thread_inv_of_step_rel hi (step_rel_modify st t f hr)
    (children_parent_modify st t f hc hp hi.children_parent)

theorem thread_inv_reap (st st' : vvp_world) (thr : Nat) (hi : thread_inv st)
    (heff : reap_effect st thr st') (hc : (st.threads thr).children = [])
    (hj : ∀ p, (st.threads thr).parent = some p → (st.threads p).i_am_joining = false) :
    thread_inv st' :=
  thread_inv_of_step_rel hi (reap_effect_step heff hj)
    (reap_effect_children_parent heff hc hi.children_parent)

/-- The handler `of_END` keeps the invariants. -/
theorem thread_inv_end (st : vvp_world) (thr : Nat) (r : vvp_world × Bool)
    (hi : thread_inv st) (hd : dispatchable st thr) (h : of_END st thr = some r) :
    thread_inv r.1 := by
  obtain ⟨_, _, _, _, hend, hsch, hwait, hjoin⟩ := hd
  have hia : thread_inv (modify_thread st thr
      (fun r => { r with i_have_ended := true, pc_null := true })) := by
    apply thread_inv_modify st thr _ hi _ rfl rfl
    constructor <;> simp_all
  unfold of_END at h
  split at h
  · exact Option.noConfusion h
  · simp only at h
    generalize hsa : modify_thread st thr
      (fun r => { r with i_have_ended := true, pc_null := true }) = sa at h hia
    have hsame : ∀ i, (sa.threads i).parent = (st.threads i).parent ∧
        (sa.threads i).children = (st.threads i).children ∧
        (sa.threads i).is_scheduled = (st.threads i).is_scheduled ∧
        (sa.threads i).waiting_for_event = (st.threads i).waiting_for_event ∧
        (sa.threads i).i_am_joining = (st.threads i).i_am_joining := by
      intro i
      rw [← hsa]
      simp only [modify_thread_threads]
      split_ifs <;> simp_all
    split at h
    · rename_i tmp hpar
      have hne : thr ≠ tmp := by
        intro he
        apply no_self_parent sa hia thr
        rw [hpar, he]
      split at h
      · rename_i hjt
        split at h
        · rw [← Option.some.inj h]
          exact hia
        · split at h
          · exact Option.noConfusion h
          · rename_i st' hdj
            rw [← Option.some.inj h]
            simp only
            have hib : thread_inv (modify_thread sa tmp
                (fun r => { r with i_am_joining := false })) := by
              apply thread_inv_modify sa tmp _ hia _ rfl rfl
              constructor <;> simp_all
            have hic : thread_inv (schedule_vthread (modify_thread sa tmp
                (fun r => { r with i_am_joining := false })) tmp) := by
              unfold schedule_vthread
              apply thread_inv_modify _ tmp _ hib _ rfl rfl
              have he := hia.joining_alive tmp hjt
              constructor <;> simp_all
            generalize hsc : schedule_vthread (modify_thread sa tmp
                (fun r => { r with i_am_joining := false })) tmp = sc at hdj hic
            have hscf : ∀ i, (sc.threads i).parent = (sa.threads i).parent ∧
                (sc.threads i).children = (sa.threads i).children ∧
                (sc.threads i).waiting_for_event = (sa.threads i).waiting_for_event ∧
                (i ≠ tmp → (sc.threads i).is_scheduled = (sa.threads i).is_scheduled) ∧
                (i = tmp → (sc.threads i).i_am_joining = false) := by
              intro i
              rw [← hsc]
              unfold schedule_vthread
              simp only [modify_thread_threads]
              split_ifs <;> simp_all
            have hchild : (sc.threads thr).children = [] := by
              apply do_join_childless sc st' tmp thr _ _ hne hdj
              · rw [(hscf thr).2.2.2.1 hne, (hsame thr).2.2.1]; exact hsch
              · rw [(hscf thr).2.2.1, (hsame thr).2.2.2.1]; exact hwait
            obtain ⟨hpar', heff, _⟩ := do_join_effect sc st' tmp thr hchild hdj
            apply thread_inv_reap sc st' thr hic heff hchild
            intro p hp
            rw [hpar'] at hp
            rw [← Option.some.inj hp]
            exact (hscf tmp).2.2.2.2 rfl
      · rw [← Option.some.inj h]
        exact hia
    · rename_i hpar
      split at h
      · exact Option.noConfusion h
      · rename_i hch
        split at h
        · exact Option.noConfusion h
        · rename_i st' hreap
          rw [← Option.some.inj h]
          simp only
          have hchild : (sa.threads thr).children = [] := by simpa using hch
          apply thread_inv_reap sa st' thr hia (vthread_reap_effect sa st' thr hchild hreap) hchild
          intro p hp
          rw [hpar] at hp
          exact Option.noConfusion hp

/-- Taking the thread `x` out of the children of its parent and clearing
its parent keeps `c ∈ t.children ↔ c.parent = t`. -/
theorem children_parent_detach {st st' : vvp_world} {x : Nat}
    (hce : ∀ i, (st'.threads i).children =
      if (st.threads x).parent = some i then set_erase x (st.threads i).children
      else (st.threads i).children)
    (hpe : ∀ i, (st'.threads i).parent = if i = x then none else (st.threads i).parent)
    (ha : ∀ t c, c ∈ (st.threads t).children ↔ (st.threads c).parent = some t) :
    ∀ t c, c ∈ (st'.threads t).children ↔ (st'.threads c).parent = some t := by
  intro t c
  rw [hce, hpe]
  by_cases hct : c = x
  · subst hct
    rw [if_pos rfl]
    constructor
    · intro hmem
      exfalso
      split at hmem
      · exact ((mem_set_erase _ _ _).mp hmem).2 rfl
      · rename_i hne
        exact hne ((ha t c).mp hmem)
    · intro hn
      exact Option.noConfusion hn
  · rw [if_neg hct]
    split
    · rw [mem_set_erase]
      constructor
      · intro hm; exact (ha t c).mp hm.1
      · intro hp; exact ⟨(ha t c).mpr hp, hct⟩
    · exact ha t c

/-- The loop of `of_JOIN_DETACH` keeps the invariants. -/
theorem thread_inv_join_detach_loop (thr : Nat) (fuel : Nat) :
    ∀ st st' : vvp_world, thread_inv st → (st.threads thr).i_am_joining = false →
      of_JOIN_DETACH_loop fuel st thr = some st' → thread_inv st' := by
  induction fuel with
  | zero =>
    intro st st' hi _ h
    unfold of_JOIN_DETACH_loop at h
    split at h
    · rw [← Option.some.inj h]; exact hi
    · exact Option.noConfusion h
  | succ fuel ih =>
    intro st st' hi hj h
    unfold of_JOIN_DETACH_loop at h
    split at h
    · rw [← Option.some.inj h]; exact hi
    · rename_i child rest hch
      have hmem : child ∈ (st.threads thr).children := by rw [hch]; exact List.mem_cons_self _ _
      have hne : child ≠ thr := by
        have := hi.order thr child hmem
        omega
      have hpar : (st.threads child).parent = some thr := (hi.children_parent _ _).mp hmem
      split at h
      · exact Option.noConfusion h
      · split at h
        · exact Option.noConfusion h
        · split at h
          · rename_i hend
            split at h
            · exact Option.noConfusion h
            · rename_i st1 hreap
              have hchild := dead_children st hi child hend st1 hreap
              have heff := vthread_reap_effect st st1 child hchild hreap
              have hi1 := thread_inv_reap st st1 child hi heff hchild (fun p hp => by
                rw [hpar] at hp
                rw [← Option.some.inj hp]
                exact hj)
              exact ih st1 st' hi1 (by rw [heff.joining_eq]; exact hj) h
          · have hce : ∀ i, ((modify_thread
                (modify_thread st thr (fun r => { r with children := set_erase child r.children }))
                child (fun r => { r with parent := none })).threads i).children =
                if (st.threads child).parent = some i then set_erase child (st.threads i).children
                else (st.threads i).children := by
              intro i
              rw [hpar]
              simp only [modify_thread_threads]
              by_cases h1 : i = child
              · subst h1
                simp [hne, Ne.symm hne]
              · by_cases h2 : i = thr
                · subst h2; simp [h1]
                · simp [h1, h2, Ne.symm h2]
            have hpe : ∀ i, ((modify_thread
                (modify_thread st thr (fun r => { r with children := set_erase child r.children }))
                child (fun r => { r with parent := none })).threads i).parent =
                if i = child then none else (st.threads i).parent := by
              intro i
              simp only [modify_thread_threads]
              split_ifs <;> simp_all
            have hs1 : step_rel st (modify_thread st thr
                (fun r => { r with children := set_erase child r.children })) := by
              apply step_rel_modify
              constructor <;> simp_all [mem_set_erase]
            have hs2 : step_rel (modify_thread st thr
                (fun r => { r with children := set_erase child r.children }))
                (modify_thread
                  (modify_thread st thr
                    (fun r => { r with children := set_erase child r.children }))
                  child (fun r => { r with parent := none })) := by
              apply step_rel_modify
              constructor <;> simp_all
            have hi1 := thread_inv_of_step_rel hi (step_rel_trans hs1 hs2)
              (children_parent_detach hce hpe hi.children_parent)
            refine ih _ st' hi1 ?_ h
            simp only [modify_thread_threads]
            split_ifs <;> simp_all

/-- The handler `of_JOIN_DETACH` keeps the invariants. -/
theorem thread_inv_join_detach (fuel : Nat) (st : vvp_world) (thr count : Nat)
    (r : vvp_world × Bool) (hi : thread_inv st) (hd : dispatchable st thr)
    (h : of_JOIN_DETACH fuel st thr count = some r) : thread_inv r.1 := by
  unfold of_JOIN_DETACH at h
  split at h
  · exact Option.noConfusion h
  · split at h
    · exact Option.noConfusion h
    · split at h
      · exact Option.noConfusion h
      · rename_i st' hloop
        rw [← Option.some.inj h]
        exact thread_inv_join_detach_loop thr fuel st st' hi hd.2.2.2.2.2.2.2 hloop

/-! ## The function `do_disable` -/

theorem step_rel_record {st st' : vvp_world} (h : step_rel st st') (t : Nat) :
    rec_rel (st.threads t) (st'.threads t) :=
  { children_sub := h.children_sub t
    parent_sub := h.parent_sub t
    joining_sub := h.joining_sub t
    ended_mono := h.ended_mono t
    pc_mono := h.pc_mono t
    newly_ended := h.newly_ended t
    scheduled := h.scheduled t
    waiting_eq := h.waiting_eq t
    parent_scope_eq := h.parent_scope_eq t }

theorem joining_children_step {st st' : vvp_world} (h : step_rel st st')
    (hg : ∀ t, (st.threads t).i_am_joining = true → (st.threads t).children ≠ []) :
    ∀ t, (st'.threads t).i_am_joining = true → (st'.threads t).children ≠ [] := by
  intro t hj
  obtain ⟨hj0, hc⟩ := h.joining_sub t hj
  rw [hc]
  exact hg t hj0

theorem not_joining_step {st st' : vvp_world} (h : step_rel st st') (t : Nat)
    (hj : (st.threads t).i_am_joining = false) : (st'.threads t).i_am_joining = false := by
  by_contra hc
  have := (h.joining_sub t (by simpa using hc)).1
  rw [hj] at this
  exact Bool.noConfusion this

theorem no_children_step {st st' : vvp_world} (h : step_rel st st') (t : Nat)
    (hc : (st.threads t).children = []) : (st'.threads t).children = [] := by
  apply List.eq_nil_iff_forall_not_mem.mpr
  intro c hmem
  have := h.children_sub t c hmem
  rw [hc] at this
  exact List.not_mem_nil _ this

theorem do_disable_enter (fuel : Nat) (st : vvp_world) (thr mtch : Nat) (flag : Bool) :
    do_disable (fuel + 1) st thr mtch false flag =
      do_disable fuel
        (modify_thread (scope_erase st (st.threads thr).parent_scope thr) thr
          (fun r => { r with pc_null := true, i_have_ended := true })) thr mtch true false := rfl

theorem do_disable_loop_eq (fuel : Nat) (st : vvp_world) (thr mtch : Nat) (flag : Bool) :
    do_disable (fuel + 1) st thr mtch true flag =
      match (st.threads thr).children with
      | tmp :: _ =>
        if (st.threads tmp).parent ≠ some thr then none
        else
          let st1 := modify_thread st thr (fun r => { r with i_am_joining := false })
          match do_disable fuel st1 tmp mtch false false with
          | none => none
          | some (st2, r) =>
            match vthread_reap st2 tmp with
            | none => none
            | some st3 => do_disable fuel st3 thr mtch true (flag || r)
      | [] =>
        match (st.threads thr).parent with
        | some parent =>
          if (st.threads parent).i_am_joining = true then
            let st1 := modify_thread st parent (fun r => { r with i_am_joining := false })
            let st2 := if (st1.threads parent).i_have_ended = false
              then schedule_vthread st1 parent else st1
            match vthread_reap st2 thr with
            | none => none
            | some st3 => some (st3, flag || decide (thr = mtch))
          else some (st, flag || decide (thr = mtch))
        | none =>
          match vthread_reap st thr with
          | none => none
          | some st1 => some (st1, flag || decide (thr = mtch)) := rfl

theorem disable_enter_fields (st : vvp_world) (thr i : Nat) :
    ((modify_thread (scope_erase st (st.threads thr).parent_scope thr) thr
      (fun r => { r with pc_null := true, i_have_ended := true })).threads i).children
      = (st.threads i).children ∧
    ((modify_thread (scope_erase st (st.threads thr).parent_scope thr) thr
      (fun r => { r with pc_null := true, i_have_ended := true })).threads i).parent
      = (st.threads i).parent ∧
    ((modify_thread (scope_erase st (st.threads thr).parent_scope thr) thr
      (fun r => { r with pc_null := true, i_have_ended := true })).threads i).i_am_joining
      = (st.threads i).i_am_joining ∧
    ((modify_thread (scope_erase st (st.threads thr).parent_scope thr) thr
      (fun r => { r with pc_null := true, i_have_ended := true })).threads i).waiting_for_event
      = (st.threads i).waiting_for_event ∧
    ((modify_thread (scope_erase st (st.threads thr).parent_scope thr) thr
      (fun r => { r with pc_null := true, i_have_ended := true })).threads i).parent_scope
      = (st.threads i).parent_scope ∧
    ((modify_thread (scope_erase st (st.threads thr).parent_scope thr) thr
      (fun r => { r with pc_null := true, i_have_ended := true })).threads i).is_scheduled
      = (st.threads i).is_scheduled ∧
    (i ≠ thr → (modify_thread (scope_erase st (st.threads thr).parent_scope thr) thr
      (fun r => { r with pc_null := true, i_have_ended := true })).threads i = st.threads i) := by
  simp only [modify_thread_threads, scope_erase_threads]
  split_ifs <;> simp_all

theorem step_rel_clear_joining (st : vvp_world) (t : Nat) :
    step_rel st (modify_thread st t (fun r => { r with i_am_joining := false })) := by
  apply step_rel_modify
  constructor <;> simp_all

theorem step_rel_schedule (st : vvp_world) (t : Nat)
    (he : (st.threads t).i_have_ended = false) : step_rel st (schedule_vthread st t) := by
  unfold schedule_vthread
  apply step_rel_modify
  constructor <;> simp_all

theorem children_parent_schedule (st : vvp_world) (t : Nat)
    (ha : ∀ a c, c ∈ (st.threads a).children ↔ (st.threads c).parent = some a) :
    ∀ a c, c ∈ ((schedule_vthread st t).threads a).children ↔
      ((schedule_vthread st t).threads c).parent = some a :=
  children_parent_modify st t _ rfl rfl ha

theorem clear_joining_parent (st : vvp_world) (t i : Nat) :
    ((modify_thread st t (fun r => { r with i_am_joining := false })).threads i).parent
      = (st.threads i).parent := by
  simp only [modify_thread_threads]
  split_ifs <;> simp_all

theorem clear_joining_self (st : vvp_world) (t : Nat) :
    ((modify_thread st t (fun r => { r with i_am_joining := false })).threads t).i_am_joining
      = false := by
  simp

/-- The function `do_disable` keeps `c ∈ t.children ↔ c.parent = t`, is a step
of `step_rel`, and leaves the thread ended, out of any `%join` and without
children. -/
theorem do_disable_inv (fuel : Nat) :
    ∀ (st : vvp_world) (thr mtch : Nat) (entered flag : Bool) (st' : vvp_world) (r : Bool),
      do_disable fuel st thr mtch entered flag = some (st', r) →
      (∀ t c, c ∈ (st.threads t).children ↔ (st.threads c).parent = some t) →
      (∀ t, (st.threads t).i_am_joining = true → (st.threads t).children ≠ []) →
      (entered = true → (st.threads thr).i_have_ended = true) →
      (∀ t c, c ∈ (st'.threads t).children ↔ (st'.threads c).parent = some t) ∧
      step_rel st st' ∧ (st'.threads thr).children = [] ∧
      (st'.threads thr).i_am_joining = false ∧ (st'.threads thr).i_have_ended = true := by
  induction fuel with
  | zero =>
    intro st thr mtch entered flag st' r h
    exact Option.noConfusion h
  | succ fuel ih =>
    intro st thr mtch entered flag st' r h ha hg hent
    cases entered with
    | false =>
      rw [do_disable_enter] at h
      generalize hs2 : modify_thread (scope_erase st (st.threads thr).parent_scope thr) thr
        (fun r => { r with pc_null := true, i_have_ended := true }) = s2 at h
      have hf : ∀ i, (s2.threads i).children = (st.threads i).children ∧
          (s2.threads i).parent = (st.threads i).parent ∧
          (s2.threads i).i_am_joining = (st.threads i).i_am_joining ∧
          (s2.threads i).waiting_for_event = (st.threads i).waiting_for_event ∧
          (s2.threads i).parent_scope = (st.threads i).parent_scope ∧
          (s2.threads i).is_scheduled = (st.threads i).is_scheduled ∧
          (i ≠ thr → s2.threads i = st.threads i) := by
        intro i
        rw [← hs2]
        exact disable_enter_fields st thr i
      have he2 : (s2.threads thr).i_have_ended = true ∧ (s2.threads thr).pc_null = true := by
        rw [← hs2]
        simp only [modify_thread_threads, if_true, and_self]
      have hsc : ∀ s t, t ∈ s2.scope_threads s → t ∈ st.scope_threads s := by
        intro s t ht
        rw [← hs2] at ht
        simp only [modify_thread_scope, scope_erase_scope] at ht
        split at ht
        · exact ((mem_set_erase _ _ _).mp ht).1
        · exact ht
      have hn2 : s2.nthreads = st.nthreads := by rw [← hs2]; rfl
      have ha2 : ∀ t c, c ∈ (s2.threads t).children ↔ (s2.threads c).parent = some t := by
        intro t c
        rw [(hf t).1, (hf c).2.1]
        exact ha t c
      have hg2 : ∀ t, (s2.threads t).i_am_joining = true → (s2.threads t).children ≠ [] := by
        intro t
        rw [(hf t).2.2.1, (hf t).1]
        exact hg t
      obtain ⟨ha', hstep, hc', hj', he'⟩ := ih s2 thr mtch true false st' r h ha2 hg2
        (fun _ => he2.1)
      refine ⟨ha', ?_, hc', hj', he'⟩
      refine @step_rel_of_records st st' (by rw [hstep.nthreads_eq, hn2])
        (fun s t ht => hsc s t (hstep.scope_sub s t ht)) ?_
      intro t
      by_cases ht : t = thr
      · subst ht
        have hr := step_rel_record hstep t
        exact
          { children_sub := fun c hc => by rw [hc'] at hc; exact absurd hc (List.not_mem_nil _)
            parent_sub := fun p hp => by rw [← (hf t).2.1]; exact hr.parent_sub p hp
            joining_sub := fun hjo => by rw [hj'] at hjo; exact Bool.noConfusion hjo
            ended_mono := fun _ => he'
            pc_mono := fun _ => hr.pc_mono he2.2
            newly_ended := fun _ => Or.inr ⟨hj', Or.inl hc'⟩
            scheduled := fun _ => Or.inr (Or.inr hc')
            waiting_eq := by rw [hr.waiting_eq, (hf t).2.2.2.1]
            parent_scope_eq := by rw [hr.parent_scope_eq, (hf t).2.2.2.2.1] }
      · rw [← (hf t).2.2.2.2.2.2 ht]
        exact step_rel_record hstep t
    | true =>
      have hend := hent rfl
      rw [do_disable_loop_eq] at h
      split at h
      · rename_i tmp rest hch
        have hmem : tmp ∈ (st.threads thr).children := by rw [hch]; exact List.mem_cons_self _ _
        have hpar : (st.threads tmp).parent = some thr := (ha _ _).mp hmem
        split at h
        · exact Option.noConfusion h
        · simp only at h
          generalize hs1 : modify_thread st thr (fun r => { r with i_am_joining := false }) = s1
            at h
          have hstep1 : step_rel st s1 := by
            rw [← hs1]
            exact step_rel_clear_joining st thr
          have ha1 : ∀ t c, c ∈ (s1.threads t).children ↔ (s1.threads c).parent = some t := by
            rw [← hs1]
            exact children_parent_modify st thr _ rfl rfl ha
          have hj1 : (s1.threads thr).i_am_joining = false := by
            rw [← hs1]
            exact clear_joining_self st thr
          have hpar1 : (s1.threads tmp).parent = some thr := by
            rw [← hs1, clear_joining_parent]
            exact hpar
          have hg1 := joining_children_step hstep1 hg
          split at h
          · exact Option.noConfusion h
          · rename_i s2 r2 hrec
            obtain ⟨ha2, hstep2, hc2, _, _⟩ := ih s1 tmp mtch false false s2 r2 hrec ha1 hg1
              (fun hf => Bool.noConfusion hf)
            split at h
            · exact Option.noConfusion h
            · rename_i s3 hreap
              have heff := vthread_reap_effect s2 s3 tmp hc2 hreap
              have hstep3 : step_rel s2 s3 := by
                apply reap_effect_step heff
                intro p hp
                have := hstep2.parent_sub tmp p hp
                rw [hpar1] at this
                rw [← Option.some.inj this]
                exact not_joining_step hstep2 thr hj1
              have ha3 := reap_effect_children_parent heff hc2 ha2
              have hst3 := step_rel_trans hstep1 (step_rel_trans hstep2 hstep3)
              obtain ⟨ha', hstep', post⟩ := ih s3 thr mtch true (flag || r2) st' r h ha3
                (joining_children_step hst3 hg) (fun _ => hst3.ended_mono thr hend)
              exact ⟨ha', step_rel_trans hst3 hstep', post⟩
      · rename_i hch
        have hjf : (st.threads thr).i_am_joining = false := by
          by_contra hc
          exact hg thr (by simpa using hc) hch
        split at h
        · rename_i parent hpar
          split at h
          · rename_i hjp
            simp only at h
            generalize hs1 : modify_thread st parent (fun r => { r with i_am_joining := false })
              = s1 at h
            have hstep1 : step_rel st s1 := by
              rw [← hs1]
              exact step_rel_clear_joining st parent
            have ha1 : ∀ t c, c ∈ (s1.threads t).children ↔ (s1.threads c).parent = some t := by
              rw [← hs1]
              exact children_parent_modify st parent _ rfl rfl ha
            have hjp1 : (s1.threads parent).i_am_joining = false := by
              rw [← hs1]
              exact clear_joining_self st parent
            generalize hs2 : (if (s1.threads parent).i_have_ended = false
              then schedule_vthread s1 parent else s1) = s2 at h
            have hstep2 : step_rel s1 s2 := by
              rw [← hs2]
              split
              · rename_i hne
                exact step_rel_schedule s1 parent hne
              · exact step_rel_refl s1
            have ha2 : ∀ t c, c ∈ (s2.threads t).children ↔ (s2.threads c).parent = some t := by
              rw [← hs2]
              split
              · exact children_parent_schedule s1 parent ha1
              · exact ha1
            have hst2 := step_rel_trans hstep1 hstep2
            split at h
            · exact Option.noConfusion h
            · rename_i s3 hreap
              have hc2 : (s2.threads thr).children = [] := no_children_step hst2 thr hch
              have heff := vthread_reap_effect s2 s3 thr hc2 hreap
              have hstep3 : step_rel s2 s3 := by
                apply reap_effect_step heff
                intro p hp
                have := hst2.parent_sub thr p hp
                rw [hpar] at this
                rw [← Option.some.inj this]
                exact not_joining_step hstep2 parent hjp1
              have hst3 := step_rel_trans hst2 hstep3
              have hres := Option.some.inj h
              simp only [Prod.mk.injEq] at hres
              rw [← hres.1]
              exact ⟨reap_effect_children_parent heff hc2 ha2, hst3,
                no_children_step hst3 thr hch, not_joining_step hst3 thr hjf,
                hst3.ended_mono thr hend⟩
          · have hres := Option.some.inj h
            simp only [Prod.mk.injEq] at hres
            rw [← hres.1]
            exact ⟨ha, step_rel_refl st, hch, hjf, hend⟩
        · rename_i hpar
          split at h
          · exact Option.noConfusion h
          · rename_i s1 hreap
            have heff := vthread_reap_effect st s1 thr hch hreap
            have hstep : step_rel st s1 := by
              apply reap_effect_step heff
              intro p hp
              rw [hpar] at hp
              exact Option.noConfusion hp
            have hres := Option.some.inj h
            simp only [Prod.mk.injEq] at hres
            rw [← hres.1]
            exact ⟨reap_effect_children_parent heff hch ha, hstep,
              no_children_step hstep thr hch, not_joining_step hstep thr hjf,
              hstep.ended_mono thr hend⟩

theorem thread_inv_do_disable (fuel : Nat) (st : vvp_world) (thr mtch : Nat) (st' : vvp_world)
    (r : Bool) (hi : thread_inv st)
    (h : do_disable fuel st thr mtch false false = some (st', r)) : thread_inv st' := by
  obtain ⟨ha, hstep, _⟩ := do_disable_inv fuel st thr mtch false false st' r h
    hi.children_parent hi.joining_children (fun hf => Bool.noConfusion hf)
  exact thread_inv_of_step_rel hi hstep ha

theorem thread_inv_disable_loop (fuel thr scope : Nat) (n : Nat) :
    ∀ (st : vvp_world) (flag : Bool) (r : vvp_world × Bool), thread_inv st →
      of_DISABLE_loop n fuel st thr scope flag = some r → thread_inv r.1 := by
  induction n with
  | zero =>
    intro st flag r hi h
    unfold of_DISABLE_loop at h
    split at h
    · rw [← Option.some.inj h]; exact hi
    · exact Option.noConfusion h
  | succ n ih =>
    intro st flag r hi h
    unfold of_DISABLE_loop at h
    split at h
    · rw [← Option.some.inj h]; exact hi
    · simp only at h
      split at h
      · exact Option.noConfusion h
      · rename_i st' r' hdd
        exact ih st' _ r (thread_inv_do_disable fuel st _ thr st' r' hi hdd) h

/-- The invariants of the thread tree hold in every reachable state. -/
theorem reachable_inv (st : vvp_world) (h : Reachable st) : thread_inv st := by
  induction h with
  | empty => exact thread_inv_empty
  | new st scope _ ih => exact thread_inv_new st scope ih
  | run st thr st' _ hrun ih => exact thread_inv_run st st' thr ih hrun
  | fork st thr scope _ hd ih => exact thread_inv_fork st thr scope ih hd
  | join st thr r _ hd hj ih => exact thread_inv_join st thr r ih hd hj
  | join_detach fuel st thr count r _ hd hj ih =>
    exact thread_inv_join_detach fuel st thr count r ih hd hj
  | ended st thr r _ hd he ih => exact thread_inv_end st thr r ih hd he
  | disable n fuel st thr scope r _ _ hdis ih =>
    exact thread_inv_disable_loop fuel thr scope n st false r ih hdis

theorem some_getD {α : Type} (o : Option α) (d : α) (h : o.isSome = true) :
    o = some (o.getD d) := by
  cases o with
  | none => exact Bool.noConfusion h
  | some x => rfl

theorem reachable_tree1 : Reachable tree1 :=
  Reachable.fork tree0 0 ⟨0, false, false⟩ (Reachable.new world_empty 0 Reachable.empty)
    (by decide)

theorem reachable_tree2 : Reachable tree2 :=
  Reachable.run tree1 1 tree2 reachable_tree1 (some_getD _ _ (by decide))

theorem reachable_tree3 : Reachable tree3 :=
  Reachable.ended tree2 1 _ reachable_tree2 (by decide) (some_getD _ (tree2, true) (by decide))

theorem reachable_tree4 : Reachable tree4 :=
  Reachable.join tree3 0 _ reachable_tree3 (by decide) (some_getD _ (tree3, false) (by decide))

theorem reachable_auto1 : Reachable auto1 :=
  Reachable.fork _ 0 ⟨1, true, false⟩
    (Reachable.new _ 0 (Reachable.new world_empty 0 Reachable.empty)) (by decide)

theorem reachable_auto2 : Reachable auto2 :=
  Reachable.join auto1 0 _ reachable_auto1 (by decide) (some_getD _ (auto1, true) (by decide))

theorem reachable_auto3 : Reachable auto3 :=
  Reachable.disable 2 4 auto2 1 1 _ reachable_auto2 (by decide)
    (some_getD _ (auto2, true) (by decide))

/-- C16: in every state that `of_FORK`, `of_JOIN`, `of_JOIN_DETACH`, `of_END`
and `of_DISABLE` reach from freshly created threads (each handler run on a
thread that `vthread_run` dispatches, and without a failed `assert`), `c` is
in `t.children` iff `c.parent == t`, for all threads `t` and `c`. In these
states `vthread_reap` never hands children over: a thread that has ended
with children is neither scheduled nor waiting, so reaping it fails
`assert(thr->children.empty())`. -/
theorem C16_children_iff_parent (st : vvp_world) (h : Reachable st) (t c : Nat) :
    c ∈ (st.threads t).children ↔ (st.threads c).parent = some t :=
  (reachable_inv st h).children_parent t c

/-- C16 in the state where thread 0 has forked thread 1 and thread 1 has
ended: 1 is a child of 0, and 0 is the parent of 1. -/
theorem C16_children_iff_parent_witness :
    Reachable tree3 ∧
    (1 ∈ (tree3.threads 0).children ↔ (tree3.threads 1).parent = some 0) ∧
    (tree3.threads 0).children = [1] ∧ (tree3.threads 1).parent = some 0 :=
  ⟨reachable_tree3, C16_children_iff_parent tree3 reachable_tree3 0 1, by decide, by decide⟩

/-- C17 (failing input): thread 0 forks thread 2 into an automatic scope and
waits in `%join`; thread 1 then disables that scope. `do_disable` finds the
parent joining and calls `vthread_reap` on thread 2, which takes it out of
`children` of thread 0 but leaves it in `automatic_children`. -/
theorem C17_disable_leaves_automatic_child :
    Reachable auto3 ∧ (auto2.threads 0).i_am_joining = true ∧
    (auto2.threads 0).children = [2] ∧ (auto2.threads 0).automatic_children = [2] ∧
    (auto3.threads 0).children = [] ∧ (auto3.threads 0).automatic_children = [2] ∧
    ¬ (∀ c, c ∈ (auto3.threads 0).automatic_children → c ∈ (auto3.threads 0).children) :=
  ⟨reachable_auto3, by decide, by decide, by decide, by decide, by decide, by decide⟩

/-! ## The handlers `of_JOIN` and `of_JOIN_DETACH` -/

theorem vthread_reap_core_children (st : vvp_world) (x i : Nat) :
    ((vthread_reap_core st x).threads i).children =
      if (st.threads x).parent = some i then set_erase x (st.threads i).children
      else (st.threads i).children := by
  cases hp : (st.threads x).parent with
  | none =>
    simp only [vthread_reap_core, hp, modify_thread_threads, scope_erase_threads]
    split_ifs <;> simp_all
  | some p =>
    simp only [vthread_reap_core, hp, modify_thread_threads, scope_erase_threads]
    split_ifs <;> simp_all

theorem vthread_reap_core_parent (st : vvp_world) (x i : Nat) :
    ((vthread_reap_core st x).threads i).parent =
      if i = x then none else (st.threads i).parent := by
  cases hp : (st.threads x).parent with
  | none =>
    simp only [vthread_reap_core, hp, modify_thread_threads, scope_erase_threads]
    split_ifs <;> simp_all
  | some p =>
    simp only [vthread_reap_core, hp, modify_thread_threads, scope_erase_threads]
    split_ifs <;> simp_all

/-- The last step of `vthread_reap` changes marks only. -/
theorem vthread_reap_stages (st st' : vvp_world) (x : Nat) (h : vthread_reap st x = some st') :
    ∃ st1 f, vthread_reap_children x (st.threads x).parent (st.threads x).children st = some st1 ∧
      only_marks f ∧ st' = modify_thread (vthread_reap_core st1 x) x f := by
  unfold vthread_reap at h
  split at h
  · exact Option.noConfusion h
  · rename_i st1 h1
    refine ⟨st1, ?_⟩
    simp only at h
    split at h
    · split at h
      · exact Option.noConfusion h
      · split at h
        · exact Option.noConfusion h
        · split at h
          · exact ⟨fun r => { r with del_scheduled := true },
              h1, fun r => ⟨r.deleted, true, rfl⟩, (Option.some.inj h).symm⟩
          · exact ⟨fun r => { r with deleted := true },
              h1, fun r => ⟨true, r.del_scheduled, rfl⟩, (Option.some.inj h).symm⟩
    · exact ⟨id, h1, fun r => ⟨r.deleted, r.del_scheduled, rfl⟩,
        by rw [← Option.some.inj h, modify_thread_id]⟩

/-- After `vthread_reap`, the thread has left the children of its parent and
has no parent; no other set of children has changed. -/
theorem vthread_reap_children_eq (st st' : vvp_world) (x : Nat)
    (h : vthread_reap st x = some st') :
    (∀ i, (st'.threads i).children =
      if (st.threads x).parent = some i then set_erase x (st.threads i).children
      else (st.threads i).children) ∧ (st'.threads x).parent = none := by
  obtain ⟨st1, f, h1, hf, rfl⟩ := vthread_reap_stages st st' x h
  have hm := only_marks_fields f hf
  have fl := vthread_reap_children_fields _ _ _ _ _ h1
  have hp : (st1.threads x).parent = (st.threads x).parent := by
    rcases (fl x).2.2.2 with h | h <;> exact h
  constructor
  · intro i
    rw [modify_thread_threads]
    split
    · subst_vars
      rw [(hm _).1, vthread_reap_core_children, hp, (fl _).1]
    · rw [vthread_reap_core_children, hp, (fl i).1]
  · rw [modify_thread_threads, if_pos rfl, (hm _).2.1, vthread_reap_core_parent, if_pos rfl]

theorem do_join_children_eq (st st' : vvp_world) (thr c : Nat)
    (h : do_join st thr c = some st') :
    (st.threads c).parent = some thr ∧
    (st'.threads thr).children = set_erase c (st.threads thr).children ∧
    (st'.threads c).parent = none := by
  unfold do_join at h
  split at h
  · exact Option.noConfusion h
  · rename_i hpar
    have hpar' : (st.threads c).parent = some thr := by simpa using hpar
    obtain ⟨_, _, kt⟩ := do_join_contexts_fields st thr c
    obtain ⟨hch, hp⟩ := vthread_reap_children_eq _ st' c h
    refine ⟨hpar', ?_, hp⟩
    rw [hch thr, (kt c).2.1, hpar', if_pos rfl, (kt thr).1]

/-- The function `vthread_reap` returns on a thread without children (and with
no `wait_next` when it deletes the thread). -/
theorem vthread_reap_some (st : vvp_world) (x : Nat) (hc : (st.threads x).children = [])
    (hw : (st.threads x).is_scheduled = false → (st.threads x).waiting_for_event = false →
      (st.threads x).wait_next = none) : ∃ st', vthread_reap st x = some st' := by
  have e := reap_effect_core st x id (fun r => ⟨r.deleted, r.del_scheduled, rfl⟩) hc
  rw [modify_thread_id] at e
  have hwn : ((vthread_reap_core st x).threads x).wait_next = (st.threads x).wait_next :=
    e.wait_next_eq x
  have hch : ((vthread_reap_core st x).threads x).children = [] := by
    rw [e.children_eq, hc]
    split <;> rfl
  unfold vthread_reap
  rw [hc, vthread_reap_children_nil]
  simp only
  split
  · rename_i hsw
    rw [e.scheduled_eq, e.waiting_eq] at hsw
    rw [if_neg (by rw [hch]; simp), if_neg (by rw [hwn, hw hsw.1 hsw.2]; simp)]
    split
    · exact ⟨_, rfl⟩
    · exact ⟨_, rfl⟩
  · exact ⟨_, rfl⟩

/-- Reaping a thread without children changes the records of the thread and
of its parent only. -/
theorem vthread_reap_frame (st st' : vvp_world) (x : Nat) (hc : (st.threads x).children = [])
    (h : vthread_reap st x = some st') (i : Nat) (hi : i ≠ x)
    (hp : (st.threads x).parent ≠ some i) : st'.threads i = st.threads i := by
  obtain ⟨f, hf, rfl⟩ := vthread_reap_childless st st' x hc h
  cases hpp : (st.threads x).parent with
  | none =>
    simp only [vthread_reap_core, hpp, modify_thread_threads, scope_erase_threads, if_neg hi]
  | some p =>
    have hip : i ≠ p := by
      intro he
      apply hp
      rw [hpp, he]
    simp only [vthread_reap_core, hpp, modify_thread_threads, scope_erase_threads, if_neg hi,
      if_neg hip]

/-- The loop of `of_JOIN_DETACH` returns, and empties the children of `thr`:
a child that had ended is reaped, one that is still running is detached. -/
theorem of_JOIN_DETACH_loop_spec (thr : Nat) (fuel : Nat) :
    ∀ st : vvp_world, (st.threads thr).children.length ≤ fuel → detachable st thr →
      ∃ st', of_JOIN_DETACH_loop fuel st thr = some st' ∧ (st'.threads thr).children = [] ∧
        (∀ c, c ∈ (st.threads thr).children →
          (st'.threads c).parent = none ∧
          (st'.threads c).i_have_ended = (st.threads c).i_have_ended ∧
          ((st.threads c).i_have_ended = true → (st'.threads c).pc_null = true ∧
            c ∉ st'.scope_threads (st.threads c).parent_scope)) ∧
        (∀ i, i ≠ thr → i ∉ (st.threads thr).children → st'.threads i = st.threads i) ∧
        (∀ s t, t ∈ st'.scope_threads s → t ∈ st.scope_threads s) := by
  induction fuel with
  | zero =>
    intro st hlen _
    have hnil : (st.threads thr).children = [] := List.length_eq_zero.mp (by omega)
    refine ⟨st, ?_, hnil, ?_, fun _ _ _ => rfl, fun _ _ h => h⟩
    · unfold of_JOIN_DETACH_loop
      rw [if_pos hnil]
    · intro c hc
      rw [hnil] at hc
      exact absurd hc (List.not_mem_nil _)
  | succ fuel ih =>
    intro st hlen hdet
    unfold of_JOIN_DETACH_loop
    split
    · rename_i hnil
      refine ⟨st, rfl, hnil, ?_, fun _ _ _ => rfl, fun _ _ h => h⟩
      intro c hc
      rw [hnil] at hc
      exact absurd hc (List.not_mem_nil _)
    · rename_i child rest hch
      have hmem : child ∈ (st.threads thr).children := by rw [hch]; exact List.mem_cons_self _ _
      obtain ⟨hpar, hne, hwt, hdead⟩ := hdet child hmem
      rw [if_neg (by rw [hpar]; simp), if_neg (by rw [hwt]; simp)]
      by_cases hend : (st.threads child).i_have_ended = true
      · rw [if_pos hend]
        obtain ⟨hcc, hwn⟩ := hdead hend
        obtain ⟨st1, hreap⟩ := vthread_reap_some st child hcc hwn
        rw [hreap]
        simp only
        have heff := vthread_reap_effect st st1 child hcc hreap
        have hfr := vthread_reap_frame st st1 child hcc hreap
        have hwt1 := fun i => (vthread_reap_automatic st st1 child hcc hreap i).2
        have hch1 : (st1.threads thr).children = set_erase child (st.threads thr).children := by
          rw [heff.children_eq, if_pos hpar]
        have hlen1 : (st1.threads thr).children.length ≤ fuel := by
          rw [hch1, hch]
          have := set_erase_head child rest
          rw [hch] at hlen
          simp only [List.length_cons] at hlen
          omega
        have hdet1 : detachable st1 thr := by
          intro c hc
          rw [hch1, mem_set_erase] at hc
          obtain ⟨h1, h2, h3, h4⟩ := hdet c hc.1
          have hcthr : (st.threads child).parent ≠ some c := by
            rw [hpar]; intro h; exact h2 (Option.some.inj h).symm
          rw [hfr c hc.2 hcthr]
          exact ⟨h1, h2, h3, h4⟩
        obtain ⟨st', hloop, hnil', hchild', hframe', hscope'⟩ := ih st1 hlen1 hdet1
        refine ⟨st', hloop, hnil', ?_, ?_, ?_⟩
        · intro c hc
          by_cases hcc0 : c = child
          · subst hcc0
            have hnot : c ∉ (st1.threads thr).children := by
              rw [hch1, mem_set_erase]
              exact fun h => h.2 rfl
            rw [hframe' c hne hnot, heff.parent_eq, if_pos rfl, heff.ended_eq, heff.pc_null_eq,
              if_pos rfl]
            refine ⟨rfl, rfl, fun _ => ⟨rfl, ?_⟩⟩
            intro hin
            have := hscope' _ _ hin
            rw [heff.scope_eq, if_pos rfl, mem_set_erase] at this
            exact this.2 rfl
          · have hc1 : c ∈ (st1.threads thr).children := by
              rw [hch1, mem_set_erase]
              exact ⟨hc, hcc0⟩
            obtain ⟨h1, h2, h3, h4⟩ := hdet c hc
            have hcthr : (st.threads child).parent ≠ some c := by
              rw [hpar]; intro h; exact h2 (Option.some.inj h).symm
            have := hchild' c hc1
            rw [hfr c hcc0 hcthr] at this
            exact this
        · intro i hi hni
          have hic : i ≠ child := fun h => hni (h ▸ hmem)
          have hni1 : i ∉ (st1.threads thr).children := by
            rw [hch1, mem_set_erase]
            exact fun h => hni h.1
          rw [hframe' i hi hni1]
          apply hfr i hic
          rw [hpar]
          intro h
          exact hi (Option.some.inj h).symm
        · intro s t ht
          have := hscope' s t ht
          rw [heff.scope_eq] at this
          split at this
          · exact ((mem_set_erase _ _ _).mp this).1
          · exact this
      · rw [if_neg hend]
        generalize hs1 : modify_thread
          (modify_thread st thr (fun r => { r with children := set_erase child r.children }))
          child (fun r => { r with parent := none }) = st1
        have hthr1 : (st1.threads thr).children = set_erase child (st.threads thr).children := by
          rw [← hs1]
          simp [Ne.symm hne]
        have hchild1 : (st1.threads child).parent = none ∧
            (st1.threads child).i_have_ended = (st.threads child).i_have_ended := by
          rw [← hs1]
          simp [hne]
        have hfr : ∀ i, i ≠ child → i ≠ thr → st1.threads i = st.threads i := by
          intro i h1 h2
          rw [← hs1]
          simp [h1, h2]
        have hsc1 : st1.scope_threads = st.scope_threads := by rw [← hs1]; rfl
        have hlen1 : (st1.threads thr).children.length ≤ fuel := by
          rw [hthr1, hch]
          have := set_erase_head child rest
          rw [hch] at hlen
          simp only [List.length_cons] at hlen
          omega
        have hdet1 : detachable st1 thr := by
          intro c hc
          rw [hthr1, mem_set_erase] at hc
          obtain ⟨h1, h2, h3, h4⟩ := hdet c hc.1
          rw [hfr c hc.2 h2]
          exact ⟨h1, h2, h3, h4⟩
        obtain ⟨st', hloop, hnil', hchild', hframe', hscope'⟩ := ih st1 hlen1 hdet1
        refine ⟨st', hloop, hnil', ?_, ?_, ?_⟩
        · intro c hc
          by_cases hcc0 : c = child
          · subst hcc0
            have hnot : c ∉ (st1.threads thr).children := by
              rw [hthr1, mem_set_erase]
              exact fun h => h.2 rfl
            rw [hframe' c hne hnot, hchild1.1, hchild1.2]
            exact ⟨rfl, rfl, fun h => absurd h hend⟩
          · have hc1 : c ∈ (st1.threads thr).children := by
              rw [hthr1, mem_set_erase]
              exact ⟨hc, hcc0⟩
            obtain ⟨h1, h2, h3, h4⟩ := hdet c hc
            have := hchild' c hc1
            rw [hfr c hcc0 h2] at this
            exact this
        · intro i hi hni
          have hic : i ≠ child := fun h => hni (h ▸ hmem)
          have hni1 : i ∉ (st1.threads thr).children := by
            rw [hthr1, mem_set_erase]
            exact fun h => hni h.1
          rw [hframe' i hi hni1]
          exact hfr i hic hi
        · intro s t ht
          have := hscope' s t ht
          rw [hsc1] at this
          exact this

theorem set_erase_length (c : Nat) (l : List Nat) (hn : l.Nodup) (hm : c ∈ l) :
    (set_erase c l).length + 1 = l.length := by
  induction l with
  | nil => exact absurd hm (List.not_mem_nil _)
  | cons y ys ih =>
    rw [List.nodup_cons] at hn
    by_cases hy : y = c
    · subst hy
      have : set_erase y (y :: ys) = ys := by
        unfold set_erase
        rw [List.filter_cons_of_neg (by simp), List.filter_eq_self]
        intro a ha
        simp only [ne_eq, decide_not, Bool.not_eq_eq_eq_not, Bool.not_true,
          decide_eq_false_iff_not]
        intro h
        exact hn.1 (h ▸ ha)
      rw [this, List.length_cons]
    · have hc : c ∈ ys := by
        rcases List.mem_cons.mp hm with h | h
        · exact absurd h.symm hy
        · exact h
      have : set_erase c (y :: ys) = y :: set_erase c ys := by
        unfold set_erase
        rw [List.filter_cons_of_pos (by simpa using hy)]
      rw [this, List.length_cons, List.length_cons, ih hn.2 hc]

theorem of_JOIN_true (st st' : vvp_world) (thr : Nat) (h : of_JOIN st thr = some (st', true)) :
    ∃ c, c ∈ (st.threads thr).children ∧ (st.threads c).i_have_ended = true ∧
      test_joinable st thr c = true ∧ do_join st thr c = some st' := by
  unfold of_JOIN at h
  split at h
  · exact Option.noConfusion h
  · split at h
    · exact Option.noConfusion h
    · split at h
      · rename_i curp hfind
        obtain ⟨h1, h2, h3⟩ := of_JOIN_find_some st thr _ curp hfind
        split at h
        · exact Option.noConfusion h
        · rename_i st1 hj
          have := Option.some.inj h
          simp only [Prod.mk.injEq, and_true] at this
          exact ⟨curp, h1, h2, h3, by rw [hj, this]⟩
      · have := Option.some.inj h
        simp only [Prod.mk.injEq] at this
        exact Bool.noConfusion this.2

theorem of_JOIN_false (st st' : vvp_world) (thr : Nat) (h : of_JOIN st thr = some (st', false)) :
    (∀ c, c ∈ (st.threads thr).children →
      ¬ ((st.threads c).i_have_ended = true ∧ test_joinable st thr c = true)) ∧
    st' = modify_thread st thr (fun r => { r with i_am_joining := true }) := by
  unfold of_JOIN at h
  split at h
  · exact Option.noConfusion h
  · split at h
    · exact Option.noConfusion h
    · split at h
      · split at h
        · exact Option.noConfusion h
        · have := Option.some.inj h
          simp only [Prod.mk.injEq] at this
          exact Bool.noConfusion this.2
      · rename_i hfind
        have := Option.some.inj h
        simp only [Prod.mk.injEq, and_true] at this
        exact ⟨of_JOIN_find_none st thr _ hfind, this.symm⟩

theorem of_JOIN_waits (st : vvp_world) (thr : Nat)
    (hj : (st.threads thr).i_am_joining = false) (hc : (st.threads thr).children ≠ [])
    (hno : ∀ c, c ∈ (st.threads thr).children →
      ¬ ((st.threads c).i_have_ended = true ∧ test_joinable st thr c = true)) :
    of_JOIN st thr
      = some (modify_thread st thr (fun r => { r with i_am_joining := true }), false) := by
  unfold of_JOIN
  rw [if_neg (by rw [hj]; simp), if_neg hc]
  cases hfind : of_JOIN_find st thr (st.threads thr).children with
  | none => rfl
  | some c =>
    obtain ⟨h1, h2, h3⟩ := of_JOIN_find_some st thr _ c hfind
    exact absurd ⟨h2, h3⟩ (hno c h1)

/-- C18: `of_JOIN` reaps a child and returns true only if that child has
`i_have_ended` set and, whenever `automatic_children` of the thread is not
empty, belongs to `automatic_children`; it returns false only if no such
child exists, and then `i_am_joining` is set and the children are unchanged;
and if the thread is not yet joining, has children and none of them is such
a child, `of_JOIN` does return false. -/
theorem C18_of_JOIN_reaps_joinable (st : vvp_world) (thr : Nat) :
    (∀ st', of_JOIN st thr = some (st', true) →
      ∃ c, c ∈ (st.threads thr).children ∧ (st.threads c).i_have_ended = true ∧
        ((st.threads thr).automatic_children ≠ [] →
          c ∈ (st.threads thr).automatic_children) ∧
        do_join st thr c = some st') ∧
    (∀ st', of_JOIN st thr = some (st', false) →
      (∀ c, c ∈ (st.threads thr).children →
        ¬ ((st.threads c).i_have_ended = true ∧
          ((st.threads thr).automatic_children ≠ [] →
            c ∈ (st.threads thr).automatic_children))) ∧
      (st'.threads thr).i_am_joining = true ∧
      (st'.threads thr).children = (st.threads thr).children) ∧
    ((st.threads thr).i_am_joining = false → (st.threads thr).children ≠ [] →
      (∀ c, c ∈ (st.threads thr).children →
        ¬ ((st.threads c).i_have_ended = true ∧
          ((st.threads thr).automatic_children ≠ [] →
            c ∈ (st.threads thr).automatic_children))) →
      ∃ st', of_JOIN st thr = some (st', false)) := by
  refine ⟨fun st' h => ?_, fun st' h => ?_, fun hj hc hno => ?_⟩
  · obtain ⟨c, h1, h2, h3, h4⟩ := of_JOIN_true st st' thr h
    exact ⟨c, h1, h2, (test_joinable_iff st thr c).mp h3, h4⟩
  · obtain ⟨h1, h2⟩ := of_JOIN_false st st' thr h
    refine ⟨fun c hc hh => h1 c hc ⟨hh.1, (test_joinable_iff st thr c).mpr hh.2⟩, ?_, ?_⟩
    · rw [h2]; simp
    · rw [h2]; simp
  · exact ⟨_, of_JOIN_waits st thr hj hc
      (fun c hc hh => hno c hc ⟨hh.1, (test_joinable_iff st thr c).mp hh.2⟩)⟩

/-- C18 in two states: thread 0 with the ended child 1 (`of_JOIN` reaps 1 and
returns true), and thread 0 with the running automatic child 2 (`of_JOIN`
sets `i_am_joining` and returns false). -/
theorem C18_of_JOIN_reaps_joinable_witness :
    (∃ c, c ∈ (tree3.threads 0).children ∧ (tree3.threads c).i_have_ended = true ∧
      ((tree3.threads 0).automatic_children ≠ [] →
        c ∈ (tree3.threads 0).automatic_children) ∧
      do_join tree3 0 c = some tree4) ∧
    ((auto1.threads 0).i_am_joining = false ∧ (auto1.threads 0).children ≠ [] ∧
      ∃ st', of_JOIN auto1 0 = some (st', false)) ∧
    (of_JOIN tree3 0).map Prod.snd = some true ∧
    (of_JOIN auto1 0).map Prod.snd = some false :=
  ⟨(C18_of_JOIN_reaps_joinable tree3 0).1 tree4
      ((some_getD _ (tree3, false) (by decide)).trans (congrArg some (Prod.ext rfl (by decide)))),
   ⟨by decide, by decide,
    (C18_of_JOIN_reaps_joinable auto1 0).2.2 (by decide) (by decide) (by decide)⟩,
   by decide, by decide⟩

/-- C19: after `of_JOIN` returns true, exactly one child has been removed
from the children of the thread and the parent of that child is null; and
`of_JOIN_DETACH n` on a thread with exactly `n` children, none automatic,
whose children pass the assertions of the handler, returns true with the
children set empty: every child has a null parent and is no longer among
the children, a child that had ended has been reaped (its program counter
is null and it has left its scope), and a child still running has not
ended. -/
theorem C19_join_consumes_children (st : vvp_world) (thr : Nat) :
    (∀ st', of_JOIN st thr = some (st', true) →
      ∃ c, c ∈ (st.threads thr).children ∧
        (st'.threads thr).children = set_erase c (st.threads thr).children ∧
        (∀ x, x ∈ (st'.threads thr).children ↔ x ∈ (st.threads thr).children ∧ x ≠ c) ∧
        ((st.threads thr).children.Nodup →
          (st'.threads thr).children.length + 1 = (st.threads thr).children.length) ∧
        (st'.threads c).parent = none) ∧
    (∀ fuel n, (st.threads thr).automatic_children = [] →
      n = (st.threads thr).children.length → n ≤ fuel → detachable st thr →
      ∃ st', of_JOIN_DETACH fuel st thr n = some (st', true) ∧
        (st'.threads thr).children = [] ∧
        ∀ c, c ∈ (st.threads thr).children →
          (st'.threads c).parent = none ∧ c ∉ (st'.threads thr).children ∧
          ((st.threads c).i_have_ended = true → (st'.threads c).pc_null = true ∧
            c ∉ st'.scope_threads (st.threads c).parent_scope) ∧
          ((st.threads c).i_have_ended = false → (st'.threads c).i_have_ended = false)) := by
  refine ⟨fun st' h => ?_, fun fuel n ha hn hf hdet => ?_⟩
  · obtain ⟨c, h1, _, _, h4⟩ := of_JOIN_true st st' thr h
    obtain ⟨_, hch, hp⟩ := do_join_children_eq st st' thr c h4
    refine ⟨c, h1, hch, fun x => by rw [hch, mem_set_erase], fun hnd => ?_, hp⟩
    rw [hch]
    exact set_erase_length c _ hnd h1
  · obtain ⟨st', hloop, hnil, hchild, _, _⟩ := of_JOIN_DETACH_loop_spec thr fuel st
      (by omega) hdet
    refine ⟨st', ?_, hnil, fun c hc => ?_⟩
    · unfold of_JOIN_DETACH
      rw [if_neg (by rw [ha]; simp), if_neg (by rw [hn]; simp), hloop]
    · obtain ⟨h1, h2, h3⟩ := hchild c hc
      refine ⟨h1, by rw [hnil]; exact List.not_mem_nil _, h3, fun he => by rw [h2, he]⟩

/-- C19 in two states: thread 0 with the ended child 1 executes `%join`, and
thread 0 with the ended child 1 and the running child 2 executes
`%join/detach 2`. -/
theorem C19_join_consumes_children_witness :
    (∃ c, c ∈ (tree3.threads 0).children ∧
      (tree4.threads 0).children = set_erase c (tree3.threads 0).children ∧
      (∀ x, x ∈ (tree4.threads 0).children ↔ x ∈ (tree3.threads 0).children ∧ x ≠ c) ∧
      ((tree3.threads 0).children.Nodup →
        (tree4.threads 0).children.length + 1 = (tree3.threads 0).children.length) ∧
      (tree4.threads c).parent = none) ∧
    ((pair3.threads 0).automatic_children = [] ∧ 2 = (pair3.threads 0).children.length ∧
      detachable pair3 0 ∧ (pair3.threads 1).i_have_ended = true ∧
      (pair3.threads 2).i_have_ended = false) ∧
    (∃ st', of_JOIN_DETACH 2 pair3 0 2 = some (st', true) ∧
      (st'.threads 0).children = [] ∧
      ∀ c, c ∈ (pair3.threads 0).children →
        (st'.threads c).parent = none ∧ c ∉ (st'.threads 0).children ∧
        ((pair3.threads c).i_have_ended = true → (st'.threads c).pc_null = true ∧
          c ∉ st'.scope_threads (pair3.threads c).parent_scope) ∧
        ((pair3.threads c).i_have_ended = false → (st'.threads c).i_have_ended = false)) :=
  ⟨(C19_join_consumes_children tree3 0).1 tree4
      ((some_getD _ (tree3, false) (by decide)).trans (congrArg some (Prod.ext rfl (by decide)))),
   by decide,
   (C19_join_consumes_children pair3 0).2 2 2 (by decide) (by decide) (by decide) (by decide)⟩

/-! ## Descendants -/

theorem descendant_refl (st : vvp_world) (a : Nat) : descendant st a a :=
  Relation.ReflTransGen.refl

theorem descendant_trans {st : vvp_world} {a b c : Nat} (h1 : descendant st a b)
    (h2 : descendant st b c) : descendant st a c :=
  Relation.ReflTransGen.trans h1 h2

theorem descendant_child {st : vvp_world} {a b : Nat} (h : b ∈ (st.threads a).children) :
    descendant st a b :=
  Relation.ReflTransGen.single h

theorem descendant_head {st : vvp_world} {a b : Nat} (h : descendant st a b) :
    a = b ∨ ∃ c, c ∈ (st.threads a).children ∧ descendant st c b :=
  Relation.ReflTransGen.cases_head h

theorem descendant_tail {st : vvp_world} {a b : Nat} (h : descendant st a b) :
    b = a ∨ ∃ p, descendant st a p ∧ b ∈ (st.threads p).children :=
  Relation.ReflTransGen.cases_tail h

/-- A descendant in a state with fewer children is a descendant. -/
theorem descendant_mono {st st' : vvp_world}
    (hsub : ∀ t c, c ∈ (st'.threads t).children → c ∈ (st.threads t).children) {a b : Nat}
    (h : descendant st' a b) : descendant st a b :=
  Relation.ReflTransGen.mono (fun x y hxy => hsub x y hxy) h

theorem descendant_le {st : vvp_world}
    (ho : ∀ t c, c ∈ (st.threads t).children → t < c) {a b : Nat} (h : descendant st a b) :
    a ≤ b := by
  induction h with
  | refl => exact Nat.le_refl _
  | tail _ hbc ih => exact Nat.le_trans ih (Nat.le_of_lt (ho _ _ hbc))

/-- Two threads with a common descendant lie on one branch. -/
theorem descendant_linear {st : vvp_world}
    (ha : ∀ t c, c ∈ (st.threads t).children ↔ (st.threads c).parent = some t) {a b x : Nat}
    (h1 : descendant st a x) (h2 : descendant st b x) :
    descendant st a b ∨ descendant st b a := by
  induction h1 with
  | refl => exact Or.inr h2
  | tail hay hyx ih =>
    rename_i y z
    rcases descendant_tail h2 with h | ⟨p, hbp, hzp⟩
    · left
      rw [← h]
      exact Relation.ReflTransGen.tail hay hyx
    · have e1 := (ha _ _).mp hyx
      have e2 := (ha _ _).mp hzp
      rw [e1] at e2
      have := Option.some.inj e2
      subst this
      exact ih hbp

/-- The subtrees of two different children of a thread are disjoint. -/
theorem siblings_disjoint {st : vvp_world}
    (ha : ∀ t c, c ∈ (st.threads t).children ↔ (st.threads c).parent = some t)
    (ho : ∀ t c, c ∈ (st.threads t).children → t < c) {p c1 c2 x : Nat}
    (h1 : c1 ∈ (st.threads p).children) (h2 : c2 ∈ (st.threads p).children) (hne : c1 ≠ c2)
    (d1 : descendant st c1 x) (d2 : descendant st c2 x) : False := by
  have key : ∀ u v, u ∈ (st.threads p).children → v ∈ (st.threads p).children → u ≠ v →
      descendant st u v → False := by
    intro u v hu hv huv hd
    rcases descendant_tail hd with h | ⟨q, huq, hvq⟩
    · exact huv h.symm
    · have e1 := (ha _ _).mp hv
      have e2 := (ha _ _).mp hvq
      rw [e1] at e2
      have := Option.some.inj e2
      subst this
      have := descendant_le ho huq
      have := ho _ _ hu
      omega
  rcases descendant_linear ha d1 d2 with h | h
  · exact key c1 c2 h1 h2 hne h
  · exact key c2 c1 h2 h1 (Ne.symm hne) h

theorem descendant_lt_nthreads {st : vvp_world}
    (ha : ∀ t c, c ∈ (st.threads t).children ↔ (st.threads c).parent = some t)
    (hf : ∀ t, st.nthreads ≤ t → (st.threads t).parent = none ∧ (st.threads t).children = [])
    {a b : Nat} (h : descendant st a b) (hlt : a < st.nthreads) : b < st.nthreads := by
  induction h with
  | refl => exact hlt
  | @tail y z _ hbc _ =>
    by_contra hge
    have h1 := (hf z (by omega)).1
    rw [(ha y z).mp hbc] at h1
    exact Option.noConfusion h1

/-- A path whose edges survive is a path of the later state. -/
theorem descendant_survive {st st' : vvp_world} {a b : Nat}
    (hk : ∀ x y, descendant st a x → y ∈ (st.threads x).children →
      y ∈ (st'.threads x).children)
    (h : descendant st a b) : descendant st' a b := by
  induction h with
  | refl => exact Relation.ReflTransGen.refl
  | tail hay hyz ih =>
    exact Relation.ReflTransGen.tail ih (hk _ _ hay hyz)

theorem descendant_congr {st st' : vvp_world}
    (he : ∀ t, (st'.threads t).children = (st.threads t).children) (a b : Nat) :
    descendant st' a b ↔ descendant st a b := by
  constructor
  · exact descendant_mono (fun t c hc => by rw [← he t]; exact hc)
  · exact descendant_mono (fun t c hc => by rw [he t]; exact hc)

theorem descendant_leaf {st : vvp_world} {a b : Nat} (hc : (st.threads a).children = [])
    (h : descendant st a b) : a = b := by
  rcases descendant_head h with h | ⟨c, hc1, _⟩
  · exact h
  · rw [hc] at hc1
    exact absurd hc1 (List.not_mem_nil _)

/-! ## More fuel does not change the result of `do_disable` -/

theorem do_disable_mono (fuel : Nat) :
    ∀ (st : vvp_world) (thr mtch : Nat) (entered flag : Bool) (x : vvp_world × Bool),
      do_disable fuel st thr mtch entered flag = some x →
      do_disable (fuel + 1) st thr mtch entered flag = some x := by
  induction fuel with
  | zero =>
    intro st thr mtch entered flag x h
    exact Option.noConfusion h
  | succ fuel ih =>
    intro st thr mtch entered flag x h
    cases entered with
    | false =>
      rw [do_disable_enter] at h ⊢
      exact ih _ _ _ _ _ _ h
    | true =>
      rw [do_disable_loop_eq] at h ⊢
      split at h
      · split at h
        · exact Option.noConfusion h
        · rename_i hpar
          rw [if_neg hpar]
          simp only at h ⊢
          split at h
          · exact Option.noConfusion h
          · rename_i s2 r2 hrec
            rw [ih _ _ _ _ _ _ hrec]
            simp only
            split at h
            · exact Option.noConfusion h
            · rename_i s3 hreap
              exact ih _ _ _ _ _ _ h
      · exact h

theorem do_disable_mono_add (fuel k : Nat) (st : vvp_world) (thr mtch : Nat)
    (entered flag : Bool) (x : vvp_world × Bool)
    (h : do_disable fuel st thr mtch entered flag = some x) :
    do_disable (fuel + k) st thr mtch entered flag = some x := by
  induction k with
  | zero => exact h
  | succ k ih => exact do_disable_mono _ _ _ _ _ _ _ ih

theorem do_disable_mono_le {fuel fuel' : Nat} (hle : fuel ≤ fuel') (st : vvp_world)
    (thr mtch : Nat) (entered flag : Bool) (x : vvp_world × Bool)
    (h : do_disable fuel st thr mtch entered flag = some x) :
    do_disable fuel' st thr mtch entered flag = some x := by
  have := do_disable_mono_add fuel (fuel' - fuel) st thr mtch entered flag x h
  rwa [Nat.add_sub_cancel' hle] at this

theorem of_DISABLE_loop_mono_fuel (n : Nat) :
    ∀ (fuel fuel' : Nat) (st : vvp_world) (thr scope : Nat) (flag : Bool)
      (x : vvp_world × Bool), fuel ≤ fuel' →
      of_DISABLE_loop n fuel st thr scope flag = some x →
      of_DISABLE_loop n fuel' st thr scope flag = some x := by
  induction n with
  | zero =>
    intro fuel fuel' st thr scope flag x _ h
    exact h
  | succ n ih =>
    intro fuel fuel' st thr scope flag x hle h
    unfold of_DISABLE_loop at h ⊢
    split at h
    · exact h
    · rename_i cur rest hs
      simp only at h ⊢
      split at h
      · exact Option.noConfusion h
      · rename_i s1 r1 hrec
        rw [do_disable_mono_le hle _ _ _ _ _ _ hrec]
        exact ih _ _ _ _ _ _ _ hle h

theorem of_DISABLE_loop_mono_n (n : Nat) :
    ∀ (fuel : Nat) (st : vvp_world) (thr scope : Nat) (flag : Bool)
      (x : vvp_world × Bool),
      of_DISABLE_loop n fuel st thr scope flag = some x →
      of_DISABLE_loop (n + 1) fuel st thr scope flag = some x := by
  induction n with
  | zero =>
    intro fuel st thr scope flag x h
    unfold of_DISABLE_loop at h ⊢
    split at h
    · rename_i hs
      rw [hs]
      exact h
    · exact Option.noConfusion h
  | succ n ih =>
    intro fuel st thr scope flag x h
    rw [of_DISABLE_loop] at h ⊢
    split at h
    · exact h
    · rename_i cur rest hs
      simp only at h ⊢
      split at h
      · exact Option.noConfusion h
      · rename_i s1 r1 hrec
        exact ih _ _ _ _ _ _ h

theorem of_DISABLE_loop_mono {n n' fuel fuel' : Nat} (hn : n ≤ n') (hf : fuel ≤ fuel')
    (st : vvp_world) (thr scope : Nat) (flag : Bool) (x : vvp_world × Bool)
    (h : of_DISABLE_loop n fuel st thr scope flag = some x) :
    of_DISABLE_loop n' fuel' st thr scope flag = some x := by
  have h1 := of_DISABLE_loop_mono_fuel n fuel fuel' st thr scope flag x hf h
  obtain ⟨k, rfl⟩ := Nat.exists_eq_add_of_le hn
  clear hn h
  induction k with
  | zero => exact h1
  | succ k ih => exact of_DISABLE_loop_mono_n _ _ _ _ _ _ _ ih

/-! ## Steps of `do_disable` -/

theorem dis_rel_refl (st : vvp_world) : dis_rel st st :=
  { children_sublist := fun _ => List.Sublist.refl _
    scope_sublist := fun _ => List.Sublist.refl _
    wait_next_eq := fun _ => rfl
    waiting_eq := fun _ => rfl
    scheduled_mono := fun _ h => h }

theorem dis_rel_trans {s1 s2 s3 : vvp_world} (h12 : dis_rel s1 s2) (h23 : dis_rel s2 s3) :
    dis_rel s1 s3 :=
  { children_sublist := fun t => (h23.children_sublist t).trans (h12.children_sublist t)
    scope_sublist := fun s => (h23.scope_sublist s).trans (h12.scope_sublist s)
    wait_next_eq := fun t => by rw [h23.wait_next_eq, h12.wait_next_eq]
    waiting_eq := fun t => by rw [h23.waiting_eq, h12.waiting_eq]
    scheduled_mono := fun t h => h23.scheduled_mono t (h12.scheduled_mono t h) }

theorem set_erase_sublist (x : Nat) (s : List Nat) : List.Sublist (set_erase x s) s :=
  List.filter_sublist s

theorem dis_rel_modify (st : vvp_world) (t : Nat) (f : vthread_s → vthread_s)
    (hc : (f (st.threads t)).children = (st.threads t).children)
    (hw : (f (st.threads t)).wait_next = (st.threads t).wait_next)
    (he : (f (st.threads t)).waiting_for_event = (st.threads t).waiting_for_event)
    (hm : (st.threads t).is_scheduled = true → (f (st.threads t)).is_scheduled = true) :
    dis_rel st (modify_thread st t f) := by
  refine
    { children_sublist := fun i => ?_
      scope_sublist := fun _ => List.Sublist.refl _
      wait_next_eq := fun i => ?_
      waiting_eq := fun i => ?_
      scheduled_mono := fun i => ?_ }
  · rw [modify_thread_threads]
    split
    · subst_vars; rw [hc]
    · exact List.Sublist.refl _
  · rw [modify_thread_threads]
    split
    · subst_vars; rw [hw]
    · rfl
  · rw [modify_thread_threads]
    split
    · subst_vars; rw [he]
    · rfl
  · rw [modify_thread_threads]
    split
    · subst_vars; exact hm
    · exact fun h => h

theorem dis_rel_scope_erase (st : vvp_world) (s t : Nat) : dis_rel st (scope_erase st s t) := by
  refine
    { children_sublist := fun i => by rw [scope_erase_threads]
      scope_sublist := fun s' => ?_
      wait_next_eq := fun i => by rw [scope_erase_threads]
      waiting_eq := fun i => by rw [scope_erase_threads]
      scheduled_mono := fun i h => by rw [scope_erase_threads]; exact h }
  rw [scope_erase_scope]
  split
  · exact set_erase_sublist _ _
  · exact List.Sublist.refl _

theorem dis_rel_reap {st st' : vvp_world} {thr : Nat} (h : reap_effect st thr st') :
    dis_rel st st' := by
  refine
    { children_sublist := fun i => ?_
      scope_sublist := fun s => ?_
      wait_next_eq := h.wait_next_eq
      waiting_eq := h.waiting_eq
      scheduled_mono := fun i hi => by rw [h.scheduled_eq]; exact hi }
  · rw [h.children_eq]
    split
    · exact set_erase_sublist _ _
    · exact List.Sublist.refl _
  · rw [h.scope_eq]
    split
    · exact set_erase_sublist _ _
    · exact List.Sublist.refl _

theorem tree_inv_of_thread_inv {st : vvp_world} (hi : thread_inv st) (hw : wait_clear st) :
    tree_inv st :=
  { children_parent := hi.children_parent
    joining_children := hi.joining_children
    fresh := hi.fresh
    order := hi.order
    wait_clear := hw }

theorem tree_rel_of_step_rel {st st' : vvp_world} (h : step_rel st st') : tree_rel st st' :=
  { nthreads_eq := h.nthreads_eq
    children_sub := h.children_sub
    parent_sub := h.parent_sub
    joining_sub := h.joining_sub
    ended_mono := h.ended_mono
    pc_mono := h.pc_mono
    scope_sub := h.scope_sub
    parent_scope_eq := h.parent_scope_eq }

theorem tree_rel_refl (st : vvp_world) : tree_rel st st :=
  tree_rel_of_step_rel (step_rel_refl st)

theorem tree_rel_trans {s1 s2 s3 : vvp_world} (h12 : tree_rel s1 s2) (h23 : tree_rel s2 s3) :
    tree_rel s1 s3 :=
  { nthreads_eq := by rw [h23.nthreads_eq, h12.nthreads_eq]
    children_sub := fun t c h => h12.children_sub t c (h23.children_sub t c h)
    parent_sub := fun t p h => h12.parent_sub t p (h23.parent_sub t p h)
    joining_sub := fun t h => by
      obtain ⟨h2, e2⟩ := h23.joining_sub t h
      obtain ⟨h1, e1⟩ := h12.joining_sub t h2
      exact ⟨h1, by rw [e2, e1]⟩
    ended_mono := fun t h => h23.ended_mono t (h12.ended_mono t h)
    pc_mono := fun t h => h23.pc_mono t (h12.pc_mono t h)
    scope_sub := fun s t h => h12.scope_sub s t (h23.scope_sub s t h)
    parent_scope_eq := fun t => by rw [h23.parent_scope_eq, h12.parent_scope_eq] }

theorem tree_rel_no_children {st st' : vvp_world} (h : tree_rel st st') (t : Nat)
    (hc : (st.threads t).children = []) : (st'.threads t).children = [] := by
  apply List.eq_nil_iff_forall_not_mem.mpr
  intro c hmem
  have := h.children_sub t c hmem
  rw [hc] at this
  exact List.not_mem_nil _ this

theorem tree_rel_not_joining {st st' : vvp_world} (h : tree_rel st st') (t : Nat)
    (hj : (st.threads t).i_am_joining = false) : (st'.threads t).i_am_joining = false := by
  by_contra hc
  have := (h.joining_sub t (by simpa using hc)).1
  rw [hj] at this
  exact Bool.noConfusion this

/-- A step of `do_disable` keeps the invariants that hold inside it. -/
theorem tree_inv_step {st st' : vvp_world} (hi : tree_inv st) (hs : tree_rel st st')
    (hd : dis_rel st st')
    (ha : ∀ t c, c ∈ (st'.threads t).children ↔ (st'.threads c).parent = some t) :
    tree_inv st' := by
  refine
    { children_parent := ha
      joining_children := fun t hj => by
        obtain ⟨hj0, hc⟩ := hs.joining_sub t hj
        rw [hc]
        exact hi.joining_children t hj0
      fresh := fun t ht => ?_
      order := fun t c hc => hi.order t c (hs.children_sub t c hc)
      wait_clear := fun t ht hsch hwt => ?_ }
  · rw [hs.nthreads_eq] at ht
    have hf := hi.fresh t ht
    constructor
    · cases hp : (st'.threads t).parent with
      | none => rfl
      | some p =>
        have := hs.parent_sub t p hp
        rw [hf.1] at this
        exact Option.noConfusion this
    · exact tree_rel_no_children hs t hf.2
  · rw [hd.wait_next_eq]
    rw [hs.nthreads_eq] at ht
    rw [hd.waiting_eq] at hwt
    refine hi.wait_clear t ht ?_ hwt
    cases hb : (st.threads t).is_scheduled with
    | false => rfl
    | true =>
      rw [hd.scheduled_mono t hb] at hsch
      exact Bool.noConfusion hsch

/-! ## Composition of the steps of `do_disable` -/

theorem dis_step_congr {V W : Nat → Prop} {st st' : vvp_world} (h : dis_step V st st')
    (hvw : ∀ t, V t ↔ W t) : dis_step W st st' :=
  { step := h.step
    rel := h.rel
    post :=
      { ended := fun t ht => h.post.ended t ((hvw t).mpr ht)
        keep_children := fun t c ht hc hm =>
          h.post.keep_children t c (fun hv => ht ((hvw t).mp hv)) (fun hv => hc ((hvw c).mp hv)) hm
        keep_scope := fun s t ht hm => h.post.keep_scope s t (fun hv => ht ((hvw t).mp hv)) hm
        gone_scope := fun t ht => h.post.gone_scope t ((hvw t).mpr ht) } }

theorem dis_step_trans {V1 V2 : Nat → Prop} {s1 s2 s3 : vvp_world} (h12 : dis_step V1 s1 s2)
    (h23 : dis_step V2 s2 s3) : dis_step (fun t => V1 t ∨ V2 t) s1 s3 :=
  { step := tree_rel_trans h12.step h23.step
    rel := dis_rel_trans h12.rel h23.rel
    post :=
      { ended := fun t ht => by
          rcases ht with ht | ht
          · have := h12.post.ended t ht
            exact ⟨h23.step.ended_mono t this.1, h23.step.pc_mono t this.2⟩
          · exact h23.post.ended t ht
        keep_children := fun t c ht hc hm =>
          h23.post.keep_children t c (fun hv => ht (Or.inr hv)) (fun hv => hc (Or.inr hv))
            (h12.post.keep_children t c (fun hv => ht (Or.inl hv)) (fun hv => hc (Or.inl hv)) hm)
        keep_scope := fun s t ht hm =>
          h23.post.keep_scope s t (fun hv => ht (Or.inr hv))
            (h12.post.keep_scope s t (fun hv => ht (Or.inl hv)) hm)
        gone_scope := fun t ht hm => by
          rcases ht with ht | ht
          · exact h12.post.gone_scope t ht (h23.step.scope_sub _ _ hm)
          · have := h23.post.gone_scope t ht
            rw [h12.step.parent_scope_eq] at this
            exact this hm } }

/-- A step that changes neither the links nor the scopes disables nothing. -/
theorem dis_step_frame {st st' : vvp_world} (hs : tree_rel st st') (hd : dis_rel st st')
    (hc : ∀ t, (st'.threads t).children = (st.threads t).children)
    (hsc : st'.scope_threads = st.scope_threads) : dis_step (fun _ => False) st st' :=
  { step := hs
    rel := hd
    post :=
      { ended := fun _ h => h.elim
        keep_children := fun t c _ _ hm => by rw [hc]; exact hm
        keep_scope := fun s t _ hm => by rw [hsc]; exact hm
        gone_scope := fun _ h => h.elim } }

theorem clear_joining_children (st : vvp_world) (t i : Nat) :
    ((modify_thread st t (fun r => { r with i_am_joining := false })).threads i).children
      = (st.threads i).children := by
  simp only [modify_thread_threads]
  split_ifs <;> simp_all

theorem schedule_children (st : vvp_world) (t i : Nat) :
    ((schedule_vthread st t).threads i).children = (st.threads i).children := by
  simp only [schedule_vthread, modify_thread_threads]
  split_ifs <;> simp_all

theorem dis_step_clear_joining (st : vvp_world) (t : Nat) :
    dis_step (fun _ => False) st
      (modify_thread st t (fun r => { r with i_am_joining := false })) :=
  dis_step_frame (tree_rel_of_step_rel (step_rel_clear_joining st t)) (dis_rel_modify st t _ rfl rfl rfl (fun h => h))
    (clear_joining_children st t) rfl

theorem dis_step_schedule (st : vvp_world) (t : Nat)
    (he : (st.threads t).i_have_ended = false) :
    dis_step (fun _ => False) st (schedule_vthread st t) :=
  dis_step_frame (tree_rel_of_step_rel (step_rel_schedule st t he)) (dis_rel_modify st t _ rfl rfl rfl (fun _ => rfl))
    (schedule_children st t) rfl

theorem tree_inv_clear_joining {st : vvp_world} (hi : tree_inv st) (t : Nat) :
    tree_inv (modify_thread st t (fun r => { r with i_am_joining := false })) :=
  tree_inv_step hi (dis_step_clear_joining st t).step (dis_step_clear_joining st t).rel
    (children_parent_modify st t _ rfl rfl hi.children_parent)

theorem child_lt_nthreads {st : vvp_world} (hi : tree_inv st) {t c : Nat}
    (hc : c ∈ (st.threads t).children) : c < st.nthreads := by
  by_contra hge
  have h1 := (hi.fresh c (by omega)).1
  rw [(hi.children_parent t c).mp hc] at h1
  exact Option.noConfusion h1

/-- Reaping a thread that has ended, has no children and whose parent is not
in a `%join`. -/
theorem reap_step {st : vvp_world} (hi : tree_inv st) (x : Nat) (hx : x < st.nthreads)
    (hc : (st.threads x).children = []) (he : (st.threads x).i_have_ended = true)
    (hj : ∀ p, (st.threads x).parent = some p → (st.threads p).i_am_joining = false) :
    ∃ st', vthread_reap st x = some st' ∧ reap_effect st x st' ∧ tree_inv st' ∧
      dis_step (fun t => t = x) st st' := by
  obtain ⟨st', h⟩ := vthread_reap_some st x hc (hi.wait_clear x hx)
  have heff := vthread_reap_effect st st' x hc h
  have hs := tree_rel_of_step_rel (reap_effect_step heff hj)
  have hd := dis_rel_reap heff
  refine ⟨st', h, heff, tree_inv_step hi hs hd
    (reap_effect_children_parent heff hc hi.children_parent), hs, hd, ?_⟩
  refine
    { ended := fun t ht => ?_
      keep_children := fun t c _ hcx hm => ?_
      keep_scope := fun s t ht hm => ?_
      gone_scope := fun t ht hm => ?_ }
  · subst ht
    rw [heff.ended_eq, heff.pc_null_eq, if_pos rfl]
    exact ⟨he, rfl⟩
  · rw [heff.children_eq]
    split
    · exact (mem_set_erase _ _ _).mpr ⟨hm, hcx⟩
    · exact hm
  · rw [heff.scope_eq]
    split
    · exact (mem_set_erase _ _ _).mpr ⟨hm, ht⟩
    · exact hm
  · subst ht
    rw [heff.scope_eq, if_pos rfl] at hm
    exact ((mem_set_erase _ _ _).mp hm).2 rfl

/-! ## The statements of `do_disable` before its loop -/

theorem dis_step_enter {st : vvp_world} (thr : Nat) :
    dis_step (fun t => t = thr) st
      (modify_thread (scope_erase st (st.threads thr).parent_scope thr) thr
        (fun r => { r with pc_null := true, i_have_ended := true })) := by
  have hf := disable_enter_fields st thr
  have hs : tree_rel st (modify_thread (scope_erase st (st.threads thr).parent_scope thr) thr
      (fun r => { r with pc_null := true, i_have_ended := true })) := by
    refine
      { nthreads_eq := rfl
        children_sub := fun t c h => by rw [(hf t).1] at h; exact h
        parent_sub := fun t p h => by rw [(hf t).2.1] at h; exact h
        joining_sub := fun t h => by rw [(hf t).2.2.1] at h; exact ⟨h, (hf t).1⟩
        ended_mono := fun t h => ?_
        pc_mono := fun t h => ?_
        scope_sub := fun s t h => ?_
        parent_scope_eq := fun t => (hf t).2.2.2.2.1 }
    · by_cases ht : t = thr
      · subst ht
        simp only [modify_thread_threads, if_true]
      · rw [(hf t).2.2.2.2.2.2 ht]
        exact h
    · by_cases ht : t = thr
      · subst ht
        simp only [modify_thread_threads, if_true]
      · rw [(hf t).2.2.2.2.2.2 ht]
        exact h
    · simp only [modify_thread_scope, scope_erase_scope] at h
      split at h
      · exact ((mem_set_erase _ _ _).mp h).1
      · exact h
  refine
    { step := hs
      rel := dis_rel_trans (dis_rel_scope_erase st _ thr) (dis_rel_modify _ thr _ rfl rfl rfl (fun h => h))
      post :=
        { ended := fun t ht => ?_
          keep_children := fun t c _ _ hm => ?_
          keep_scope := fun s t ht hm => ?_
          gone_scope := fun t ht hm => ?_ } }
  · subst ht
    simp only [modify_thread_threads, if_true, and_self]
  · rw [(disable_enter_fields st thr t).1]
    exact hm
  · simp only [modify_thread_scope, scope_erase_scope]
    split
    · exact (mem_set_erase _ _ _).mpr ⟨hm, ht⟩
    · exact hm
  · subst ht
    simp only [modify_thread_scope, scope_erase_scope, if_true] at hm
    exact ((mem_set_erase _ _ _).mp hm).2 rfl

theorem tree_inv_enter {st : vvp_world} (hi : tree_inv st) (thr : Nat) :
    tree_inv (modify_thread (scope_erase st (st.threads thr).parent_scope thr) thr
      (fun r => { r with pc_null := true, i_have_ended := true })) := by
  refine tree_inv_step hi (dis_step_enter thr).step (dis_step_enter thr).rel ?_
  intro t c
  rw [(disable_enter_fields st thr t).1, (disable_enter_fields st thr c).2.1]
  exact hi.children_parent t c

/-! ## The descendants of a thread, child by child -/

/-- When the subtree of the first child `tmp` of `thr` has been disabled and
`tmp` reaped, the descendants of `thr` are those of `tmp` and the ones `thr`
has left. -/
theorem descendant_split {st s3 : vvp_world} (hi : tree_inv st) {thr tmp : Nat}
    (hmem : tmp ∈ (st.threads thr).children)
    (h : dis_step (descendant st tmp) st s3) (t : Nat) :
    descendant st thr t ↔ descendant st tmp t ∨ descendant s3 thr t := by
  constructor
  · intro hd
    rcases descendant_head hd with he | ⟨c0, hc0, hd0⟩
    · right
      rw [he]
      exact descendant_refl _ _
    · by_cases hct : c0 = tmp
      · left
        rw [← hct]
        exact hd0
      · right
        have hdis : ∀ x, descendant st c0 x → ¬ descendant st tmp x := fun x h1 h2 =>
          siblings_disjoint hi.children_parent hi.order hc0 hmem hct h1 h2
        have hthr : ¬ descendant st tmp thr := by
          intro hd1
          have := descendant_le hi.order hd1
          have := hi.order _ _ hmem
          omega
        have h1 : c0 ∈ (s3.threads thr).children :=
          h.post.keep_children thr c0 hthr (hdis c0 (descendant_refl _ _)) hc0
        refine descendant_trans (descendant_child h1) (descendant_survive ?_ hd0)
        intro x y hx hy
        exact h.post.keep_children x y (hdis x hx)
          (hdis y (descendant_trans hx (descendant_child hy))) hy
  · intro hd
    rcases hd with hd | hd
    · exact descendant_trans (descendant_child hmem) hd
    · exact descendant_mono h.step.children_sub hd

/-! ## The equations of the loop of `do_disable` -/

theorem do_disable_loop_step (fuel : Nat) (st s2 s3 : vvp_world) (thr mtch tmp : Nat)
    (rest : List Nat) (flag r2 : Bool) (hch : (st.threads thr).children = tmp :: rest)
    (hpar : (st.threads tmp).parent = some thr)
    (h1 : do_disable fuel (modify_thread st thr (fun r => { r with i_am_joining := false }))
      tmp mtch false false = some (s2, r2))
    (h2 : vthread_reap s2 tmp = some s3) :
    do_disable (fuel + 1) st thr mtch true flag = do_disable fuel s3 thr mtch true (flag || r2) := by
  rw [do_disable_loop_eq, hch]
  simp only [hpar, ne_eq, not_true_eq_false, if_false, h1, h2]

theorem do_disable_loop_orphan (fuel : Nat) (st s1 : vvp_world) (thr mtch : Nat) (flag : Bool)
    (hch : (st.threads thr).children = []) (hpar : (st.threads thr).parent = none)
    (h1 : vthread_reap st thr = some s1) :
    do_disable (fuel + 1) st thr mtch true flag = some (s1, flag || decide (thr = mtch)) := by
  rw [do_disable_loop_eq, hch]
  simp only [hpar, h1]

theorem do_disable_loop_keep (fuel : Nat) (st : vvp_world) (thr mtch p : Nat) (flag : Bool)
    (hch : (st.threads thr).children = []) (hpar : (st.threads thr).parent = some p)
    (hj : (st.threads p).i_am_joining = false) :
    do_disable (fuel + 1) st thr mtch true flag = some (st, flag || decide (thr = mtch)) := by
  rw [do_disable_loop_eq, hch]
  simp only [hpar, hj, Bool.false_eq_true, if_false]

theorem do_disable_loop_join (fuel : Nat) (st s3 : vvp_world) (thr mtch p : Nat) (flag : Bool)
    (hch : (st.threads thr).children = []) (hpar : (st.threads thr).parent = some p)
    (hj : (st.threads p).i_am_joining = true)
    (h1 : vthread_reap
      (if ((modify_thread st p (fun r => { r with i_am_joining := false })).threads p).i_have_ended
          = false
        then schedule_vthread (modify_thread st p (fun r => { r with i_am_joining := false })) p
        else modify_thread st p (fun r => { r with i_am_joining := false })) thr = some s3) :
    do_disable (fuel + 1) st thr mtch true flag = some (s3, flag || decide (thr = mtch)) := by
  rw [do_disable_loop_eq, hch]
  simp only [hpar, hj, if_true, h1]

/-! ## The end of the loop of `do_disable` -/

theorem descendant_leaf_iff {st : vvp_world} {a : Nat} (hc : (st.threads a).children = [])
    (b : Nat) : descendant st a b ↔ b = a := by
  constructor
  · intro h
    exact (descendant_leaf hc h).symm
  · intro h
    rw [h]
    exact descendant_refl _ _

theorem leaf_result {st : vvp_world} {thr : Nat} (hc : (st.threads thr).children = [])
    (mtch : Nat) (flag : Bool) :
    (flag || decide (thr = mtch)) = true ↔
      (true = true ∧ flag = true) ∨ descendant st thr mtch := by
  rw [descendant_leaf_iff hc]
  simp only [Bool.or_eq_true, decide_eq_true_eq, true_and]
  constructor
  · rintro (h | h)
    · exact Or.inl h
    · exact Or.inr h.symm
  · rintro (h | h)
    · exact Or.inl h
    · exact Or.inr h.symm

/-- The loop of `do_disable` on a thread without children. -/
theorem disable_spec_leaf {st : vvp_world} (hi : tree_inv st) (thr mtch : Nat) (flag : Bool)
    (hx : thr < st.nthreads) (hch : (st.threads thr).children = [])
    (he : (st.threads thr).i_have_ended = true) (hpc : (st.threads thr).pc_null = true)
    (hsc : thr ∉ st.scope_threads (st.threads thr).parent_scope) :
    disable_spec st thr mtch true flag := by
  have hV : ∀ t, t = thr ↔ descendant st thr t := fun t => (descendant_leaf_iff hch t).symm
  cases hpar : (st.threads thr).parent with
  | none =>
    obtain ⟨s1, h1, _, hi1, hd1⟩ := reap_step hi thr hx hch he
      (fun p hp => by rw [hpar] at hp; exact Option.noConfusion hp)
    exact ⟨1, s1, _, do_disable_loop_orphan 0 st s1 thr mtch flag hch hpar h1, hi1,
      dis_step_congr hd1 hV, leaf_result hch mtch flag, tree_rel_no_children hd1.step thr hch⟩
  | some p =>
    cases hj : (st.threads p).i_am_joining with
    | false =>
      refine ⟨1, st, _, do_disable_loop_keep 0 st thr mtch p flag hch hpar hj, hi, ?_,
        leaf_result hch mtch flag, hch⟩
      refine dis_step_congr ?_ hV
      exact
        { step := tree_rel_refl st
          rel := dis_rel_refl st
          post :=
            { ended := fun t ht => by subst ht; exact ⟨he, hpc⟩
              keep_children := fun _ _ _ _ hm => hm
              keep_scope := fun _ _ _ hm => hm
              gone_scope := fun t ht => by subst ht; exact hsc } }
    | true =>
      generalize hs1 : modify_thread st p (fun r => { r with i_am_joining := false }) = s1
      have hd1 : dis_step (fun _ => False) st s1 := by
        rw [← hs1]
        exact dis_step_clear_joining st p
      have hi1 : tree_inv s1 := by
        rw [← hs1]
        exact tree_inv_clear_joining hi p
      have hjp1 : (s1.threads p).i_am_joining = false := by
        rw [← hs1]
        exact clear_joining_self st p
      generalize hs2 : (if (s1.threads p).i_have_ended = false
        then schedule_vthread s1 p else s1) = s2
      have hd2 : dis_step (fun _ => False) s1 s2 ∧ tree_inv s2 := by
        rw [← hs2]
        split
        · rename_i hne
          have := dis_step_schedule s1 p hne
          exact ⟨this, tree_inv_step hi1 this.step this.rel
            (children_parent_schedule s1 p hi1.children_parent)⟩
        · exact ⟨dis_step_frame (tree_rel_refl s1) (dis_rel_refl s1) (fun _ => rfl) rfl, hi1⟩
      have hd12 := dis_step_trans hd1 hd2.1
      have hx2 : thr < s2.nthreads := by rw [hd12.step.nthreads_eq]; exact hx
      obtain ⟨s3, h3, _, hi3, hd3⟩ := reap_step hd2.2 thr hx2
        (tree_rel_no_children hd12.step thr hch) (hd12.step.ended_mono thr he)
        (fun q hq => by
          have := hd12.step.parent_sub thr q hq
          rw [hpar] at this
          rw [← Option.some.inj this]
          exact tree_rel_not_joining hd2.1.step p hjp1)
      have hd := dis_step_trans hd12 hd3
      refine ⟨1, s3, _, do_disable_loop_join 0 st s3 thr mtch p flag hch hpar hj ?_, hi3,
        dis_step_congr hd ?_, leaf_result hch mtch flag, tree_rel_no_children hd.step thr hch⟩
      · rw [hs1, hs2]
        exact h3
      · intro t
        rw [← hV t]
        simp only [or_self, false_or]

/-! ## The loop of `do_disable` -/

theorem sublist_cons_not_mem {a : Nat} {l r : List Nat} (h : List.Sublist l (a :: r))
    (hn : a ∉ l) : List.Sublist l r := by
  rcases List.sublist_cons_iff.mp h with h | ⟨r', hl, _⟩
  · exact h
  · rw [hl] at hn
    exact absurd (List.mem_cons_self _ _) hn

/-- The loop of `do_disable(thr, match)` returns and disables the descendants
of `thr`, when the calls for the children of `thr` do. -/
theorem disable_spec_loop (N thr mtch : Nat)
    (hrec : ∀ st c, tree_inv st → st.nthreads = N → thr < c → c < N →
      disable_spec st c mtch false false) :
    ∀ (k : Nat) (st : vvp_world) (flag : Bool), tree_inv st → st.nthreads = N → thr < N →
      (st.threads thr).children.length ≤ k →
      (st.threads thr).i_have_ended = true → (st.threads thr).pc_null = true →
      thr ∉ st.scope_threads (st.threads thr).parent_scope →
      disable_spec st thr mtch true flag := by
  intro k
  induction k with
  | zero =>
    intro st flag hi hN hx hk he hpc hsc
    exact disable_spec_leaf hi thr mtch flag (by rw [hN]; exact hx)
      (List.length_eq_zero.mp (Nat.le_zero.mp hk)) he hpc hsc
  | succ k ih =>
    intro st flag hi hN hx hk he hpc hsc
    cases hch : (st.threads thr).children with
    | nil => exact disable_spec_leaf hi thr mtch flag (by rw [hN]; exact hx) hch he hpc hsc
    | cons tmp rest =>
      have hmem : tmp ∈ (st.threads thr).children := by rw [hch]; exact List.mem_cons_self _ _
      have hpar : (st.threads tmp).parent = some thr := (hi.children_parent _ _).mp hmem
      have hcN : tmp < N := by rw [← hN]; exact child_lt_nthreads hi hmem
      generalize hs1 : modify_thread st thr (fun r => { r with i_am_joining := false }) = s1
      have hd1 : dis_step (fun _ => False) st s1 := by
        rw [← hs1]
        exact dis_step_clear_joining st thr
      have hi1 : tree_inv s1 := by
        rw [← hs1]
        exact tree_inv_clear_joining hi thr
      have hj1 : (s1.threads thr).i_am_joining = false := by
        rw [← hs1]
        exact clear_joining_self st thr
      have hdesc1 : ∀ a b, descendant s1 a b ↔ descendant st a b := by
        rw [← hs1]
        exact descendant_congr (clear_joining_children st thr)
      obtain ⟨f1, s2, r2, h2, hi2, hd2, hr2, hc2⟩ := hrec s1 tmp hi1
        (by rw [hd1.step.nthreads_eq, hN]) (hi.order _ _ hmem) hcN
      have hd12 := dis_step_trans hd1 hd2
      obtain ⟨s3, h3, heff, hi3, hd3⟩ := reap_step hi2 tmp
        (by rw [hd12.step.nthreads_eq, hN]; exact hcN) hc2
        (hd2.post.ended tmp (descendant_refl _ _)).1
        (fun q hq => by
          have := hd12.step.parent_sub tmp q hq
          rw [hpar] at this
          rw [← Option.some.inj this]
          exact tree_rel_not_joining hd2.step thr hj1)
      have hd13 : dis_step (descendant st tmp) st s3 := by
        refine dis_step_congr (dis_step_trans hd12 hd3) ?_
        intro t
        rw [hdesc1]
        constructor
        · rintro ((h | h) | h)
          · exact h.elim
          · exact h
          · rw [h]
            exact descendant_refl _ _
        · intro h
          exact Or.inl (Or.inr h)
      have hsplit := descendant_split hi hmem hd13
      have hnot : tmp ∉ (s3.threads thr).children := by
        intro hm
        have := (hi3.children_parent thr tmp).mp hm
        rw [heff.parent_eq, if_pos rfl] at this
        exact Option.noConfusion this
      have hlen : (s3.threads thr).children.length ≤ k := by
        have hsub := hd13.rel.children_sublist thr
        rw [hch] at hsub
        have := (sublist_cons_not_mem hsub hnot).length_le
        rw [hch, List.length_cons] at hk
        omega
      obtain ⟨f2, st', r, h4, hi', hd', hr', hc'⟩ := ih s3 (flag || r2) hi3
        (by rw [hd13.step.nthreads_eq, hN]) hx hlen (hd13.step.ended_mono thr he)
        (hd13.step.pc_mono thr hpc)
        (by
          rw [hd13.step.parent_scope_eq]
          intro hm
          exact hsc (hd13.step.scope_sub _ _ hm))
      refine ⟨max f1 f2 + 1, st', r, ?_, hi',
        dis_step_congr (dis_step_trans hd13 hd') (fun t => (hsplit t).symm), ?_, hc'⟩
      · rw [do_disable_loop_step (max f1 f2) st s2 s3 thr mtch tmp rest flag r2 hch hpar
          (by rw [hs1]; exact do_disable_mono_le (le_max_left f1 f2) _ _ _ _ _ _ h2) h3]
        exact do_disable_mono_le (le_max_right f1 f2) _ _ _ _ _ _ h4
      · have hr2b : r2 = true ↔ descendant st tmp mtch := by
          rw [hr2, hdesc1]
          simp
        rw [hr', hsplit mtch, Bool.or_eq_true, hr2b]
        simp only [true_and]
        tauto

/-- The call `do_disable(thr, match)` returns, has disabled `thr` and all
its descendants, and its result says whether `match` is one of them. -/
theorem disable_spec_call (N mtch : Nat) :
    ∀ (rank : Nat) (st : vvp_world) (thr : Nat), tree_inv st → st.nthreads = N → thr < N →
      N - thr ≤ rank → disable_spec st thr mtch false false := by
  intro rank
  induction rank with
  | zero =>
    intro st thr _ _ hx hr
    omega
  | succ rank ih =>
    intro st thr hi hN hx hr
    generalize hs2 : modify_thread (scope_erase st (st.threads thr).parent_scope thr) thr
      (fun r => { r with pc_null := true, i_have_ended := true }) = s2
    have hd0 : dis_step (fun t => t = thr) st s2 := by
      rw [← hs2]
      exact dis_step_enter thr
    have hi2 : tree_inv s2 := by
      rw [← hs2]
      exact tree_inv_enter hi thr
    have hdesc : ∀ a b, descendant s2 a b ↔ descendant st a b := by
      rw [← hs2]
      exact descendant_congr (fun t => (disable_enter_fields st thr t).1)
    have hN2 : s2.nthreads = N := by rw [hd0.step.nthreads_eq, hN]
    have hps : (s2.threads thr).parent_scope = (st.threads thr).parent_scope :=
      hd0.step.parent_scope_eq thr
    obtain ⟨f, st', r, h, hi', hd', hr', hc'⟩ :=
      disable_spec_loop N thr mtch
        (fun s c his hNs htc hcN => ih s c his hNs hcN (by omega))
        (s2.threads thr).children.length s2 false hi2 hN2 hx (Nat.le_refl _)
        (hd0.post.ended thr rfl).1 (hd0.post.ended thr rfl).2
        (by rw [hps]; exact hd0.post.gone_scope thr rfl)
    refine ⟨f + 1, st', r, ?_, hi', dis_step_congr (dis_step_trans hd0 hd') ?_, ?_, hc'⟩
    · rw [do_disable_enter, hs2]
      exact h
    · intro t
      rw [hdesc]
      constructor
      · rintro (h | h)
        · rw [h]
          exact descendant_refl _ _
        · exact h
      · intro h
        exact Or.inr h
    · rw [hr', hdesc]
      simp

/-! ## The loop of `of_DISABLE` -/

/-- A path whose edges into the ancestors of `b` survive is a path of the
later state. -/
theorem descendant_survive_path {st st' : vvp_world} {a b : Nat}
    (hk : ∀ x y, y ∈ (st.threads x).children → descendant st y b →
      y ∈ (st'.threads x).children)
    (h : descendant st a b) : descendant st' a b := by
  induction h using Relation.ReflTransGen.head_induction_on with
  | refl => exact Relation.ReflTransGen.refl
  | head hac hcb ih =>
    exact Relation.ReflTransGen.head (hk _ _ hac hcb) ih

/-- When `cur` and its descendants have been disabled, the threads that
`%disable` has to disable are those and the ones it still has to. -/
theorem disabled_by_split {st s1 : vvp_world} {scope cur : Nat}
    (hmem : cur ∈ st.scope_threads scope) (h : dis_step (descendant st cur) st s1) (t : Nat) :
    disabled_by st scope t ↔ descendant st cur t ∨ disabled_by s1 scope t := by
  constructor
  · rintro ⟨r, hr, hd⟩
    by_cases hct : descendant st cur t
    · exact Or.inl hct
    · right
      refine ⟨r, h.post.keep_scope scope r (fun hc => hct (descendant_trans hc hd)) hr, ?_⟩
      refine descendant_survive_path ?_ hd
      intro x y hy hyt
      exact h.post.keep_children x y
        (fun hc => hct (descendant_trans hc (descendant_trans (descendant_child hy) hyt)))
        (fun hc => hct (descendant_trans hc hyt)) hy
  · rintro (hd | ⟨r, hr, hd⟩)
    · exact ⟨cur, hmem, hd⟩
    · exact ⟨r, h.step.scope_sub _ _ hr, descendant_mono h.step.children_sub hd⟩

theorem of_DISABLE_loop_nil (n fuel : Nat) (st : vvp_world) (thr scope : Nat) (flag : Bool)
    (hs : st.scope_threads scope = []) :
    of_DISABLE_loop n fuel st thr scope flag = some (st, !flag) := by
  cases n with
  | zero => simp only [of_DISABLE_loop, hs, if_true]
  | succ n => simp only [of_DISABLE_loop, hs]

theorem of_DISABLE_loop_cons (n fuel : Nat) (st s1 : vvp_world) (thr scope cur : Nat)
    (rest : List Nat) (flag r : Bool) (hs : st.scope_threads scope = cur :: rest)
    (h : do_disable fuel st cur thr false false = some (s1, r)) :
    of_DISABLE_loop (n + 1) fuel st thr scope flag =
      of_DISABLE_loop n fuel s1 thr scope (flag || decide (cur = thr) || r) := by
  simp only [of_DISABLE_loop, hs, h]

/-- The loop of `of_DISABLE` returns with the thread set of the scope empty,
has disabled the threads of the scope and their descendants, and its result
is `false` iff `thr` is one of them (or the flag was set). -/
theorem of_DISABLE_loop_spec (N thr scope : Nat) :
    ∀ (k : Nat) (st : vvp_world) (flag : Bool), tree_inv st → st.nthreads = N →
      scope_ready st scope → (st.scope_threads scope).length ≤ k →
      ∃ n fuel st' rc, of_DISABLE_loop n fuel st thr scope flag = some (st', rc) ∧
        st'.scope_threads scope = [] ∧ tree_rel st st' ∧
        (∀ t, disabled_by st scope t →
          (st'.threads t).i_have_ended = true ∧ (st'.threads t).pc_null = true) ∧
        (rc = false ↔ flag = true ∨ disabled_by st scope thr) := by
  intro k
  induction k with
  | zero =>
    intro st flag hi hN hsr hk
    have hs : st.scope_threads scope = [] := List.length_eq_zero.mp (Nat.le_zero.mp hk)
    refine ⟨0, 0, st, !flag, of_DISABLE_loop_nil 0 0 st thr scope flag hs, hs,
      tree_rel_refl st, ?_, ?_⟩
    · rintro t ⟨r, hr, _⟩
      rw [hs] at hr
      exact absurd hr (List.not_mem_nil _)
    · constructor
      · intro h
        left
        simpa using h
      · rintro (h | ⟨r, hr, _⟩)
        · simp [h]
        · rw [hs] at hr
          exact absurd hr (List.not_mem_nil _)
  | succ k ih =>
    intro st flag hi hN hsr hk
    cases hs : st.scope_threads scope with
    | nil =>
      refine ⟨0, 0, st, !flag, of_DISABLE_loop_nil 0 0 st thr scope flag hs, hs,
        tree_rel_refl st, ?_, ?_⟩
      · rintro t ⟨r, hr, _⟩
        rw [hs] at hr
        exact absurd hr (List.not_mem_nil _)
      · constructor
        · intro h
          left
          simpa using h
        · rintro (h | ⟨r, hr, _⟩)
          · simp [h]
          · rw [hs] at hr
            exact absurd hr (List.not_mem_nil _)
    | cons cur rest =>
      have hmem : cur ∈ st.scope_threads scope := by rw [hs]; exact List.mem_cons_self _ _
      obtain ⟨hcN, hps⟩ := hsr cur hmem
      obtain ⟨f1, s1, r1, h1, hi1, hd1, hr1, _⟩ :=
        disable_spec_call N thr (N - cur) st cur hi hN (by rw [← hN]; exact hcN) (Nat.le_refl _)
      have hN1 : s1.nthreads = N := by rw [hd1.step.nthreads_eq, hN]
      have hsr1 : scope_ready s1 scope := by
        intro t ht
        have := hsr t (hd1.step.scope_sub _ _ ht)
        rw [hd1.step.nthreads_eq, hd1.step.parent_scope_eq]
        exact this
      have hnot : cur ∉ s1.scope_threads scope := by
        have := hd1.post.gone_scope cur (descendant_refl _ _)
        rw [hps] at this
        exact this
      have hlen : (s1.scope_threads scope).length ≤ k := by
        have hsub := hd1.rel.scope_sublist scope
        rw [hs] at hsub
        have := (sublist_cons_not_mem hsub hnot).length_le
        rw [hs, List.length_cons] at hk
        omega
      obtain ⟨n2, f2, st', rc, h2, hs', hrel, hend, hrc⟩ :=
        ih s1 (flag || decide (cur = thr) || r1) hi1 hN1 hsr1 hlen
      have hsplit := disabled_by_split hmem hd1
      refine ⟨n2 + 1, max f1 f2, st', rc, ?_, hs', tree_rel_trans hd1.step hrel, ?_, ?_⟩
      · rw [of_DISABLE_loop_cons n2 (max f1 f2) st s1 thr scope cur rest flag r1 hs
          (do_disable_mono_le (le_max_left f1 f2) _ _ _ _ _ _ h1)]
        exact of_DISABLE_loop_mono (Nat.le_refl _) (le_max_right f1 f2) _ _ _ _ _ h2
      · intro t ht
        rcases (hsplit t).mp ht with hd | hd
        · have := hd1.post.ended t hd
          exact ⟨hrel.ended_mono t this.1, hrel.pc_mono t this.2⟩
        · exact hend t hd
      · have hr1b : r1 = true ↔ descendant st cur thr := by
          rw [hr1]
          simp
        have hcur : cur = thr → descendant st cur thr := by
          intro h
          rw [h]
          exact descendant_refl _ _
        rw [hrc, hsplit thr, Bool.or_eq_true, Bool.or_eq_true, hr1b, decide_eq_true_eq]
        tauto

/-! ## Claim C20 -/

/-- C20: in a state that satisfies the invariants of the thread tree, where a
thread that is neither scheduled nor waiting is in no list of waiting
threads and the threads in the thread set of `scope` have `scope` as their
`parent_scope`, the handler `of_DISABLE` executed by `thr` on `scope`
terminates: from some budget of loop iterations and calls on, it returns one
and the same result `(st', rc)`. In `st'` the thread set of the scope is
empty; every thread that was in it, and every descendant of one through the
children sets, has `i_have_ended` set and a null program counter; and `rc` is
`false` if and only if `thr` is one of these threads, and `true`
otherwise. -/
theorem C20_of_DISABLE_disables_scope (st : vvp_world) (thr scope : Nat) (hi : thread_inv st)
    (hw : wait_clear st) (hs : scope_ready st scope) :
    ∃ n fuel st' rc,
      (∀ n' fuel', of_DISABLE (n + n') (fuel + fuel') st thr scope = some (st', rc)) ∧
      st'.scope_threads scope = [] ∧
      (∀ t, disabled_by st scope t →
        (st'.threads t).i_have_ended = true ∧ (st'.threads t).pc_null = true) ∧
      (rc = false ↔ disabled_by st scope thr) ∧ (rc = true ↔ ¬ disabled_by st scope thr) := by
  obtain ⟨n, fuel, st', rc, h, hnil, _, hend, hrc⟩ :=
    of_DISABLE_loop_spec st.nthreads thr scope (st.scope_threads scope).length st false
      (tree_inv_of_thread_inv hi hw) rfl hs (Nat.le_refl _)
  have hrc1 : rc = false ↔ disabled_by st scope thr := by
    rw [hrc]
    simp
  refine ⟨n, fuel, st', rc, fun n' fuel' => ?_, hnil, hend, hrc1, ?_⟩
  · exact of_DISABLE_loop_mono (Nat.le_add_right n n') (Nat.le_add_right fuel fuel') _ _ _ _ _ h
  · rw [← hrc1]
    cases rc <;> simp

/-- C20 in the state where thread 0 has forked thread 1 into its own scope 0:
thread 1 executes `%disable` on scope 0, whose thread set holds both
threads, and is one of the threads disabled. -/
theorem C20_of_DISABLE_disables_scope_witness :
    (thread_inv tree2 ∧ wait_clear tree2 ∧ scope_ready tree2 0) ∧
    tree2.scope_threads 0 = [0, 1] ∧ disabled_by tree2 0 1 ∧
    ∃ n fuel st' rc,
      (∀ n' fuel', of_DISABLE (n + n') (fuel + fuel') tree2 1 0 = some (st', rc)) ∧
      st'.scope_threads 0 = [] ∧
      (∀ t, disabled_by tree2 0 t →
        (st'.threads t).i_have_ended = true ∧ (st'.threads t).pc_null = true) ∧
      (rc = false ↔ disabled_by tree2 0 1) ∧ (rc = true ↔ ¬ disabled_by tree2 0 1) :=
  ⟨⟨reachable_inv tree2 reachable_tree2, by decide, by decide⟩, by decide,
   ⟨1, by decide, descendant_refl tree2 1⟩,
   C20_of_DISABLE_disables_scope tree2 1 0 (reachable_inv tree2 reachable_tree2) (by decide)
     (by decide)⟩

/-! ## Claim C15 -/

theorem of_END_returns_false (st st' : vvp_world) (thr : Nat) (b : Bool)
    (h : of_END st thr = some (st', b)) : b = false := by
  unfold of_END at h
  split at h
  · exact Option.noConfusion h
  · simp only at h
    split at h
    · split at h
      · split at h
        · exact (Prod.mk.inj (Option.some.inj h)).2.symm
        · split at h
          · exact Option.noConfusion h
          · exact (Prod.mk.inj (Option.some.inj h)).2.symm
      · exact (Prod.mk.inj (Option.some.inj h)).2.symm
    · split at h
      · exact Option.noConfusion h
      · split at h
        · exact Option.noConfusion h
        · exact (Prod.mk.inj (Option.some.inj h)).2.symm

theorem of_ZOMBIE_returns_false (st : vvp_world) (thr : Nat) : (of_ZOMBIE st thr).2 = false := by
  unfold of_ZOMBIE
  simp only
  split
  · split <;> rfl
  · rfl

theorem of_FORK_returns_true (st : vvp_world) (thr : Nat) (scope : vpiScope) :
    (of_FORK st thr scope).2 = true := by
  unfold of_FORK
  simp only
  split <;> rfl

theorem of_JOIN_DETACH_returns_true (fuel : Nat) (st st' : vvp_world) (thr count : Nat)
    (b : Bool) (h : of_JOIN_DETACH fuel st thr count = some (st', b)) : b = true := by
  unfold of_JOIN_DETACH at h
  split at h
  · exact Option.noConfusion h
  · split at h
    · exact Option.noConfusion h
    · split at h
      · exact Option.noConfusion h
      · exact (Prod.mk.inj (Option.some.inj h)).2.symm

theorem of_JOIN_returns (st st' : vvp_world) (thr : Nat) (b : Bool)
    (h : of_JOIN st thr = some (st', b)) :
    b = false ↔ ¬ ∃ c, c ∈ (st.threads thr).children ∧
      (st.threads c).i_have_ended = true ∧ test_joinable st thr c = true := by
  cases b with
  | false =>
    simp only [true_iff]
    rintro ⟨c, hc, he, hj⟩
    exact (of_JOIN_false st st' thr h).1 c hc ⟨he, hj⟩
  | true =>
    obtain ⟨c, h1, h2, h3, _⟩ := of_JOIN_true st st' thr h
    simp only [Bool.true_eq_false, false_iff, not_not]
    exact ⟨c, h1, h2, h3⟩

/-- Whatever budget lets `of_DISABLE` return, it returns `false` iff the
executing thread is one of the threads disabled. -/
theorem of_DISABLE_returns (n fuel : Nat) (st st' : vvp_world) (thr scope : Nat) (b : Bool)
    (hi : thread_inv st) (hw : wait_clear st) (hs : scope_ready st scope)
    (h : of_DISABLE n fuel st thr scope = some (st', b)) :
    b = false ↔ disabled_by st scope thr := by
  obtain ⟨n0, f0, st0, rc0, h0, _, _, _, hrc⟩ :=
    of_DISABLE_loop_spec st.nthreads thr scope (st.scope_threads scope).length st false
      (tree_inv_of_thread_inv hi hw) rfl hs (Nat.le_refl _)
  have e1 := of_DISABLE_loop_mono (le_max_left n n0) (le_max_left fuel f0) _ _ _ _ _ h
  have e2 := of_DISABLE_loop_mono (le_max_right n n0) (le_max_right fuel f0) _ _ _ _ _ h0
  rw [e1] at e2
  have hb : b = rc0 := (Prod.mk.inj (Option.some.inj e2)).2
  rw [hb, hrc]
  simp

/-- C15, the claim as it stands fails: `%zombie` is an opcode of the
catalogue and not one of the suspension points of the claim, and its handler
`of_ZOMBIE` returns `false`. Here thread 2, disabled while it was scheduled
and then taken up by `vthread_run`, executes it in a reachable state. -/
theorem C15_zombie_returns_false :
    Reachable zombie_env.st ∧ (zombie_env.st.threads 2).pc_null = true ∧
    handler_return .of_ZOMBIE zombie_env = some false ∧
    ¬ spec_suspends .of_ZOMBIE zombie_env :=
  ⟨Reachable.run auto3 2 _ reachable_auto3 (some_getD _ auto3 (by decide)), by decide, by decide,
   fun h => h⟩

/-- C15, amended: a handler returns `false` exactly in the cases of the
claim and in the case of `%zombie`, whose handler always returns `false`:
`delay`, `delayx`, `wait`, `end` and `zombie` always; `join` iff no child has
ended and is joinable; `disable` iff the executing thread is one of the
threads disabled (in a state that satisfies the invariants of the thread
tree); `jmp`, `jmp/0`, `jmp/0xz`, `jmp/1` iff the stop flag is set;
`vpi_call` iff the call stopped or finished the simulation. Every other
handler returns `true` in every state. -/
theorem C15_handler_return_values (op : vvp_handler) (e : handler_env) (b : Bool)
    (hd : op = .of_DISABLE → thread_inv e.st ∧ wait_clear e.st ∧ scope_ready e.st e.handle)
    (h : handler_return op e = some b) :
    (b = false ↔ spec_suspends op e ∨ op = .of_ZOMBIE) ∧
    (b = true ↔ ¬ (spec_suspends op e ∨ op = .of_ZOMBIE)) := by
  have key : b = false ↔ spec_suspends op e ∨ op = .of_ZOMBIE := by
    cases op
    case of_DELAY =>
      simp only [handler_return, Option.some.injEq] at h
      simp [spec_suspends, ← h]
    case of_DELAYX =>
      simp only [handler_return, Option.some.injEq] at h
      simp [spec_suspends, ← h]
    case of_WAIT =>
      simp only [handler_return, Option.some.injEq] at h
      simp [spec_suspends, ← h]
    case of_DISABLE =>
      simp only [handler_return, Option.map_eq_some'] at h
      obtain ⟨⟨st', b'⟩, h1, h2⟩ := h
      simp only at h2
      subst h2
      obtain ⟨hi, hw, hs⟩ := hd rfl
      simp only [spec_suspends, reduceCtorEq, or_false]
      exact of_DISABLE_returns _ _ _ _ _ _ _ hi hw hs h1
    case of_END =>
      simp only [handler_return, Option.map_eq_some'] at h
      obtain ⟨⟨st', b'⟩, h1, h2⟩ := h
      simp only at h2
      subst h2
      simp [spec_suspends, of_END_returns_false _ _ _ _ h1]
    case of_FORK =>
      simp only [handler_return, Option.some.injEq, of_FORK_returns_true] at h
      simp [spec_suspends, ← h]
    case of_JMP =>
      simp only [handler_return] at h
      split at h <;> simp_all [spec_suspends]
    case of_JMP0 =>
      simp only [handler_return] at h
      split at h <;> simp_all [spec_suspends]
    case of_JMP0XZ =>
      simp only [handler_return] at h
      split at h <;> simp_all [spec_suspends]
    case of_JMP1 =>
      simp only [handler_return] at h
      split at h <;> simp_all [spec_suspends]
    case of_JOIN =>
      simp only [handler_return, Option.map_eq_some'] at h
      obtain ⟨⟨st', b'⟩, h1, h2⟩ := h
      simp only at h2
      subst h2
      simp only [spec_suspends, reduceCtorEq, or_false]
      exact of_JOIN_returns _ _ _ _ h1
    case of_JOIN_DETACH =>
      simp only [handler_return, Option.map_eq_some'] at h
      obtain ⟨⟨st', b'⟩, h1, h2⟩ := h
      simp only at h2
      subst h2
      simp [spec_suspends, of_JOIN_DETACH_returns_true _ _ _ _ _ _ h1]
    case of_VPI_CALL =>
      simp only [handler_return] at h
      split at h
      · simp_all [spec_suspends]
      · rename_i hst
        simp only [Option.some.injEq] at h
        rw [← h]
        cases hf : e.finished <;> simp_all [spec_suspends]
    case of_ZOMBIE =>
      simp only [handler_return, Option.some.injEq, of_ZOMBIE_returns_false] at h
      simp [spec_suspends, ← h]
    all_goals
      simp only [handler_return, Option.some.injEq] at h
      simp only [spec_suspends, ← h, or_self, reduceCtorEq]
  refine ⟨key, ?_⟩
  rw [← key]
  cases b <;> simp

/-- C15 for thread 1 in scope 0, which executes `%disable` on scope 0: the
handler returns `false`, and the thread is one of the threads disabled. -/
theorem C15_handler_return_values_witness :
    (thread_inv disable_env.st ∧ wait_clear disable_env.st ∧
      scope_ready disable_env.st disable_env.handle) ∧
    handler_return .of_DISABLE disable_env = some false ∧
    ((false = false ↔
        spec_suspends .of_DISABLE disable_env ∨ vvp_handler.of_DISABLE = .of_ZOMBIE) ∧
      (false = true ↔
        ¬ (spec_suspends .of_DISABLE disable_env ∨ vvp_handler.of_DISABLE = .of_ZOMBIE))) :=
  ⟨⟨reachable_inv tree2 reachable_tree2, by decide, by decide⟩, by decide,
   C15_handler_return_values .of_DISABLE disable_env false
     (fun _ => ⟨reachable_inv tree2 reachable_tree2, by decide, by decide⟩) (by decide)⟩

/-! ## Claim C30 -/

theorem unsigned_of_long_small (n : Nat) (h : n < 2 ^ 32) : unsigned_of_long (n : Int) = n := by
  unfold unsigned_of_long
  have : ((n : Int) % 2 ^ 32) = (n : Int) := Int.emod_eq_of_lt (by omega) (by omega)
  rw [this]
  simp

/-- C30, where the code departs from the claim: for every array word width
`vwidth >= 1`, part width `1 <= wid < 2^31` and address `adr >= 0`, the part
`[-wid, 0)` lies wholly outside `[0, vwidth)`, so that the claim expects
nothing to be scheduled, and `of_ASSIGN_AV` with `off = -wid` reaches
`assert(wid > 0)` with `wid == 0`: the test `(unsigned)-off > wid` lets
`-off == wid` through. And a part that overhangs both ends of the word, as
`off = -4`, `wid = 16` for `vwidth = 8`, is scheduled at the offset `-4` with
12 bits from the unchanged `bit`, not at offset 0 with the 8 bits inside the
word. -/
theorem C30_of_ASSIGN_AV_assertion_fails (wid : Nat) (adr : Int) (vwidth bit : Nat)
    (hw : 1 ≤ wid) (hw2 : wid < 2 ^ 31) (hv : 1 ≤ vwidth) (ha : 0 ≤ adr) :
    (spec_assign_av wid (-(wid : Int)) adr vwidth bit = none ∧
      of_ASSIGN_AV wid (-(wid : Int)) adr vwidth bit = none) ∧
    (spec_assign_av 16 (-4) 0 8 8 = some ⟨0, 0, 12, 8⟩ ∧
      of_ASSIGN_AV 16 (-4) 0 8 8 = some (some ⟨0, -4, 8, 12⟩)) := by
  refine ⟨⟨?_, ?_⟩, by decide, by decide⟩
  · unfold spec_assign_av
    rw [if_pos (Or.inl (by omega))]
  · have h1 : unsigned_of_long (wid : Int) = wid := unsigned_of_long_small wid (by omega)
    have h2 : unsigned_of_long (-(-(wid : Int))) = wid := by
      rw [neg_neg]
      exact h1
    have h3 : unsigned_of_long ((wid : Int) + -(wid : Int)) = 0 := by
      rw [add_neg_cancel]
      rfl
    unfold of_ASSIGN_AV of_ASSIGN_AV_trim
    rw [h1, if_neg (by omega), if_neg (by omega), if_neg (by omega), if_pos (by omega), h2,
      if_neg (by omega), h3]
    rfl

/-- C30 for `vwidth = 8`, `wid = 4`, `off = -4`. -/
theorem C30_of_ASSIGN_AV_assertion_fails_witness :
    (spec_assign_av 4 (-4) 0 8 8 = none ∧ of_ASSIGN_AV 4 (-4) 0 8 8 = none) ∧
    (spec_assign_av 16 (-4) 0 8 8 = some ⟨0, 0, 12, 8⟩ ∧
      of_ASSIGN_AV 16 (-4) 0 8 8 = some (some ⟨0, -4, 8, 12⟩)) :=
  C30_of_ASSIGN_AV_assertion_fails 4 0 8 8 (by decide) (by decide) (by decide) (by decide)

/-! ## Claims C22 and C23 -/

theorem of_CASSIGN_LINK_same (st : net_world) (dst src : Nat) (hs : st.is_signal dst = true)
    (hl : st.cassign_link dst = some src) : of_CASSIGN_LINK st dst src = some st := by
  unfold of_CASSIGN_LINK
  rw [if_neg (by rw [hs]; simp), if_pos hl]

/-- The lists after `of_CASSIGN_LINK` has installed a new source. -/
theorem of_CASSIGN_LINK_new (st : net_world) (dst src : Nat) (hs : st.is_signal dst = true)
    (hl : st.cassign_link dst ≠ some src) :
    ∃ st', of_CASSIGN_LINK st dst src = some st' ∧ st'.is_signal = st.is_signal ∧
      (∀ n, st'.cassign_link n = if n = dst then some src else st.cassign_link n) ∧
      (∀ n, st'.out n =
        if n = src then (⟨dst, 1⟩ : vvp_net_ptr_t) :: st.out n
        else if st.cassign_link dst = some n then (st.out n).filter (fun p => p ≠ ⟨dst, 1⟩)
        else st.out n) := by
  unfold of_CASSIGN_LINK
  rw [if_neg (by rw [hs]; simp), if_neg hl]
  refine ⟨_, rfl, ?_, ?_, ?_⟩
  · cases hc : st.cassign_link dst <;> rfl
  · intro n
    cases hc : st.cassign_link dst <;> rfl
  · intro n
    cases hc : st.cassign_link dst with
    | none =>
      simp only [vvp_net_link, set_cassign_link]
      split
      · rfl
      · simp
    | some old =>
      have hne : old ≠ src := fun h => hl (by rw [hc, h])
      simp only [vvp_net_link, set_cassign_link, vvp_net_unlink]
      by_cases h1 : n = src
      · subst h1
        have : n ≠ old := fun h => hne h.symm
        simp [this]
      · by_cases h2 : n = old
        · subst h2
          simp [h1]
        · have : old ≠ n := fun h => h2 h.symm
          simp [h1, h2, this]

theorem cassign_ptr_ne (d dst : Nat) (h : d ≠ dst) :
    (⟨d, 1⟩ : vvp_net_ptr_t) ≠ ⟨dst, 1⟩ := by
  intro he
  exact h (congrArg vvp_net_ptr_t.net he)

/-- C22: in a state where the links of `%cassign/link` are consistent, and
`dst` is a signal, `of_CASSIGN_LINK(dst, src)` returns; afterwards the
`cassign_link` of `dst` is `src` and the pointer (`dst`, port 1) is in the
list of `src`, exactly once; if the previous `cassign_link` was another net,
the pointer has left the list of that net; the pointer is in the list of no
net but `src`; executing the opcode again with the same `src` changes
nothing; and the links are consistent again. -/
theorem C22_of_CASSIGN_LINK_single_source (st : net_world) (dst src : Nat)
    (hs : st.is_signal dst = true) (hi : cassign_inv st) :
    ∃ st', of_CASSIGN_LINK st dst src = some st' ∧
      st'.cassign_link dst = some src ∧
      (⟨dst, 1⟩ : vvp_net_ptr_t) ∈ st'.out src ∧
      (∀ old, st.cassign_link dst = some old → old ≠ src →
        (⟨dst, 1⟩ : vvp_net_ptr_t) ∉ st'.out old) ∧
      (∀ s, (⟨dst, 1⟩ : vvp_net_ptr_t) ∈ st'.out s → s = src) ∧
      (st'.out src).count ⟨dst, 1⟩ = 1 ∧
      of_CASSIGN_LINK st' dst src = some st' ∧
      cassign_inv st' := by
  by_cases hl : st.cassign_link dst = some src
  · have hmem : (⟨dst, 1⟩ : vvp_net_ptr_t) ∈ st.out src := ((hi dst src).1).mpr hl
    refine ⟨st, of_CASSIGN_LINK_same st dst src hs hl, hl, hmem, ?_, ?_, ?_,
      of_CASSIGN_LINK_same st dst src hs hl, hi⟩
    · intro old ho hne
      rw [hl] at ho
      exact absurd (Option.some.inj ho).symm hne
    · intro s hm
      have := ((hi dst s).1).mp hm
      rw [hl] at this
      exact (Option.some.inj this).symm
    · have h1 := (hi dst src).2
      have h2 : 0 < (st.out src).count ⟨dst, 1⟩ := List.count_pos_iff.mpr hmem
      omega
  · obtain ⟨st', h, hsig, hlink, hout⟩ := of_CASSIGN_LINK_new st dst src hs hl
    have hnot : (⟨dst, 1⟩ : vvp_net_ptr_t) ∉ st.out src := fun hm => hl (((hi dst src).1).mp hm)
    have hl' : st'.cassign_link dst = some src := by rw [hlink, if_pos rfl]
    have hone : ∀ s, (⟨dst, 1⟩ : vvp_net_ptr_t) ∈ st'.out s → s = src := by
      intro s hm
      by_contra hne
      rw [hout, if_neg hne] at hm
      split at hm
      · simp at hm
      · rename_i hno
        exact hno (((hi dst s).1).mp hm)
    have hcount : (st'.out src).count ⟨dst, 1⟩ = 1 := by
      rw [hout, if_pos rfl, List.count_cons_self, List.count_eq_zero_of_not_mem hnot]
    refine ⟨st', h, hl', ?_, ?_, hone, hcount,
      of_CASSIGN_LINK_same st' dst src (by rw [hsig]; exact hs) hl', ?_⟩
    · rw [hout, if_pos rfl]
      exact List.mem_cons_self _ _
    · intro old _ hne hm
      exact hne (hone old hm)
    · intro d s
      by_cases hd : d = dst
      · subst hd
        constructor
        · constructor
          · intro hm
            rw [hone s hm]
            exact hl'
          · intro hls
            rw [hl'] at hls
            rw [← Option.some.inj hls, hout, if_pos rfl]
            exact List.mem_cons_self _ _
        · by_cases hsrc : s = src
          · rw [hsrc, hcount]
          · have : (⟨d, 1⟩ : vvp_net_ptr_t) ∉ st'.out s := fun hm => hsrc (hone s hm)
            rw [List.count_eq_zero_of_not_mem this]
            exact Nat.zero_le _
      · have hp := cassign_ptr_ne d dst hd
        have hmem : (⟨d, 1⟩ : vvp_net_ptr_t) ∈ st'.out s ↔ (⟨d, 1⟩ : vvp_net_ptr_t) ∈ st.out s := by
          rw [hout]
          split
          · simp [hp]
          · split
            · simp [hp]
            · rfl
        have hcnt : (st'.out s).count ⟨d, 1⟩ = (st.out s).count ⟨d, 1⟩ := by
          rw [hout]
          split
          · rw [List.count_cons_of_ne hp]
          · split
            · rw [List.count_filter]
              simp [hp]
            · rfl
        rw [hmem, hcnt, hlink, if_neg hd]
        exact hi d s

theorem cassign_inv_empty : cassign_inv nets_empty := by
  intro dst src
  simp [nets_empty]

/-- C22 for the nets before any link, with `dst = 2` and `src = 5`. -/
theorem C22_of_CASSIGN_LINK_single_source_witness :
    (nets_empty.is_signal 2 = true ∧ cassign_inv nets_empty) ∧
    ∃ st', of_CASSIGN_LINK nets_empty 2 5 = some st' ∧
      st'.cassign_link 2 = some 5 ∧
      (⟨2, 1⟩ : vvp_net_ptr_t) ∈ st'.out 5 ∧
      (∀ old, nets_empty.cassign_link 2 = some old → old ≠ 5 →
        (⟨2, 1⟩ : vvp_net_ptr_t) ∉ st'.out old) ∧
      (∀ s, (⟨2, 1⟩ : vvp_net_ptr_t) ∈ st'.out s → s = 5) ∧
      (st'.out 5).count ⟨2, 1⟩ = 1 ∧
      of_CASSIGN_LINK st' 2 5 = some st' ∧
      cassign_inv st' :=
  ⟨⟨rfl, cassign_inv_empty⟩,
   C22_of_CASSIGN_LINK_single_source nets_empty 2 5 rfl cassign_inv_empty⟩

/-- The value of `full_sig` in `of_DEASSIGN`, for `base` below the size of
the signal: the range clipped to the signal is the whole signal. -/
theorem of_DEASSIGN_full_sig (n base width : Nat) (hb : base < n) (hw : width < 2 ^ 32) :
    (decide (base = 0) &&
      decide ((if (base + width) % 2 ^ 32 > n then n - base else width) = n)) = true ↔
    (base = 0 ∧ min (base + width) n = n) := by
  simp only [Bool.and_eq_true, decide_eq_true_eq]
  constructor
  · rintro ⟨h0, h1⟩
    subst h0
    refine ⟨rfl, ?_⟩
    rw [Nat.zero_add, Nat.mod_eq_of_lt hw] at h1
    split at h1 <;> omega
  · rintro ⟨h0, h1⟩
    subst h0
    refine ⟨rfl, ?_⟩
    rw [Nat.zero_add] at h1
    rw [Nat.zero_add, Nat.mod_eq_of_lt hw]
    split <;> omega

/-- C23: `of_DEASSIGN` on a signal of width `n` with base `b` and width
`width` (unsigned numbers of 32 bits). When `b >= n` it returns and changes
nothing. When `b < n`, the range clipped to the signal, `[b, min(b+width, n))`,
is not the whole signal and `cassign_link` is not null, the process exits,
in the state in which the opcode started: the source is not unlinked and
`cassign_link` is not changed. When `b < n` and the clipped range is the
whole signal, the opcode returns; `cassign_link` is null, the pointer
(`net`, port 1) is not in the list of the net that was the `cassign_link`,
and the one call made is the full `deassign()`. -/
theorem C23_of_DEASSIGN_partial_is_fatal (st : net_world) (net base width : Nat)
    (hs : st.is_signal net = true) (hw : width < 2 ^ 32) :
    (st.value_size net ≤ base → of_DEASSIGN st net base width = run_result.returned st) ∧
    (base < st.value_size net →
      ¬ (base = 0 ∧ min (base + width) (st.value_size net) = st.value_size net) →
      st.cassign_link net ≠ none →
      of_DEASSIGN st net base width = run_result.exited st) ∧
    (base < st.value_size net →
      (base = 0 ∧ min (base + width) (st.value_size net) = st.value_size net) →
      ∃ st', of_DEASSIGN st net base width = run_result.returned st' ∧
        st'.cassign_link net = none ∧
        (∀ src, st.cassign_link net = some src →
          (⟨net, 1⟩ : vvp_net_ptr_t) ∉ st'.out src) ∧
        (∀ n, n ≠ net → st'.cassign_link n = st.cassign_link n) ∧
        (∀ n, st.cassign_link net ≠ some n → st'.out n = st.out n) ∧
        st'.calls = st.calls ++ [deassign_call.deassign net]) := by
  refine ⟨fun hge => ?_, fun hb hnot hl => ?_, fun hb hfull => ?_⟩
  · unfold of_DEASSIGN
    rw [if_neg (by rw [hs]; simp), if_pos hge]
  · have hf := of_DEASSIGN_full_sig (st.value_size net) base width hb hw
    unfold of_DEASSIGN
    rw [if_neg (by rw [hs]; simp), if_neg (by omega)]
    cases hc : st.cassign_link net with
    | none => exact absurd hc hl
    | some src =>
      simp only
      rw [if_pos]
      cases hd : (decide (base = 0) &&
        decide ((if (base + width) % 2 ^ 32 > st.value_size net
          then st.value_size net - base else width) = st.value_size net)) with
      | false => rfl
      | true => exact absurd (hf.mp hd) hnot
  · have hf := (of_DEASSIGN_full_sig (st.value_size net) base width hb hw).mpr hfull
    unfold of_DEASSIGN
    rw [if_neg (by rw [hs]; simp), if_neg (by omega)]
    cases hc : st.cassign_link net with
    | none =>
      simp only
      rw [if_pos hf]
      refine ⟨_, rfl, hc, fun src h => Option.noConfusion h, fun _ _ => rfl, fun _ _ => rfl, rfl⟩
    | some src =>
      simp only
      rw [if_neg (by rw [hf]; simp)]
      refine ⟨_, rfl, ?_, ?_, ?_, ?_, rfl⟩
      · simp [set_cassign_link]
      · intro s hs'
        have := Option.some.inj hs'
        subst this
        simp [set_cassign_link, vvp_net_unlink]
      · intro n hn
        simp [set_cassign_link, vvp_net_unlink, hn]
      · intro n hn
        have : n ≠ src := fun h => hn (by rw [h])
        simp [set_cassign_link, vvp_net_unlink, this]

/-- C23 on the signal 2 of width 8 with the `cassign_link` 5: `%deassign` of
the bits 2 to 5 exits and leaves the link, `%deassign` of the bits 0 to 7
returns with the link removed. -/
theorem C23_of_DEASSIGN_partial_is_fatal_witness :
    (nets_linked.is_signal 2 = true ∧ nets_linked.value_size 2 = 8 ∧
      nets_linked.cassign_link 2 = some 5) ∧
    of_DEASSIGN nets_linked 2 8 4 = run_result.returned nets_linked ∧
    of_DEASSIGN nets_linked 2 2 4 = run_result.exited nets_linked ∧
    ∃ st', of_DEASSIGN nets_linked 2 0 8 = run_result.returned st' ∧
      st'.cassign_link 2 = none ∧
      (∀ src, nets_linked.cassign_link 2 = some src →
        (⟨2, 1⟩ : vvp_net_ptr_t) ∉ st'.out src) ∧
      (∀ n, n ≠ 2 → st'.cassign_link n = nets_linked.cassign_link n) ∧
      (∀ n, nets_linked.cassign_link 2 ≠ some n → st'.out n = nets_linked.out n) ∧
      st'.calls = nets_linked.calls ++ [deassign_call.deassign 2] :=
  ⟨⟨by decide, by decide, by decide⟩,
   (C23_of_DEASSIGN_partial_is_fatal nets_linked 2 8 4 (by decide) (by decide)).1 (by decide),
   (C23_of_DEASSIGN_partial_is_fatal nets_linked 2 2 4 (by decide) (by decide)).2.1
     (by decide) (by decide) (by decide),
   (C23_of_DEASSIGN_partial_is_fatal nets_linked 2 0 8 (by decide) (by decide)).2.2
     (by decide) (by decide)⟩

/-! ## Claim C21: a context through `%alloc`, `%fork`, `%join` and `%free` -/

theorem alloc_choice_ne_zero (st : ctx_world) (scope : vpiScope) : alloc_choice st scope ≠ 0 := by
  unfold alloc_choice
  split
  · assumption
  · exact Nat.succ_ne_zero _

/-- The effect of `of_ALLOC`: the context `alloc_choice` becomes the head of
the live list of the scope and the top of the write stack of `thr`. -/
theorem of_ALLOC_effect (st : ctx_world) (thr : Nat) (scope : vpiScope)
    (ha : scope.is_automatic = true) :
    ∃ st1, of_ALLOC st thr scope = some (st1, true) ∧
      (st1.w.threads thr).wt_context = alloc_choice st scope ∧
      (st1.w.threads thr).rd_context = (st.w.threads thr).rd_context ∧
      (st1.w.threads thr).i_am_joining = (st.w.threads thr).i_am_joining ∧
      (st1.w.threads thr).i_have_ended = (st.w.threads thr).i_have_ended ∧
      (st1.w.threads thr).children = (st.w.threads thr).children ∧
      (st1.w.threads thr).automatic_children = (st.w.threads thr).automatic_children ∧
      (∀ i, i ≠ thr → st1.w.threads i = st.w.threads i) ∧
      st1.w.nthreads = st.w.nthreads ∧
      st1.w.stacked_context (alloc_choice st scope) = (st.w.threads thr).wt_context ∧
      st1.live_contexts scope.id = alloc_choice st scope ∧
      st1.next_context (alloc_choice st scope) = st.live_contexts scope.id ∧
      (∀ c, c ≠ alloc_choice st scope → st1.next_context c = st.next_context c) ∧
      st1.free_contexts scope.id =
        (if st.free_contexts scope.id ≠ 0 then st.next_context (st.free_contexts scope.id)
         else 0) := by
  unfold of_ALLOC vthread_alloc_context alloc_choice
  rw [if_neg (by rw [ha]; simp)]
  by_cases hf : st.free_contexts scope.id ≠ 0
  · simp only [hf, if_true, ne_eq, not_false_eq_true]
    refine ⟨_, rfl, ?_, ?_, ?_, ?_, ?_, ?_, ?_, ?_, ?_, ?_, ?_, ?_, ?_⟩ <;>
      simp [vvp_set_stacked_context, set_live_contexts, vvp_set_next_context, set_free_contexts,
        modify_thread]
    · intro i hi
      simp [hi]
    · intro c hc
      simp [hc]
  · have hf0 : st.free_contexts scope.id = 0 := by simpa using hf
    simp only [hf0, ne_eq, not_true_eq_false, if_false]
    refine ⟨_, rfl, ?_, ?_, ?_, ?_, ?_, ?_, ?_, ?_, ?_, ?_, ?_, ?_, ?_⟩ <;>
      simp [vvp_set_stacked_context, set_live_contexts, vvp_set_next_context, set_free_contexts,
        modify_thread, hf0]
    · intro i hi
      simp [hi]
    · intro c hc
      simp [hc]

/-- The effect of `of_FREE` when the top of the read stack of `thr` is the
head of the live list of the scope. -/
theorem of_FREE_effect (st : ctx_world) (thr : Nat) (scope : vpiScope)
    (ha : scope.is_automatic = true) (hc : (st.w.threads thr).rd_context ≠ 0)
    (hl : st.live_contexts scope.id = (st.w.threads thr).rd_context) :
    ∃ st', of_FREE 0 st thr scope = some (st', true) ∧
      (st'.w.threads thr).rd_context = st.w.stacked_context (st.w.threads thr).rd_context ∧
      (st'.w.threads thr).wt_context = (st.w.threads thr).wt_context ∧
      st'.free_contexts scope.id = (st.w.threads thr).rd_context ∧
      st'.next_context (st.w.threads thr).rd_context = st.free_contexts scope.id ∧
      st'.live_contexts scope.id = st.next_context (st.w.threads thr).rd_context ∧
      (∀ c, c ≠ (st.w.threads thr).rd_context → st'.next_context c = st.next_context c) := by
  unfold of_FREE vthread_free_context
  simp only [hl, ha, Bool.true_eq_false, if_false, hc, if_true]
  refine ⟨_, rfl, ?_, ?_, ?_, ?_, ?_, ?_⟩ <;>
    simp [set_live_contexts, vvp_set_next_context, set_free_contexts, modify_thread]
  intro c hcc
  simp [hcc]

/-- A child forked into an automatic scope runs and executes `%end` while
its parent is not in a `%join`: the thread world after that. -/
theorem fork_run_end (w : vvp_world) (thr : Nat) (scope : vpiScope)
    (ha : scope.is_automatic = true) (ht : thr < w.nthreads)
    (hj : (w.threads thr).i_am_joining = false) :
    ∃ w3 w4, vthread_run_begin (of_FORK w thr scope).1 w.nthreads = some w3 ∧
      of_END w3 w.nthreads = some (w4, false) ∧
      (w4.threads thr).wt_context = (w.threads thr).wt_context ∧
      (w4.threads thr).rd_context = (w.threads thr).rd_context ∧
      (w4.threads thr).i_am_joining = false ∧
      (w4.threads thr).i_have_ended = (w.threads thr).i_have_ended ∧
      (w4.threads thr).children = set_insert w.nthreads (w.threads thr).children ∧
      (w4.threads thr).automatic_children =
        set_insert w.nthreads (w.threads thr).automatic_children ∧
      (w4.threads w.nthreads).parent = some thr ∧
      (w4.threads w.nthreads).children = [] ∧
      (w4.threads w.nthreads).i_have_ended = true ∧
      (w4.threads w.nthreads).is_scheduled = false ∧
      (w4.threads w.nthreads).waiting_for_event = false ∧
      (w4.threads w.nthreads).wait_next = none ∧
      (∀ i, i ≠ thr → i ≠ w.nthreads → w4.threads i = w.threads i) ∧
      w4.stacked_context = w.stacked_context := by
  have hne : thr ≠ w.nthreads := by omega
  have hne' : w.nthreads ≠ thr := fun h => hne h.symm
  have hfork : ∃ w2, (of_FORK w thr scope).1 = w2 ∧
      w2.threads thr = { (w.threads thr) with
        automatic_children := set_insert w.nthreads (w.threads thr).automatic_children,
        children := set_insert w.nthreads (w.threads thr).children } ∧
      w2.threads w.nthreads =
        { pc_null := false, i_am_joining := false, i_have_ended := false,
          waiting_for_event := false, is_scheduled := true, delay_delete := false,
          children := [], automatic_children := [], parent := some thr,
          parent_scope := scope.id, wait_next := none,
          wt_context := (w.threads thr).wt_context, rd_context := (w.threads thr).wt_context,
          deleted := false, del_scheduled := false } ∧
      (∀ i, i ≠ thr → i ≠ w.nthreads → w2.threads i = w.threads i) ∧
      w2.stacked_context = w.stacked_context := by
    refine ⟨_, rfl, ?_, ?_, ?_, ?_⟩
    · unfold of_FORK schedule_vthread
      by_cases hfn : scope.is_function = true <;>
        simp [ha, hfn, modify_thread_threads, vthread_new_threads, hne, hne']
    · unfold of_FORK schedule_vthread
      by_cases hfn : scope.is_function = true <;>
        simp [ha, hfn, modify_thread_threads, vthread_new_threads, hne, hne']
    · intro i h1 h2
      unfold of_FORK schedule_vthread
      by_cases hfn : scope.is_function = true <;>
        simp [ha, hfn, modify_thread_threads, vthread_new_threads, h1, h2]
    · unfold of_FORK schedule_vthread
      by_cases hfn : scope.is_function = true <;>
        simp [ha, hfn, modify_thread, vthread_new]
  obtain ⟨w2, hw2, f1, f2, f3, f4⟩ := hfork
  rw [hw2]
  have hrun : vthread_run_begin w2 w.nthreads = some (modify_thread w2 w.nthreads
      (fun r => { r with wait_next := none, is_scheduled := false })) := by
    unfold vthread_run_begin
    rw [if_pos (by rw [f2])]
  refine ⟨_, modify_thread (modify_thread w2 w.nthreads
      (fun r => { r with wait_next := none, is_scheduled := false })) w.nthreads
      (fun r => { r with i_have_ended := true, pc_null := true }), hrun, ?_, ?_⟩
  · unfold of_END
    simp only [modify_thread_threads, if_true, f2, Bool.false_eq_true, if_false, hne, f1, hj]
  · simp only [modify_thread_threads, if_true, f2, hne, if_false, f1, true_and]
    refine ⟨hj, fun i h1 h2 => ?_, f4⟩
    rw [if_neg h2, if_neg h2]
    exact f3 i h1 h2

/-- The function `vthread_reap` on a thread without children does not touch
the context stacks. -/
theorem vthread_reap_contexts (st st' : vvp_world) (x : Nat)
    (hc : (st.threads x).children = []) (h : vthread_reap st x = some st') :
    (∀ i, (st'.threads i).wt_context = (st.threads i).wt_context ∧
      (st'.threads i).rd_context = (st.threads i).rd_context) ∧
    st'.stacked_context = st.stacked_context := by
  obtain ⟨f, hf, rfl⟩ := vthread_reap_childless st st' x hc h
  have hfr : ∀ r, (f r).wt_context = r.wt_context ∧ (f r).rd_context = r.rd_context := by
    intro r
    obtain ⟨d1, d2, e⟩ := hf r
    rw [e]
    exact ⟨rfl, rfl⟩
  constructor
  · intro i
    cases hp : (st.threads x).parent with
    | none =>
      simp only [vthread_reap_core, hp, modify_thread_threads, scope_erase_threads]
      by_cases hi : i = x
      · subst hi
        simp [hfr]
      · simp [hi]
    | some p =>
      simp only [vthread_reap_core, hp, modify_thread_threads, scope_erase_threads]
      by_cases hi : i = x
      · subst hi
        by_cases hip : i = p
        · subst hip
          simp [hfr]
        · simp [hfr, hip]
      · by_cases hip : i = p
        · subst hip
          simp [hi]
        · simp [hi, hip]
  · cases hp : (st.threads x).parent <;>
      simp [vthread_reap_core, hp, modify_thread, scope_erase]

/-- The loop of `of_JOIN` finds the child `child`, when no other child of
the list has ended and is joinable. -/
theorem of_JOIN_find_target (st : vvp_world) (thr child : Nat) (l : List Nat)
    (hmem : child ∈ l)
    (hother : ∀ c, c ∈ l → c ≠ child →
      ¬ ((st.threads c).i_have_ended = true ∧ test_joinable st thr c = true))
    (hend : (st.threads child).i_have_ended = true)
    (hjoin : test_joinable st thr child = true) : of_JOIN_find st thr l = some child := by
  induction l with
  | nil => exact absurd hmem (List.not_mem_nil _)
  | cons x xs ih =>
    unfold of_JOIN_find
    by_cases hx : x = child
    · subst hx
      rw [if_neg (by rw [hend]; simp), if_neg (by rw [hjoin]; simp)]
    · have hno := hother x (List.mem_cons_self _ _) hx
      have hmem' : child ∈ xs := by
        rcases List.mem_cons.mp hmem with h | h
        · exact absurd h.symm hx
        · exact h
      have ih' := ih hmem' (fun c hc => hother c (List.mem_cons_of_mem _ hc))
      by_cases he : (st.threads x).i_have_ended = false
      · rw [if_pos he]
        exact ih'
      · rw [if_neg he]
        have he' : (st.threads x).i_have_ended = true := by simpa using he
        have hj : test_joinable st thr x = false := by
          by_contra hc
          exact hno ⟨he', by simpa using hc⟩
        rw [if_pos hj]
        exact ih'

/-- The handler `of_JOIN` on a thread whose automatic child `child` has
ended: `do_join` moves the top of the write stack of `thr` to the top of its
read stack, and the child is reaped. -/
theorem of_JOIN_moves_context (w : vvp_world) (thr child : Nat)
    (hj : (w.threads thr).i_am_joining = false)
    (hmem : child ∈ (w.threads thr).children)
    (haut : child ∈ (w.threads thr).automatic_children)
    (hother : ∀ c, c ∈ (w.threads thr).children → c ≠ child →
      ¬ ((w.threads c).i_have_ended = true ∧ c ∈ (w.threads thr).automatic_children))
    (hpar : (w.threads child).parent = some thr)
    (hch : (w.threads child).children = [])
    (hend : (w.threads child).i_have_ended = true)
    (hwn : (w.threads child).wait_next = none)
    (hctx : (w.threads thr).wt_context ≠ (w.threads thr).rd_context) :
    ∃ w5, of_JOIN w thr = some (w5, true) ∧
      (w5.threads thr).wt_context = w.stacked_context (w.threads thr).wt_context ∧
      (w5.threads thr).rd_context = (w.threads thr).wt_context ∧
      w5.stacked_context (w.threads thr).wt_context = (w.threads thr).rd_context ∧
      (∀ c, c ≠ (w.threads thr).wt_context → w5.stacked_context c = w.stacked_context c) ∧
      child ∉ (w5.threads thr).children ∧
      (w5.threads child).pc_null = true := by
  have hjoinable : ∀ c, test_joinable w thr c = true ↔ c ∈ (w.threads thr).automatic_children := by
    intro c
    rw [test_joinable_iff]
    constructor
    · intro h
      exact h (List.ne_nil_of_mem haut)
    · intro h _
      exact h
  have hfind : of_JOIN_find w thr (w.threads thr).children = some child :=
    of_JOIN_find_target w thr child _ hmem
      (fun c hc hcc => by rw [hjoinable]; exact hother c hc hcc) hend ((hjoinable child).mpr haut)
  obtain ⟨kn, ks, kt⟩ := do_join_contexts_fields w thr child
  have hcc : ((do_join_contexts w thr child).threads child).children = [] := by
    rw [(kt child).1]
    exact hch
  obtain ⟨w5, hreap⟩ := vthread_reap_some (do_join_contexts w thr child) child hcc
    (fun _ _ => by rw [(kt child).2.2.2.2.2.2.2.2.1]; exact hwn)
  have hdo : do_join w thr child = some w5 := by
    unfold do_join
    rw [if_neg (by rw [hpar]; simp)]
    exact hreap
  obtain ⟨hctxs, hstk⟩ := vthread_reap_contexts _ w5 child hcc hreap
  have heff := vthread_reap_effect _ w5 child hcc hreap
  have hof : of_JOIN w thr = some (w5, true) := by
    unfold of_JOIN
    rw [if_neg (by rw [hj]; simp), if_neg (List.ne_nil_of_mem hmem), hfind]
    simp only [hdo]
  have hdc : do_join_contexts w thr child =
      modify_thread
        (vvp_set_stacked_context
          (modify_thread
            (modify_thread w thr
              (fun r => { r with automatic_children := set_erase child r.automatic_children }))
            thr (fun r => { r with wt_context := w.stacked_context (w.threads thr).wt_context }))
          (w.threads thr).wt_context (w.threads thr).rd_context)
        thr (fun r => { r with rd_context := (w.threads thr).wt_context }) := by
    unfold do_join_contexts
    rw [if_pos haut]
    simp only [modify_thread_threads, if_true]
    rw [if_pos hctx]
    rfl
  refine ⟨w5, hof, ?_, ?_, ?_, ?_, ?_, ?_⟩
  · rw [(hctxs thr).1, hdc]
    simp
  · rw [(hctxs thr).2, hdc]
    simp
  · rw [hstk, hdc]
    simp [vvp_set_stacked_context, modify_thread]
  · intro c hc
    rw [hstk, hdc]
    simp [vvp_set_stacked_context, modify_thread, hc]
  · rw [heff.children_eq, (kt child).2.1, hpar, if_pos rfl]
    intro hm
    exact ((mem_set_erase _ _ _).mp hm).2 rfl
  · rw [heff.pc_null_eq, if_pos rfl]

/-- C21: let `scope` be automatic and `thr` a thread that is not in a
`%join`, none of whose automatic children has ended, and whose read context
is not the context that `%alloc` hands out. Then the sequence `%alloc` by
`thr`; `%fork` of a child into the scope; the child runs and executes
`%end`; `%join` by `thr`; `%free` by `thr` goes through, the `%join` reaps
that child, and: `%alloc` makes the context `C` the head of the live list
and pushes it on the write stack of `thr` (the link of `C` is the old write
context); `do_join` in `%join` moves `C` from the top of the write stack to
the top of the read stack (the link of `C` is now the old read context);
`%free` pops `C` from the read stack, so that both contexts of `thr` have
their values from before the `%alloc`, makes `C` the head of the free list
of the scope, and leaves the live list as it was: its head is the old head
and no link of another context has changed. -/
theorem C21_alloc_free_restore_contexts (st : ctx_world) (thr : Nat) (scope : vpiScope)
    (ha : scope.is_automatic = true) (ht : thr < st.w.nthreads)
    (hj : (st.w.threads thr).i_am_joining = false)
    (hother : ∀ c, c ∈ (st.w.threads thr).children →
      c ∈ (st.w.threads thr).automatic_children → (st.w.threads c).i_have_ended = false)
    (hfresh : alloc_choice st scope ≠ (st.w.threads thr).rd_context) :
    ∃ st1 w3 w4 w5 st6,
      of_ALLOC st thr scope = some (st1, true) ∧
      vthread_run_begin (of_FORK st1.w thr scope).1 st1.w.nthreads = some w3 ∧
      of_END w3 st1.w.nthreads = some (w4, false) ∧
      of_JOIN w4 thr = some (w5, true) ∧
      (w5.threads st1.w.nthreads).pc_null = true ∧
      st1.w.nthreads ∉ (w5.threads thr).children ∧
      of_FREE 0 (with_threads st1 w5) thr scope = some (st6, true) ∧
      ((st1.w.threads thr).wt_context = alloc_choice st scope ∧
        st1.w.stacked_context (alloc_choice st scope) = (st.w.threads thr).wt_context ∧
        st1.live_contexts scope.id = alloc_choice st scope) ∧
      ((w5.threads thr).wt_context = (st.w.threads thr).wt_context ∧
        (w5.threads thr).rd_context = alloc_choice st scope ∧
        w5.stacked_context (alloc_choice st scope) = (st.w.threads thr).rd_context) ∧
      ((st6.w.threads thr).wt_context = (st.w.threads thr).wt_context ∧
        (st6.w.threads thr).rd_context = (st.w.threads thr).rd_context ∧
        st6.free_contexts scope.id = alloc_choice st scope ∧
        st6.live_contexts scope.id = st.live_contexts scope.id ∧
        (∀ c, c ≠ alloc_choice st scope → st6.next_context c = st.next_context c)) := by
  obtain ⟨st1, h1, a_wt, a_rd, a_j, a_e, a_ch, a_au, a_oth, a_n, a_stk, a_live, a_next, a_nx, _⟩ :=
    of_ALLOC_effect st thr scope ha
  have hne : st1.w.nthreads ≠ thr := by omega
  obtain ⟨w3, w4, h3, h4, b_wt, b_rd, b_j, b_e, b_ch, b_au, c_par, c_ch, c_end, _, _, c_wn,
      b_oth, b_stk⟩ :=
    fork_run_end st1.w thr scope ha (by omega) (by rw [a_j]; exact hj)
  have hoth4 : ∀ c, c ∈ (w4.threads thr).children → c ≠ st1.w.nthreads →
      ¬ ((w4.threads c).i_have_ended = true ∧ c ∈ (w4.threads thr).automatic_children) := by
    intro c hc hcn ⟨he, hau⟩
    rw [b_ch, mem_set_insert, a_ch] at hc
    rw [b_au, mem_set_insert, a_au] at hau
    have hc0 : c ∈ (st.w.threads thr).children := by
      rcases hc with h | h
      · exact absurd h hcn
      · exact h
    have hau0 : c ∈ (st.w.threads thr).automatic_children := by
      rcases hau with h | h
      · exact absurd h hcn
      · exact h
    have hno := hother c hc0 hau0
    by_cases hct : c = thr
    · subst hct
      rw [b_e, a_e, hno] at he
      exact Bool.noConfusion he
    · rw [b_oth c hct hcn, a_oth c hct, hno] at he
      exact Bool.noConfusion he
  obtain ⟨w5, h5, d_wt, d_rd, d_stk, _, d_gone, d_pc⟩ :=
    of_JOIN_moves_context w4 thr st1.w.nthreads b_j
      (by rw [b_ch, mem_set_insert]; exact Or.inl rfl)
      (by rw [b_au, mem_set_insert]; exact Or.inl rfl)
      hoth4 c_par c_ch c_end c_wn (by rw [b_wt, b_rd, a_wt, a_rd]; exact hfresh)
  rw [b_wt, a_wt] at d_wt d_rd d_stk
  rw [b_stk, a_stk] at d_wt
  rw [b_rd, a_rd] at d_stk
  obtain ⟨st6, h6, e_rd, e_wt, e_free, _, e_live, e_nx⟩ :=
    of_FREE_effect (with_threads st1 w5) thr scope ha
      (by
        show (w5.threads thr).rd_context ≠ 0
        rw [d_rd]
        exact alloc_choice_ne_zero st scope)
      (by
        show st1.live_contexts scope.id = (w5.threads thr).rd_context
        rw [d_rd, a_live])
  have e_rd' : (st6.w.threads thr).rd_context = w5.stacked_context (w5.threads thr).rd_context :=
    e_rd
  have e_wt' : (st6.w.threads thr).wt_context = (w5.threads thr).wt_context := e_wt
  have e_free' : st6.free_contexts scope.id = (w5.threads thr).rd_context := e_free
  have e_live' : st6.live_contexts scope.id = st1.next_context (w5.threads thr).rd_context :=
    e_live
  have e_nx' : ∀ c, c ≠ (w5.threads thr).rd_context → st6.next_context c = st1.next_context c :=
    e_nx
  rw [d_rd] at e_rd' e_free' e_live' e_nx'
  refine ⟨st1, w3, w4, w5, st6, h1, h3, h4, h5, d_pc, d_gone, h6, ⟨a_wt, a_stk, a_live⟩,
    ⟨d_wt, d_rd, d_stk⟩, ⟨by rw [e_wt', d_wt], by rw [e_rd', d_stk], e_free',
    by rw [e_live', a_next], fun c hc => by rw [e_nx' c hc, a_nx c hc]⟩⟩

/-- C21 for thread 0 and the automatic scope 1, before any context exists:
`%alloc` creates the context 1. -/
theorem C21_alloc_free_restore_contexts_witness :
    ((0 < ctx_start.w.nthreads ∧ (ctx_start.w.threads 0).i_am_joining = false ∧
      (ctx_start.w.threads 0).children = [] ∧
      alloc_choice ctx_start ⟨1, true, false⟩ = 1 ∧ (ctx_start.w.threads 0).rd_context = 0)) ∧
    ∃ st1 w3 w4 w5 st6,
      of_ALLOC ctx_start 0 ⟨1, true, false⟩ = some (st1, true) ∧
      vthread_run_begin (of_FORK st1.w 0 ⟨1, true, false⟩).1 st1.w.nthreads = some w3 ∧
      of_END w3 st1.w.nthreads = some (w4, false) ∧
      of_JOIN w4 0 = some (w5, true) ∧
      (w5.threads st1.w.nthreads).pc_null = true ∧
      st1.w.nthreads ∉ (w5.threads 0).children ∧
      of_FREE 0 (with_threads st1 w5) 0 ⟨1, true, false⟩ = some (st6, true) ∧
      ((st1.w.threads 0).wt_context = alloc_choice ctx_start ⟨1, true, false⟩ ∧
        st1.w.stacked_context (alloc_choice ctx_start ⟨1, true, false⟩)
          = (ctx_start.w.threads 0).wt_context ∧
        st1.live_contexts 1 = alloc_choice ctx_start ⟨1, true, false⟩) ∧
      ((w5.threads 0).wt_context = (ctx_start.w.threads 0).wt_context ∧
        (w5.threads 0).rd_context = alloc_choice ctx_start ⟨1, true, false⟩ ∧
        w5.stacked_context (alloc_choice ctx_start ⟨1, true, false⟩)
          = (ctx_start.w.threads 0).rd_context) ∧
      ((st6.w.threads 0).wt_context = (ctx_start.w.threads 0).wt_context ∧
        (st6.w.threads 0).rd_context = (ctx_start.w.threads 0).rd_context ∧
        st6.free_contexts 1 = alloc_choice ctx_start ⟨1, true, false⟩ ∧
        st6.live_contexts 1 = ctx_start.live_contexts 1 ∧
        (∀ c, c ≠ alloc_choice ctx_start ⟨1, true, false⟩ →
          st6.next_context c = ctx_start.next_context c)) :=
  ⟨⟨by decide, by decide, by decide, by decide, by decide⟩,
   C21_alloc_free_restore_contexts ctx_start 0 ⟨1, true, false⟩ rfl (by decide) (by decide)
     (fun c hc => absurd hc (List.not_mem_nil c)) (by decide)⟩

/-! ## The context map -/

theorem map_keys_put (m : context_map_t) (key : String) (value : Option eval_value) :
    map_keys (map_put m key value) = map_keys m := by
  unfold map_keys map_put
  rw [List.map_map]
  apply List.map_congr_left
  intro p _
  simp only [Function.comp]
  split
  · rename_i h
    exact h.symm
  · rfl

theorem map_find_cons (p : String × Option eval_value) (ps : context_map_t) (k : String) :
    map_find (p :: ps) k = if p.1 = k then some p.2 else map_find ps k := by
  unfold map_find
  rw [List.find?_cons]
  by_cases hp : p.1 = k
  · simp [hp]
  · simp [hp]

theorem map_put_cons (p : String × Option eval_value) (ps : context_map_t) (key : String)
    (value : Option eval_value) :
    map_put (p :: ps) key value =
      (if p.1 = key then (key, value) else p) :: map_put ps key value := rfl

theorem map_find_put_ne (m : context_map_t) (key k : String) (value : Option eval_value)
    (h : k ≠ key) : map_find (map_put m key value) k = map_find m k := by
  induction m with
  | nil => rfl
  | cons p ps ih =>
    rw [map_put_cons, map_find_cons, map_find_cons, ih]
    by_cases hp : p.1 = key
    · have hk : ¬ p.1 = k := fun e => h (e.symm.trans hp)
      have hk2 : ¬ key = k := fun e => h e.symm
      simp [hp, hk2]
    · simp [hp]

theorem map_find_put_eq (m : context_map_t) (key : String) (value : Option eval_value)
    (h : map_find m key ≠ none) : map_find (map_put m key value) key = some value := by
  induction m with
  | nil => exact absurd rfl h
  | cons p ps ih =>
    rw [map_find_cons] at h
    rw [map_put_cons, map_find_cons]
    by_cases hp : p.1 = key
    · simp [hp]
    · rw [if_neg hp] at h
      simp only [hp, if_false]
      exact ih h

theorem map_find_none_iff (m : context_map_t) (key : String) :
    map_find m key = none ↔ key ∉ map_keys m := by
  induction m with
  | nil => simp [map_find, map_keys]
  | cons p ps ih =>
    rw [map_find_cons]
    have hk : map_keys (p :: ps) = p.1 :: map_keys ps := rfl
    rw [hk, List.mem_cons, not_or]
    by_cases hp : p.1 = key
    · simp [hp]
    · rw [if_neg hp, ih]
      constructor
      · intro h
        exact ⟨fun e => hp e.symm, h⟩
      · intro h
        exact h.2

theorem map_le_refl (m : context_map_t) : map_le m m := ⟨rfl, fun _ _ h => h⟩

theorem map_le_trans {a b c : context_map_t} (h1 : map_le a b) (h2 : map_le b c) :
    map_le a c :=
  ⟨h2.1.trans h1.1, fun k v h => h2.2 k v (h1.2 k v h)⟩

/-- Binding a value to a name that had none keeps the other bindings. -/
theorem map_le_put (m : context_map_t) (key : String) (value : Option eval_value)
    (h : map_find m key = some none) : map_le m (map_put m key value) := by
  refine ⟨map_keys_put m key value, fun k v hk => ?_⟩
  by_cases hkk : k = key
  · rw [hkk, h] at hk
    exact absurd (Option.some.inj hk) (fun e => Option.noConfusion e)
  · rw [map_find_put_ne m key k value hkk]
    exact hk

/-! ## Expressions only bind names that had no value -/

theorem NetESignal_map_le (name : String) (word : Bool) (ty : ivl_variable_type_t) (w : Nat)
    (st : eval_state) :
    map_le st.context_map (NetESignal_evaluate_function name word ty w st).2.context_map ∧
    (NetESignal_evaluate_function name word ty w st).2.disable = st.disable := by
  unfold NetESignal_evaluate_function
  split
  · exact ⟨map_le_refl _, rfl⟩
  · split
    · exact ⟨map_le_refl _, rfl⟩
    · exact ⟨map_le_refl _, rfl⟩
    · rename_i hf
      split
      · exact ⟨map_le_refl _, rfl⟩
      · exact ⟨map_le_put _ _ _ hf, rfl⟩

/-- The evaluation of an expression leaves the keys of the context map and
every value that is not null. -/
theorem NetExpr_map_le (fuel : Nat) :
    (∀ e st r st', NetExpr.evaluate_function fuel e st = some (r, st') →
      map_le st.context_map st'.context_map) ∧
    (∀ ps st vs st', evaluate_parms fuel ps st = some (vs, st') →
      map_le st.context_map st'.context_map) := by
  induction fuel with
  | zero =>
    constructor
    · intro e st r st' h
      simp [NetExpr.evaluate_function] at h
    · intro ps st vs st' h
      simp [evaluate_parms] at h
  | succ fuel ih =>
    obtain ⟨ihe, ihp⟩ := ih
    constructor
    · intro e st r st' h
      cases e with
      | NetEConst v =>
        simp only [NetExpr.evaluate_function, Option.some.injEq, Prod.mk.injEq] at h
        rw [← h.2]
        exact map_le_refl _
      | NetECReal v =>
        simp only [NetExpr.evaluate_function, Option.some.injEq, Prod.mk.injEq] at h
        rw [← h.2]
        exact map_le_refl _
      | NetESignal name word ty w =>
        simp only [NetExpr.evaluate_function, Option.some.injEq] at h
        have := (NetESignal_map_le name word ty w st).1
        rw [h] at this
        exact this
      | NetEBinary f l r' =>
        simp only [NetExpr.evaluate_function] at h
        split at h
        · exact Option.noConfusion h
        · rename_i lval st1 h1
          split at h
          · exact Option.noConfusion h
          · rename_i rval st2 h2
            have e1 := ihe _ _ _ _ h1
            have e2 := ihe _ _ _ _ h2
            split at h <;>
              (simp only [Option.some.injEq, Prod.mk.injEq] at h
               rw [← h.2]
               exact map_le_trans e1 e2)
      | NetEConcat f parms =>
        simp only [NetExpr.evaluate_function] at h
        split at h
        · exact Option.noConfusion h
        · rename_i vals st1 h1
          have e1 := ihp _ _ _ _ h1
          split at h <;>
            (simp only [Option.some.injEq, Prod.mk.injEq] at h
             rw [← h.2]
             exact e1)
      | NetESelect ex base hs w =>
        simp only [NetExpr.evaluate_function] at h
        split at h
        · rename_i sub st1 h1
          have e1 := ihe _ _ _ _ h1
          split at h
          · split at h
            · rename_i bc st2 h2
              have e2 := ihe _ _ _ _ h2
              simp only [Option.some.injEq, Prod.mk.injEq] at h
              rw [← h.2]
              exact map_le_trans e1 e2
            · exact Option.noConfusion h
          · simp only [Option.some.injEq, Prod.mk.injEq] at h
            rw [← h.2]
            exact e1
        · exact Option.noConfusion h
      | NetETernary blend c t f =>
        simp only [NetExpr.evaluate_function] at h
        split at h
        · exact Option.noConfusion h
        · exact Option.noConfusion h
        · rename_i cval st1 h1
          have e1 := ihe _ _ _ _ h1
          split at h
          · exact map_le_trans e1 (ihe _ _ _ _ h)
          · exact map_le_trans e1 (ihe _ _ _ _ h)
          · simp only [Option.some.injEq, Prod.mk.injEq] at h
            rw [← h.2]
            exact e1
          · split at h
            · exact Option.noConfusion h
            · rename_i tval st2 h2
              split at h
              · exact Option.noConfusion h
              · rename_i fval st3 h3
                simp only [Option.some.injEq, Prod.mk.injEq] at h
                rw [← h.2]
                exact map_le_trans e1 (map_le_trans (ihe _ _ _ _ h2) (ihe _ _ _ _ h3))
      | NetEUnary f ex =>
        simp only [NetExpr.evaluate_function] at h
        split at h
        · exact Option.noConfusion h
        · rename_i st1 h1
          simp only [Option.some.injEq, Prod.mk.injEq] at h
          rw [← h.2]
          exact ihe _ _ _ _ h1
        · rename_i val st1 h1
          simp only [Option.some.injEq, Prod.mk.injEq] at h
          rw [← h.2]
          exact ihe _ _ _ _ h1
      | NetESFunc bi n one two parms =>
        simp only [NetExpr.evaluate_function] at h
        split at h
        · exact Option.noConfusion h
        · split at h
          · split at h
            · exact Option.noConfusion h
            · rename_i st1 h1
              simp only [Option.some.injEq, Prod.mk.injEq] at h
              rw [← h.2]
              exact ihe _ _ _ _ h1
            · rename_i val st1 h1
              simp only [Option.some.injEq, Prod.mk.injEq] at h
              rw [← h.2]
              exact ihe _ _ _ _ h1
          · split at h
            · exact Option.noConfusion h
            · rename_i v0 st1 h1
              split at h
              · exact Option.noConfusion h
              · rename_i v1 st2 h2
                have e1 := ihe _ _ _ _ h1
                have e2 := ihe _ _ _ _ h2
                split at h <;>
                  (simp only [Option.some.injEq, Prod.mk.injEq] at h
                   rw [← h.2]
                   exact map_le_trans e1 e2)
          · exact Option.noConfusion h
      | NetEUFunc fd parms =>
        simp only [NetExpr.evaluate_function] at h
        split at h
        · exact Option.noConfusion h
        · split at h
          · exact Option.noConfusion h
          · rename_i args st1 h1
            split at h
            · exact Option.noConfusion h
            · simp only [Option.some.injEq, Prod.mk.injEq] at h
              rw [← h.2]
              exact ihp parms st args st1 h1
      | other =>
        simp only [NetExpr.evaluate_function, Option.some.injEq, Prod.mk.injEq] at h
        rw [← h.2]
        exact map_le_refl _
    · intro ps st vs st' h
      cases ps with
      | nil =>
        simp only [evaluate_parms, Option.some.injEq, Prod.mk.injEq] at h
        rw [← h.2]
        exact map_le_refl _
      | cons p ps =>
        simp only [evaluate_parms] at h
        split at h
        · exact Option.noConfusion h
        · rename_i val st1 h1
          split at h
          · exact Option.noConfusion h
          · rename_i vals st2 h2
            simp only [Option.some.injEq, Prod.mk.injEq] at h
            rw [← h.2]
            exact map_le_trans (ihe _ _ _ _ h1) (ihp _ _ _ _ h2)

/-! ## Statements keep the keys of the context map -/

theorem NetExpr_keys {fuel : Nat} {e : NetExpr} {st st' : eval_state} {r : Option eval_value}
    (h : NetExpr.evaluate_function fuel e st = some (r, st')) : keys_kept st st' :=
  ((NetExpr_map_le fuel).1 e st r st' h).1

theorem NetAssign_part_keys (sig : NetNet) (lwidth : Nat) (base_const : verinum)
    (rval_result : eval_value) (st st' : eval_state) (b : Bool)
    (h : NetAssign_part sig lwidth base_const rval_result st = some (b, st')) :
    keys_kept st st' := by
  unfold NetAssign_part at h
  simp only at h
  split at h
  · exact Option.noConfusion h
  · split at h
    · split at h
      · split at h
        · exact Option.noConfusion h
        · simp only [Option.some.injEq, Prod.mk.injEq] at h
          rw [← h.2]
          exact map_keys_put _ _ _
      · exact Option.noConfusion h
    · exact Option.noConfusion h

theorem keys_kept_refl (st : eval_state) : keys_kept st st := rfl

theorem keys_kept_trans {a b c : eval_state} (h1 : keys_kept a b) (h2 : keys_kept b c) :
    keys_kept a c := Eq.trans h2 h1

theorem NetProc_keys_kept (fuel : Nat) :
    (∀ p st b st', NetProc.evaluate_function fuel p st = some (b, st') → keys_kept st st') ∧
    (∀ l flag st b st', NetBlock_loop fuel l flag st = some (b, st') → keys_kept st st') ∧
    (∀ t cv items d st b st', NetCase_vect_loop fuel t cv items d st = some (b, st') →
      keys_kept st st') ∧
    (∀ cv items d st b st', NetCase_real_loop fuel cv items d st = some (b, st') →
      keys_kept st st') ∧
    (∀ s flag st b st', NetForever_loop fuel s flag st = some (b, st') → keys_kept st st') ∧
    (∀ s n flag st b st', NetRepeat_loop fuel s n flag st = some (b, st') →
      keys_kept st st') ∧
    (∀ c s flag st b st', NetWhile_loop fuel c s flag st = some (b, st') →
      keys_kept st st') := by
  induction fuel with
  | zero =>
    refine ⟨?_, ?_, ?_, ?_, ?_, ?_, ?_⟩ <;> intros <;> rename_i h
    · simp [NetProc.evaluate_function] at h
    · simp [NetBlock_loop] at h
    · simp [NetCase_vect_loop] at h
    · simp [NetCase_real_loop] at h
    · simp [NetForever_loop] at h
    · simp [NetRepeat_loop] at h
    · simp [NetWhile_loop] at h
  | succ fuel ih =>
    obtain ⟨ihp, ihb, ihv, ihr, ihf, ihn, ihw⟩ := ih
    refine ⟨?_, ?_, ?_, ?_, ?_, ?_, ?_⟩
    · intro p st b st' h
      cases p with
      | NetAssign l_vals rval =>
        simp only [NetProc.evaluate_function] at h
        split at h
        · split at h
          · exact Option.noConfusion h
          · split at h
            · exact Option.noConfusion h
            · split at h
              · exact Option.noConfusion h
              · rename_i st1 h1
                simp only [Option.some.injEq, Prod.mk.injEq] at h
                rw [← h.2]
                exact NetExpr_keys h1
              · rename_i rv st1 h1
                split at h
                · split at h
                  · exact Option.noConfusion h
                  · rename_i st2 h2
                    simp only [Option.some.injEq, Prod.mk.injEq] at h
                    rw [← h.2]
                    exact keys_kept_trans (NetExpr_keys h1) (NetExpr_keys h2)
                  · exact Option.noConfusion h
                  · rename_i bc st2 h2
                    exact keys_kept_trans (NetExpr_keys h1)
                      (keys_kept_trans (NetExpr_keys h2) (NetAssign_part_keys _ _ _ _ _ _ _ h))
                · simp only [Option.some.injEq, Prod.mk.injEq] at h
                  rw [← h.2]
                  exact keys_kept_trans (NetExpr_keys h1) (map_keys_put _ _ _)
        · simp only [Option.some.injEq, Prod.mk.injEq] at h
          rw [← h.2]
          exact keys_kept_refl _
      | NetBlock subscope stmts =>
        simp only [NetProc.evaluate_function] at h
        split at h
        · exact Option.noConfusion h
        · rename_i flag st1 h1
          simp only [Option.some.injEq, Prod.mk.injEq] at h
          rw [← h.2]
          have := ihb _ _ _ _ _ h1
          split
          · exact this
          · exact this
      | NetCase t ty ex items =>
        simp only [NetProc.evaluate_function] at h
        split at h
        · split at h
          · exact Option.noConfusion h
          · rename_i st1 h1
            simp only [Option.some.injEq, Prod.mk.injEq] at h
            rw [← h.2]
            exact NetExpr_keys h1
          · exact Option.noConfusion h
          · rename_i cv st1 h1
            exact keys_kept_trans (NetExpr_keys h1) (ihr _ _ _ _ _ _ h)
        · split at h
          · exact Option.noConfusion h
          · rename_i st1 h1
            simp only [Option.some.injEq, Prod.mk.injEq] at h
            rw [← h.2]
            exact NetExpr_keys h1
          · exact Option.noConfusion h
          · rename_i cv st1 h1
            exact keys_kept_trans (NetExpr_keys h1) (ihv _ _ _ _ _ _ _ h)
      | NetCondit ex i e =>
        simp only [NetProc.evaluate_function] at h
        split at h
        · exact Option.noConfusion h
        · rename_i st1 h1
          simp only [Option.some.injEq, Prod.mk.injEq] at h
          rw [← h.2]
          exact NetExpr_keys h1
        · exact Option.noConfusion h
        · rename_i cc st1 h1
          split at h
          · split at h
            · simp only [Option.some.injEq, Prod.mk.injEq] at h
              rw [← h.2]
              exact NetExpr_keys h1
            · exact keys_kept_trans (NetExpr_keys h1) (ihp _ _ _ _ h)
          · split at h
            · simp only [Option.some.injEq, Prod.mk.injEq] at h
              rw [← h.2]
              exact NetExpr_keys h1
            · exact keys_kept_trans (NetExpr_keys h1) (ihp _ _ _ _ h)
      | NetDisable t =>
        simp only [NetProc.evaluate_function, Option.some.injEq, Prod.mk.injEq] at h
        rw [← h.2]
        exact keys_kept_refl _
      | NetForever s =>
        simp only [NetProc.evaluate_function] at h
        exact ihf _ _ _ _ _ h
      | NetRepeat ex s =>
        simp only [NetProc.evaluate_function] at h
        split at h
        · exact Option.noConfusion h
        · rename_i st1 h1
          simp only [Option.some.injEq, Prod.mk.injEq] at h
          rw [← h.2]
          exact NetExpr_keys h1
        · exact Option.noConfusion h
        · rename_i cc st1 h1
          exact keys_kept_trans (NetExpr_keys h1) (ihn _ _ _ _ _ _ h)
      | NetSTask =>
        simp only [NetProc.evaluate_function, Option.some.injEq, Prod.mk.injEq] at h
        rw [← h.2]
        exact keys_kept_refl _
      | NetWhile c s =>
        simp only [NetProc.evaluate_function] at h
        exact ihw _ _ _ _ _ _ h
      | other =>
        simp only [NetProc.evaluate_function, Option.some.injEq, Prod.mk.injEq] at h
        rw [← h.2]
        exact keys_kept_refl _
    · intro l flag st b st' h
      cases l with
      | nil => simp [NetBlock_loop] at h
      | cons cur rest =>
        simp only [NetBlock_loop] at h
        split at h
        · exact Option.noConfusion h
        · rename_i cf st1 h1
          split at h
          · exact keys_kept_trans (ihp _ _ _ _ h1) (ihb _ _ _ _ _ h)
          · simp only [Option.some.injEq, Prod.mk.injEq] at h
            rw [← h.2]
            exact ihp _ _ _ _ h1
    · intro t cv items d st b st' h
      cases items with
      | nil =>
        simp only [NetCase_vect_loop] at h
        split at h
        · simp only [Option.some.injEq, Prod.mk.injEq] at h
          rw [← h.2]
          exact keys_kept_refl _
        · exact ihp _ _ _ _ h
      | cons it rest =>
        obtain ⟨g, s⟩ := it
        cases g with
        | none =>
          simp only [NetCase_vect_loop] at h
          exact ihv _ _ _ _ _ _ _ h
        | some g =>
          simp only [NetCase_vect_loop] at h
          split at h
          · exact Option.noConfusion h
          · rename_i st1 h1
            simp only [Option.some.injEq, Prod.mk.injEq] at h
            rw [← h.2]
            exact NetExpr_keys h1
          · exact Option.noConfusion h
          · rename_i iv st1 h1
            split at h
            · exact Option.noConfusion h
            · split at h
              · exact keys_kept_trans (NetExpr_keys h1) (ihv _ _ _ _ _ _ _ h)
              · split at h
                · exact Option.noConfusion h
                · exact keys_kept_trans (NetExpr_keys h1) (ihp _ _ _ _ h)
    · intro cv items d st b st' h
      cases items with
      | nil =>
        simp only [NetCase_real_loop] at h
        split at h
        · simp only [Option.some.injEq, Prod.mk.injEq] at h
          rw [← h.2]
          exact keys_kept_refl _
        · exact ihp _ _ _ _ h
      | cons it rest =>
        obtain ⟨g, s⟩ := it
        cases g with
        | none =>
          simp only [NetCase_real_loop] at h
          exact ihr _ _ _ _ _ _ h
        | some g =>
          simp only [NetCase_real_loop] at h
          split at h
          · exact Option.noConfusion h
          · rename_i st1 h1
            simp only [Option.some.injEq, Prod.mk.injEq] at h
            rw [← h.2]
            exact NetExpr_keys h1
          · exact Option.noConfusion h
          · rename_i iv st1 h1
            split at h
            · exact keys_kept_trans (NetExpr_keys h1) (ihr _ _ _ _ _ _ h)
            · split at h
              · exact Option.noConfusion h
              · exact keys_kept_trans (NetExpr_keys h1) (ihp _ _ _ _ h)
    · intro s flag st b st' h
      simp only [NetForever_loop] at h
      split at h
      · split at h
        · exact Option.noConfusion h
        · rename_i cf st1 h1
          exact keys_kept_trans (ihp _ _ _ _ h1) (ihf _ _ _ _ _ h)
      · simp only [Option.some.injEq, Prod.mk.injEq] at h
        rw [← h.2]
        exact keys_kept_refl _
    · intro s n flag st b st' h
      simp only [NetRepeat_loop] at h
      split at h
      · split at h
        · exact Option.noConfusion h
        · rename_i cf st1 h1
          exact keys_kept_trans (ihp _ _ _ _ h1) (ihn _ _ _ _ _ _ h)
      · simp only [Option.some.injEq, Prod.mk.injEq] at h
        rw [← h.2]
        exact keys_kept_refl _
    · intro c s flag st b st' h
      simp only [NetWhile_loop] at h
      split at h
      · split at h
        · exact Option.noConfusion h
        · rename_i st1 h1
          simp only [Option.some.injEq, Prod.mk.injEq] at h
          rw [← h.2]
          exact NetExpr_keys h1
        · exact Option.noConfusion h
        · rename_i cc st1 h1
          split at h
          · simp only [Option.some.injEq, Prod.mk.injEq] at h
            rw [← h.2]
            exact NetExpr_keys h1
          · split at h
            · exact Option.noConfusion h
            · rename_i tf st2 h2
              exact keys_kept_trans (NetExpr_keys h1)
                (keys_kept_trans (ihp _ _ _ _ h2) (ihw _ _ _ _ _ _ h))
      · simp only [Option.some.injEq, Prod.mk.injEq] at h
        rw [← h.2]
        exact keys_kept_refl _

/-! ## Claims C24, C25 and C26 -/

/-- The value that `NetFuncDef::evaluate_function` returns, by the result of
the statement. -/
theorem NetFuncDef_result (fuel : Nat) (basename : String) (ports_ signals_ : List NetNet)
    (statement_ : NetProc) (args : List (Option eval_value)) (disable : Option Nat)
    (flag : Bool) (st' : eval_state) (res : Option eval_value)
    (hlen : ports_.length = args.length)
    (hbody : NetProc.evaluate_function fuel statement_
      ⟨setup_map basename ports_ signals_ args, disable⟩ = some (flag, st'))
    (hres : map_find st'.context_map basename = some res) :
    NetFuncDef.evaluate_function (fuel + 1) (.mk basename ports_ signals_ (some statement_))
      args disable = some (if flag = true then res else none, st'.disable) := by
  unfold setup_map at hbody
  simp only [NetFuncDef.evaluate_function, hlen, ne_eq, not_true_eq_false, if_false, hbody, hres]
  split <;> rfl

/-- C24, where the code departs from the claim: when the statement of the
function evaluates successfully and leaves the entry of the base name of the
function null, because no statement has assigned the return value,
`NetFuncDef::evaluate_function` returns null, which its callers take for a
failure of the evaluation. The method returns the entry as it is, although
`NetESignal::evaluate_function` and the part select of
`NetAssign::evaluate_function` bind all-X to a name without a value. So it is
for the function `f` whose statement is the system task call `$display`. -/
theorem C24_unassigned_result_is_null (fuel : Nat) (basename : String)
    (ports_ signals_ : List NetNet) (statement_ : NetProc) (args : List (Option eval_value))
    (disable : Option Nat) (st' : eval_state) (hlen : ports_.length = args.length)
    (hbody : NetProc.evaluate_function fuel statement_
      ⟨setup_map basename ports_ signals_ args, disable⟩ = some (true, st'))
    (hres : map_find st'.context_map basename = some none) :
    NetFuncDef.evaluate_function (fuel + 1) (.mk basename ports_ signals_ (some statement_))
      args disable = some (none, st'.disable) :=
  NetFuncDef_result fuel basename ports_ signals_ statement_ args disable true st' none hlen
    hbody hres

/-- C24 for the function `f(a)` whose statement is `$display`, called with
`a = 4'b0101`: the statement succeeds and the result is null. -/
theorem C24_unassigned_result_is_null_witness :
    NetProc.evaluate_function 1 .NetSTask
      ⟨setup_map "f" [net_sig "a" 4 true]
        [net_sig "a" 4 true, net_sig "x" 2 false, net_sig "y" 4 false]
        [some (.NetEConst const_5)], none⟩ = some (true, ctx_fxy) ∧
    NetFuncDef.evaluate_function 2 func_display [some (.NetEConst const_5)] none
      = some (none, none) :=
  ⟨by decide,
   C24_unassigned_result_is_null 1 "f" [net_sig "a" 4 true]
     [net_sig "a" 4 true, net_sig "x" 2 false, net_sig "y" 4 false] .NetSTask
     [some (.NetEConst const_5)] none ctx_fxy rfl (by decide) (by decide)⟩

/-- C25, where the code departs from the claim: `NetEUFunc::evaluate_function`
does not test the pointers that the evaluation of the arguments returns, and
`fix_assign_value` returns a null pointer as it is, so that the port of a
failed argument enters the context map without a value. The argument `other`
is an expression that cannot be evaluated (its evaluation returns null); the
call `g(other)` of the function with the statement `g = 2'b11` returns
`2'b11`, and the call `h(other)` of the function with the statement `h = a`
returns `4'bxxxx`, the value of an unassigned port. -/
theorem C25_failed_argument_is_passed_on :
    (∀ lhs, fix_assign_value lhs none = none) ∧
    NetExpr.evaluate_function 1 .other ctx_fxy = some (none, ctx_fxy) ∧
    NetExpr.evaluate_function 4 (.NetEUFunc (some func_const) [.other]) ctx_fxy
      = some (some (.NetEConst const_3), ctx_fxy) ∧
    NetExpr.evaluate_function 4 (.NetEUFunc (some func_ident) [.other]) ctx_fxy
      = some (some (make_const_x 4), ctx_fxy) :=
  ⟨fun _ => rfl, by decide, by decide, by decide⟩

theorem mem_keys_assign (m : context_map_t) (key : String) (value : Option eval_value)
    (k : String) : k ∈ map_keys (map_assign m key value) ↔ k = key ∨ k ∈ map_keys m := by
  unfold map_assign
  split
  · rename_i h
    have hk : map_keys (m.map (fun p => if p.1 = key then (key, value) else p)) = map_keys m :=
      map_keys_put m key value
    rw [hk]
    constructor
    · exact Or.inr
    · rintro (h1 | h1)
      · rw [h1]
        simp only [List.any_eq_true, decide_eq_true_eq] at h
        obtain ⟨p, hp, hpk⟩ := h
        rw [← hpk]
        exact List.mem_map_of_mem Prod.fst hp
      · exact h1
  · unfold map_keys
    rw [List.map_append, List.mem_append]
    simp only [List.map_cons, List.map_nil, List.mem_singleton]
    constructor
    · rintro (h1 | h1)
      · exact Or.inr h1
      · exact Or.inl h1
    · rintro (h1 | h1)
      · exact Or.inr h1
      · exact Or.inl h1

theorem mem_keys_load_ports (ports : List NetNet) :
    ∀ (args : List (Option eval_value)) (m : context_map_t), ports.length = args.length →
      ∀ k, k ∈ map_keys (load_ports ports args m) ↔
        k ∈ map_keys m ∨ ∃ p, p ∈ ports ∧ p.name = k := by
  induction ports with
  | nil =>
    intro args m _ k
    cases args <;> simp [load_ports]
  | cons port ports ih =>
    intro args m hlen k
    cases args with
    | nil => simp at hlen
    | cons arg args =>
      simp only [load_ports]
      rw [ih args _ (by simpa using hlen), mem_keys_assign]
      simp only [List.mem_cons, exists_eq_or_imp]
      constructor
      · rintro ((h | h) | h)
        · exact Or.inr (Or.inl h.symm)
        · exact Or.inl h
        · exact Or.inr (Or.inr h)
      · rintro (h | h | h)
        · exact Or.inl (Or.inr h)
        · exact Or.inl (Or.inl h.symm)
        · exact Or.inr h

theorem mem_keys_find_locals (signals : List NetNet) :
    ∀ (m : context_map_t) k, k ∈ map_keys (evaluate_function_find_locals signals m) ↔
      k ∈ map_keys m ∨ ∃ s, s ∈ signals ∧ s.is_port = false ∧ s.name = k := by
  induction signals with
  | nil =>
    intro m k
    simp [evaluate_function_find_locals]
  | cons tmp rest ih =>
    intro m k
    simp only [evaluate_function_find_locals]
    split
    · rename_i hp
      rw [ih]
      simp only [List.mem_cons, exists_eq_or_imp, hp, Bool.true_eq_false, false_and, false_or]
    · rename_i hp
      have hp' : tmp.is_port = false := by simpa using hp
      rw [ih, mem_keys_assign]
      simp only [List.mem_cons, exists_eq_or_imp, hp', true_and]
      constructor
      · rintro ((h | h) | h)
        · exact Or.inr (Or.inl h.symm)
        · exact Or.inl h
        · exact Or.inr (Or.inr h)
      · rintro (h | h | h)
        · exact Or.inl (Or.inr h)
        · exact Or.inl (Or.inl h.symm)
        · exact Or.inr h

/-- C26: the context map with which `NetFuncDef::evaluate_function` starts
the statement has as its keys the base name of the function, the names of
the ports and the names of the signals of the scope that are not ports, and
no other; and the evaluation of a statement or of an expression, whatever
its kind, leaves a map with the same keys in the same order: it adds no key
and removes none, and can only replace the value of a key. -/
theorem C26_context_keys_fixed (basename : String) (ports_ signals_ : List NetNet)
    (args : List (Option eval_value)) (hlen : ports_.length = args.length) :
    (∀ k, k ∈ map_keys (setup_map basename ports_ signals_ args) ↔
      k = basename ∨ (∃ p, p ∈ ports_ ∧ p.name = k) ∨
        (∃ s, s ∈ signals_ ∧ s.is_port = false ∧ s.name = k)) ∧
    (∀ fuel (statement : NetProc) st flag st',
      NetProc.evaluate_function fuel statement st = some (flag, st') →
      map_keys st'.context_map = map_keys st.context_map) ∧
    (∀ fuel (expr : NetExpr) st res st',
      NetExpr.evaluate_function fuel expr st = some (res, st') →
      map_keys st'.context_map = map_keys st.context_map) := by
  refine ⟨fun k => ?_, fun fuel p st b st' h => (NetProc_keys_kept fuel).1 p st b st' h,
    fun fuel e st r st' h => NetExpr_keys h⟩
  unfold setup_map
  rw [mem_keys_find_locals, mem_keys_load_ports ports_ args _ hlen, mem_keys_assign]
  simp only [map_keys, List.map_nil, List.not_mem_nil, or_false]
  constructor
  · rintro ((h | h) | h)
    · exact Or.inl h
    · exact Or.inr (Or.inl h)
    · exact Or.inr (Or.inr h)
  · rintro (h | h | h)
    · exact Or.inl (Or.inl h)
    · exact Or.inl (Or.inr h)
    · exact Or.inr h

/-- C26 for the function `f` with the port `a` and the locals `x` and `y`,
and for the statement `y[2:1] = x` in its context map. -/
theorem C26_context_keys_fixed_witness :
    [net_sig "a" 4 true].length = [some (eval_value.NetEConst const_5)].length ∧
    map_keys (setup_map "f" [net_sig "a" 4 true]
      [net_sig "a" 4 true, net_sig "x" 2 false, net_sig "y" 4 false]
      [some (.NetEConst const_5)]) = ["f", "a", "x", "y"] ∧
    ("x" ∈ map_keys (setup_map "f" [net_sig "a" 4 true]
        [net_sig "a" 4 true, net_sig "x" 2 false, net_sig "y" 4 false]
        [some (.NetEConst const_5)]) ↔
      "x" = "f" ∨ (∃ p, p ∈ [net_sig "a" 4 true] ∧ p.name = "x") ∨
        (∃ s, s ∈ [net_sig "a" 4 true, net_sig "x" 2 false, net_sig "y" 4 false] ∧
          s.is_port = false ∧ s.name = "x")) ∧
    NetProc.evaluate_function 3 assign_part ctx_fxy = some (true, ctx_fxy_assigned) ∧
    map_keys ctx_fxy_assigned.context_map = map_keys ctx_fxy.context_map :=
  ⟨rfl, by decide,
   (C26_context_keys_fixed "f" [net_sig "a" 4 true]
     [net_sig "a" 4 true, net_sig "x" 2 false, net_sig "y" 4 false]
     [some (.NetEConst const_5)] rfl).1 "x",
   by decide,
   (C26_context_keys_fixed "f" [net_sig "a" 4 true]
     [net_sig "a" 4 true, net_sig "x" 2 false, net_sig "y" 4 false]
     [some (.NetEConst const_5)] rfl).2.1 3 assign_part ctx_fxy true ctx_fxy_assigned
     (by decide)⟩

/-! ## Claim C29 -/

theorem isEmpty_false_iff {α : Type} (l : List α) : l.isEmpty = false ↔ l ≠ [] := by
  cases l <;> simp

/-- The loop of `NetBlock::evaluate_function` is the run of the statements
in order. -/
theorem NetBlock_loop_iff (fuel : Nat) :
    ∀ (l : List NetProc) (flag : Bool) (st : eval_state) (b : Bool) (st' : eval_state),
      NetBlock_loop fuel l flag st = some (b, st') ↔
        ∃ fs, block_run fuel l st fs st' ∧ b = (flag && fs.all id) := by
  induction fuel with
  | zero =>
    intro l flag st b st'
    constructor
    · intro h
      simp [NetBlock_loop] at h
    · rintro ⟨fs, hr, _⟩
      cases hr
  | succ fuel ih =>
    intro l flag st b st'
    cases l with
    | nil =>
      constructor
      · intro h
        simp [NetBlock_loop] at h
      · rintro ⟨fs, hr, _⟩
        cases hr
    | cons cur rest =>
      simp only [NetBlock_loop]
      constructor
      · intro h
        split at h
        · exact Option.noConfusion h
        · rename_i cf st1 h1
          split at h
          · rename_i hc
            obtain ⟨fs, hr, hb⟩ := (ih rest (flag && cf) st1 b st').mp h
            refine ⟨cf :: fs, block_run.next fuel cur rest st cf st1 fs st' h1
              ((isEmpty_false_iff rest).mp hc.1) hc.2 hr, ?_⟩
            rw [hb]
            simp [Bool.and_assoc]
          · rename_i hc
            simp only [Option.some.injEq, Prod.mk.injEq] at h
            refine ⟨[cf], ?_, ?_⟩
            · rw [← h.2]
              refine block_run.last fuel cur rest st cf st1 h1 ?_
              by_cases hr : rest = []
              · exact Or.inl hr
              · right
                intro hd
                exact hc ⟨(isEmpty_false_iff rest).mpr hr, hd⟩
            · rw [← h.1]
              simp
      · rintro ⟨fs, hr, hb⟩
        cases hr with
        | last _ _ _ _ f st1 h1 hstop =>
          rw [h1]
          simp only
          rw [if_neg]
          · rw [hb]
            simp
          · rintro ⟨hne, hd⟩
            rcases hstop with h | h
            · exact (isEmpty_false_iff rest).mp hne h
            · exact h hd
        | next _ _ _ _ f st1 fs' _ h1 hne hd hrest =>
          rw [h1]
          simp only
          rw [if_pos ⟨(isEmpty_false_iff rest).mpr hne, hd⟩]
          apply (ih rest (flag && f) st1 b st').mpr
          refine ⟨fs', hrest, ?_⟩
          rw [hb]
          simp [Bool.and_assoc]

theorem block_run_length {fuel : Nat} {l : List NetProc} {st st' : eval_state} {fs : List Bool}
    (h : block_run fuel l st fs st') :
    1 ≤ fs.length ∧ fs.length ≤ l.length ∧ (fs.length < l.length → st'.disable ≠ none) := by
  induction h with
  | last fuel cur rest st f st1 _ hstop =>
    refine ⟨Nat.le_refl _, by simp, ?_⟩
    intro hlt
    rcases hstop with h | h
    · rw [h] at hlt
      simp at hlt
    · exact h
  | next fuel cur rest st f st1 fs st' _ _ _ _ ih =>
    refine ⟨by simp, by simpa using ih.2.1, ?_⟩
    intro hlt
    exact ih.2.2 (by simpa using hlt)

/-- C29: `NetBlock::evaluate_function` returns `flag` and leaves `st'` if and
only if the statements of the block, evaluated in order up to and including
the first one that leaves `disable` set (or the last one), give the results
`fs` and leave a state `st1`, where `flag` is the conjunction of `fs`, and
`st'` is `st1` with `disable` cleared if it is the sub-scope of the block,
and `st1` itself if not. At least one statement is evaluated; and if not all
of them are, the last one evaluated has left `disable` set. So the block
`disable 7; f = 2'b11` leaves `f` without a value, and leaves `disable`
cleared if its sub-scope is the scope 7 and set if it is the scope 8. -/
theorem C29_NetBlock_stops_at_disable (fuel : Nat) (subscope_ : Option Nat)
    (statements : List NetProc) (st : eval_state) (flag : Bool) (st' : eval_state) :
    (NetProc.evaluate_function (fuel + 1) (.NetBlock subscope_ statements) st = some (flag, st') ↔
      ∃ fs st1, block_run fuel statements st fs st1 ∧ flag = fs.all id ∧
        st'.context_map = st1.context_map ∧
        st'.disable = (if st1.disable = subscope_ then none else st1.disable)) ∧
    (∀ fs st1, block_run fuel statements st fs st1 →
      1 ≤ fs.length ∧ fs.length ≤ statements.length ∧
        (fs.length < statements.length → st1.disable ≠ none)) ∧
    NetProc.evaluate_function 3 (block_disable (some 7)) ctx_fxy = some (true, ctx_fxy) ∧
    NetProc.evaluate_function 3 (block_disable (some 8)) ctx_fxy =
      some (true, { ctx_fxy with disable := some 7 }) := by
  refine ⟨?_, fun fs st1 h => block_run_length h, by decide, by decide⟩
  simp only [NetProc.evaluate_function]
  constructor
  · intro h
    split at h
    · exact Option.noConfusion h
    · rename_i b st1 h1
      obtain ⟨fs, hr, hb⟩ := (NetBlock_loop_iff fuel statements true st b st1).mp h1
      simp only [Option.some.injEq, Prod.mk.injEq] at h
      refine ⟨fs, st1, hr, ?_, ?_, ?_⟩
      · rw [← h.1, hb]
        simp
      · rw [← h.2]
        split <;> rfl
      · rw [← h.2]
        split
        · rfl
        · rfl
  · rintro ⟨fs, st1, hr, hf, hm, hd⟩
    have h1 := (NetBlock_loop_iff fuel statements true st (fs.all id) st1).mpr ⟨fs, hr, by simp⟩
    rw [h1]
    simp only [Option.some.injEq, Prod.mk.injEq]
    refine ⟨hf.symm, ?_⟩
    cases st' with
    | mk m d =>
      simp only at hm hd
      subst hm
      subst hd
      split <;> simp_all

/-! ## Claim C28 -/

theorem cast_to_width_length (v : verinum) (wid : Nat) :
    (v.cast_to_width wid).bits.length = wid := by
  simp only [verinum.cast_to_width, List.length_take, List.length_append, List.length_replicate]
  omega

theorem NetAssign_splice_length (base : Int) :
    ∀ (bits : List verinum_V) (idx : Nat) (v v' : verinum),
      NetAssign_splice base bits idx v = some v' →
      v'.bits.length = v.bits.length ∧ v'.has_sign = v.has_sign := by
  intro bits
  induction bits with
  | nil =>
    intro idx v v' h
    simp only [NetAssign_splice, Option.some.injEq] at h
    subst h
    exact ⟨rfl, rfl⟩
  | cons b bs ih =>
    intro idx v v' h
    simp only [NetAssign_splice, verinum.set] at h
    split at h
    · exact Option.noConfusion h
    · rename_i w hw
      split at hw
      · simp only [Option.some.injEq] at hw
        subst hw
        have := ih _ _ _ h
        simpa using this
      · exact Option.noConfusion hw

/-- The loop that stores the bits of the right-hand side: the bits from
`base + idx` on are the bits stored, and the others are kept. -/
theorem NetAssign_splice_bits (base : Nat) :
    ∀ (bits : List verinum_V) (idx : Nat) (v v' : verinum),
      NetAssign_splice (base : Int) bits idx v = some v' →
      base + idx + bits.length ≤ v.bits.length → v.bits.length ≤ 2 ^ 32 →
      v'.bits.length = v.bits.length ∧ v'.has_sign = v.has_sign ∧
      (∀ i, i < bits.length → v'.bits[base + idx + i]? = bits[i]?) ∧
      (∀ j, (j < base + idx ∨ base + idx + bits.length ≤ j) → v'.bits[j]? = v.bits[j]?) := by
  intro bits
  induction bits with
  | nil =>
    intro idx v v' h _ _
    simp only [NetAssign_splice, Option.some.injEq] at h
    subst h
    refine ⟨rfl, rfl, ?_, fun _ _ => rfl⟩
    intro i hi
    simp at hi
  | cons b bs ih =>
    intro idx v v' h hle hlen
    simp only [NetAssign_splice] at h
    simp only [List.length_cons] at hle
    have hpos : (((idx : Int) + (base : Int)) % 2 ^ 32).toNat = base + idx := by
      have h1 : ((idx : Int) + (base : Int)) = ((base + idx : Nat) : Int) := by
        push_cast
        ring
      rw [h1]
      have h2 : ((base + idx : Nat) : Int) % 2 ^ 32 = ((base + idx : Nat) : Int) := by
        apply Int.emod_eq_of_lt
        · exact Int.ofNat_nonneg _
        · have : base + idx < 2 ^ 32 := by omega
          exact_mod_cast this
      rw [h2]
      exact Int.toNat_natCast _
    simp only [verinum.set, hpos] at h
    rw [if_pos (by omega)] at h
    simp only at h
    obtain ⟨h1, h2, h3, h4⟩ := ih (idx + 1) _ v' h
      (by simp only [List.length_set]; omega) (by simp only [List.length_set]; exact hlen)
    simp only [List.length_set] at h1
    refine ⟨h1, h2, ?_, ?_⟩
    · intro i hi
      cases i with
      | zero =>
        rw [h4 (base + idx + 0) (Or.inl (by omega))]
        simp only [Nat.add_zero, List.getElem?_cons_zero]
        rw [List.getElem?_set_eq_of_lt]
        omega
      | succ i =>
        simp only [List.length_cons] at hi
        have := h3 i (by omega)
        rw [List.getElem?_cons_succ, ← this]
        congr 1
        omega
    · intro j hj
      simp only [List.length_cons] at hj
      rw [h4 j (by omega)]
      simp only
      rw [List.getElem?_set_ne]
      omega

/-- C28, the entry that changes besides the destination: the statement
`y[2:1] = x` on a map in which `x` and `y` have no value succeeds, and binds
the entry of `x`, which had no value, to `2'bxx`; and the statement
`y[0] = y` on the same map, where the right-hand side reads `y` as a
two-state signal, leaves `y` with the bits `0000`, not with X in the bits
that are not assigned. -/
theorem C28_read_binds_other_entries :
    NetProc.evaluate_function 3 assign_part ctx_fxy = some (true, ctx_fxy_assigned) ∧
    map_find ctx_fxy.context_map "x" = some none ∧
    map_find ctx_fxy_assigned.context_map "x" = some (some (make_const_x 2)) ∧
    map_find ctx_fxy.context_map "y" = some none ∧
    (NetProc.evaluate_function 3 assign_self ctx_fxy).map
      (fun r => (r.1, map_find r.2.context_map "y")) =
      some (true, some (some (make_const_0 4))) := by
  refine ⟨by decide, by decide, by decide, by decide, by decide⟩

/-- C28, amended: when `NetAssign::evaluate_function` succeeds for an
l-value with a part select of width `lwidth`, the right-hand side and then
the base expression have been evaluated to constants `rv` and `bv`, which
has left the keys of the map and every value that is not null (an entry
without a value may have been bound by a read). With `old` the value of the
destination after that, or all X of the width of the signal if it has none
then, and `b` the canonical base, `b + lwidth` is at most the width of `old`;
the destination is bound to a value `new` of the width and sign of `old`,
every other entry is as the two evaluations have left it, and `disable` is
not changed. For `b` not negative (and widths that fit an `unsigned`), the
bits `[b, b + lwidth)` of `new` are the bits of `rv` cast to `lwidth` bits,
and every other bit of `new` is the bit of `old`. -/
theorem C28_part_select_assign (fuel : Nat) (sig : NetNet) (word : Bool) (base_expr rval : NetExpr)
    (lwidth : Nat) (st st' : eval_state)
    (h : NetProc.evaluate_function (fuel + 1)
      (.NetAssign [.mk sig word (some base_expr) lwidth] rval) st = some (true, st')) :
    ∃ (rv : verinum) (st1 : eval_state) (bv : verinum) (st2 : eval_state) (old new : verinum),
      NetExpr.evaluate_function fuel rval st = some (some (.NetEConst rv), st1) ∧
      NetExpr.evaluate_function fuel base_expr st1 = some (some (.NetEConst bv), st2) ∧
      map_le st.context_map st2.context_map ∧
      (map_find st2.context_map sig.name = some (some (.NetEConst old)) ∨
        (map_find st2.context_map sig.name = some none ∧
          old = ⟨List.replicate sig.vector_width .Vx, false⟩)) ∧
      sig.sb_to_idx bv.as_long + (lwidth : Int) ≤ (old.bits.length : Int) ∧
      map_find st'.context_map sig.name = some (some (.NetEConst new)) ∧
      (∀ k, k ≠ sig.name → map_find st'.context_map k = map_find st2.context_map k) ∧
      map_keys st'.context_map = map_keys st.context_map ∧
      st'.disable = st2.disable ∧
      new.bits.length = old.bits.length ∧ new.has_sign = old.has_sign ∧
      (0 ≤ sig.sb_to_idx bv.as_long → old.bits.length ≤ 2 ^ 32 →
        (∀ i, i < lwidth →
          new.bits[(sig.sb_to_idx bv.as_long).toNat + i]? = (rv.cast_to_width lwidth).bits[i]?) ∧
        (∀ j, (j < (sig.sb_to_idx bv.as_long).toNat ∨
            (sig.sb_to_idx bv.as_long).toNat + lwidth ≤ j) → new.bits[j]? = old.bits[j]?)) := by
  simp only [NetProc.evaluate_function] at h
  split at h
  · exact Option.noConfusion h
  rename_i dest hdest
  split at h
  · exact Option.noConfusion h
  split at h
  · exact Option.noConfusion h
  · simp at h
  rename_i rval_result st1 hr
  split at h
  · exact Option.noConfusion h
  · simp at h
  · exact Option.noConfusion h
  rename_i bv st2 hb
  have hle1 := (NetExpr_map_le fuel).1 _ _ _ _ hr
  have hle2 := (NetExpr_map_le fuel).1 _ _ _ _ hb
  have hle := map_le_trans hle1 hle2
  unfold NetAssign_part at h
  simp only at h
  split at h
  · exact Option.noConfusion h
  rename_i second hsec
  split at h
  swap
  · exact Option.noConfusion h
  rename_i hwidth
  split at h
  swap
  · exact Option.noConfusion h
  rename_i sv rc lval_v rval_v hsv
  split at h
  · exact Option.noConfusion h
  rename_i new hsplice
  simp only [Option.some.injEq, Prod.mk.injEq, true_and] at h
  subst h
  have hold : map_find st2.context_map sig.name = some (some (.NetEConst lval_v)) ∨
      (map_find st2.context_map sig.name = some none ∧
        lval_v = ⟨List.replicate sig.vector_width .Vx, false⟩) := by
    cases second with
    | none =>
      right
      refine ⟨hsec, ?_⟩
      simp only [make_const_x, eval_value.NetEConst.injEq] at hsv
      exact hsv.symm
    | some v =>
      left
      simp only at hsv
      rw [hsec, hsv]
  have hw : sig.sb_to_idx bv.as_long + (lwidth : Int) ≤ (lval_v.bits.length : Int) := by
    rw [hsv] at hwidth
    exact hwidth
  have hfind : map_find st2.context_map sig.name ≠ none := by
    rw [hsec]
    exact Option.some_ne_none _
  refine ⟨rval_v, st1, bv, st2, lval_v, new, hr, hb, hle, hold, hw, ?_, ?_, ?_, rfl, ?_⟩
  · exact map_find_put_eq _ _ _ hfind
  · intro k hk
    exact map_find_put_ne _ _ _ _ hk
  · simp only [eval_state.set_map]
    rw [map_keys_put]
    exact hle.1
  · obtain ⟨hl1, hl2⟩ := NetAssign_splice_length _ _ 0 lval_v new hsplice
    refine ⟨hl1, hl2, fun hb0 hl => ?_⟩
    obtain ⟨n, hn⟩ := Int.eq_ofNat_of_zero_le hb0
    rw [hn] at hsplice hw
    have hw2 : n + lwidth ≤ lval_v.bits.length := by exact_mod_cast hw
    obtain ⟨_, _, h3, h4⟩ := NetAssign_splice_bits n _ 0 lval_v new hsplice
      (by rw [cast_to_width_length]; omega) hl
    rw [hn, Int.toNat_natCast]
    rw [cast_to_width_length] at h3 h4
    exact ⟨fun i hi => by simpa using h3 i hi, fun j hj => h4 j (by omega)⟩

/-- The statement `y[2:1] = x` on the map `ctx_fxy`, as an instance of the
theorem: `x` is bound to `2'bxx`, and `y` to `4'bxxxx`. -/
theorem C28_part_select_assign_witness :
    NetProc.evaluate_function (2 + 1)
      (.NetAssign [.mk (net_sig "y" 4 false) false (some (.NetEConst const_1)) 2]
        (.NetESignal "x" false .IVL_VT_LOGIC 2)) ctx_fxy = some (true, ctx_fxy_assigned) ∧
    ∃ (rv : verinum) (st1 : eval_state) (bv : verinum) (st2 : eval_state) (old new : verinum),
      NetExpr.evaluate_function 2 (.NetESignal "x" false .IVL_VT_LOGIC 2) ctx_fxy =
        some (some (.NetEConst rv), st1) ∧
      NetExpr.evaluate_function 2 (.NetEConst const_1) st1 = some (some (.NetEConst bv), st2) ∧
      map_le ctx_fxy.context_map st2.context_map ∧
      (map_find st2.context_map (net_sig "y" 4 false).name = some (some (.NetEConst old)) ∨
        (map_find st2.context_map (net_sig "y" 4 false).name = some none ∧
          old = ⟨List.replicate (net_sig "y" 4 false).vector_width .Vx, false⟩)) ∧
      (net_sig "y" 4 false).sb_to_idx bv.as_long + ((2 : Nat) : Int) ≤ (old.bits.length : Int) ∧
      map_find ctx_fxy_assigned.context_map (net_sig "y" 4 false).name =
        some (some (.NetEConst new)) ∧
      (∀ k, k ≠ (net_sig "y" 4 false).name →
        map_find ctx_fxy_assigned.context_map k = map_find st2.context_map k) ∧
      map_keys ctx_fxy_assigned.context_map = map_keys ctx_fxy.context_map ∧
      ctx_fxy_assigned.disable = st2.disable ∧
      new.bits.length = old.bits.length ∧ new.has_sign = old.has_sign ∧
      (0 ≤ (net_sig "y" 4 false).sb_to_idx bv.as_long → old.bits.length ≤ 2 ^ 32 →
        (∀ i, i < 2 →
          new.bits[((net_sig "y" 4 false).sb_to_idx bv.as_long).toNat + i]? =
            (rv.cast_to_width 2).bits[i]?) ∧
        (∀ j, (j < ((net_sig "y" 4 false).sb_to_idx bv.as_long).toNat ∨
            ((net_sig "y" 4 false).sb_to_idx bv.as_long).toNat + 2 ≤ j) →
          new.bits[j]? = old.bits[j]?)) :=
  ⟨by decide, C28_part_select_assign 2 (net_sig "y" 4 false) false (.NetEConst const_1)
    (.NetESignal "x" false .IVL_VT_LOGIC 2) 2 ctx_fxy ctx_fxy_assigned (by decide)⟩

/-! ## Claim C27 -/

/-- The comparison of one guard with the selector, bit by bit, is the match
of the specification. -/
theorem NetCase_match_iff (type_ : NetCase_TYPE) :
    ∀ (sel guard : List verinum_V), guard.length = sel.length →
      (NetCase_match type_ sel guard = true ↔ spec_case_match type_ sel guard) := by
  intro sel
  induction sel with
  | nil =>
    intro guard hlen
    cases guard with
    | nil =>
      simp only [NetCase_match, true_iff]
      intro i hi
      simp at hi
    | cons b rb => simp at hlen
  | cons a ra ih =>
    intro guard hlen
    cases guard with
    | nil => simp at hlen
    | cons b rb =>
      have hl : rb.length = ra.length := by simpa using hlen
      have hsplit : spec_case_match type_ (a :: ra) (b :: rb) ↔
          (match type_ with
            | .EQ => a = b
            | .EQZ => a = .Vz ∨ b = .Vz ∨ a = b
            | .EQX => (a = .Vx ∨ a = .Vz) ∨ (b = .Vx ∨ b = .Vz) ∨ a = b) ∧
          spec_case_match type_ ra rb := by
        constructor
        · intro h
          refine ⟨?_, ?_⟩
          · have := h 0 (by simp)
            cases type_ <;> simpa using this
          · intro i hi
            have := h (i + 1) (by simpa using hi)
            cases type_ <;> simpa using this
        · rintro ⟨h0, hr⟩ i hi
          cases i with
          | zero => cases type_ <;> simpa using h0
          | succ i =>
            have := hr i (by simpa using hi)
            cases type_ <;> simpa using this
      rw [hsplit, ← ih rb hl]
      simp only [NetCase_match]
      cases type_ <;> cases a <;> cases b <;> simp

/-- The guards that do not match are passed by the loop. -/
theorem NetCase_vect_loop_skip {type_ : NetCase_TYPE} {case_val : verinum} {fuel : Nat}
    {pre : List (Option NetExpr × Option NetProc)} {dflt : Option NetProc} {st : eval_state}
    {fuel' : Nat} {d : Option NetProc} {st1 : eval_state}
    (h : guards_skipped type_ case_val fuel pre dflt st fuel' d st1)
    (rest : List (Option NetExpr × Option NetProc)) :
    NetCase_vect_loop fuel type_ case_val (pre ++ rest) dflt st =
      NetCase_vect_loop fuel' type_ case_val rest d st1 := by
  induction h with
  | done fuel dflt st => rfl
  | default_item fuel statement rest' dflt st fuel' dflt' st' _ ih =>
    simp only [List.cons_append, NetCase_vect_loop]
    exact ih
  | guard_item fuel guard statement rest' dflt st item_val st1 fuel' dflt' st' hg hlen hno _ ih =>
    simp only [List.cons_append, NetCase_vect_loop, hg]
    have hm : NetCase_match type_ case_val.bits item_val.bits = false := by
      cases hc : NetCase_match type_ case_val.bits item_val.bits with
      | false => rfl
      | true => exact absurd ((NetCase_match_iff type_ _ _ hlen).mp hc) hno
    rw [if_neg (by simpa using hlen), if_pos hm]
    exact ih

theorem case_outcome_default_item {type_ : NetCase_TYPE} {case_val : verinum} {fuel : Nat}
    {statement : Option NetProc} {rest : List (Option NetExpr × Option NetProc)}
    {dflt : Option NetProc} {st : eval_state} {b : Bool} {st' : eval_state}
    (h : case_outcome type_ case_val fuel rest statement st b st') :
    case_outcome type_ case_val (fuel + 1) ((none, statement) :: rest) dflt st b st' := by
  cases h with
  | matched pre guard stmt post fuel1 d st1 item_val st2 hi hs hg hl hm hr =>
    exact .matched ((none, statement) :: pre) guard stmt post fuel1 d st1 item_val st2
      (by rw [hi]; rfl) (.default_item _ _ _ _ _ _ _ _ hs) hg hl hm hr
  | default_run fuel1 stmt st1 hs hr =>
    exact .default_run fuel1 stmt st1 (.default_item _ _ _ _ _ _ _ _ hs) hr
  | no_match fuel1 hs hb =>
    exact .no_match fuel1 (.default_item _ _ _ _ _ _ _ _ hs) hb
  | guard_failed pre guard stmt post fuel1 d st1 hi hs hg hb =>
    exact .guard_failed ((none, statement) :: pre) guard stmt post fuel1 d st1
      (by rw [hi]; rfl) (.default_item _ _ _ _ _ _ _ _ hs) hg hb

theorem case_outcome_guard_item {type_ : NetCase_TYPE} {case_val : verinum} {fuel : Nat}
    {guard : NetExpr} {statement : Option NetProc}
    {rest : List (Option NetExpr × Option NetProc)}
    {dflt : Option NetProc} {st : eval_state} {item_val : verinum} {st1 : eval_state}
    {b : Bool} {st' : eval_state}
    (hg : NetExpr.evaluate_function fuel guard st = some (some (.NetEConst item_val), st1))
    (hlen : item_val.bits.length = case_val.bits.length)
    (hno : ¬ spec_case_match type_ case_val.bits item_val.bits)
    (h : case_outcome type_ case_val fuel rest dflt st1 b st') :
    case_outcome type_ case_val (fuel + 1) ((some guard, statement) :: rest) dflt st b st' := by
  cases h with
  | matched pre guard' stmt post fuel1 d st1' item_val' st2 hi hs hg' hl hm hr =>
    exact .matched ((some guard, statement) :: pre) guard' stmt post fuel1 d st1' item_val' st2
      (by rw [hi]; rfl) (.guard_item _ _ _ _ _ _ _ _ _ _ _ hg hlen hno hs) hg' hl hm hr
  | default_run fuel1 stmt st1' hs hr =>
    exact .default_run fuel1 stmt st1' (.guard_item _ _ _ _ _ _ _ _ _ _ _ hg hlen hno hs) hr
  | no_match fuel1 hs hb =>
    exact .no_match fuel1 (.guard_item _ _ _ _ _ _ _ _ _ _ _ hg hlen hno hs) hb
  | guard_failed pre guard' stmt post fuel1 d st1' hi hs hg' hb =>
    exact .guard_failed ((some guard, statement) :: pre) guard' stmt post fuel1 d st1'
      (by rw [hi]; rfl) (.guard_item _ _ _ _ _ _ _ _ _ _ _ hg hlen hno hs) hg' hb

/-- The loop of `NetCase::evaluate_function_vect_` returns a result if and
only if the result is one of the outcomes of the case statement. -/
theorem NetCase_vect_loop_iff (type_ : NetCase_TYPE) (case_val : verinum) :
    ∀ (items : List (Option NetExpr × Option NetProc)) (fuel : Nat) (dflt : Option NetProc)
      (st : eval_state) (b : Bool) (st' : eval_state),
      NetCase_vect_loop fuel type_ case_val items dflt st = some (b, st') ↔
        case_outcome type_ case_val fuel items dflt st b st' := by
  intro items fuel dflt st b st'
  constructor
  · revert fuel dflt st
    induction items with
    | nil =>
      intro fuel dflt st h
      cases fuel with
      | zero => simp [NetCase_vect_loop] at h
      | succ fuel =>
        simp only [NetCase_vect_loop] at h
        cases dflt with
        | none =>
          simp only [Option.some.injEq, Prod.mk.injEq] at h
          rw [← h.2]
          exact .no_match fuel (.done _ _ _) h.1.symm
        | some s => exact .default_run fuel s st (.done _ _ _) h
    | cons it rest ih =>
      intro fuel dflt st h
      cases fuel with
      | zero => simp [NetCase_vect_loop] at h
      | succ fuel =>
        obtain ⟨g, statement⟩ := it
        cases g with
        | none =>
          simp only [NetCase_vect_loop] at h
          exact case_outcome_default_item (ih fuel statement st h)
        | some guard =>
          simp only [NetCase_vect_loop] at h
          split at h
          · exact Option.noConfusion h
          · rename_i st1 hg
            simp only [Option.some.injEq, Prod.mk.injEq] at h
            rw [h.2] at hg
            exact .guard_failed [] guard statement rest fuel dflt st rfl (.done _ _ _) hg h.1.symm
          · exact Option.noConfusion h
          · rename_i item_val st1 hg
            split at h
            · exact Option.noConfusion h
            rename_i hlen
            have hlen2 : item_val.bits.length = case_val.bits.length := by simpa using hlen
            split at h
            · rename_i hm
              refine case_outcome_guard_item hg hlen2 ?_ (ih fuel dflt st1 h)
              intro hs
              rw [(NetCase_match_iff type_ _ _ hlen2).mpr hs] at hm
              exact Bool.noConfusion hm
            · rename_i hm
              split at h
              · exact Option.noConfusion h
              · rename_i stmt
                refine .matched [] guard stmt rest fuel dflt st item_val st1 rfl (.done _ _ _) hg
                  hlen2 ?_ h
                apply (NetCase_match_iff type_ _ _ hlen2).mp
                simpa using hm
  · intro h
    cases h with
    | matched pre guard stmt post fuel1 d st1 item_val st2 hi hs hg hl hm hr =>
      rw [hi, NetCase_vect_loop_skip hs]
      simp only [NetCase_vect_loop, hg]
      rw [if_neg (by simpa using hl), if_neg (by simp [(NetCase_match_iff type_ _ _ hl).mpr hm])]
      exact hr
    | default_run fuel1 stmt st1 hs hr =>
      have := NetCase_vect_loop_skip hs []
      rw [List.append_nil] at this
      rw [this]
      simp only [NetCase_vect_loop]
      exact hr
    | no_match fuel1 hs hb =>
      have := NetCase_vect_loop_skip hs []
      rw [List.append_nil] at this
      rw [this, hb]
      simp only [NetCase_vect_loop]
    | guard_failed pre guard stmt post fuel1 d st1 hi hs hg hb =>
      rw [hi, NetCase_vect_loop_skip hs]
      simp only [NetCase_vect_loop, hg, hb]

/-- The evaluation of the guards that do not match leaves the keys of the
map and every value that is not null; and the default statement after them
is the statement of the default item. -/
theorem guards_skipped_facts {type_ : NetCase_TYPE} {case_val : verinum} {fuel : Nat}
    {items : List (Option NetExpr × Option NetProc)} {dflt : Option NetProc} {st : eval_state}
    {fuel' : Nat} {d : Option NetProc} {st1 : eval_state}
    (h : guards_skipped type_ case_val fuel items dflt st fuel' d st1) :
    map_le st.context_map st1.context_map ∧
    ((∀ it ∈ items, it.1 ≠ none) → d = dflt) ∧
    (∀ s, (∀ it ∈ items, it.1 = none → it.2 = s) →
      ((∃ it ∈ items, it.1 = none) ∨ dflt = s) → d = s) := by
  induction h with
  | done fuel dflt st =>
    refine ⟨map_le_refl _, fun _ => rfl, ?_⟩
    intro s _ h
    rcases h with ⟨it, hit, _⟩ | h
    · simp at hit
    · exact h
  | default_item fuel statement rest dflt st fuel' dflt' st' _ ih =>
    refine ⟨ih.1, ?_, ?_⟩
    · intro hall
      exact absurd rfl (hall (none, statement) (List.mem_cons_self _ _))
    · intro s hall _
      apply ih.2.2 s (fun it hit => hall it (List.mem_cons_of_mem _ hit))
      right
      exact hall (none, statement) (List.mem_cons_self _ _) rfl
  | guard_item fuel guard statement rest dflt st item_val st1 fuel' dflt' st' hg _ _ _ ih =>
    refine ⟨map_le_trans ((NetExpr_map_le fuel).1 _ _ _ _ hg) ih.1, ?_, ?_⟩
    · intro hall
      exact ih.2.1 (fun it hit => hall it (List.mem_cons_of_mem _ hit))
    · intro s hall hex
      apply ih.2.2 s (fun it hit => hall it (List.mem_cons_of_mem _ hit))
      rcases hex with ⟨it, hit, hn⟩ | h
      · rcases List.mem_cons.mp hit with he | hr
        · rw [he] at hn
          exact Option.noConfusion hn
        · exact Or.inl ⟨it, hr, hn⟩
      · exact Or.inr h

/-- C27, the case that changes the map without a match: the statement
`case (x) 2'b11: f = 2'b11; endcase` on a map in which `x` has no value
succeeds, its only guard does not match the selector `2'bxx`, it has no
default item, and yet the map after it is not the map before it: the read of
the selector has bound `x` to `2'bxx`. -/
theorem C27_no_match_binds_selector :
    NetProc.evaluate_function 3 case_x ctx_fxy = some (true, ctx_x_bound) ∧
    ctx_x_bound ≠ ctx_fxy ∧
    ¬ spec_case_match .EQ [.Vx, .Vx] const_3.bits ∧
    map_find ctx_fxy.context_map "x" = some none ∧
    map_find ctx_x_bound.context_map "x" = some (some (make_const_x 2)) := by
  refine ⟨by decide, by decide, ?_, by decide, by decide⟩
  intro h
  have := (NetCase_match_iff .EQ [.Vx, .Vx] const_3.bits rfl).mpr h
  revert this
  decide

/-- C27, amended: `NetCase::evaluate_function` on a selector that is not
real returns `b` and leaves `st'` if and only if either the selector gives
null and `b` is false, or the selector gives a constant `case_val`, which
leaves the keys of the map and every value that is not null, and `b` and
`st'` are one of the outcomes of the case statement: the statement of the
first item, in declaration order, whose guard matches `case_val` has been
evaluated, after the guards before it; or no guard matches and the default
statement has been evaluated, after all the guards; or no guard matches,
there is no default statement, `b` is true and `st'` is the state that the
evaluation of the selector and the guards has left; or a guard has given
null and `b` is false. The guards that do not match leave the keys of the
map and every value that is not null (an entry without a value may have been
bound by a read); the default statement after them is null when no item is a
default item, and the statement of the default item wherever it stands among
the items. -/
theorem C27_case_first_match (fuel : Nat) (type_ : NetCase_TYPE)
    (expr_type : ivl_variable_type_t) (expr_ : NetExpr)
    (items_ : List (Option NetExpr × Option NetProc)) (st : eval_state) (b : Bool)
    (st' : eval_state) (htype : expr_type ≠ .IVL_VT_REAL) :
    (NetProc.evaluate_function (fuel + 1) (.NetCase type_ expr_type expr_ items_) st =
        some (b, st') ↔
      (NetExpr.evaluate_function fuel expr_ st = some (none, st') ∧ b = false) ∨
      ∃ case_val st0,
        NetExpr.evaluate_function fuel expr_ st = some (some (.NetEConst case_val), st0) ∧
        map_le st.context_map st0.context_map ∧
        case_outcome type_ case_val fuel items_ none st0 b st') ∧
    (∀ case_val fuel0 items st0 fuel1 d st1,
      guards_skipped type_ case_val fuel0 items none st0 fuel1 d st1 →
        map_le st0.context_map st1.context_map ∧
        ((∀ it ∈ items, it.1 ≠ none) → d = none) ∧
        (∀ s, (∀ it ∈ items, it.1 = none → it.2 = s) → (∃ it ∈ items, it.1 = none) → d = s)) := by
  refine ⟨?_, ?_⟩
  · simp only [NetProc.evaluate_function, if_neg htype]
    constructor
    · intro h
      split at h
      · exact Option.noConfusion h
      · rename_i st1 hs
        simp only [Option.some.injEq, Prod.mk.injEq] at h
        left
        rw [h.2] at hs
        exact ⟨hs, h.1.symm⟩
      · exact Option.noConfusion h
      · rename_i case_val st1 hs
        right
        exact ⟨case_val, st1, hs, (NetExpr_map_le fuel).1 _ _ _ _ hs,
          (NetCase_vect_loop_iff type_ case_val items_ fuel none st1 b st').mp h⟩
    · rintro (⟨hs, hb⟩ | ⟨case_val, st0, hs, _, ho⟩)
      · rw [hs, hb]
      · rw [hs]
        exact (NetCase_vect_loop_iff type_ case_val items_ fuel none st0 b st').mpr ho
  · intro case_val fuel0 items st0 fuel1 d st1 h
    obtain ⟨h1, h2, h3⟩ := guards_skipped_facts h
    exact ⟨h1, h2, fun s hall hex => h3 s hall (Or.inl hex)⟩

/-- The statement `case (x) 2'b11: f = 2'b11; endcase` on the map `ctx_fxy`,
as an instance of the theorem: the selector gives a constant, and the result
is an outcome of the case statement. -/
theorem C27_case_first_match_witness :
    ivl_variable_type_t.IVL_VT_LOGIC ≠ .IVL_VT_REAL ∧
    ((NetExpr.evaluate_function 2 (.NetESignal "x" false .IVL_VT_LOGIC 2) ctx_fxy =
        some (none, ctx_x_bound) ∧ true = false) ∨
      ∃ case_val st0,
        NetExpr.evaluate_function 2 (.NetESignal "x" false .IVL_VT_LOGIC 2) ctx_fxy =
          some (some (.NetEConst case_val), st0) ∧
        map_le ctx_fxy.context_map st0.context_map ∧
        case_outcome .EQ case_val 2
          [(some (.NetEConst const_3), some (assign_to "f" 2 (.NetEConst const_3)))]
          none st0 true ctx_x_bound) :=
  ⟨by decide,
    (C27_case_first_match 2 .EQ .IVL_VT_LOGIC (.NetESignal "x" false .IVL_VT_LOGIC 2)
      [(some (.NetEConst const_3), some (assign_to "f" 2 (.NetEConst const_3)))]
      ctx_fxy true ctx_x_bound (by decide)).1.mp (by decide)⟩

/-! ## Claim C33 -/

/-- C33: for all machine words `a` and `b` (64 bits), `multiply_with_carry`
returns `lo` and leaves `hi` in `carry` with `lo + hi * 2^64 = a * b`
exactly, and both are machine words. -/
theorem C33_multiply_with_carry_exact (a b : Nat) (ha : a < 2 ^ 64) (hb : b < 2 ^ 64) :
    (multiply_with_carry a b).1 + (multiply_with_carry a b).2 * 2 ^ 64 = a * b ∧
    (multiply_with_carry a b).1 < 2 ^ 64 ∧ (multiply_with_carry a b).2 < 2 ^ 64 := by
  have h := multiply_with_carry_spec a b ha hb
  have hW : WORD = 2 ^ 64 := rfl
  rw [hW, Nat.mul_comm] at h
  exact h

/-- C33 for the largest words: `(2^64 - 1)^2 = 1 + (2^64 - 2) * 2^64`. -/
theorem C33_multiply_with_carry_exact_witness :
    multiply_with_carry (2 ^ 64 - 1) (2 ^ 64 - 1) = (1, 2 ^ 64 - 2) ∧
    (multiply_with_carry (2 ^ 64 - 1) (2 ^ 64 - 1)).1 +
      (multiply_with_carry (2 ^ 64 - 1) (2 ^ 64 - 1)).2 * 2 ^ 64 = (2 ^ 64 - 1) * (2 ^ 64 - 1) ∧
    (multiply_with_carry (2 ^ 64 - 1) (2 ^ 64 - 1)).1 < 2 ^ 64 ∧
    (multiply_with_carry (2 ^ 64 - 1) (2 ^ 64 - 1)).2 < 2 ^ 64 :=
  ⟨by decide, C33_multiply_with_carry_exact (2 ^ 64 - 1) (2 ^ 64 - 1) (by decide) (by decide)⟩

/-! ## Claim C31 -/

theorem emod_two_mul (x m : Int) (hm : 0 < m) : x % (2 * m) = x % 2 + 2 * (x / 2 % m) := by
  have h2 := Int.emod_add_ediv (x / 2) m
  have h3 := Int.emod_nonneg (x / 2) (ne_of_gt hm)
  have h4 := Int.emod_lt_of_pos (x / 2) hm
  have hu : x / (2 * m) = x / 2 / m ∧ x % (2 * m) = x % 2 + 2 * (x / 2 % m) := by
    rw [Int.ediv_emod_unique (by omega : 0 < 2 * m)]
    have h7 : 2 * m * (x / 2 / m) = 2 * (m * (x / 2 / m)) := by ring
    rw [h7]
    generalize m * (x / 2 / m) = t at h2 ⊢
    generalize x / 2 % m = s at *
    omega
  exact hu.2

/-- The bits that `get_word` reads from a word are the binary digits of the
word modulo `2^n`. -/
theorem vvp_darray_atom_bits_spec (n : Nat) :
    ∀ (word : Int), (vvp_darray_atom_bits n word).length = n ∧
      vec4Known (vvp_darray_atom_bits n word) = true ∧
      (vec4Val (vvp_darray_atom_bits n word) : Int) = word % 2 ^ n := by
  induction n with
  | zero =>
    intro word
    simp [vvp_darray_atom_bits, vec4Known, vec4Val, Int.emod_one]
  | succ n ih =>
    intro word
    obtain ⟨h1, h2, h3⟩ := ih (word >>> (1 : Nat))
    have hs : word >>> (1 : Nat) = word / 2 := by
      have := Int.shiftRight_eq_div_pow word 1
      simpa using this
    refine ⟨by simp [vvp_darray_atom_bits, h1], ?_, ?_⟩
    · simp only [vvp_darray_atom_bits, vec4Known, List.all_cons] at h2 ⊢
      rw [h2]
      split <;> simp [bit4_is_xz]
    · simp only [vvp_darray_atom_bits, vec4Val]
      push_cast
      rw [h3, hs, pow_succ, mul_comm (2 ^ n) 2, emod_two_mul word (2 ^ n) (by positivity)]
      have := Int.emod_two_eq word
      rcases this with h | h
      · simp [h]
      · simp [h]

/-- C31: a `vvp_darray_real` and a `vvp_darray_string` behave as bounded
arrays: `set_word(i, v)` with `i` below the size followed by `get_word(i)`
returns `v`, keeps the size and leaves every other element; `set_word` with
`i` at or above the size leaves the array unchanged; `get_word` with `i` at
or above the size returns 0.0, the empty string and, for a
`vvp_darray_atom<T>`, `8*sizeof(T)` bits X; and `get_word` on a
`vvp_darray_atom<T>` below the size returns `8*sizeof(T)` bits without X or Z
whose binary value is the stored word modulo `2^(8*sizeof(T))`. -/
theorem C31_darray_bounded (real : vvp_darray_real) (str : vvp_darray_string)
    (atom : vvp_darray_atom) (i : Nat) (v : Rat) (s : String) :
    (i < real.array_.length →
      (real.set_word i v).get_word i = v ∧
      (real.set_word i v).array_.length = real.array_.length ∧
      ∀ j, j ≠ i → (real.set_word i v).get_word j = real.get_word j) ∧
    (real.array_.length ≤ i → real.set_word i v = real ∧ real.get_word i = 0) ∧
    (i < str.array_.length →
      (str.set_word i s).get_word i = s ∧
      (str.set_word i s).array_.length = str.array_.length ∧
      ∀ j, j ≠ i → (str.set_word i s).get_word j = str.get_word j) ∧
    (str.array_.length ≤ i → str.set_word i s = str ∧ str.get_word i = "") ∧
    (atom.array_.length ≤ i →
      atom.get_word i = List.replicate (8 * atom.sizeof_TYPE) BIT4_X) ∧
    (i < atom.array_.length →
      (atom.get_word i).length = 8 * atom.sizeof_TYPE ∧
      vec4Known (atom.get_word i) = true ∧
      (vec4Val (atom.get_word i) : Int) =
        atom.array_.getD i 0 % 2 ^ (8 * atom.sizeof_TYPE)) := by
  refine ⟨?_, ?_, ?_, ?_, ?_, ?_⟩
  · intro hi
    have hn : ¬ i ≥ real.array_.length := by omega
    refine ⟨?_, ?_, ?_⟩
    · simp [vvp_darray_real.set_word, vvp_darray_real.get_word, hn, hi]
    · simp [vvp_darray_real.set_word, hn]
    · intro j hj
      simp only [vvp_darray_real.set_word, vvp_darray_real.get_word, if_neg hn, List.length_set]
      split
      · rfl
      · simp [List.getD_eq_getElem?_getD, List.getElem?_set_ne (Ne.symm hj)]
  · intro hi
    simp [vvp_darray_real.set_word, vvp_darray_real.get_word, hi]
  · intro hi
    have hn : ¬ i ≥ str.array_.length := by omega
    refine ⟨?_, ?_, ?_⟩
    · simp [vvp_darray_string.set_word, vvp_darray_string.get_word, hn, hi]
    · simp [vvp_darray_string.set_word, hn]
    · intro j hj
      simp only [vvp_darray_string.set_word, vvp_darray_string.get_word, if_neg hn,
        List.length_set]
      split
      · rfl
      · simp [List.getD_eq_getElem?_getD, List.getElem?_set_ne (Ne.symm hj)]
  · intro hi
    simp [vvp_darray_string.set_word, vvp_darray_string.get_word, hi]
  · intro hi
    simp [vvp_darray_atom.get_word, hi]
  · intro hi
    have hn : ¬ i ≥ atom.array_.length := by omega
    simp only [vvp_darray_atom.get_word, if_neg hn]
    exact vvp_darray_atom_bits_spec _ _

/-- C31 for a real array `[1, 2, 3]`, a string array and an array of `int8_t`
holding -1 and 5, at the index 1: the element written is read back, and the
word 5 is read as `8'b00000101`. -/
theorem C31_darray_bounded_witness :
    (1 < (vvp_darray_real.mk [1, 2, 3]).array_.length ∧
      1 < (vvp_darray_atom.mk 1 [-1, 5]).array_.length) ∧
    ((((vvp_darray_real.mk [1, 2, 3]).set_word 1 7).get_word 1 = 7 ∧
      ((vvp_darray_real.mk [1, 2, 3]).set_word 1 7).array_.length =
        (vvp_darray_real.mk [1, 2, 3]).array_.length ∧
      ∀ j, j ≠ 1 → ((vvp_darray_real.mk [1, 2, 3]).set_word 1 7).get_word j =
        (vvp_darray_real.mk [1, 2, 3]).get_word j)) ∧
    (((vvp_darray_atom.mk 1 [-1, 5]).get_word 1).length = 8 * (vvp_darray_atom.mk 1 [-1, 5]).sizeof_TYPE ∧
      vec4Known ((vvp_darray_atom.mk 1 [-1, 5]).get_word 1) = true ∧
      (vec4Val ((vvp_darray_atom.mk 1 [-1, 5]).get_word 1) : Int) =
        (vvp_darray_atom.mk 1 [-1, 5]).array_.getD 1 0 %
          2 ^ (8 * (vvp_darray_atom.mk 1 [-1, 5]).sizeof_TYPE)) ∧
    (vvp_darray_atom.mk 1 [-1, 5]).get_word 0 = List.replicate 8 BIT4_1 :=
  ⟨by decide,
    (C31_darray_bounded ⟨[1, 2, 3]⟩ ⟨["a", "b"]⟩ ⟨1, [-1, 5]⟩ 1 7 "z").1 (by decide),
    (C31_darray_bounded ⟨[1, 2, 3]⟩ ⟨["a", "b"]⟩ ⟨1, [-1, 5]⟩ 1 7 "z").2.2.2.2.2 (by decide),
    by decide⟩

/-! ## Claim C32 -/

/-- C32, where the code departs from the claim: for every scope that
`compile_scope_decl` creates as a module, function, task, named begin or
named fork (automatic or not), `vpi_get_str` with the code `vpiType` returns
null, although `scope_get_type` maps the type code of the scope to the name
of its type: `scope_get_str` passes the property code `vpiType` itself to
`scope_get_type`, not `get_type_code()` of the scope, and `vpiType` is none
of the five scope types. -/
theorem C32_vpiType_string_is_null (file_names : List String) (type name : String)
    (tname : Option String) (parent : Option __vpiScope)
    (file_idx lineno def_file_idx def_lineno : Nat) (is_cell : Int)
    (htype : type ∈ ["module", "function", "task", "begin", "fork",
      "automodule", "autofunction", "autotask", "autobegin", "autofork"]) :
    ∃ scope, compile_scope_decl type name tname parent file_idx lineno def_file_idx def_lineno
        is_cell = some scope ∧
      scope.vpi_get_str file_names vpiType = none ∧
      scope_get_type scope.get_type_code =
        some (if type ∈ ["module", "automodule"] then "vpiModule"
          else if type ∈ ["function", "autofunction"] then "vpiFunction"
          else if type ∈ ["task", "autotask"] then "vpiTask"
          else if type ∈ ["begin", "autobegin"] then "vpiNamedBegin"
          else "vpiNamedFork") := by
  have hnull : ∀ s : __vpiScope, s.vpi_get_str file_names vpiType = none := by
    intro s
    cases s
    simp [__vpiScope.vpi_get_str, scope_get_str, scope_get_type, vpiType, vpiDefFile, vpiFile,
      vpiFullName, vpiName, vpiDefName, vpiModule, vpiFunction, vpiTask, vpiNamedBegin,
      vpiNamedFork]
  simp only [List.mem_cons, List.mem_singleton, List.not_mem_nil, or_false] at htype
  rcases htype with h | h | h | h | h | h | h | h | h | h <;> subst h <;>
    exact ⟨_, rfl, hnull _, rfl⟩

/-- C32 for the module scope `top` without a parent. -/
theorem C32_vpiType_string_is_null_witness :
    (compile_scope_decl "module" "top" none none 0 1 0 1 0).map
        (fun s => (s.vpi_get_str ["top.v"] vpiType, s.vpi_get_str ["top.v"] vpiName,
          scope_get_type s.get_type_code)) =
      some (none, some "top", some "vpiModule") ∧
    ∃ scope, compile_scope_decl "module" "top" none none 0 1 0 1 0 = some scope ∧
      scope.vpi_get_str ["top.v"] vpiType = none ∧
      scope_get_type scope.get_type_code =
        some (if "module" ∈ ["module", "automodule"] then "vpiModule"
          else if "module" ∈ ["function", "autofunction"] then "vpiFunction"
          else if "module" ∈ ["task", "autotask"] then "vpiTask"
          else if "module" ∈ ["begin", "autobegin"] then "vpiNamedBegin"
          else "vpiNamedFork") :=
  ⟨by decide, C32_vpiType_string_is_null ["top.v"] "module" "top" none none 0 1 0 1 0
    (by decide)⟩

/-! ## Claim C37 -/

/-- C37, where the code departs from the claim: `NetFuncDef::evaluate_function`
does not touch the active-disable target, so that the call returns with the
target that its statement has left. The function `d`, whose statement is the
unnamed block `begin d = 2'b11; disable d; end`, is entered with the target
null and returns `2'b11` with the target set to its own scope 7 (an unnamed
block has no sub-scope to compare the target with); and the block
`begin x = d(4'b0101); f = 2'b11; end` of the caller then stops after its
first statement, so that `f` is not assigned. -/
theorem C37_disable_target_leaks (fuel : Nat) (basename : String) (ports_ signals_ : List NetNet)
    (statement_ : NetProc) (args : List (Option eval_value)) (flag : Bool) (st' : eval_state)
    (hlen : ports_.length = args.length)
    (hbody : NetProc.evaluate_function fuel statement_
      ⟨setup_map basename ports_ signals_ args, none⟩ = some (flag, st')) :
    (∃ res, NetFuncDef.evaluate_function (fuel + 1)
      (.mk basename ports_ signals_ (some statement_)) args none = some (res, st'.disable)) ∧
    NetFuncDef.evaluate_function 6 func_disable [some (.NetEConst const_5)] none =
      some (some (.NetEConst const_3), some 7) ∧
    NetProc.evaluate_function 12 block_call ctx_fxy = some (true, ctx_x_disabled) := by
  refine ⟨?_, by decide, by decide⟩
  have hk : map_keys st'.context_map = map_keys (setup_map basename ports_ signals_ args) :=
    (NetProc_keys_kept fuel).1 _ _ _ _ hbody
  have hmem : basename ∈ map_keys st'.context_map := by
    rw [hk]
    unfold setup_map
    rw [mem_keys_find_locals, mem_keys_load_ports _ _ _ hlen, mem_keys_assign]
    exact Or.inl (Or.inl (Or.inl rfl))
  cases hres : map_find st'.context_map basename with
  | none => exact absurd hmem ((map_find_none_iff _ _).mp hres)
  | some res =>
    exact ⟨_, NetFuncDef_result fuel basename ports_ signals_ statement_ args none flag st' res
      hlen hbody hres⟩

/-- C37 for the function `d` called with `4'b0101`: its statement leaves the
target 7, and so does the call. -/
theorem C37_disable_target_leaks_witness :
    (∃ res, NetFuncDef.evaluate_function (5 + 1)
      (.mk "d" [net_sig "a" 4 true] [net_sig "a" 4 true]
        (some (.NetBlock none [assign_to "d" 2 (.NetEConst const_3), .NetDisable (some 7)])))
      [some (.NetEConst const_5)] none =
        some (res, (eval_state.mk [("d", some (.NetEConst const_3)),
          ("a", some (.NetEConst const_5))] (some 7)).disable)) ∧
    NetFuncDef.evaluate_function 6 func_disable [some (.NetEConst const_5)] none =
      some (some (.NetEConst const_3), some 7) ∧
    NetProc.evaluate_function 12 block_call ctx_fxy = some (true, ctx_x_disabled) :=
  C37_disable_target_leaks 5 "d" [net_sig "a" 4 true] [net_sig "a" 4 true]
    (.NetBlock none [assign_to "d" 2 (.NetEConst const_3), .NetDisable (some 7)])
    [some (.NetEConst const_5)] true
    ⟨[("d", some (.NetEConst const_3)), ("a", some (.NetEConst const_5))], some 7⟩
    rfl (by decide)

/-! ## Claim C36 -/

theorem of_CMPS_step_same (b : Bool) (eeq lt : vvp_bit4_t) :
    of_CMPS_step (if b = true then BIT4_1 else BIT4_0) (if b = true then BIT4_1 else BIT4_0)
      (BIT4_1, eeq, lt) = (BIT4_1, eeq, lt) := by
  cases b <;> simp [of_CMPS_step, vvp_bit4_t.code, bit4_is_xz]

theorem and_one_ne_zero (imm : Nat) : (imm &&& 1 ≠ 0) ↔ imm.testBit 0 = true := by
  rw [Nat.and_one_is_mod, Nat.testBit_zero]
  simp

/-- The loop of `of_CMPIS` over an operand that holds the bits of the
immediate leaves the flags as they are. -/
theorem of_CMPIS_loop_same (bits4 : List vvp_bit4_t) (eeq lt : vvp_bit4_t) :
    ∀ (n idx1 imm : Nat), 4 ≤ idx1 →
      (∀ i, i < n → bits4[idx1 + i]? = some (if imm.testBit i = true then BIT4_1 else BIT4_0)) →
      of_CMPIS_loop bits4 n idx1 imm (BIT4_1, eeq, lt) = some (BIT4_1, eeq, lt) := by
  intro n
  induction n with
  | zero =>
    intro idx1 imm _ _
    rfl
  | succ n ih =>
    intro idx1 imm h4 hb
    have h0 := hb 0 (by omega)
    rw [Nat.add_zero] at h0
    simp only [of_CMPIS_loop, thr_get_bit, h0]
    have hrv : (if imm &&& 1 ≠ 0 then BIT4_1 else BIT4_0) =
        (if imm.testBit 0 = true then BIT4_1 else BIT4_0) := by
      by_cases h : imm.testBit 0 = true
      · rw [if_pos ((and_one_ne_zero imm).mpr h), if_pos h]
      · rw [if_neg (fun hh => h ((and_one_ne_zero imm).mp hh)), if_neg h]
    rw [hrv, of_CMPS_step_same, if_pos (by omega : idx1 ≥ 4)]
    apply ih (idx1 + 1) (imm >>> 1) (by omega)
    intro i hi
    have := hb (i + 1) (by omega)
    rw [show idx1 + 1 + i = idx1 + (i + 1) by omega, this]
    rw [Nat.testBit_shiftRight, Nat.add_comm 1 i]

/-- C36, where the code departs from the claim: `of_CMPIS` leaves EQ (bit 4)
= 1 and LT (bit 5) = 1 at once whenever the operand of width `w >= 1` holds
the bits of the immediate and its top bit is 1: the loop finds the operands
equal, and the statement `else if (sig1 == BIT4_1) lt = BIT4_1` after it
takes the immediate for a number that is not negative. So it is for
`4'b1111` compared with the immediate 15, where `of_CMPS` on two vectors
`4'b1111` leaves EQ = 1 and LT = 0. -/
theorem C36_of_CMPIS_equal_and_less (bits4 : List vvp_bit4_t) (idx1 w imm : Nat)
    (h4 : 4 ≤ idx1) (hw : 1 ≤ w) (hin : idx1 + w ≤ bits4.length)
    (hbits : ∀ i, i < w →
      bits4[idx1 + i]? = some (if imm.testBit i = true then BIT4_1 else BIT4_0))
    (htop : imm.testBit (w - 1) = true) :
    (∃ r, of_CMPIS bits4 ⟨idx1, imm, w⟩ = some r ∧
      r[4]? = some BIT4_1 ∧ r[5]? = some BIT4_1 ∧ r[6]? = some BIT4_1) ∧
    (of_CMPIS thr_ones4 ⟨8, 15, 4⟩).map (fun r => (r[4]?, r[5]?)) =
      some (some BIT4_1, some BIT4_1) ∧
    (of_CMPS thr_ones4 ⟨8, 12, 4⟩).map (fun r => (r[4]?, r[5]?)) =
      some (some BIT4_1, some BIT4_0) := by
  refine ⟨?_, by decide, by decide⟩
  have hend : (if idx1 < 4 then idx1 else idx1 + w - 1) = idx1 + (w - 1) := by
    rw [if_neg (by omega)]
    omega
  have hchk : thr_check_addr bits4 (idx1 + (w - 1)) = bits4 := by
    unfold thr_check_addr
    rw [if_neg (by omega)]
  have hsig := hbits (w - 1) (by omega)
  rw [htop] at hsig
  simp only [of_CMPIS, hend, hchk, thr_get_bit, hsig, if_true,
    of_CMPIS_loop_same bits4 BIT4_1 BIT4_0 w idx1 imm h4 hbits]
  refine ⟨_, rfl, ?_⟩
  have := flags_written bits4 BIT4_1 BIT4_1 BIT4_1
  simpa using this

/-- C36 for the operand `4'b1111` at address 8 and the immediate 15. -/
theorem C36_of_CMPIS_equal_and_less_witness :
    (∃ r, of_CMPIS thr_ones4 ⟨8, 15, 4⟩ = some r ∧
      r[4]? = some BIT4_1 ∧ r[5]? = some BIT4_1 ∧ r[6]? = some BIT4_1) ∧
    (of_CMPIS thr_ones4 ⟨8, 15, 4⟩).map (fun r => (r[4]?, r[5]?)) =
      some (some BIT4_1, some BIT4_1) ∧
    (of_CMPS thr_ones4 ⟨8, 12, 4⟩).map (fun r => (r[4]?, r[5]?)) =
      some (some BIT4_1, some BIT4_0) :=
  C36_of_CMPIS_equal_and_less thr_ones4 8 4 15 (by decide) (by decide) (by decide)
    (by decide) (by decide)

/-! ## Claim C38 -/

theorem evctl_clear_fields (thr : evctl_thread) :
    thr.clear.event = none ∧ thr.clear.ecount = 0 := ⟨rfl, rfl⟩

theorem evctl_call_fields (thr : evctl_thread) (c : schedule_call) :
    (thr.call c).event = thr.event ∧ (thr.call c).ecount = thr.ecount := ⟨rfl, rfl⟩

/-- C38, an assignment that leaves the event control armed: on a thread
that `%evctl` has armed with the event 3 and the count 2, `%assign/av/e`
registers the update with the event and returns with `event` and `ecount` as
they were, also when it drops an out-of-range write (address -1), and so
does `%assign/ar/e`; the assertion of a following `%evctl`, `%evctl/i` or
`%evctl/s` then fails. -/
theorem C38_array_assign_keeps_event_control :
    (of_ASSIGN_AVE (thr_armed 0 0) 1 8 8).map (fun r => (r.event, r.ecount, r.scheduled)) =
      some (some 3, 2, [.evctl_array_word 1 0 [BIT4_1, BIT4_1, BIT4_1, BIT4_1] 0 (some 3) 2]) ∧
    (of_ASSIGN_AVE (thr_armed 0 (-1)) 1 8 8).map (fun r => (r.event, r.ecount, r.scheduled)) =
      some (some 3, 2, []) ∧
    (of_ASSIGN_ARE (thr_armed 0 0) 1).map (fun r => (r.event, r.ecount, r.scheduled)) =
      some (some 3, 2, [.evctl_array_word_real 1 0 5 (some 3) 2]) ∧
    ((of_ASSIGN_AVE (thr_armed 0 0) 1 8 8).bind (fun r => of_EVCTL r 5 2)) = none ∧
    ((of_ASSIGN_AVE (thr_armed 0 0) 1 8 8).bind (fun r => of_EVCTLI r 5 2)) = none ∧
    ((of_ASSIGN_AVE (thr_armed 0 0) 1 8 8).bind (fun r => of_EVCTLS r 5 2)) = none ∧
    ((of_ASSIGN_ARE (thr_armed 0 0) 1).bind (fun r => of_EVCTL r 5 2)) = none := by
  refine ⟨by decide, by decide, by decide, by decide, by decide, by decide, by decide⟩

/-- C38, amended: `%assign/v0/e`, `%assign/v0/x1/e` and `%assign/wr/e`
leave the event control of the thread cleared (`event` null and `ecount`
0) on every path on which they return, including the paths of
`%assign/v0/x1/e` that drop an out-of-range write, and they return when
their assertions hold; `%assign/av/e` and `%assign/ar/e` leave `event` and
`ecount` as they were on every path, and it is `%evctl/c` after them that
clears the event control. On a thread whose event control is cleared, the
assertion of `%evctl`, `%evctl/i` and `%evctl/s` holds. -/
theorem C38_event_control_after_assign (thr : evctl_thread)
    (net bit value_size handle array vwidth idx : Nat) :
    (∀ r, of_ASSIGN_V0E thr net bit = some r → r.event = none ∧ r.ecount = 0) ∧
    (thr.event ≠ none → unsigned_of_long (thr.words.getD 0 0) > 0 →
      (of_ASSIGN_V0E thr net bit).isSome = true) ∧
    (∀ r, of_ASSIGN_V0X1E thr net bit value_size = some r → r.event = none ∧ r.ecount = 0) ∧
    ((thr.words.getD 1 0 ≥ (value_size : Int) ∨
        (thr.words.getD 1 0 < 0 ∧
          unsigned_of_long (-(thr.words.getD 1 0)) ≥ unsigned_of_long (thr.words.getD 0 0))) →
      of_ASSIGN_V0X1E thr net bit value_size = some thr.clear) ∧
    (∀ r, of_ASSIGN_WRE thr handle = some r → r.event = none ∧ r.ecount = 0) ∧
    (thr.event ≠ none → thr.stack_real_ ≠ [] → (of_ASSIGN_WRE thr handle).isSome = true) ∧
    (∀ r, of_ASSIGN_AVE thr array vwidth bit = some r →
      r.event = thr.event ∧ r.ecount = thr.ecount ∧
      (of_EVCTLC r).event = none ∧ (of_EVCTLC r).ecount = 0) ∧
    (∀ r, of_ASSIGN_ARE thr array = some r →
      r.event = thr.event ∧ r.ecount = thr.ecount ∧
      (of_EVCTLC r).event = none ∧ (of_EVCTLC r).ecount = 0) ∧
    (thr.event = none → thr.ecount = 0 →
      (of_EVCTL thr net idx).isSome = true ∧ (of_EVCTLI thr net idx).isSome = true ∧
      (of_EVCTLS thr net idx).isSome = true) := by
  refine ⟨?_, ?_, ?_, ?_, ?_, ?_, ?_, ?_, ?_⟩
  · intro r h
    unfold of_ASSIGN_V0E at h
    split at h
    · exact Option.noConfusion h
    · simp only at h
      split at h
      · simp only [Option.some.injEq] at h
        rw [← h]
        exact evctl_clear_fields _
      · exact Option.noConfusion h
  · intro he hw
    unfold of_ASSIGN_V0E
    rw [if_neg he]
    simp only
    rw [if_pos hw]
    rfl
  · intro r h
    unfold of_ASSIGN_V0X1E at h
    simp only at h
    split at h
    · simp only [Option.some.injEq] at h
      rw [← h]
      exact evctl_clear_fields _
    · split at h
      · simp only [Option.some.injEq] at h
        rw [← h]
        exact evctl_clear_fields _
      · exact Option.noConfusion h
  · intro h
    have ht : of_ASSIGN_V0X1_trim (unsigned_of_long (thr.words.getD 0 0)) (thr.words.getD 1 0)
        bit value_size = none := by
      unfold of_ASSIGN_V0X1_trim
      rcases h with h | ⟨h1, h2⟩
      · rw [if_pos h]
      · by_cases h0 : thr.words.getD 1 0 ≥ (value_size : Int)
        · rw [if_pos h0]
        · rw [if_neg h0, if_pos h1, if_pos h2]
    unfold of_ASSIGN_V0X1E
    simp only [ht]
  · intro r h
    unfold of_ASSIGN_WRE at h
    split at h
    · exact Option.noConfusion h
    · split at h
      · exact Option.noConfusion h
      · simp only [Option.some.injEq] at h
        rw [← h]
        exact evctl_clear_fields _
  · intro he hs
    unfold of_ASSIGN_WRE
    rw [if_neg he]
    cases hl : thr.stack_real_.getLast? with
    | none => exact absurd (List.getLast?_eq_none_iff.mp hl) hs
    | some v => rfl
  · intro r h
    unfold of_ASSIGN_AVE at h
    simp only at h
    split at h
    · simp only [Option.some.injEq] at h
      rw [← h]
      exact ⟨rfl, rfl, rfl, rfl⟩
    · split at h
      · split at h <;>
        · simp only [Option.some.injEq] at h
          rw [← h]
          exact ⟨rfl, rfl, rfl, rfl⟩
      · exact Option.noConfusion h
  · intro r h
    unfold of_ASSIGN_ARE at h
    simp only at h
    split at h
    · exact Option.noConfusion h
    · split at h
      · split at h <;>
        · simp only [Option.some.injEq] at h
          rw [← h]
          exact ⟨rfl, rfl, rfl, rfl⟩
      · simp only [Option.some.injEq] at h
        rw [← h]
        exact ⟨rfl, rfl, rfl, rfl⟩
  · intro he hc
    simp [of_EVCTL, of_EVCTLI, of_EVCTLS, he, hc]

/-- C38 on the thread that `%evctl` has armed with the event 3 and the
count 2: `%assign/v0/e` returns and leaves the event control cleared, and
`%assign/av/e` leaves it as it was. -/
theorem C38_event_control_after_assign_witness :
    ((of_ASSIGN_V0E (thr_armed 0 0) 1 8).isSome = true ∧
      (of_ASSIGN_AVE (thr_armed 0 0) 1 8 8).isSome = true) ∧
    (∀ r, of_ASSIGN_V0E (thr_armed 0 0) 1 8 = some r → r.event = none ∧ r.ecount = 0) ∧
    (∀ r, of_ASSIGN_AVE (thr_armed 0 0) 1 8 8 = some r →
      r.event = (thr_armed 0 0).event ∧ r.ecount = (thr_armed 0 0).ecount ∧
      (of_EVCTLC r).event = none ∧ (of_EVCTLC r).ecount = 0) :=
  ⟨by decide,
    (C38_event_control_after_assign (thr_armed 0 0) 1 8 8 2 1 8 0).1,
    (C38_event_control_after_assign (thr_armed 0 0) 1 8 8 2 1 8 0).2.2.2.2.2.2.1⟩

/-! ## Claim C39 -/

theorem unsigned_of_long_sub (a b : Nat) (hb : b ≤ a) (ha : a < 2 ^ 32) :
    unsigned_of_long ((a : Int) + -(b : Int)) = a - b := by
  have h : (a : Int) + -(b : Int) = ((a - b : Nat) : Int) := by omega
  rw [h]
  exact unsigned_of_long_small _ (by omega)

theorem unsigned_of_long_add (a b : Nat) (h : a + b < 2 ^ 32) :
    unsigned_of_long ((a : Int) - -(b : Int)) = a + b := by
  have h2 : (a : Int) - -(b : Int) = ((a + b : Nat) : Int) := by omega
  rw [h2]
  exact unsigned_of_long_small _ h

/-- The values that `of_ASSIGN_V0X1` passes on for a part that starts `k`
bits below the least significant bit of the destination. -/
theorem of_ASSIGN_V0X1_below (bits4 : List vvp_bit4_t) (bit wid k net delay value_size : Nat)
    (hk : 1 ≤ k) (hkw : k < wid) (hw : wid < 2 ^ 32) (hb : bit + k < 2 ^ 32) :
    of_ASSIGN_V0X1 bits4 (wid : Int) (-(k : Int)) net delay bit value_size =
      some (some (.assign_vector net 0 value_size
        (vthread_bits_to_vector bits4 (bit + k) (wid - k)) delay)) := by
  have h1 : unsigned_of_long (wid : Int) = wid := unsigned_of_long_small wid hw
  have h2 : unsigned_of_long (-(-(k : Int))) = k := by
    rw [neg_neg]
    exact unsigned_of_long_small k (by omega)
  have h3 := unsigned_of_long_sub wid k (by omega) hw
  have h4 := unsigned_of_long_add bit k hb
  have hneg : ¬ (-(k : Int) ≥ (value_size : Int)) := by omega
  have hlt : -(k : Int) < 0 := by omega
  simp only [of_ASSIGN_V0X1, of_ASSIGN_V0X1_trim, h1, if_neg hneg, if_pos hlt, h2,
    if_neg (by omega : ¬ k ≥ wid), h3, h4]
  rw [if_pos (by omega)]

/-- C39, where the code departs from the claim: for a part of width `wid`
that starts `k` bits below the destination (`off = -k`, `1 <= k < wid`),
`of_ASSIGN_V0X1` schedules at offset 0 the `wid - k` bits that
`vthread_bits_to_vector` reads at the address `bit + k`: the statement
`bit -= off` is executed for every address. For `bit >= 4` these are the
bits `[k, wid)` of the source vector; for a constant address `bit < 4` with
`bit + k < 4` they are the constant at the address `bit + k`, which is not
the constant at `bit`. So the constant 0 with `wid = 4`, `off = -2` is
scheduled as `XX`, and the constant Z with `off = -1` as the thread bits 4
to 6, where `of_SET_X0`, which adds to `bit` only if `bit >= 4`, sends `00`
and `ZZZ`; for the address 8 both pass on the bits 10 and 11. -/
theorem C39_constant_source_is_shifted (bits4 : List vvp_bit4_t)
    (bit wid k net delay value_size : Nat)
    (hk : 1 ≤ k) (hkw : k < wid) (hw : wid < 2 ^ 32) (hb : bit + k < 2 ^ 32) :
    (4 ≤ bit →
      of_ASSIGN_V0X1 bits4 (wid : Int) (-(k : Int)) net delay bit value_size =
        some (some (.assign_vector net 0 value_size (vec4Part bits4 (bit + k) (wid - k)) delay))) ∧
    (bit + k < 4 →
      of_ASSIGN_V0X1 bits4 (wid : Int) (-(k : Int)) net delay bit value_size =
        some (some (.assign_vector net 0 value_size
          (List.replicate (wid - k) (thr_index_to_bit4 (bit + k))) delay)) ∧
      List.replicate (wid - k) (thr_index_to_bit4 (bit + k)) ≠
        List.replicate (wid - k) (thr_index_to_bit4 bit)) ∧
    (of_ASSIGN_V0X1 thr_ones4 4 (-2) 1 0 0 8 =
        some (some (.assign_vector 1 0 8 [BIT4_X, BIT4_X] 0)) ∧
      of_SET_X0 thr_ones4 (-2) 1 0 4 8 = some (some ⟨1, [BIT4_0, BIT4_0], 0, 2, 8⟩)) ∧
    (of_ASSIGN_V0X1 thr_ones4 4 (-1) 1 0 3 8 =
        some (some (.assign_vector 1 0 8 [BIT4_X, BIT4_X, BIT4_X] 0)) ∧
      of_SET_X0 thr_ones4 (-1) 1 3 4 8 = some (some ⟨1, [BIT4_Z, BIT4_Z, BIT4_Z], 0, 3, 8⟩)) ∧
    (of_ASSIGN_V0X1 thr_ones4 4 (-2) 1 0 8 8 =
        some (some (.assign_vector 1 0 8 [BIT4_1, BIT4_1] 0)) ∧
      of_SET_X0 thr_ones4 (-2) 1 8 4 8 = some (some ⟨1, [BIT4_1, BIT4_1], 0, 2, 8⟩)) := by
  have h := of_ASSIGN_V0X1_below bits4 bit wid k net delay value_size hk hkw hw hb
  refine ⟨?_, ?_, ⟨by decide, by decide⟩, ⟨by decide, by decide⟩, ⟨by decide, by decide⟩⟩
  · intro h4
    rw [h]
    unfold vthread_bits_to_vector
    rw [if_pos (by omega)]
  · intro h4
    refine ⟨?_, ?_⟩
    · rw [h]
      unfold vthread_bits_to_vector
      rw [if_neg (by omega)]
    · intro he
      have hpos : 0 < wid - k := by omega
      have h0 := congrArg (fun l => l[0]?) he
      simp only [List.getElem?_replicate, hpos, if_true, Option.some.injEq] at h0
      have hb3 : bit < 3 := by omega
      have hk3 : k < 4 := by omega
      interval_cases bit <;> interval_cases k <;> simp_all [thr_index_to_bit4]

/-- C39 for the constant address 0 with `wid = 4` and `off = -2`. -/
theorem C39_constant_source_is_shifted_witness :
    (1 ≤ 2 ∧ 2 < 4 ∧ 4 < 2 ^ 32 ∧ 0 + 2 < 2 ^ 32) ∧
    (0 + 2 < 4 →
      of_ASSIGN_V0X1 thr_ones4 ((4 : Nat) : Int) (-((2 : Nat) : Int)) 1 0 0 8 =
        some (some (.assign_vector 1 0 8
          (List.replicate (4 - 2) (thr_index_to_bit4 (0 + 2))) 0)) ∧
      List.replicate (4 - 2) (thr_index_to_bit4 (0 + 2)) ≠
        List.replicate (4 - 2) (thr_index_to_bit4 0)) :=
  ⟨by decide,
    (C39_constant_source_is_shifted thr_ones4 0 4 2 1 0 8 (by decide) (by decide) (by decide)
      (by decide)).2.1⟩

/-! ## Claim C35 -/

/-- The narrow loop, for operands of which no source bit is read after it
has been written: bit `j` of the destination becomes `f` of the bits that
the bit space held before the loop. -/
theorem logic_narrow_loop_spec (f : vvp_bit4_t → vvp_bit4_t → vvp_bit4_t) :
    ∀ (n idx1 idx2 : Nat) (b : List vvp_bit4_t), 4 ≤ idx1 → idx1 + n ≤ b.length →
      (4 ≤ idx2 → idx2 + n ≤ b.length) → (idx2 < 4 ∨ idx1 ≤ idx2 ∨ idx2 + n ≤ idx1) →
      ∃ r, logic_narrow_loop f n idx1 idx2 b = some r ∧ r.length = b.length ∧
        ∀ j, r[j]? =
          if idx1 ≤ j ∧ j < idx1 + n then
            some (f (b[j]?.getD BIT4_X) (b[advance idx2 (j - idx1)]?.getD BIT4_X))
          else b[j]? := by
  intro n
  induction n with
  | zero =>
    intro idx1 idx2 b _ _ _ _
    refine ⟨b, rfl, rfl, ?_⟩
    intro j
    rw [if_neg (by omega)]
  | succ n ih =>
    intro idx1 idx2 b h4 hin hs hno
    have hl1 : idx1 < b.length := by omega
    have hl2 : idx2 < b.length := by
      by_cases h : 4 ≤ idx2
      · have := hs h
        omega
      · omega
    have e1 : b[idx1]? = some b[idx1] := List.getElem?_eq_getElem hl1
    have e2 : b[idx2]? = some b[idx2] := List.getElem?_eq_getElem hl2
    simp only [logic_narrow_loop, thr_get_bit, e1, e2]
    rw [thr_put_bit_in b idx1 _ hl1]
    obtain ⟨r, hr, hlen, hpt⟩ := ih (idx1 + 1) (if idx2 ≥ 4 then idx2 + 1 else idx2)
      (b.set idx1 (f b[idx1] b[idx2])) (by omega)
      (by rw [List.length_set]; omega)
      (by
        intro h
        rw [List.length_set]
        by_cases h2 : idx2 ≥ 4
        · rw [if_pos h2]
          have := hs h2
          omega
        · rw [if_neg h2] at h
          omega)
      (by
        by_cases h2 : idx2 ≥ 4
        · rw [if_pos h2]
          omega
        · rw [if_neg h2]
          omega)
    rw [List.length_set] at hlen
    refine ⟨r, hr, hlen, ?_⟩
    intro j
    rw [hpt j]
    by_cases hj : j = idx1
    · subst hj
      have c1 : ¬ (j + 1 ≤ j ∧ j < j + 1 + n) := by omega
      have c2 : j ≤ j ∧ j < j + (n + 1) := by omega
      rw [if_neg c1, if_pos c2, List.getElem?_set, if_pos rfl, if_pos hl1]
      have ha : advance idx2 (j - j) = idx2 := by
        unfold advance
        split <;> omega
      rw [ha, e1, e2]
      rfl
    · by_cases hrange : idx1 < j ∧ j < idx1 + (n + 1)
      · have c1 : idx1 + 1 ≤ j ∧ j < idx1 + 1 + n := by omega
        have c2 : idx1 ≤ j ∧ j < idx1 + (n + 1) := by omega
        rw [if_pos c1, if_pos c2]
        have ha : advance (if idx2 ≥ 4 then idx2 + 1 else idx2) (j - (idx1 + 1)) =
            advance idx2 (j - idx1) := by
          unfold advance
          by_cases h2 : idx2 ≥ 4
          · rw [if_pos h2, if_pos (by omega), if_pos h2]
            omega
          · rw [if_neg h2, if_neg h2, if_neg h2]
        have hne : idx1 ≠ advance idx2 (j - idx1) := by
          unfold advance
          split <;> omega
        rw [ha, List.getElem?_set, if_neg (Ne.symm hj), List.getElem?_set, if_neg hne]
      · have c1 : ¬ (idx1 + 1 ≤ j ∧ j < idx1 + 1 + n) := by omega
        have c2 : ¬ (idx1 ≤ j ∧ j < idx1 + (n + 1)) := by omega
        rw [if_neg c1, if_neg c2, List.getElem?_set, if_neg (Ne.symm hj)]

/-- The wide variants: the same bits. -/
theorem logic_wide_spec (f : vvp_bit4_t → vvp_bit4_t → vvp_bit4_t) (b : List vvp_bit4_t)
    (idx1 idx2 n : Nat) (h4 : 4 ≤ idx1) (hin : idx1 + n ≤ b.length)
    (hs : operand_ok b idx2 n) (hc : thr_consts_ok b) :
    ∃ r, set_vec b idx1 (List.zipWith f (vthread_bits_to_vector b idx1 n)
        (vthread_bits_to_vector b idx2 n)) = some r ∧ r.length = b.length ∧
      ∀ j, r[j]? =
        if idx1 ≤ j ∧ j < idx1 + n then
          some (f (b[j]?.getD BIT4_X) (b[advance idx2 (j - idx1)]?.getD BIT4_X))
        else b[j]? := by
  have ho1 : operand_ok b idx1 n := Or.inr hin
  have hlen : (List.zipWith f (vthread_bits_to_vector b idx1 n)
      (vthread_bits_to_vector b idx2 n)).length = n := by
    rw [List.length_zipWith, operand_length b idx1 n ho1, operand_length b idx2 n hs]
    simp
  have hin2 : idx1 + (List.zipWith f (vthread_bits_to_vector b idx1 n)
      (vthread_bits_to_vector b idx2 n)).length ≤ b.length := by
    rw [hlen]
    exact hin
  refine ⟨_, set_vec_some b idx1 _ hin2, splice_length b idx1 _ hin2, ?_⟩
  intro j
  rw [splice_getElem? b idx1 _ hin2 j, hlen]
  by_cases hj : idx1 ≤ j ∧ j < idx1 + n
  · rw [if_pos hj, if_pos hj, List.getElem?_zipWith]
    have hk : j - idx1 < n := by omega
    have r1 := operand_read b idx1 n (j - idx1) hc ho1 hk
    have r2 := operand_read b idx2 n (j - idx1) hc hs hk
    have ha : advance idx1 (j - idx1) = j := by
      unfold advance
      rw [if_pos h4]
      omega
    rw [ha] at r1
    unfold thr_get_bit at r1 r2
    rw [← r1, ← r2]
    have hl1 : j < b.length := by omega
    have hl2 : advance idx2 (j - idx1) < b.length := by
      unfold advance
      split
      · rcases hs with h | h <;> omega
      · omega
    rw [List.getElem?_eq_getElem hl1, List.getElem?_eq_getElem hl2]
    rfl
  · rw [if_neg hj, if_neg hj]

/-- The narrow loop and the wide statement leave the same bit space when no
source bit is read after it has been written. -/
theorem logic_narrow_eq_wide (f : vvp_bit4_t → vvp_bit4_t → vvp_bit4_t) (b : List vvp_bit4_t)
    (d s w : Nat) (hd : 4 ≤ d) (hin : d + w ≤ b.length) (hs : operand_ok b s w)
    (hc : thr_consts_ok b) (hno : s < 4 ∨ d ≤ s ∨ s + w ≤ d) :
    logic_narrow_loop f w d s b =
      set_vec b d (List.zipWith f (vthread_bits_to_vector b d w)
        (vthread_bits_to_vector b s w)) := by
  obtain ⟨r1, h1, _, p1⟩ := logic_narrow_loop_spec f w d s b hd hin
    (by
      intro h
      rcases hs with h' | h'
      · omega
      · exact h') hno
  obtain ⟨r2, h2, _, p2⟩ := logic_wide_spec f b d s w hd hin hs hc
  rw [h1, h2]
  congr 1
  apply List.ext_getElem?
  intro j
  rw [p1 j, p2 j]

/-- The loop of `of_INV_narrow` inverts the bits of the operand. -/
theorem of_INV_narrow_loop_spec :
    ∀ (n idx1 : Nat) (b : List vvp_bit4_t), idx1 + n ≤ b.length →
      ∃ r, of_INV_narrow_loop n idx1 b = some r ∧ r.length = b.length ∧
        ∀ j, r[j]? =
          if idx1 ≤ j ∧ j < idx1 + n then some (bit4_not (b[j]?.getD BIT4_X)) else b[j]? := by
  intro n
  induction n with
  | zero =>
    intro idx1 b _
    refine ⟨b, rfl, rfl, ?_⟩
    intro j
    rw [if_neg (by omega)]
  | succ n ih =>
    intro idx1 b hin
    have hl1 : idx1 < b.length := by omega
    have e1 : b[idx1]? = some b[idx1] := List.getElem?_eq_getElem hl1
    simp only [of_INV_narrow_loop, thr_get_bit, e1]
    rw [thr_put_bit_in b idx1 _ hl1]
    obtain ⟨r, hr, hlen, hpt⟩ := ih (idx1 + 1) (b.set idx1 (bit4_not b[idx1]))
      (by rw [List.length_set]; omega)
    rw [List.length_set] at hlen
    refine ⟨r, hr, hlen, ?_⟩
    intro j
    rw [hpt j]
    by_cases hj : j = idx1
    · subst hj
      have c1 : ¬ (j + 1 ≤ j ∧ j < j + 1 + n) := by omega
      have c2 : j ≤ j ∧ j < j + (n + 1) := by omega
      rw [if_neg c1, if_pos c2, List.getElem?_set, if_pos rfl, if_pos hl1, e1]
      rfl
    · by_cases hrange : idx1 < j ∧ j < idx1 + (n + 1)
      · have c1 : idx1 + 1 ≤ j ∧ j < idx1 + 1 + n := by omega
        have c2 : idx1 ≤ j ∧ j < idx1 + (n + 1) := by omega
        rw [if_pos c1, if_pos c2, List.getElem?_set, if_neg (Ne.symm hj)]
      · have c1 : ¬ (idx1 + 1 ≤ j ∧ j < idx1 + 1 + n) := by omega
        have c2 : ¬ (idx1 ≤ j ∧ j < idx1 + (n + 1)) := by omega
        rw [if_neg c1, if_neg c2, List.getElem?_set, if_neg (Ne.symm hj)]

theorem of_INV_narrow_eq_wide (b : List vvp_bit4_t) (d w n : Nat) (hd : 4 ≤ d)
    (hin : d + w ≤ b.length) : of_INV_narrow b ⟨d, w, n⟩ = of_INV_wide b ⟨d, w, n⟩ := by
  obtain ⟨r1, h1, _, p1⟩ := of_INV_narrow_loop_spec w d b hin
  have hv : vthread_bits_to_vector b d w = vec4Part b d w := by
    unfold vthread_bits_to_vector
    rw [if_pos hd]
  have hlen : (vec4_not (vthread_bits_to_vector b d w)).length = w := by
    rw [hv, vec4_not, List.length_map, vec4Part_length b d w hin]
  have hin2 : d + (vec4_not (vthread_bits_to_vector b d w)).length ≤ b.length := by
    rw [hlen]
    exact hin
  simp only [of_INV_narrow, of_INV_wide]
  rw [h1, set_vec_some b d _ hin2]
  congr 1
  apply List.ext_getElem?
  intro j
  rw [p1 j, splice_getElem? b d _ hin2 j, hlen]
  by_cases hj : d ≤ j ∧ j < d + w
  · rw [if_pos hj, if_pos hj, hv, vec4_not, List.getElem?_map, vec4Part_getElem?,
      if_pos (by omega)]
    have : d + (j - d) = j := by omega
    rw [this]
    have hl : j < b.length := by omega
    rw [List.getElem?_eq_getElem hl]
    rfl
  · rw [if_neg hj, if_neg hj]

/-- C35, where the code departs from the claim: the narrow variants read the
source bit of iteration `i` after the destination bits of the iterations
before it have been written, so that for a source range that starts below
the destination and overlaps it (`s < d < s + w`) a narrow variant reads
bits that it has written, where the wide variant reads both operands before
it writes. For `d = 8`, `s = 7`, `w = 2`, which lie inside the bit space,
`of_AND_narrow` and `of_AND_wide` leave different bits, and so do the
variants of `or`, `nor` and `nand`. The variants agree for every bit space
with the constants at the addresses 0 to 3, for `d >= 4` and operands
inside the bit space, when the source is a constant address, or does not
start below the destination, or ends at or below it; the two variants of
`inv` agree always. -/
theorem C35_narrow_reads_written_bits (bits4 : List vvp_bit4_t) (d s w n : Nat)
    (hd : 4 ≤ d) (hin : d + w ≤ bits4.length) (hs : operand_ok bits4 s w)
    (hc : thr_consts_ok bits4) :
    ((s < 4 ∨ d ≤ s ∨ s + w ≤ d) →
      of_AND_narrow bits4 ⟨d, s, w⟩ = of_AND_wide bits4 ⟨d, s, w⟩ ∧
      of_OR_narrow bits4 ⟨d, s, w⟩ = of_OR_wide bits4 ⟨d, s, w⟩ ∧
      of_NOR_narrow bits4 ⟨d, s, w⟩ = of_NOR_wide bits4 ⟨d, s, w⟩ ∧
      of_NAND_narrow bits4 ⟨d, s, w⟩ = of_NAND_wide bits4 ⟨d, s, w⟩) ∧
    of_INV_narrow bits4 ⟨d, w, n⟩ = of_INV_wide bits4 ⟨d, w, n⟩ ∧
    ((of_AND_narrow (thr_overlap 6) ⟨8, 7, 2⟩).map (fun r => vec4Part r 7 3) =
        some [BIT4_0, BIT4_0, BIT4_0] ∧
      (of_AND_wide (thr_overlap 6) ⟨8, 7, 2⟩).map (fun r => vec4Part r 7 3) =
        some [BIT4_0, BIT4_0, BIT4_1] ∧
      of_AND (thr_overlap 6) ⟨8, 7, 2⟩ = of_AND_narrow (thr_overlap 6) ⟨8, 7, 2⟩) ∧
    ((of_OR_narrow (thr_overlap 1) ⟨8, 7, 2⟩).map (fun r => vec4Part r 7 3) =
        some [BIT4_1, BIT4_1, BIT4_1] ∧
      (of_OR_wide (thr_overlap 1) ⟨8, 7, 2⟩).map (fun r => vec4Part r 7 3) =
        some [BIT4_1, BIT4_1, BIT4_0]) ∧
    ((of_NOR_narrow (thr_overlap 0) ⟨8, 7, 2⟩).map (fun r => vec4Part r 7 3) =
        some [BIT4_0, BIT4_1, BIT4_0] ∧
      (of_NOR_wide (thr_overlap 0) ⟨8, 7, 2⟩).map (fun r => vec4Part r 7 3) =
        some [BIT4_0, BIT4_1, BIT4_1]) ∧
    ((of_NAND_narrow (thr_overlap 7) ⟨8, 7, 2⟩).map (fun r => vec4Part r 7 3) =
        some [BIT4_1, BIT4_0, BIT4_1] ∧
      (of_NAND_wide (thr_overlap 7) ⟨8, 7, 2⟩).map (fun r => vec4Part r 7 3) =
        some [BIT4_1, BIT4_0, BIT4_0]) := by
  refine ⟨?_, of_INV_narrow_eq_wide bits4 d w n hd hin, ⟨by decide, by decide, by decide⟩,
    ⟨by decide, by decide⟩, ⟨by decide, by decide⟩, ⟨by decide, by decide⟩⟩
  intro hno
  refine ⟨?_, ?_, ?_, ?_⟩
  · exact logic_narrow_eq_wide _ bits4 d s w hd hin hs hc hno
  · exact logic_narrow_eq_wide _ bits4 d s w hd hin hs hc hno
  · have h := logic_narrow_eq_wide (fun lb rb => bit4_not (bit4_or lb rb)) bits4 d s w hd hin
      hs hc hno
    simp only [of_NOR_narrow, of_NOR_wide, vec4_not, vec4_or, List.map_zipWith]
    rw [if_pos hd]
    exact h
  · have h := logic_narrow_eq_wide (fun lb rb => bit4_not (bit4_and lb rb)) bits4 d s w hd hin
      hs hc hno
    simp only [of_NAND_narrow, of_NAND_wide, vec4_not, vec4_and, List.map_zipWith]
    exact h

/-- C35 for the operands `d = 8`, `s = 16`, `w = 4` of the thread `thr_add4`,
which do not overlap. -/
theorem C35_narrow_reads_written_bits_witness :
    (4 ≤ 8 ∧ 8 + 4 ≤ thr_add4.length ∧ operand_ok thr_add4 16 4 ∧ thr_consts_ok thr_add4) ∧
    ((16 < 4 ∨ 8 ≤ 16 ∨ 16 + 4 ≤ 8) →
      of_AND_narrow thr_add4 ⟨8, 16, 4⟩ = of_AND_wide thr_add4 ⟨8, 16, 4⟩ ∧
      of_OR_narrow thr_add4 ⟨8, 16, 4⟩ = of_OR_wide thr_add4 ⟨8, 16, 4⟩ ∧
      of_NOR_narrow thr_add4 ⟨8, 16, 4⟩ = of_NOR_wide thr_add4 ⟨8, 16, 4⟩ ∧
      of_NAND_narrow thr_add4 ⟨8, 16, 4⟩ = of_NAND_wide thr_add4 ⟨8, 16, 4⟩) :=
  ⟨by decide,
    (C35_narrow_reads_written_bits thr_add4 8 16 4 0 (by decide) (by decide) (by decide)
      (by decide)).1⟩

/-! ## Claim C34 -/

/-- The two statements at the head of the loop of `divide2words` split the
word modulus: `2^64 = b * tmp_result + remain` with `remain < b`. -/
theorem divide2words_split (b : Nat) (hb2 : 2 ≤ b) (hbW : b < WORD) :
    WORD = b * (if ((WORD - 1) % b + 1) % WORD ≥ b then ((WORD - 1) / b + 1) % WORD
        else (WORD - 1) / b) +
      (if ((WORD - 1) % b + 1) % WORD ≥ b then ((WORD - 1) % b + 1) % WORD - b
        else ((WORD - 1) % b + 1) % WORD) ∧
    (if ((WORD - 1) % b + 1) % WORD ≥ b then ((WORD - 1) % b + 1) % WORD - b
        else ((WORD - 1) % b + 1) % WORD) < b := by
  have hq := Nat.div_add_mod (WORD - 1) b
  have hr := Nat.mod_lt (WORD - 1) (by omega : 0 < b)
  have h2 : 2 * ((WORD - 1) / b) ≤ b * ((WORD - 1) / b) := Nat.mul_le_mul_right _ hb2
  have hW := WORD_pos
  have e1 : ((WORD - 1) % b + 1) % WORD = (WORD - 1) % b + 1 := Nat.mod_eq_of_lt (by omega)
  have e2 : ((WORD - 1) / b + 1) % WORD = (WORD - 1) / b + 1 := Nat.mod_eq_of_lt (by omega)
  rw [e1, e2]
  by_cases h : (WORD - 1) % b + 1 ≥ b
  · rw [if_pos h, if_pos h]
    rw [Nat.mul_add]
    omega
  · rw [if_neg h, if_neg h]
    omega

theorem divide2words_loop_spec (b V : Nat) (hb : 0 < b) (hbW : b < WORD) (hV : V < b * WORD) :
    ∀ (fuel a high result : Nat), a < WORD → result * b + high * WORD + a = V →
      high * WORD + a < fuel → divide2words_loop b fuel a high result = some (V / b) := by
  intro fuel
  induction fuel with
  | zero =>
    intro a high result _ _ hf
    omega
  | succ fuel ih =>
    intro a high result ha hinv hf
    have hW := WORD_pos
    by_cases hpos : high > 0
    · have hhb : high < b := by
        by_contra hc
        have : b * WORD ≤ high * WORD := Nat.mul_le_mul_right _ (by omega)
        omega
      obtain ⟨hsplit, hR⟩ := divide2words_split b (by omega) hbW
      simp only [divide2words_loop, if_pos hpos]
      generalize (if ((WORD - 1) % b + 1) % WORD ≥ b then ((WORD - 1) / b + 1) % WORD
        else (WORD - 1) / b) = T at hsplit ⊢
      generalize (if ((WORD - 1) % b + 1) % WORD ≥ b then ((WORD - 1) % b + 1) % WORD - b
        else ((WORD - 1) % b + 1) % WORD) = R at hsplit hR ⊢
      obtain ⟨hm1, hm2, hm3⟩ := multiply_with_carry_spec high R (by omega) (by omega)
      generalize multiply_with_carry high R = p at hm1 hm2 hm3 ⊢
      -- the exact products
      have hTb : T * high * b + high * R = high * WORD := by
        rw [hsplit]
        ring
      have hres_le : (result + T * high) * b ≤ V := by
        have : (result + T * high) * b = result * b + T * high * b := by ring
        omega
      have hres_lt : result + T * high < WORD := by
        by_contra hc
        have : WORD * b ≤ (result + T * high) * b := Nat.mul_le_mul_right _ (by omega)
        have : WORD * b = b * WORD := Nat.mul_comm _ _
        omega
      rw [Nat.mod_eq_of_lt hres_lt]
      -- the sum of the low words
      have hsum : ∃ c, c ≤ 1 ∧ a + p.1 = (a + p.1) % WORD + c * WORD ∧
          (c = 1 ↔ (a + p.1) % WORD < p.1) := by
        by_cases hc : a + p.1 < WORD
        · refine ⟨0, by omega, ?_, ?_⟩
          · rw [Nat.mod_eq_of_lt hc]
            omega
          · rw [Nat.mod_eq_of_lt hc]
            omega
        · have hm : (a + p.1) % WORD = a + p.1 - WORD := by
            rw [Nat.mod_eq_sub_mod (by omega), Nat.mod_eq_of_lt (by omega)]
          refine ⟨1, by omega, ?_, ?_⟩
          · rw [hm]
            omega
          · rw [hm]
            omega
      obtain ⟨c, hc1, hc2, hc3⟩ := hsum
      have hmod : (a + p.1) % WORD < WORD := Nat.mod_lt _ hW
      generalize (a + p.1) % WORD = a' at hc2 hc3 hmod ⊢
      have hval : (p.2 + c) * WORD + a' = high * R + a := by
        have : (p.2 + c) * WORD = WORD * p.2 + c * WORD := by ring
        omega
      have hinv' : (result + T * high) * b + (p.2 + c) * WORD + a' = V := by
        have : (result + T * high) * b = result * b + T * high * b := by ring
        omega
      have hhigh' : p.2 + c < WORD := by
        by_contra hcc
        have : WORD * WORD ≤ (p.2 + c) * WORD := Nat.mul_le_mul_right _ (by omega)
        have : b * WORD < WORD * WORD := Nat.mul_lt_mul_of_pos_right hbW hW
        omega
      have hdec : (p.2 + c) * WORD + a' < fuel := by
        have : high * R < high * WORD := Nat.mul_lt_mul_of_pos_left (by omega) hpos
        omega
      have hhigh : (if a' < p.1 then (p.2 + 1) % WORD else p.2) = p.2 + c := by
        by_cases h : a' < p.1
        · have : c = 1 := hc3.mpr h
          subst this
          rw [if_pos h, Nat.mod_eq_of_lt hhigh']
        · have : c = 0 := by
            by_contra hne
            exact h (hc3.mp (by omega))
          subst this
          rw [if_neg h]
          rfl
      rw [hhigh]
      exact ih a' (p.2 + c) (result + T * high) hmod hinv' hdec
    · have h0 : high = 0 := by omega
      subst h0
      simp only [divide2words_loop, if_neg hpos]
      have hVe : V = a + b * result := by
        rw [← hinv, Nat.mul_comm result b]
        omega
      have hdiv : V / b = a / b + result := by
        rw [hVe, Nat.add_mul_div_left _ _ hb]
      have hlt : V / b < WORD := Nat.div_lt_of_lt_mul hV
      rw [hdiv, Nat.add_comm]
      rw [hdiv] at hlt
      rw [Nat.mod_eq_of_lt (by omega)]

/-- C34: for all machine words `a`, `b` and `high` (64 bits) with `b > 0` and
`high < b`, `divide2words(a, b, high)` returns (its loop ends within the
bound on the iterations) the quotient `floor((high * 2^64 + a) / b)`, which
fits in one word. -/
theorem C34_divide2words_quotient (a b high : Nat) (ha : a < 2 ^ 64) (hb : 0 < b)
    (hbW : b < 2 ^ 64) (hh : high < b) :
    divide2words a b high = some ((high * 2 ^ 64 + a) / b) ∧
    (high * 2 ^ 64 + a) / b < 2 ^ 64 := by
  have hWe : WORD = 2 ^ 64 := rfl
  rw [← hWe] at ha hbW ⊢
  have hW := WORD_pos
  have hV : high * WORD + a < b * WORD := by
    have : (high + 1) * WORD ≤ b * WORD := Nat.mul_le_mul_right _ (by omega)
    have : (high + 1) * WORD = high * WORD + WORD := by ring
    omega
  refine ⟨?_, Nat.div_lt_of_lt_mul hV⟩
  unfold divide2words
  rw [if_neg (by omega)]
  apply divide2words_loop_spec b (high * WORD + a) hb hbW hV _ a high 0 ha (by omega)
  have : b * WORD < WORD * WORD := Nat.mul_lt_mul_of_pos_right hbW hW
  omega

/-- C34 for the number `2^64 + (2^64 - 1)` divided by `2^64 - 1`, where the
loop runs twice: the quotient is 2. -/
theorem C34_divide2words_quotient_witness :
    divide2words (2 ^ 64 - 1) (2 ^ 64 - 1) 1 = some 2 ∧
    divide2words (2 ^ 64 - 1) (2 ^ 64 - 1) 1 =
      some ((1 * 2 ^ 64 + (2 ^ 64 - 1)) / (2 ^ 64 - 1)) ∧
    (1 * 2 ^ 64 + (2 ^ 64 - 1)) / (2 ^ 64 - 1) < 2 ^ 64 :=
  ⟨by decide, C34_divide2words_quotient (2 ^ 64 - 1) (2 ^ 64 - 1) 1 (by decide) (by decide)
    (by decide) (by decide)⟩

/-! ## Claim C40 -/

theorem int64_sign_word (k : Int) (h1 : -2 ^ 63 ≤ k) (h2 : k < 2 ^ 63) :
    k >>> CPU_WORD_STRIDE = (if k < 0 then -1 else 0) := by
  have hs : CPU_WORD_STRIDE = 63 := rfl
  have hp : ((2 ^ 63 : Nat) : Int) = 9223372036854775808 := by norm_num
  have e1 : (-2 : Int) ^ 63 = -9223372036854775808 := by norm_num
  have e2 : (2 : Int) ^ 63 = 9223372036854775808 := by norm_num
  rw [hs, Int.shiftRight_eq_div_pow, hp]
  rw [e2] at h2
  have h1' : -9223372036854775808 ≤ k := by
    have : -(2 : Int) ^ 63 = -9223372036854775808 := by norm_num
    rw [← this]
    exact h1
  split <;> omega

theorem sign_word_stable (k : Int) (h1 : -2 ^ 63 ≤ k) (h2 : k < 2 ^ 63) :
    (k >>> CPU_WORD_STRIDE) >>> CPU_WORD_STRIDE = k >>> CPU_WORD_STRIDE := by
  rw [int64_sign_word k h1 h2]
  split <;> decide

theorem ofSigned_lt (i : Int) : ofSigned i < WORD := by
  unfold ofSigned
  have hW : (0 : Int) < (WORD : Int) := by exact_mod_cast WORD_pos
  have h1 := Int.emod_lt_of_pos i hW
  have h2 := Int.emod_nonneg i (ne_of_gt hW)
  omega

theorem load_vp0_imm_getD (k : Int) (n i : Nat) (h : i < n) :
    (load_vp0_imm k n).getD i 0 =
      if i = 0 then ofSigned k else ofSigned (k >>> CPU_WORD_STRIDE) := by
  unfold load_vp0_imm
  rw [List.getD_eq_getElem?_getD, List.getElem?_map, List.getElem?_range h]
  rfl

/-- The word loop of `load_vp0_common` is the addition of the words of the
addend. -/
theorem load_vp0_loop_eq (k : Int) (h1 : -2 ^ 63 ≤ k) (h2 : k < 2 ^ 63) :
    ∀ (m lo : Nat) (val : List Nat) (c : Nat) (addend : Int),
      (lo = 0 → addend = k) → (1 ≤ lo → addend = k >>> CPU_WORD_STRIDE) →
      ((forLoop load_vp0_step m lo (val, c, ofSigned addend, addend)).1,
        (forLoop load_vp0_step m lo (val, c, ofSigned addend, addend)).2.1) =
        forLoop (addArrays id (load_vp0_imm k (lo + m))) m lo (val, c) := by
  intro m
  induction m with
  | zero =>
    intro lo val c addend _ _
    rfl
  | succ m ih =>
    intro lo val c addend h0 hpos
    rw [forLoop_succ, forLoop_succ]
    have himm : (load_vp0_imm k (lo + (m + 1))).getD lo 0 = ofSigned addend := by
      rw [load_vp0_imm_getD k _ lo (by omega)]
      by_cases hl : lo = 0
      · rw [if_pos hl, h0 hl]
      · rw [if_neg hl, hpos (by omega)]
    have hnext : addend >>> CPU_WORD_STRIDE = k >>> CPU_WORD_STRIDE := by
      by_cases hl : lo = 0
      · rw [h0 hl]
      · rw [hpos (by omega)]
        exact sign_word_stable k h1 h2
    have hstep : load_vp0_step lo (val, c, ofSigned addend, addend) =
        ((addArrays id (load_vp0_imm k (lo + (m + 1))) lo (val, c)).1,
          (addArrays id (load_vp0_imm k (lo + (m + 1))) lo (val, c)).2,
          ofSigned (k >>> CPU_WORD_STRIDE), k >>> CPU_WORD_STRIDE) := by
      simp only [load_vp0_step, addArrays, himm, hnext, id]
    rw [hstep]
    have := ih (lo + 1) (addArrays id (load_vp0_imm k (lo + (m + 1))) lo (val, c)).1
      (addArrays id (load_vp0_imm k (lo + (m + 1))) lo (val, c)).2 (k >>> CPU_WORD_STRIDE)
      (by omega) (fun _ => rfl)
    rw [show lo + 1 + m = lo + (m + 1) by omega] at this
    exact this

theorem load_vp0_imm_succ (k : Int) (n : Nat) :
    load_vp0_imm k (n + 1) = ofSigned k :: List.replicate n (ofSigned (k >>> CPU_WORD_STRIDE)) := by
  apply List.ext_getElem?
  intro i
  unfold load_vp0_imm
  rw [List.getElem?_map]
  cases i with
  | zero => simp [List.getElem?_range]
  | succ j =>
    rw [List.getElem?_cons_succ, List.getElem?_replicate]
    by_cases hj : j < n
    · rw [List.getElem?_range (by omega), if_pos hj]
      simp
    · rw [List.getElem?_eq_none (by simp; omega), if_neg hj]
      rfl

theorem WORD_int : (WORD : Int) = 18446744073709551616 := by
  rw [WORD_eq]
  norm_num

/-- The words added are the addend modulo `2^(64 n)`. -/
theorem load_vp0_imm_value (k : Int) (h1 : -2 ^ 63 ≤ k) (h2 : k < 2 ^ 63) (n : Nat) :
    (wordsVal (load_vp0_imm k (n + 1)) : Int) = k % (WORD : Int) ^ (n + 1) := by
  have e2 : (2 : Int) ^ 63 = 9223372036854775808 := by norm_num
  have h1' : -9223372036854775808 ≤ k := by
    have : -(2 : Int) ^ 63 = -9223372036854775808 := by norm_num
    rw [← this]
    exact h1
  rw [e2] at h2
  have hW := WORD_int
  have hWn : (1 : Int) ≤ (WORD : Int) ^ n := by
    have : 1 ≤ WORD ^ n := Nat.one_le_pow _ _ WORD_pos
    exact_mod_cast this
  have hpow : (WORD : Int) ^ (n + 1) = (WORD : Int) * (WORD : Int) ^ n := by
    rw [pow_succ, mul_comm]
  have hbig : (WORD : Int) ≤ (WORD : Int) ^ (n + 1) := by
    rw [hpow]
    nlinarith
  rw [load_vp0_imm_succ, wordsVal, int64_sign_word k h1 h2]
  by_cases hk : k < 0
  · rw [if_pos hk]
    have ho1 : ofSigned (-1) = WORD - 1 := by
      unfold ofSigned
      rw [hW]
      have : WORD = 18446744073709551616 := by rw [WORD_eq]; norm_num
      rw [this]
      rfl
    have ho2 : ((ofSigned k : Nat) : Int) = k + WORD := by
      unfold ofSigned
      have : k % (WORD : Int) = k + WORD := by
        rw [hW]
        omega
      rw [this, Int.toNat_of_nonneg (by rw [hW]; omega)]
    rw [ho1, wordsVal_replicate_max]
    have hsub : ((WORD ^ n - 1 : Nat) : Int) = (WORD : Int) ^ n - 1 := by
      rw [Nat.cast_sub (Nat.one_le_pow _ _ WORD_pos)]
      push_cast
      rfl
    push_cast
    rw [ho2, hsub]
    have hval : k + (WORD : Int) + (WORD : Int) * ((WORD : Int) ^ n - 1) =
        k + (WORD : Int) ^ (n + 1) := by
      rw [hpow]
      ring
    rw [hval]
    have hm : k % (WORD : Int) ^ (n + 1) = (k + (WORD : Int) ^ (n + 1)) % (WORD : Int) ^ (n + 1) := by
      rw [Int.add_emod_self]
    rw [hm]
    symm
    apply Int.emod_eq_of_lt
    · omega
    · omega
  · rw [if_neg hk]
    have ho1 : ofSigned 0 = 0 := by
      unfold ofSigned
      simp
    have ho2 : ((ofSigned k : Nat) : Int) = k := by
      unfold ofSigned
      have : k % (WORD : Int) = k := by
        rw [hW]
        omega
      rw [this, Int.toNat_of_nonneg (by omega)]
    rw [ho1, wordsVal_replicate_zero]
    push_cast
    rw [ho2]
    simp only [mul_zero, add_zero]
    symm
    apply Int.emod_eq_of_lt
    · omega
    · omega

theorem vec4Part_all (v : List vvp_bit4_t) (w : Nat) (h : v.length = w) :
    vec4Part v 0 w = v := by
  unfold vec4Part
  rw [List.drop_zero, List.take_of_length_le (by omega)]

theorem wordCount_pos (wid : Nat) (hw : 1 ≤ wid) : 1 ≤ wordCount wid := by
  simp only [wordCount, CPU_WORD_BITS]
  omega

theorem thr_check_addr_room (bits4 : List vvp_bit4_t) (bit wid : Nat) (hw : 1 ≤ wid) :
    bit + wid ≤ (thr_check_addr bits4 (bit + wid - 1)).length := by
  have := thr_check_addr_gt bits4 (bit + wid - 1)
  omega

/-- The value that `load_vp0_common` stores for a signal value without X or
Z: the sum of the signal value and the addend, modulo `2^wid`. -/
theorem load_vp0_common_known (bits4 : List vvp_bit4_t) (bit wid n : Nat) (k : Int)
    (sig : List vvp_bit4_t) (hw : 1 ≤ wid) (hlen : sig.length = wid)
    (hk : vec4Known sig = true) (h1 : -2 ^ 63 ≤ k) (h2 : k < 2 ^ 63) :
    load_vp0_common bits4 ⟨bit, wid, n⟩ k sig =
      some (stored (thr_check_addr bits4 (bit + wid - 1)) bit wid
        (sext_w wid ((vec4Val sig : Int) + k))) := by
  have hpart := vec4Part_all sig wid hlen
  have hsub := subarray_known sig 0 wid (by omega) (by rw [hpart]; exact hk)
  rw [hpart] at hsub
  obtain ⟨m, hm⟩ : ∃ m, wordCount wid = m + 1 := ⟨wordCount wid - 1, by
    have := wordCount_pos wid hw
    omega⟩
  have hvlen : (wordsOfNat (wordCount wid) (vec4Val sig)).length = wordCount wid :=
    wordsOfNat_length _ _
  have hvok := wordsOfNat_ok (wordCount wid) (vec4Val sig)
  have hvval : wordsVal (wordsOfNat (wordCount wid) (vec4Val sig)) = vec4Val sig := by
    rw [wordsVal_ofNat]
    apply Nat.mod_eq_of_lt
    have := vec4Val_lt sig
    rw [hlen] at this
    exact lt_of_lt_of_le this (two_pow_le_WORD_pow wid)
  have hloop := load_vp0_loop_eq k h1 h2 (wordCount wid) 0
    (wordsOfNat (wordCount wid) (vec4Val sig)) 0 k (fun _ => rfl) (fun h => absurd h (by omega))
  rw [Nat.zero_add] at hloop
  have hadd : forLoop (addArrays id (load_vp0_imm k (wordCount wid))) (wordCount wid) 0
      (wordsOfNat (wordCount wid) (vec4Val sig), 0) =
      addLists id (wordsOfNat (wordCount wid) (vec4Val sig)) (load_vp0_imm k (wordCount wid)) 0 := by
    have := forLoop_addArrays id (load_vp0_imm k (wordCount wid))
      (wordsOfNat (wordCount wid) (vec4Val sig)) 0
    rw [hvlen] at this
    exact this
  rw [hadd] at hloop
  have himml : (load_vp0_imm k (wordCount wid)).length = wordCount wid := by
    simp [load_vp0_imm]
  obtain ⟨hs1, hs2, _⟩ := addLists_spec id (wordsOfNat (wordCount wid) (vec4Val sig))
    (load_vp0_imm k (wordCount wid)) 0
    (by
      intro y hy
      simp only [load_vp0_imm, List.mem_map, List.mem_range] at hy
      obtain ⟨i, _, rfl⟩ := hy
      simp only [id]
      split <;> exact ofSigned_lt _)
    hvok (Or.inl (by rw [hvlen, himml])) (by omega)
  rw [hvlen, List.take_of_length_le (by rw [himml]), List.map_id, hvval] at hs1
  have hfst : (forLoop load_vp0_step (wordCount wid) 0
      (wordsOfNat (wordCount wid) (vec4Val sig), 0, ofSigned k, k)).1 =
      (addLists id (wordsOfNat (wordCount wid) (vec4Val sig))
        (load_vp0_imm k (wordCount wid)) 0).1 := congrArg Prod.fst hloop
  simp only [load_vp0_common, hsub]
  rw [hfst, setarray_stored _ bit wid _ hs2 (thr_check_addr_room bits4 bit wid hw)]
  congr 1
  apply stored_congr
  have hmw := mod_width_of_words wid _ _ _ hs1
  rw [hmw, Nat.add_zero]
  -- the words of the addend are congruent to the addend
  have hv := load_vp0_imm_value k h1 h2 m
  rw [← hm] at hv
  obtain ⟨q, hq⟩ := two_pow_dvd_WORD_pow wid
  have hqi : ((WORD : Int) ^ wordCount wid) = (2 : Int) ^ wid * (q : Int) := by
    exact_mod_cast hq
  have hp : (0 : Int) < 2 ^ wid := by positivity
  have hcong : ((vec4Val sig + wordsVal (load_vp0_imm k (wordCount wid)) : Nat) : Int) %
      2 ^ wid = ((vec4Val sig : Int) + k) % 2 ^ wid := by
    push_cast
    rw [hv, Int.add_emod, hqi, Int.emod_emod_of_dvd k (Dvd.intro _ rfl), ← Int.add_emod]
  unfold sext_w
  rw [← hcong]
  have hnn : (0 : Int) ≤ ((vec4Val sig + wordsVal (load_vp0_imm k (wordCount wid)) : Nat) : Int) %
      2 ^ wid := Int.emod_nonneg _ (ne_of_gt hp)
  have hcast : ((vec4Val sig + wordsVal (load_vp0_imm k (wordCount wid)) : Nat) : Int) % 2 ^ wid =
      (((vec4Val sig + wordsVal (load_vp0_imm k (wordCount wid))) % 2 ^ wid : Nat) : Int) := by
    push_cast
    rfl
  rw [hcast, Int.toNat_natCast, Nat.mod_mod]

/-- A signal value with an X or Z bit gives the destination all X. -/
theorem load_vp0_common_xz (bits4 : List vvp_bit4_t) (bit wid n : Nat) (k : Int)
    (sig : List vvp_bit4_t) (hw : 1 ≤ wid) (hlen : sig.length = wid)
    (hk : vec4Known sig = false) :
    load_vp0_common bits4 ⟨bit, wid, n⟩ k sig =
      some ((thr_check_addr bits4 (bit + wid - 1)).take bit ++ List.replicate wid BIT4_X ++
        (thr_check_addr bits4 (bit + wid - 1)).drop (bit + wid)) := by
  have hpart := vec4Part_all sig wid hlen
  have hsub := subarray_xz sig 0 wid (by rw [hpart]; exact hk)
  simp only [load_vp0_common, hsub]
  have := set_vec_some (thr_check_addr bits4 (bit + wid - 1)) bit (List.replicate wid BIT4_X)
    (by rw [List.length_replicate]; exact thr_check_addr_room bits4 bit wid hw)
  rw [List.length_replicate] at this
  exact this

theorem copy_bits_length (v that : List vvp_bit4_t) : (copy_bits v that).length = v.length := by
  unfold copy_bits
  rw [List.length_append, List.length_take, List.length_drop]
  omega

theorem copy_bits_replicate (w : Nat) (fill : vvp_bit4_t) (tmp : List vvp_bit4_t) :
    copy_bits (List.replicate w fill) tmp =
      tmp.take w ++ List.replicate (w - tmp.length) fill := by
  unfold copy_bits
  rw [List.length_replicate, List.drop_replicate]

theorem vec4Val_take (v : List vvp_bit4_t) (w : Nat) : vec4Val (v.take w) = vec4Val v % 2 ^ w := by
  have h := vec4Val_append (v.take w) (v.drop w)
  rw [List.take_append_drop] at h
  by_cases hw : w ≤ v.length
  · have hl : (v.take w).length = w := by
      rw [List.length_take]
      omega
    rw [hl] at h
    have hlt := vec4Val_lt (v.take w)
    rw [hl] at hlt
    rw [h, Nat.add_mul_mod_self_left, Nat.mod_eq_of_lt hlt]
  · rw [List.take_of_length_le (by omega)]
    symm
    apply Nat.mod_eq_of_lt
    exact lt_of_lt_of_le (vec4Val_lt v) (Nat.pow_le_pow_right (by norm_num) (by omega))

/-- The zero extension: the value of the signal copied into `wid` bits 0 is
the value of the signal modulo `2^wid`. -/
theorem zext_value (tmp : List vvp_bit4_t) (wid : Nat) :
    vec4Val (copy_bits (List.replicate wid BIT4_0) tmp) = zext_w wid (vec4Val tmp) := by
  rw [copy_bits_replicate, vec4Val_append, vec4Val_replicate_zero, Nat.mul_zero, Nat.add_zero,
    vec4Val_take]
  rfl

theorem vec4Val_snoc (init : List vvp_bit4_t) (top : vvp_bit4_t) :
    vec4Val (init ++ [top]) = vec4Val init + 2 ^ init.length * (if top = BIT4_1 then 1 else 0) := by
  rw [vec4Val_append]
  simp [vec4Val]

/-- The sign extension: the value of a signal without X or Z copied into
`wid` bits of its top bit is congruent to its signed value. -/
theorem sext_value (tmp : List vvp_bit4_t) (wid : Nat) (hne : tmp ≠ [])
    (hk : vec4Known tmp = true) :
    ((vec4Val (copy_bits (List.replicate wid (tmp.getLast?.getD BIT4_X)) tmp) : Nat) : Int) %
      2 ^ wid = signedVal tmp.length (vec4Val tmp) % 2 ^ wid := by
  obtain ⟨init, top, rfl⟩ : ∃ init top, tmp = init ++ [top] :=
    ⟨tmp.dropLast, tmp.getLast hne, (List.dropLast_append_getLast hne).symm⟩
  have hlast : (init ++ [top]).getLast?.getD BIT4_X = top := by simp
  have hlen : (init ++ [top]).length = init.length + 1 := by simp
  have hinit := vec4Val_lt init
  have hv := vec4Val_snoc init top
  have hktop : top = BIT4_0 ∨ top = BIT4_1 := by
    rw [vec4Known_append] at hk
    simp only [Bool.and_eq_true] at hk
    have := hk.2
    cases top <;> simp_all [vec4Known, bit4_is_xz]
  rw [hlast, copy_bits_replicate, vec4Val_append, hlen]
  have hp : (2 : Int) ^ (init.length + 1) = 2 * 2 ^ init.length := by
    rw [pow_succ]
    ring
  have hsv : signedVal (init.length + 1) (vec4Val (init ++ [top])) =
      (vec4Val (init ++ [top]) : Int) - (if top = BIT4_1 then 2 ^ (init.length + 1) else 0) := by
    unfold signedVal
    rw [hv, Nat.add_sub_cancel]
    rcases hktop with h | h
    · subst h
      simp only [reduceCtorEq, if_false, Nat.mul_zero, Nat.add_zero]
      rw [if_pos hinit]
      simp
    · subst h
      simp only [if_true, Nat.mul_one]
      rw [if_neg (by omega)]
  rw [hsv]
  by_cases hw : wid ≤ init.length + 1
  · -- truncation
    have h0 : wid - (init.length + 1) = 0 := by omega
    rw [h0, List.replicate_zero, vec4Val, Nat.mul_zero, Nat.add_zero, vec4Val_take]
    obtain ⟨e, he⟩ : ∃ e, init.length + 1 = wid + e := ⟨init.length + 1 - wid, by omega⟩
    have hdvd : (2 : Int) ^ wid ∣ (if top = BIT4_1 then (2 : Int) ^ (init.length + 1) else 0) := by
      split
      · rw [he, pow_add]
        exact Dvd.intro _ rfl
      · exact dvd_zero _
    push_cast
    rw [Int.emod_emod_of_dvd _ (dvd_refl _)]
    obtain ⟨c, hc⟩ := hdvd
    rw [hc, sub_eq_add_neg, ← mul_neg, Int.add_mul_emod_self_left]
  · -- extension
    have hle : init.length + 1 ≤ wid := by omega
    rw [List.take_of_length_le (by rw [hlen]; omega)]
    obtain ⟨e, he⟩ : ∃ e, wid = init.length + 1 + e := ⟨wid - (init.length + 1), by omega⟩
    have hsub : wid - (init.length + 1) = e := by omega
    rw [hsub, hlen]
    rcases hktop with h | h
    · subst h
      rw [vec4Val_replicate_zero]
      simp
    · subst h
      rw [vec4Val_replicate_one]
      simp only [if_true]
      have h2e : 1 ≤ 2 ^ e := Nat.one_le_pow _ _ (by norm_num)
      have hcast : ((2 ^ e - 1 : Nat) : Int) = (2 : Int) ^ e - 1 := by
        rw [Nat.cast_sub h2e]
        push_cast
        rfl
      push_cast
      rw [hcast]
      have hpw : (2 : Int) ^ wid = 2 ^ (init.length + 1) * 2 ^ e := by
        rw [he, pow_add]
      have : (vec4Val (init ++ [BIT4_1]) : Int) + 2 ^ (init.length + 1) * (2 ^ e - 1) =
          (vec4Val (init ++ [BIT4_1]) : Int) - 2 ^ (init.length + 1) + 2 ^ wid := by
        rw [hpw]
        ring
      rw [this, Int.add_emod_self]

theorem sext_w_add (w : Nat) (x k : Int) :
    sext_w w (x + k) = (sext_w w x + sext_w w k) % 2 ^ w := by
  unfold sext_w
  have hp : (0 : Int) < 2 ^ w := by positivity
  have hx := Int.emod_nonneg x (ne_of_gt hp)
  have hk := Int.emod_nonneg k (ne_of_gt hp)
  have hs := Int.emod_nonneg (x + k) (ne_of_gt hp)
  apply Int.ofNat_inj.mp
  rw [Int.toNat_of_nonneg hs]
  push_cast
  rw [Int.toNat_of_nonneg hx, Int.toNat_of_nonneg hk, ← Int.add_emod]

theorem sext_w_nat (w x : Nat) : sext_w w (x : Int) = zext_w w x := by
  unfold sext_w zext_w
  have : ((x : Int) % 2 ^ w) = ((x % 2 ^ w : Nat) : Int) := by
    push_cast
    rfl
  rw [this, Int.toNat_natCast]

theorem sext_w_congr (w : Nat) (x y : Int) (h : x % 2 ^ w = y % 2 ^ w) :
    sext_w w x = sext_w w y := by
  unfold sext_w
  rw [h]

theorem vec4Known_take (v : List vvp_bit4_t) (w : Nat) (h : vec4Known v = true) :
    vec4Known (v.take w) = true := by
  have := vec4Known_append (v.take w) (v.drop w)
  rw [List.take_append_drop, h] at this
  simp only [Bool.true_eq, Bool.and_eq_true] at this
  exact this.1

theorem sext_known (tmp : List vvp_bit4_t) (wid : Nat) (hne : tmp ≠ [])
    (hk : vec4Known tmp = true) :
    vec4Known (copy_bits (List.replicate wid (tmp.getLast?.getD BIT4_X)) tmp) = true := by
  rw [copy_bits_replicate, vec4Known_append, vec4Known_take tmp wid hk, Bool.true_and]
  have hmem : tmp.getLast?.getD BIT4_X ∈ tmp := by
    rw [List.getLast?_eq_getLast tmp hne]
    exact List.getLast_mem hne
  have hb : bit4_is_xz (tmp.getLast?.getD BIT4_X) = false := by
    simp only [vec4Known, List.all_eq_true] at hk
    have := hk _ hmem
    simpa using this
  simp [vec4Known, hb]

/-- C40: for every result width `wid >= 1` (also above 64) and every addend
`k` of 64 bits in word register 0, when the signal value extended or cut to
`wid` bits holds no X or Z, `%load/vp0` stores
`(zext(sig) + sext(k)) mod 2^wid` and `%load/vp0/s` stores
`(sext(sig) + sext(k)) mod 2^wid` in the `wid` bits of the destination,
where `zext` and `sext` are the zero and the sign extension (or the
truncation) to `wid` bits; and when the extended signal value holds an X or
Z, the `wid` bits of the destination are all X. -/
theorem C40_load_vp0_sum (bits4 : List vvp_bit4_t) (bit wid n : Nat) (k : Int)
    (tmp : List vvp_bit4_t) (hw : 1 ≤ wid) (h1 : -2 ^ 63 ≤ k) (h2 : k < 2 ^ 63) :
    (vec4Known (copy_bits (List.replicate wid BIT4_0) tmp) = true →
      of_LOAD_VP0 bits4 ⟨bit, wid, n⟩ k tmp =
        some (stored (thr_check_addr bits4 (bit + wid - 1)) bit wid
          ((zext_w wid (vec4Val tmp) + sext_w wid k) % 2 ^ wid))) ∧
    (vec4Known (copy_bits (List.replicate wid BIT4_0) tmp) = false →
      of_LOAD_VP0 bits4 ⟨bit, wid, n⟩ k tmp =
        some ((thr_check_addr bits4 (bit + wid - 1)).take bit ++ List.replicate wid BIT4_X ++
          (thr_check_addr bits4 (bit + wid - 1)).drop (bit + wid))) ∧
    (tmp ≠ [] → vec4Known tmp = true →
      of_LOAD_VP0_S bits4 ⟨bit, wid, n⟩ k tmp =
        some (stored (thr_check_addr bits4 (bit + wid - 1)) bit wid
          ((sext_w wid (signedVal tmp.length (vec4Val tmp)) + sext_w wid k) % 2 ^ wid))) ∧
    (vec4Known (copy_bits (List.replicate wid (tmp.getLast?.getD BIT4_X)) tmp) = true →
      of_LOAD_VP0_S bits4 ⟨bit, wid, n⟩ k tmp =
        some (stored (thr_check_addr bits4 (bit + wid - 1)) bit wid
          ((vec4Val (copy_bits (List.replicate wid (tmp.getLast?.getD BIT4_X)) tmp) +
            sext_w wid k) % 2 ^ wid))) ∧
    (vec4Known (copy_bits (List.replicate wid (tmp.getLast?.getD BIT4_X)) tmp) = false →
      of_LOAD_VP0_S bits4 ⟨bit, wid, n⟩ k tmp =
        some ((thr_check_addr bits4 (bit + wid - 1)).take bit ++ List.replicate wid BIT4_X ++
          (thr_check_addr bits4 (bit + wid - 1)).drop (bit + wid))) ∧
    (∀ r, vec4Part (stored (thr_check_addr bits4 (bit + wid - 1)) bit wid r) bit wid =
      vec4OfNat wid r) := by
  have hzl : (copy_bits (List.replicate wid BIT4_0) tmp).length = wid := by
    rw [copy_bits_length, List.length_replicate]
  have hsl : (copy_bits (List.replicate wid (tmp.getLast?.getD BIT4_X)) tmp).length = wid := by
    rw [copy_bits_length, List.length_replicate]
  have hsk : ∀ hkk : vec4Known (copy_bits (List.replicate wid (tmp.getLast?.getD BIT4_X)) tmp)
      = true, of_LOAD_VP0_S bits4 ⟨bit, wid, n⟩ k tmp =
        some (stored (thr_check_addr bits4 (bit + wid - 1)) bit wid
          (sext_w wid ((vec4Val (copy_bits (List.replicate wid (tmp.getLast?.getD BIT4_X))
            tmp) : Int) + k))) :=
    fun hkk => load_vp0_common_known bits4 bit wid n k _ hw hsl hkk h1 h2
  refine ⟨?_, ?_, ?_, ?_, ?_, ?_⟩
  · intro hk
    have h := load_vp0_common_known bits4 bit wid n k _ hw hzl hk h1 h2
    rw [zext_value, sext_w_add, sext_w_nat] at h
    have hz : zext_w wid (zext_w wid (vec4Val tmp)) = zext_w wid (vec4Val tmp) := by
      unfold zext_w
      rw [Nat.mod_mod]
    rw [hz] at h
    exact h
  · intro hk
    exact load_vp0_common_xz bits4 bit wid n k _ hw hzl hk
  · intro hne hk
    rw [hsk (sext_known tmp wid hne hk)]
    congr 2
    rw [← sext_w_add]
    exact sext_w_congr wid _ _ (by
      rw [Int.add_emod, sext_value tmp wid hne hk, ← Int.add_emod])
  · intro hk
    rw [hsk hk, sext_w_add, sext_w_nat]
    congr 2
    unfold zext_w
    rw [Nat.add_mod, Nat.mod_mod, ← Nat.add_mod]
  · intro hk
    exact load_vp0_common_xz bits4 bit wid n k _ hw hsl hk
  · intro r
    exact stored_part _ bit wid r (thr_check_addr_room bits4 bit wid hw)

/-- C40 for the width 70, the signal value `2'b11` and the addend -3:
`%load/vp0` stores `3 + (2^70 - 3) = 0 (mod 2^70)`, and `%load/vp0/s` stores
`(2^70 - 1) + (2^70 - 3) = 2^70 - 4 (mod 2^70)`. -/
theorem C40_load_vp0_sum_witness :
    (1 ≤ 70 ∧ -2 ^ 63 ≤ (-3 : Int) ∧ (-3 : Int) < 2 ^ 63) ∧
    (vec4Known (copy_bits (List.replicate 70 BIT4_0) [BIT4_1, BIT4_1]) = true →
      of_LOAD_VP0 thr_new ⟨8, 70, 0⟩ (-3) [BIT4_1, BIT4_1] =
        some (stored (thr_check_addr thr_new (8 + 70 - 1)) 8 70
          ((zext_w 70 (vec4Val [BIT4_1, BIT4_1]) + sext_w 70 (-3)) % 2 ^ 70))) ∧
    ([BIT4_1, BIT4_1] ≠ [] → vec4Known [BIT4_1, BIT4_1] = true →
      of_LOAD_VP0_S thr_new ⟨8, 70, 0⟩ (-3) [BIT4_1, BIT4_1] =
        some (stored (thr_check_addr thr_new (8 + 70 - 1)) 8 70
          ((sext_w 70 (signedVal [BIT4_1, BIT4_1].length (vec4Val [BIT4_1, BIT4_1])) +
            sext_w 70 (-3)) % 2 ^ 70))) ∧
    (zext_w 70 (vec4Val [BIT4_1, BIT4_1]) + sext_w 70 (-3)) % 2 ^ 70 = 0 ∧
    (sext_w 70 (signedVal [BIT4_1, BIT4_1].length (vec4Val [BIT4_1, BIT4_1])) +
      sext_w 70 (-3)) % 2 ^ 70 = 2 ^ 70 - 4 :=
  ⟨by decide,
    (C40_load_vp0_sum thr_new 8 70 0 (-3) [BIT4_1, BIT4_1] (by decide) (by decide)
      (by decide)).1,
    (C40_load_vp0_sum thr_new 8 70 0 (-3) [BIT4_1, BIT4_1] (by decide) (by decide)
      (by decide)).2.2.1,
    by decide, by decide⟩

end Vvp
